import Mathlib

/-!
# Spread-Sheet-Compiler: a shallow embedding of the core and its verification

The C sources embedded here are `value.h`, `ast.h`, `symtab.c`, `error.c`,
`semantic.c`, `ir.c`, `codegen.c`, `optimizer.c`, `runtime.c`, `vm.c` and
`interpreter.c`.

Modelling conventions (they apply to every definition below):

* a C `double` is an exact rational (`Rat`); `pow` of `math.h` is a parameter
  `pw` of the functions that call it; NaN has a place only where the code
  treats it in a way of its own, in the loops of rt_min and rt_max
  (`CDouble`);
* a C string is a Lean `String`, one `Char` per C `char`; characters compare
  by their code;
* a C `int` is an `Int` (or a `Nat` where the code only counts up from zero);
* a pointer to a node of a linked structure is the structure itself, the
  `NULL` pointer being a constructor of its own (`ASTNode.null`, `[]`,
  `none`);
* `printf` tracing and `free` have no counterpart: they do not influence any
  returned value (the nodes free_ast releases are counted in `NodeHeap`);
* a loop or recursion that the C code can run forever takes a `fuel`
  argument and answers `none` when the fuel is spent.
-/

namespace SpreadSheet

/-! ## value.h -/

/-- The `Value` struct of value.h: the tag `type` with the matching member of
the union `as`.  A Boolean keeps its `int` payload. -/
inductive Value where
  | number (number : Rat)
  | boolean (boolean : Int)
  | string (string : String)
  | error (string : String)
  deriving DecidableEq, Repr

/-- The C truth value of a comparison: `1` when it holds, `0` otherwise. -/
def c_bool (p : Prop) [Decidable p] : Int := if p then 1 else 0

/-- The C operator `!`. -/
def c_not (a : Int) : Int := c_bool (a = 0)

/-- The C operator `&&` on two already evaluated operands. -/
def c_and (a b : Int) : Int := c_bool (a ≠ 0 ∧ b ≠ 0)

/-- The C operator `||` on two already evaluated operands. -/
def c_or (a b : Int) : Int := c_bool (a ≠ 0 ∨ b ≠ 0)

def create_number_value (num : Rat) : Value := Value.number num

def create_boolean_value (b : Int) : Value := Value.boolean (c_bool (b ≠ 0))

def create_string_value (str : String) : Value := Value.string str

def create_error_value (msg : String) : Value := Value.error msg

/-- Whether a value is "truthy", as the `int` the C function returns. -/
def is_truthy (val : Value) : Int :=
  match val with
  | Value.number n => c_bool (n ≠ 0)
  | Value.boolean b => b
  | Value.string s => c_bool (s ≠ "")
  | Value.error _ => 0

/-- The numeric representation of a value. -/
def get_numeric (val : Value) : Rat :=
  match val with
  | Value.number n => n
  | Value.boolean b => if b ≠ 0 then 1 else 0
  | _ => 0

/-- The test `val.type == TYPE_ERROR`. -/
def Value.is_error (val : Value) : Bool :=
  match val with
  | Value.error _ => true
  | _ => false

/-! ## Tokens -/

/-- Modelled from the spec: the token identifiers of `parser.tab.h`, which is
not among the sources.  The spec (section 6) lists them as the opaque integers
the AST and the code generator use; here they are the constructors of an
enumeration, so two of them are equal only when they are the same token. -/
inductive Token where
  | PLUS | MINUS | MULTIPLY | DIVIDE | POWER
  | GT | LT | GTE | LTE | EQUALS | NE
  | AND | OR | NOT
  | IF | SUM | AVERAGE | MIN | MAX
  deriving DecidableEq, Repr

/-! ## ast.h -/

/-- The `ASTNode` struct of ast.h.  Every child pointer may hold any node or
`NULL` (`null`), as in C.  A `function_call` keeps in `arguments` the head of
its `arg_list` chain. -/
inductive ASTNode where
  | null
  | number (number : Rat) (line : Int)
  | string (str_value : String) (line : Int)
  | cell_ref (str_value : String) (line : Int)
  | range (str_value : String) (line : Int)
  | unary_op (op_token : Token) (left : ASTNode) (line : Int)
  | binary_op (op_token : Token) (left right : ASTNode) (line : Int)
  | function_call (function_token : Token) (arguments : ASTNode) (line : Int)
  | arg_list (expression : ASTNode) (next_arg : ASTNode) (line : Int)
  deriving DecidableEq, Repr

/-- The read `node->line`. -/
def ASTNode.line_of : ASTNode → Int
  | ASTNode.null => 0
  | ASTNode.number _ l => l
  | ASTNode.string _ l => l
  | ASTNode.cell_ref _ l => l
  | ASTNode.range _ l => l
  | ASTNode.unary_op _ _ l => l
  | ASTNode.binary_op _ _ _ l => l
  | ASTNode.function_call _ _ l => l
  | ASTNode.arg_list _ _ l => l

/-- The read `node->data.arg.expression`.  On a node that is not an
`arg_list` the C read goes through the wrong union member and is undefined;
the model reads `NULL` there. -/
def ASTNode.arg_expression : ASTNode → ASTNode
  | ASTNode.arg_list e _ _ => e
  | _ => ASTNode.null

/-- The read `node->data.arg.next_arg`, with the same convention as
`arg_expression`. -/
def ASTNode.arg_next : ASTNode → ASTNode
  | ASTNode.arg_list _ n _ => n
  | _ => ASTNode.null

/-- The loop `while (arg != NULL) { arg_count++; arg = arg->data.arg.next_arg; }`
of check_function_args: the length of the `arg_list` chain (a node of another
type in the chain counts once and ends it, by the convention of `arg_next`). -/
def arg_chain_length : ASTNode → Nat
  | ASTNode.null => 0
  | ASTNode.arg_list _ n _ => arg_chain_length n + 1
  | _ => 1

/-! ## C library helpers -/

/-- What `snprintf(buf, size, ...)` leaves in `buf` when the formatted text is
`s`: at most `size - 1` characters of it. -/
def snprintf (size : Nat) (s : String) : String := String.mk (s.data.take (size - 1))

/-- The call `strncat(dest, src, n)`: `dest` followed by at most `n`
characters of `src`. -/
def strncat (dest src : String) (n : Nat) : String := String.mk (dest.data ++ src.data.take n)

/-- The text `printf` writes for `%d`. -/
def fmt_d (n : Int) : String := toString n

/-- The `isspace` test of the C locale. -/
def c_isspace (c : Char) : Bool :=
  c.toNat = 32 || (9 ≤ c.toNat && c.toNat ≤ 13)

/-- Leading white space skipped by a `%d` conversion. -/
def skip_space : List Char → List Char
  | [] => []
  | c :: cs => if c_isspace c then skip_space cs else c :: cs

/-- The digits a `%d` conversion consumes, accumulated in base ten, and the
text left over. -/
def scan_digits : List Char → Nat → Nat × List Char
  | [], acc => (acc, [])
  | c :: cs, acc =>
    if c.isDigit then scan_digits cs (acc * 10 + (c.toNat - 48)) else (acc, c :: cs)

/-- One `%d` conversion of `sscanf`: white space, an optional sign, at least
one digit.  `none` is a matching failure.  The value is not reduced to the
range of `int` (a number out of that range is undefined behaviour in C). -/
def scan_int (cs : List Char) : Option (Int × List Char) :=
  let cs1 := skip_space cs
  let signed : Bool × List Char :=
    match cs1 with
    | c :: r => if c = '-' then (true, r) else if c = '+' then (false, r) else (false, cs1)
    | [] => (false, cs1)
  match signed.2 with
  | [] => none
  | c :: _ =>
    if c.isDigit then
      let res := scan_digits signed.2 0
      some (if signed.1 then - (res.1 : Int) else (res.1 : Int), res.2)
    else none

/-- The call `sscanf(range_str, "%c%d:%c%d", &col_start, &row_start, &col_end,
&row_end)` of check_range and rt_expand_range: `some` of the four converted
items when it returns 4, `none` otherwise.  Text after the last digit is
ignored, as by `sscanf`. -/
def sscanf_range (range_str : String) : Option (Char × Int × Char × Int) :=
  match range_str.data with
  | [] => none
  | col_start :: r1 =>
    match scan_int r1 with
    | none => none
    | some (row_start, r2) =>
      match r2 with
      | colon :: col_end :: r3 =>
        if colon = ':' then
          match scan_int r3 with
          | none => none
          | some (row_end, _) => some (col_start, row_start, col_end, row_end)
        else none
      | _ => none

/-! ## error.c -/

inductive ErrorType where
  | ERROR_SYNTAX | ERROR_SEMANTIC | ERROR_RUNTIME
  deriving DecidableEq, Repr

/-- One diagnostic (the `Error` struct without its `next` link). -/
structure Error where
  type : ErrorType
  line : Int
  column : Int
  message : String
  suggestion : Option String
  deriving DecidableEq, Repr

/-- The `ErrorSystem` struct: the linked list from `head` to `tail` as a list
in report order, the counter, and the scratch buffer of the cycle detector
(`char message_buffer[1024]`). -/
structure ErrorSystem where
  errors : List Error
  error_count : Nat
  message_buffer : String
  deriving DecidableEq, Repr

def error_system_create : ErrorSystem :=
  { errors := [], error_count := 0, message_buffer := "" }

def error_report (system : ErrorSystem) (type : ErrorType) (line col : Int)
    (message : String) (suggestion : Option String) : ErrorSystem :=
  { system with
    errors := system.errors ++
      [{ type := type, line := line, column := col, message := message, suggestion := suggestion }]
    error_count := system.error_count + 1 }

def error_get_count (system : ErrorSystem) : Nat := system.error_count

def error_report_message (system : ErrorSystem) (msg_part : String) : ErrorSystem :=
  { system with
    message_buffer :=
      strncat system.message_buffer msg_part (1024 - system.message_buffer.length - 1) }

def error_get_messages (system : ErrorSystem) : String := system.message_buffer

def error_clear_messages (system : ErrorSystem) : ErrorSystem :=
  { system with message_buffer := "" }

/-! ## symtab.c -/

/-- The `CellEntry` struct.  `key = none` is the `NULL` key of an empty slot;
`dep_count` is the length of `dependencies`; `is_defined` holds the `int`
flag (`true` for 1). -/
structure CellEntry where
  key : Option String
  formula_str : Option String
  value : Rat
  is_defined : Bool
  line : Int
  dependencies : List String
  deriving DecidableEq, Repr

/-- A slot as `calloc` leaves it. -/
def CellEntry.empty : CellEntry :=
  { key := none, formula_str := none, value := 0, is_defined := false, line := 0,
    dependencies := [] }

def CellEntry.dep_count (entry : CellEntry) : Nat := entry.dependencies.length

/-- The `SymbolTable` struct; `entries` is the array of `capacity` slots. -/
structure SymbolTable where
  count : Nat
  capacity : Nat
  entries : List CellEntry
  deriving DecidableEq, Repr

/-- The read `table->entries[index]`. -/
def SymbolTable.entry (table : SymbolTable) (index : Nat) : CellEntry :=
  table.entries.getD index CellEntry.empty

/-- The djb2 hash, in `unsigned long` (64 bit) arithmetic. -/
def hash_string (str : String) : Nat :=
  str.data.foldl (fun hash c => ((hash <<< 5) + hash + c.toNat) % 2 ^ 64) 5381

/-- The linear probe of find_entry, `fuel` probes long, from slot `index`:
the first slot that is empty or holds `key`.  `none`: the fuel is spent (or
the slot lies outside the array). -/
def find_entry_loop : Nat → List CellEntry → Nat → String → Nat → Option Nat
  | 0, _, _, _, _ => none
  | fuel + 1, entries, capacity, key, index =>
    match entries[index]? with
    | none => none
    | some entry =>
      if entry.key = none then some index
      else if entry.key = some key then some index
      else find_entry_loop fuel entries capacity key ((index + 1) &&& (capacity - 1))

/-- The function find_entry, as the index of the slot it returns.  The probe
walks the slots cyclically, so a probe that has not answered after `capacity`
steps never does: there the C loop does not return, and the model answers the
first slot probed.  `find_entry_loop_wf` shows that this does not happen in a
table with a free slot. -/
def find_entry (entries : List CellEntry) (capacity : Nat) (key : String) : Nat :=
  (find_entry_loop capacity entries capacity key (hash_string key &&& (capacity - 1))).getD
    (hash_string key &&& (capacity - 1))

/-- The re-hash loop of resize_table over the old slots. -/
def rehash : List CellEntry → List CellEntry → Nat → Nat → List CellEntry × Nat
  | [], entries, _, count => (entries, count)
  | old :: rest, entries, capacity, count =>
    match old.key with
    | none => rehash rest entries capacity count
    | some k => rehash rest (entries.set (find_entry entries capacity k) old) capacity (count + 1)

def resize_table (table : SymbolTable) : SymbolTable :=
  let old_capacity := table.capacity
  let capacity := if old_capacity < 8 then 8 else old_capacity * 2
  let res := rehash (table.entries.take old_capacity) (List.replicate capacity CellEntry.empty)
    capacity 0
  { count := res.2, capacity := capacity, entries := res.1 }

def symtab_create : SymbolTable :=
  resize_table { count := 0, capacity := 0, entries := [] }

/-- The probe of symtab_get_cell: `some none` is the `NULL` answer at an empty
slot, `some (some i)` the slot holding the key, `none` spent fuel. -/
def get_cell_loop : Nat → List CellEntry → Nat → String → Nat → Option (Option Nat)
  | 0, _, _, _, _ => none
  | fuel + 1, entries, capacity, key, index =>
    match entries[index]? with
    | none => none
    | some entry =>
      if entry.key = none then some none
      else if entry.key = some key then some (some index)
      else get_cell_loop fuel entries capacity key ((index + 1) &&& (capacity - 1))

/-- The function symtab_get_cell: the index of the slot it returns a pointer
to, `none` for `NULL`.  As for `find_entry`, `capacity` probes are all the
probes there are; a probe that meets neither the key nor an empty slot (the C
loop does not return) answers `none`. -/
def symtab_get_cell (table : SymbolTable) (key : String) : Option Nat :=
  if table.count = 0 then none
  else
    (get_cell_loop table.capacity table.entries table.capacity key
      (hash_string key &&& (table.capacity - 1))).getD none

/-- `SYMTAB_LOAD_FACTOR` is 0.75: the test
`table->count + 1 > table->capacity * SYMTAB_LOAD_FACTOR`. -/
def over_load_factor (count capacity : Nat) : Bool := 3 * capacity < 4 * (count + 1)

def symtab_define_cell (table : SymbolTable) (key : String) (value : Rat)
    (formula : Option String) (line : Int) : SymbolTable :=
  let table1 := if over_load_factor table.count table.capacity then resize_table table else table
  let index := find_entry table1.entries table1.capacity key
  let entry := table1.entry index
  let count := if entry.key = none then table1.count + 1 else table1.count
  let entry1 : CellEntry :=
    { entry with key := some key, value := value, formula_str := formula, line := line,
                 is_defined := true }
  { table1 with count := count, entries := table1.entries.set index entry1 }

/-- The function symtab_add_dependency.  When the cell is still not found
after it has been defined (the C code then writes through `NULL`), the model
leaves the table as it is. -/
def symtab_add_dependency (table : SymbolTable) (this_cell_key depends_on_key : String) :
    SymbolTable :=
  let table1 :=
    match symtab_get_cell table this_cell_key with
    | none => symtab_define_cell table this_cell_key 0 none 0
    | some _ => table
  match symtab_get_cell table1 this_cell_key with
  | none => table1
  | some index =>
    let entry := table1.entry index
    if depends_on_key ∈ entry.dependencies then table1
    else
      { table1 with
        entries := table1.entries.set index
          { entry with dependencies := entry.dependencies ++ [depends_on_key] } }

/-- The `for` loop of check_dep_recursive over `check_cell->dependencies`,
given the recursive call as `recurse`. -/
def check_dep_loop (recurse : String → ErrorSystem → Option (Bool × ErrorSystem))
    (check_cell_key : String) : List String → ErrorSystem → Option (Bool × ErrorSystem)
  | [], errors => some (false, errors)
  | dep :: rest, errors =>
    match recurse dep errors with
    | none => none
    | some (true, errors1) =>
      some (true, error_report_message errors1 (snprintf 128 (" -> " ++ check_cell_key)))
    | some (false, errors1) => check_dep_loop recurse check_cell_key rest errors1

/-- The function check_dep_recursive; `fuel` bounds the depth of the
recursion. -/
def check_dep_recursive : Nat → SymbolTable → String → String → ErrorSystem →
    Option (Bool × ErrorSystem)
  | 0, _, _, _, _ => none
  | fuel + 1, table, this_cell_key, check_cell_key, errors =>
    if this_cell_key = check_cell_key then some (true, errors)
    else
      match symtab_get_cell table check_cell_key with
      | none => some (false, errors)
      | some index =>
        if (table.entry index).dep_count = 0 then some (false, errors)
        else
          check_dep_loop (fun dep errs => check_dep_recursive fuel table this_cell_key dep errs)
            check_cell_key (table.entry index).dependencies errors

def symtab_check_circular_dep (fuel : Nat) (table : SymbolTable)
    (this_cell_key check_cell_key : String) (errors : ErrorSystem) :
    Option (Bool × ErrorSystem) :=
  match check_dep_recursive fuel table this_cell_key check_cell_key errors with
  | none => none
  | some (true, errors1) =>
    let final_msg :=
      snprintf 512 ("Circular dependency detected: " ++ this_cell_key ++ " -> " ++ check_cell_key)
    let final_msg1 := strncat final_msg (error_get_messages errors1) (512 - final_msg.length - 1)
    let errors2 := error_clear_messages errors1
    some (true, error_report errors2 ErrorType.ERROR_SEMANTIC 0 0 final_msg1
      (some "Remove the dependency."))
  | some (false, errors1) => some (false, errors1)

/-! ## semantic.c -/

structure SemanticContext where
  table : SymbolTable
  errors : ErrorSystem
  this_cell_ref : String
  error_count : Nat
  deriving DecidableEq, Repr

/-- The name check_function_args prints for `%s` in the arity message of
`SUM`, `AVERAGE`, `MIN` and `MAX`. -/
def aggregate_name (func : Token) : String :=
  if func = Token.SUM then "SUM"
  else if func = Token.AVERAGE then "AVERAGE"
  else if func = Token.MIN then "MIN"
  else "MAX"

/-- The function check_function_args, on the `function_token`, the `arguments`
and the `line` of the call node. -/
def check_function_args (func : Token) (arguments : ASTNode) (line : Int)
    (ctx : SemanticContext) : SemanticContext :=
  let arg_count := arg_chain_length arguments
  match func with
  | Token.IF =>
    if arg_count ≠ 3 then
      { ctx with
        errors := error_report ctx.errors ErrorType.ERROR_SEMANTIC line 0
          (snprintf 256 ("Function 'IF' expects exactly 3 arguments, but got " ++
            fmt_d arg_count ++ "."))
          (some "The format is IF(condition, value_if_true, value_if_false).")
        error_count := ctx.error_count + 1 }
    else ctx
  | Token.SUM | Token.AVERAGE | Token.MIN | Token.MAX =>
    if arg_count = 0 then
      { ctx with
        errors := error_report ctx.errors ErrorType.ERROR_SEMANTIC line 0
          (snprintf 256 ("Function '" ++ aggregate_name func ++
            "' expects at least 1 argument, but got 0."))
          (some "Provide a cell, range, or number.")
        error_count := ctx.error_count + 1 }
    else ctx
  | _ => ctx

def check_range (range_str : String) (line : Int) (ctx : SemanticContext) : SemanticContext :=
  match sscanf_range range_str with
  | none =>
    { ctx with
      errors := error_report ctx.errors ErrorType.ERROR_SEMANTIC line 0
        (snprintf 256 ("Invalid range format: '" ++ range_str ++ "'."))
        (some "Expected format like A1:B10.")
      error_count := ctx.error_count + 1 }
  | some (col_start, row_start, col_end, row_end) =>
    if col_start > col_end ∨ row_start > row_end then
      { ctx with
        errors := error_report ctx.errors ErrorType.ERROR_SEMANTIC line 0
          (snprintf 256 ("Invalid range: '" ++ range_str ++ "'."))
          (some "Start of range must be top-left of end of range.")
        error_count := ctx.error_count + 1 }
    else ctx

/-- The test `cell != NULL && cell->is_defined` on the cell symtab_get_cell
finds for `key`. -/
def cell_defined (table : SymbolTable) (key : String) : Bool :=
  match symtab_get_cell table key with
  | none => false
  | some index => (table.entry index).is_defined

/-- The check of a `NODE_CELL_REF` at the end of semantic_traverse. -/
def check_cell_ref (ref : String) (line : Int) (ctx : SemanticContext) : SemanticContext :=
  if cell_defined ctx.table ref then
    { ctx with table := symtab_add_dependency ctx.table ctx.this_cell_ref ref }
  else
    { ctx with
      errors := error_report ctx.errors ErrorType.ERROR_SEMANTIC line 0
        (snprintf 256 ("Undefined cell reference: '" ++ ref ++ "'."))
        (some "Ensure this cell has a value.")
      error_count := ctx.error_count + 1 }

/-- The function semantic_traverse: the children first, then the node. -/
def semantic_traverse : ASTNode → SemanticContext → SemanticContext
  | ASTNode.null, ctx => ctx
  | ASTNode.number _ _, ctx => ctx
  | ASTNode.string _ _, ctx => ctx
  | ASTNode.cell_ref ref line, ctx => check_cell_ref ref line ctx
  | ASTNode.range range_str line, ctx => check_range range_str line ctx
  | ASTNode.unary_op _ left _, ctx => semantic_traverse left ctx
  | ASTNode.binary_op _ left right _, ctx => semantic_traverse right (semantic_traverse left ctx)
  | ASTNode.function_call func arguments line, ctx =>
    check_function_args func arguments line (semantic_traverse arguments ctx)
  | ASTNode.arg_list expression next_arg _, ctx =>
    semantic_traverse next_arg (semantic_traverse expression ctx)

/-- The loop of semantic_analysis over the direct dependencies of the target
cell: stop at the first one that closes a circle. -/
def circular_loop (fuel : Nat) (table : SymbolTable) (this_cell_ref : String) :
    List String → ErrorSystem → Option (Bool × ErrorSystem)
  | [], errors => some (false, errors)
  | dep :: rest, errors =>
    match symtab_check_circular_dep fuel table this_cell_ref dep errors with
    | none => none
    | some (true, errors1) => some (true, errors1)
    | some (false, errors1) => circular_loop fuel table this_cell_ref rest errors1

/-- The statement `this_cell->is_defined = 1` of semantic_analysis, on the
pointer symtab_get_cell returns: the table and the slot `this_cell` points to.
`none`: the pointer is `NULL` and the C code writes through it. -/
def mark_this_cell (table : SymbolTable) (this_cell_ref : String) :
    Option (SymbolTable × Nat) :=
  match symtab_get_cell table this_cell_ref with
  | none => none
  | some index =>
    some ({ table with
            entries := table.entries.set index { table.entry index with is_defined := true } },
          index)

/-- Step 1 of semantic_analysis: get or create the entry of the cell being
defined, and mark it as defined. -/
def ensure_this_cell (table : SymbolTable) (this_cell_ref : String) :
    Option (SymbolTable × Nat) :=
  match symtab_get_cell table this_cell_ref with
  | none => mark_this_cell (symtab_define_cell table this_cell_ref 0 none 0) this_cell_ref
  | some _ => mark_this_cell table this_cell_ref

/-- The function semantic_analysis for a non-`NULL` table and error system.
The result is the returned count with the table and the error system as the
call leaves them; `none` when the call does not return (`fuel` bounds the
depth of the cycle check). -/
def semantic_analysis (fuel : Nat) (node : ASTNode) (table : SymbolTable) (errors : ErrorSystem)
    (this_cell_ref : String) : Option (Nat × SymbolTable × ErrorSystem) :=
  if node = ASTNode.null then some (0, table, errors)
  else
    match ensure_this_cell table this_cell_ref with
    | none => none
    | some (table1, this_cell) =>
      let ctx := semantic_traverse node
        { table := table1, errors := errors, this_cell_ref := this_cell_ref, error_count := 0 }
      if ctx.error_count = 0 ∧ (ctx.table.entry this_cell).dep_count > 0 then
        match circular_loop fuel ctx.table this_cell_ref (ctx.table.entry this_cell).dependencies
            ctx.errors with
        | none => none
        | some (true, errors1) => some (ctx.error_count + 1 + error_get_count errors1, ctx.table, errors1)
        | some (false, errors1) => some (ctx.error_count + error_get_count errors1, ctx.table, errors1)
      else some (ctx.error_count + error_get_count ctx.errors, ctx.table, ctx.errors)

/-! ## ir.c -/

inductive OpCode where
  | OP_HALT | OP_PUSH | OP_PUSH_CELL | OP_PUSH_RANGE
  | OP_ADD | OP_SUB | OP_MUL | OP_DIV | OP_POW
  | OP_EQ | OP_NEQ | OP_GT | OP_LT | OP_GTE | OP_LTE
  | OP_AND | OP_OR
  | OP_NEG | OP_NOT
  | OP_JMP | OP_JMP_IF_FALSE
  | OP_CALL
  | OP_NOP
  deriving DecidableEq, Repr

/-- The `operand` union of an instruction, with the member that was last
written; `unset` is the operand emit_op leaves unwritten. -/
inductive Operand where
  | unset
  | number (number : Rat)
  | cell_ref (cell_ref : String)
  | range_str (range_str : String)
  | address (address : Int)
  | func_call (token : Token) (arg_count : Int)
  deriving DecidableEq, Repr

/-- The read `operand.number`.  Reading a member other than the one last
written is undefined in C; the model then reads `0`. -/
def Operand.as_number : Operand → Rat
  | Operand.number n => n
  | _ => 0

/-- The read `operand.cell_ref` (the empty string for another member). -/
def Operand.as_cell_ref : Operand → String
  | Operand.cell_ref s => s
  | _ => ""

/-- The read `operand.range_str` (the empty string for another member). -/
def Operand.as_range_str : Operand → String
  | Operand.range_str s => s
  | _ => ""

/-- The read `operand.address` (`-1` for another member). -/
def Operand.as_address : Operand → Int
  | Operand.address a => a
  | _ => -1

structure Instruction where
  opcode : OpCode
  line : Int
  operand : Operand
  deriving DecidableEq, Repr

/-- The `CodeArray` struct: `code` holds the `count` instructions written so
far.  The `capacity` of the allocation is not modelled. -/
structure CodeArray where
  code : List Instruction
  deriving DecidableEq, Repr

def CodeArray.count (code : CodeArray) : Nat := code.code.length

def create_code_array : CodeArray := { code := [] }

/-- The function write_instruction: the array with the instruction appended,
and the index of the new instruction. -/
def write_instruction (code : CodeArray) (inst : Instruction) : CodeArray × Nat :=
  ({ code := code.code ++ [inst] }, code.count)

def emit_op (code : CodeArray) (opcode : OpCode) (line : Int) : CodeArray × Nat :=
  write_instruction code { opcode := opcode, line := line, operand := Operand.unset }

def emit_push (code : CodeArray) (number : Rat) (line : Int) : CodeArray × Nat :=
  write_instruction code
    { opcode := OpCode.OP_PUSH, line := line, operand := Operand.number number }

def emit_push_cell (code : CodeArray) (cell_ref : String) (line : Int) : CodeArray × Nat :=
  write_instruction code
    { opcode := OpCode.OP_PUSH_CELL, line := line, operand := Operand.cell_ref cell_ref }

def emit_push_range (code : CodeArray) (range_str : String) (line : Int) : CodeArray × Nat :=
  write_instruction code
    { opcode := OpCode.OP_PUSH_RANGE, line := line, operand := Operand.range_str range_str }

def emit_jump (code : CodeArray) (opcode : OpCode) (line : Int) : CodeArray × Nat :=
  write_instruction code { opcode := opcode, line := line, operand := Operand.address (-1) }

def emit_call (code : CodeArray) (func_token : Token) (arg_count : Int) (line : Int) :
    CodeArray × Nat :=
  write_instruction code
    { opcode := OpCode.OP_CALL, line := line, operand := Operand.func_call func_token arg_count }

def patch_jump (code : CodeArray) (jump_instruction_index : Nat) : CodeArray :=
  match code.code[jump_instruction_index]? with
  | none => code
  | some inst =>
    { code := code.code.set jump_instruction_index
        { inst with operand := Operand.address code.count } }

/-! ## codegen.c -/

/-- The operator switch of the `NODE_BINARY_OP` case of generate_expr: the
opcode emitted for a token, `none` for the `default` branch. -/
def binary_opcode : Token → Option OpCode
  | Token.PLUS => some OpCode.OP_ADD
  | Token.MINUS => some OpCode.OP_SUB
  | Token.MULTIPLY => some OpCode.OP_MUL
  | Token.DIVIDE => some OpCode.OP_DIV
  | Token.POWER => some OpCode.OP_POW
  | Token.GT => some OpCode.OP_GT
  | Token.LT => some OpCode.OP_LT
  | Token.GTE => some OpCode.OP_GTE
  | Token.LTE => some OpCode.OP_LTE
  | Token.NE => some OpCode.OP_NEQ
  | Token.EQUALS => some OpCode.OP_EQ
  | Token.AND => some OpCode.OP_AND
  | Token.OR => some OpCode.OP_OR
  | _ => none

/-- Steps 2 to 7 of the `IF` case of generate_expr, given the code generators
of the two branches. -/
def generate_if_tail (line : Int) (gen_true gen_false : CodeArray → Option CodeArray)
    (code1 : CodeArray) : Option CodeArray :=
  let j1 := emit_jump code1 OpCode.OP_JMP_IF_FALSE line
  match gen_true j1.1 with
  | none => none
  | some code2 =>
    let j2 := emit_jump code2 OpCode.OP_JMP line
    match gen_false (patch_jump j2.1 j1.2) with
    | none => none
    | some code3 => some (patch_jump code3 j2.2)

mutual
/-- The function generate_expr.  `none`: the C code dereferences `NULL` (an
`IF` call whose argument chain has fewer than three links). -/
def generate_expr : ASTNode → CodeArray → Option CodeArray
  | ASTNode.null, code => some code
  | ASTNode.number number line, code => some (emit_push code number line).1
  | ASTNode.string _ line, code => some (emit_push code 0 line).1
  | ASTNode.cell_ref str_value line, code => some (emit_push_cell code str_value line).1
  | ASTNode.range str_value line, code => some (emit_push_range code str_value line).1
  | ASTNode.unary_op op_token left line, code =>
    match generate_expr left code with
    | none => none
    | some code1 =>
      if op_token = Token.MINUS then some (emit_op code1 OpCode.OP_NEG line).1
      else if op_token = Token.NOT then some (emit_op code1 OpCode.OP_NOT line).1
      else some code1
  | ASTNode.binary_op op_token left right line, code =>
    match generate_expr left code with
    | none => none
    | some code1 =>
      match generate_expr right code1 with
      | none => none
      | some code2 =>
        match binary_opcode op_token with
        | some opcode => some (emit_op code2 opcode line).1
        | none => some code2
  | ASTNode.function_call func_token arguments line, code =>
    if func_token = Token.IF then
      match arguments with
      | ASTNode.arg_list cond_node (ASTNode.arg_list true_node third _) _ =>
        match third with
        | ASTNode.null => none
        | ASTNode.arg_list false_node _ _ =>
          match generate_expr cond_node code with
          | none => none
          | some code1 =>
            generate_if_tail line (generate_expr true_node) (generate_expr false_node) code1
        | _ =>
          match generate_expr cond_node code with
          | none => none
          | some code1 => generate_if_tail line (generate_expr true_node) some code1
      | _ => none
    else
      match generate_args arguments code 0 with
      | none => none
      | some (code1, arg_count) => some (emit_call code1 func_token arg_count line).1
  | ASTNode.arg_list _ _ _, code => some code
/-- The argument loop of the standard function call in generate_expr: the
code of every argument in chain order, and the number of links. -/
def generate_args : ASTNode → CodeArray → Int → Option (CodeArray × Int)
  | ASTNode.null, code, arg_count => some (code, arg_count)
  | ASTNode.arg_list expression next_arg _, code, arg_count =>
    match generate_expr expression code with
    | none => none
    | some code1 => generate_args next_arg code1 (arg_count + 1)
  | _, code, arg_count => some (code, arg_count + 1)
end

/-- The function generate_code; `none` stands for "no code array" (the `NULL`
result for a `NULL` root, or a call that does not return). -/
def generate_code (root : ASTNode) : Option CodeArray :=
  if root = ASTNode.null then none
  else
    match generate_expr root create_code_array with
    | none => none
    | some code => some (emit_op code OpCode.OP_HALT root.line_of).1

/-! ## optimizer.c -/

/-- The `switch (op)` of fold_constants: the folded constant, `none` when
`folded` ends up 0. -/
def fold_result (op : OpCode) (num1 num2 : Rat) : Option Rat :=
  match op with
  | OpCode.OP_ADD => some (num1 + num2)
  | OpCode.OP_SUB => some (num1 - num2)
  | OpCode.OP_MUL => some (num1 * num2)
  | OpCode.OP_DIV => if num2 ≠ 0 then some (num1 / num2) else none
  | _ => none

/-- The `for` loop of fold_constants from index `i` on; every iteration
advances `i`, so `fuel` = `count` iterations are enough. -/
def fold_constants_loop : Nat → Nat → List Instruction → List Instruction
  | 0, _, code => code
  | fuel + 1, i, code =>
    if i + 2 < code.length then
      match code[i]?, code[i + 1]?, code[i + 2]? with
      | some inst1, some inst2, some inst3 =>
        if inst1.opcode = OpCode.OP_PUSH ∧ inst2.opcode = OpCode.OP_PUSH then
          match fold_result inst3.opcode inst1.operand.as_number inst2.operand.as_number with
          | some result =>
            fold_constants_loop fuel (i + 3)
              (((code.set i { inst1 with opcode := OpCode.OP_PUSH,
                                         operand := Operand.number result }).set (i + 1)
                  { inst2 with opcode := OpCode.OP_NOP }).set (i + 2)
                  { inst3 with opcode := OpCode.OP_NOP })
          | none => fold_constants_loop fuel (i + 1) code
        else fold_constants_loop fuel (i + 1) code
      | _, _, _ => code
    else code

def fold_constants (code : CodeArray) : CodeArray :=
  { code := fold_constants_loop code.count 0 code.code }

def optimize_bytecode (code : CodeArray) : CodeArray := fold_constants code

/-! ## runtime.c -/

/-- The loop of the helper accumulate, from the running `sum` and `count`. -/
def accumulate_loop : List Value → Rat × Int → Rat × Int
  | [], acc => acc
  | Value.number n :: rest, acc => accumulate_loop rest (acc.1 + n, acc.2 + 1)
  | _ :: rest, acc => accumulate_loop rest acc

/-- The helper accumulate: the sum and the count of the `TYPE_NUMBER`
elements. -/
def accumulate (args : List Value) : Rat × Int := accumulate_loop args (0, 0)

def rt_sum (args : List Value) : Value := create_number_value (accumulate args).1

def rt_average (args : List Value) : Value :=
  if (accumulate args).2 = 0 then
    create_error_value "AVERAGE divide by zero (no numeric args)"
  else create_number_value ((accumulate args).1 / (accumulate args).2)

/-- A C `double` as fmin, fmax and the comparison operators tell it apart: a
number (an exact rational, by the convention above) or NaN.  Of the functions
embedded here only rt_min and rt_max treat NaN in a way of their own (fmin and
fmax skip it), so only their loops read doubles of this type; everywhere else
the model holds numbers. -/
inductive CDouble where
  | num (q : Rat)
  | nan
  deriving DecidableEq, Repr

/-- The function fmin of `math.h`: the smaller argument, and when one argument
is NaN the other one. -/
def fmin : CDouble → CDouble → CDouble
  | CDouble.nan, y => y
  | x, CDouble.nan => x
  | CDouble.num a, CDouble.num b => CDouble.num (min a b)

/-- The function fmax of `math.h`: the larger argument, and when one argument
is NaN the other one. -/
def fmax : CDouble → CDouble → CDouble
  | CDouble.nan, y => y
  | x, CDouble.nan => x
  | CDouble.num a, CDouble.num b => CDouble.num (max a b)

/-- The C comparison `a <= b` of two doubles: it is false when an operand is
NaN. -/
def CDouble.le : CDouble → CDouble → Bool
  | CDouble.num a, CDouble.num b => decide (a ≤ b)
  | _, _ => false

/-- An element of an argument list as rt_min and rt_max read it: under the tag
`TYPE_NUMBER` the double `as.number`, which may be NaN; an element with another
tag is passed over. -/
inductive Element where
  | number (d : CDouble)
  | other
  deriving DecidableEq, Repr

/-- The element a `Value` of the model is for rt_min and rt_max: its number is
never NaN. -/
def Value.element : Value → Element
  | Value.number n => Element.number (CDouble.num n)
  | _ => Element.other

/-- The loop of rt_min: `none` while `numeric_found` is 0, then `min_val`. -/
def min_loop : List Element → Option CDouble → Option CDouble
  | [], acc => acc
  | Element.number d :: rest, none => min_loop rest (some d)
  | Element.number d :: rest, some m => min_loop rest (some (fmin m d))
  | Element.other :: rest, acc => min_loop rest acc

/-- The function rt_min on a list whose numbers may be NaN, as the double of
the Number it returns. -/
def rt_min_double (args : List Element) : CDouble :=
  match args with
  | [] => CDouble.num 0
  | _ =>
    match min_loop args none with
    | some m => m
    | none => CDouble.num 0

/-- The function rt_min on values of the model.  Their numbers are not NaN, so
neither is the result (`rt_min_of_values`): the second case does not occur. -/
def rt_min (args : List Value) : Value :=
  match rt_min_double (args.map Value.element) with
  | CDouble.num m => create_number_value m
  | CDouble.nan => create_number_value 0

/-- The loop of rt_max: `none` while `numeric_found` is 0, then `max_val`. -/
def max_loop : List Element → Option CDouble → Option CDouble
  | [], acc => acc
  | Element.number d :: rest, none => max_loop rest (some d)
  | Element.number d :: rest, some m => max_loop rest (some (fmax m d))
  | Element.other :: rest, acc => max_loop rest acc

/-- The function rt_max on a list whose numbers may be NaN, as the double of
the Number it returns. -/
def rt_max_double (args : List Element) : CDouble :=
  match args with
  | [] => CDouble.num 0
  | _ =>
    match max_loop args none with
    | some m => m
    | none => CDouble.num 0

/-- The function rt_max on values of the model, as `rt_min`. -/
def rt_max (args : List Value) : Value :=
  match rt_max_double (args.map Value.element) with
  | CDouble.num m => create_number_value m
  | CDouble.nan => create_number_value 0

def rt_not (args : List Value) : Value :=
  match args with
  | [v] => create_boolean_value (c_not (is_truthy v))
  | _ => create_error_value "NOT expects exactly 1 argument"

/-- The value a reader gets for a cell: the stored value when the cell is
present and defined, `0` otherwise (the test `cell != NULL && cell->is_defined`
of rt_expand_range, of `OP_PUSH_CELL` and of `NODE_CELL_REF`). -/
def read_cell (table : SymbolTable) (key : String) : Rat :=
  match symtab_get_cell table key with
  | none => 0
  | some index => if (table.entry index).is_defined then (table.entry index).value else 0

/-- The rows `row_start, row_start + 1, ..., row_end` of the inner loop of
rt_expand_range, counted in exact arithmetic (the C counter is an `int`, so
the loop ends this way for `row_end` below `INT_MAX`; see
`counters_in_range`). -/
def row_range (row_start row_end : Int) : List Int :=
  (List.range (row_end + 1 - row_start).toNat).map (fun (i : Nat) => row_start + (i : Int))

/-- The columns `col_start, ..., col_end` of the outer loop, counted in exact
arithmetic (the C counter is a `char`, so the loop ends this way for `col_end`
below `CHAR_MAX`; see `counters_in_range`). -/
def col_range (col_start col_end : Char) : List Char :=
  (List.range (col_end.toNat + 1 - col_start.toNat)).map
    (fun i => Char.ofNat (col_start.toNat + i))

/-- The function rt_expand_range; the empty list stands for the `NULL`
result. -/
def rt_expand_range (range_str : String) (table : SymbolTable) : List Value :=
  match sscanf_range range_str with
  | none => []
  | some (col_start, row_start, col_end, row_end) =>
    (col_range col_start col_end).flatMap (fun c =>
      (row_range row_start row_end).map (fun r =>
        create_number_value
          (read_cell table (snprintf 16 (String.singleton c ++ fmt_d r)))))

/-- The argument handling shared by `OP_CALL` and eval_arg_list: a String
that rt_expand_range expands is replaced by its expansion, any other value is
put in front of the list built so far. -/
def prepend_arg (table : SymbolTable) (val : Value) (arg_head : List Value) : List Value :=
  match val with
  | Value.string s =>
    match rt_expand_range s table with
    | [] => val :: arg_head
    | range_vals => range_vals ++ arg_head
  | _ => val :: arg_head

/-! ## vm.c -/

/-- `VM_STACK_SIZE`. -/
def VM_STACK_SIZE : Nat := 256

/-- The `VM` struct.  `stack` lists the `stack_top` values in use, the top of
the stack first.  The `trace` flag only prints and is left out. -/
structure VM where
  code : CodeArray
  symtab : SymbolTable
  pc : Int
  stack : List Value
  deriving DecidableEq, Repr

def vm_create (code : CodeArray) (table : SymbolTable) : VM :=
  { code := code, symtab := table, pc := 0, stack := [] }

/-- What a run of the VM ends with: the `Value` vm_run returns, or `fatal`
when the process is ended by `exit(1)` (stack overflow or underflow). -/
inductive VMResult where
  | value (result : Value)
  | fatal
  deriving DecidableEq, Repr

/-- One turn of the `for (;;)` loop of vm_run: either the loop goes on with
a new machine state, or vm_run is left. -/
inductive VMStep where
  | running (vm : VM)
  | finished (result : VMResult)
  deriving DecidableEq, Repr

/-- The function vm_push; `none` is the fatal stack overflow. -/
def vm_push (vm : VM) (val : Value) : Option VM :=
  if vm.stack.length ≥ VM_STACK_SIZE then none
  else some { vm with stack := val :: vm.stack }

/-- The function vm_pop; `none` is the fatal stack underflow. -/
def vm_pop (vm : VM) : Option (Value × VM) :=
  match vm.stack with
  | [] => none
  | val :: rest => some (val, { vm with stack := rest })

/-- The end of an instruction that pushes its result and goes on. -/
def push_and_continue (vm : VM) (val : Value) : VMStep :=
  match vm_push vm val with
  | none => VMStep.finished VMResult.fatal
  | some vm1 => VMStep.running vm1

/-- The inner `switch` of the binary operators of vm_run. -/
def binary_op_result (pw : Rat → Rat → Rat) (opcode : OpCode) (a b : Value) : Value :=
  let a_num := get_numeric a
  let b_num := get_numeric b
  match opcode with
  | OpCode.OP_ADD => create_number_value (a_num + b_num)
  | OpCode.OP_SUB => create_number_value (a_num - b_num)
  | OpCode.OP_MUL => create_number_value (a_num * b_num)
  | OpCode.OP_DIV =>
    if b_num = 0 then create_error_value "Division by zero"
    else create_number_value (a_num / b_num)
  | OpCode.OP_POW => create_number_value (pw a_num b_num)
  | OpCode.OP_GT => create_boolean_value (c_bool (a_num > b_num))
  | OpCode.OP_LT => create_boolean_value (c_bool (a_num < b_num))
  | OpCode.OP_GTE => create_boolean_value (c_bool (a_num ≥ b_num))
  | OpCode.OP_LTE => create_boolean_value (c_bool (a_num ≤ b_num))
  | OpCode.OP_EQ => create_boolean_value (c_bool (a_num = b_num))
  | OpCode.OP_NEQ => create_boolean_value (c_bool (a_num ≠ b_num))
  | OpCode.OP_AND => create_boolean_value (c_and (is_truthy a) (is_truthy b))
  | OpCode.OP_OR => create_boolean_value (c_or (is_truthy a) (is_truthy b))
  | _ => create_error_value "Unhandled binary op"

/-- The loop of `OP_CALL` that pops `arg_count` values and builds the
argument list: the list, and the stack that is left; `none` is the fatal
underflow. -/
def collect_args (table : SymbolTable) : Nat → List Value → List Value →
    Option (List Value × List Value)
  | 0, stack, arg_head => some (arg_head, stack)
  | n + 1, stack, arg_head =>
    match stack with
    | [] => none
    | val :: rest => collect_args table n rest (prepend_arg table val arg_head)

/-- The `switch (func_token)` of `OP_CALL`. -/
def vm_call_runtime (func_token : Token) (arg_head : List Value) : Value :=
  match func_token with
  | Token.SUM => rt_sum arg_head
  | Token.AVERAGE => rt_average arg_head
  | Token.MIN => rt_min arg_head
  | Token.MAX => rt_max arg_head
  | Token.NOT => rt_not arg_head
  | _ => create_error_value "Unknown function call in VM"

/-- The `switch (instruction.opcode)` of vm_run, on the machine `vm1` whose
`pc` has already been incremented.  An `OP_CALL` whose operand is not a
`func_call` reads the wrong union member, which is undefined in C; the model
ends the run as `fatal` there. -/
def vm_dispatch (pw : Rat → Rat → Rat) (vm1 : VM) (instruction : Instruction) : VMStep :=
  match instruction.opcode with
  | OpCode.OP_HALT =>
    match vm1.stack with
    | [] => VMStep.finished (VMResult.value (create_error_value "VM Halted on empty stack"))
    | final_result :: _ => VMStep.finished (VMResult.value final_result)
  | OpCode.OP_PUSH =>
    push_and_continue vm1 (create_number_value instruction.operand.as_number)
  | OpCode.OP_PUSH_CELL =>
    push_and_continue vm1
      (create_number_value (read_cell vm1.symtab instruction.operand.as_cell_ref))
  | OpCode.OP_PUSH_RANGE =>
    push_and_continue vm1 (create_string_value instruction.operand.as_range_str)
  | OpCode.OP_ADD | OpCode.OP_SUB | OpCode.OP_MUL | OpCode.OP_DIV | OpCode.OP_POW
  | OpCode.OP_GT | OpCode.OP_LT | OpCode.OP_GTE | OpCode.OP_LTE | OpCode.OP_EQ
  | OpCode.OP_NEQ | OpCode.OP_AND | OpCode.OP_OR =>
    match vm_pop vm1 with
    | none => VMStep.finished VMResult.fatal
    | some (b, vm2) =>
      match vm_pop vm2 with
      | none => VMStep.finished VMResult.fatal
      | some (a, vm3) =>
        let result := binary_op_result pw instruction.opcode a b
        if result.is_error then VMStep.finished (VMResult.value result)
        else push_and_continue vm3 result
  | OpCode.OP_NEG =>
    match vm_pop vm1 with
    | none => VMStep.finished VMResult.fatal
    | some (a, vm2) => push_and_continue vm2 (create_number_value (- get_numeric a))
  | OpCode.OP_NOT =>
    match vm_pop vm1 with
    | none => VMStep.finished VMResult.fatal
    | some (a, vm2) => push_and_continue vm2 (create_boolean_value (c_not (is_truthy a)))
  | OpCode.OP_JMP_IF_FALSE =>
    match vm_pop vm1 with
    | none => VMStep.finished VMResult.fatal
    | some (cond, vm2) =>
      if is_truthy cond = 0 then
        VMStep.running { vm2 with pc := instruction.operand.as_address }
      else VMStep.running vm2
  | OpCode.OP_JMP => VMStep.running { vm1 with pc := instruction.operand.as_address }
  | OpCode.OP_CALL =>
    match instruction.operand with
    | Operand.func_call func_token arg_count =>
      match collect_args vm1.symtab arg_count.toNat vm1.stack [] with
      | none => VMStep.finished VMResult.fatal
      | some (arg_head, stack1) =>
        push_and_continue { vm1 with stack := stack1 } (vm_call_runtime func_token arg_head)
    | _ => VMStep.finished VMResult.fatal
  | OpCode.OP_NOP => VMStep.running vm1

/-- The body of the `for (;;)` loop of vm_run: the bounds check, the fetch,
the increment of `pc` and the dispatch.  A negative `pc` makes the C code read
in front of the code array, which is undefined; the model ends the run as
`fatal` there. -/
def vm_step (pw : Rat → Rat → Rat) (vm : VM) : VMStep :=
  if vm.pc ≥ vm.code.count then
    VMStep.finished (VMResult.value (create_error_value "VM Error: PC out of bounds"))
  else
    match (if vm.pc < 0 then none else vm.code.code[vm.pc.toNat]?) with
    | none => VMStep.finished VMResult.fatal
    | some instruction => vm_dispatch pw { vm with pc := vm.pc + 1 } instruction

/-- The function vm_run: at most `fuel` turns of the loop; `none` when the
loop is still running after them. -/
def vm_run (pw : Rat → Rat → Rat) : Nat → VM → Option VMResult
  | 0, _ => none
  | fuel + 1, vm =>
    match vm_step pw vm with
    | VMStep.running vm1 => vm_run pw fuel vm1
    | VMStep.finished result => some result

def vm_execute (pw : Rat → Rat → Rat) (fuel : Nat) (vm : VM) : Option VMResult :=
  vm_run pw fuel vm

/-! ## interpreter.c -/

def eval_binary_op (pw : Rat → Rat → Rat) (left right : Value) (op_token : Token) : Value :=
  let left_num := get_numeric left
  let right_num := get_numeric right
  match op_token with
  | Token.PLUS => create_number_value (left_num + right_num)
  | Token.MINUS => create_number_value (left_num - right_num)
  | Token.MULTIPLY => create_number_value (left_num * right_num)
  | Token.DIVIDE =>
    if right_num = 0 then create_error_value "Division by zero"
    else create_number_value (left_num / right_num)
  | Token.POWER => create_number_value (pw left_num right_num)
  | Token.GT => create_boolean_value (c_bool (left_num > right_num))
  | Token.LT => create_boolean_value (c_bool (left_num < right_num))
  | Token.GTE => create_boolean_value (c_bool (left_num ≥ right_num))
  | Token.LTE => create_boolean_value (c_bool (left_num ≤ right_num))
  | Token.EQUALS => create_boolean_value (c_bool (left_num = right_num))
  | Token.NE => create_boolean_value (c_bool (left_num ≠ right_num))
  | Token.AND => create_boolean_value (c_and (is_truthy left) (is_truthy right))
  | Token.OR => create_boolean_value (c_or (is_truthy left) (is_truthy right))
  | _ => create_error_value "Unknown binary operator"

def eval_unary_op (right : Value) (op_token : Token) : Value :=
  match op_token with
  | Token.MINUS => create_number_value (- get_numeric right)
  | Token.NOT => create_boolean_value (c_not (is_truthy right))
  | _ => create_error_value "Unknown unary operator"

/-- The `switch (func_token)` of eval_function_call. -/
def interp_call_runtime (func_token : Token) (arg_head : List Value) : Value :=
  match func_token with
  | Token.SUM => rt_sum arg_head
  | Token.AVERAGE => rt_average arg_head
  | Token.MIN => rt_min arg_head
  | Token.MAX => rt_max arg_head
  | Token.NOT => rt_not arg_head
  | _ => create_error_value "Unknown function"

/-- What interpreter_evaluate returns for a `NULL` node. -/
def null_node_error : Value := create_error_value "Attempted to evaluate NULL node"

mutual
/-- The function interpreter_evaluate (the `trace_level` only prints and is
left out); the `NODE_FUNCTION_CALL` case holds the body of
eval_function_call. -/
def interpreter_evaluate (pw : Rat → Rat → Rat) (table : SymbolTable) : ASTNode → Value
  | ASTNode.null => null_node_error
  | ASTNode.number number _ => create_number_value number
  | ASTNode.string str_value _ => create_string_value str_value
  | ASTNode.cell_ref str_value _ => create_number_value (read_cell table str_value)
  | ASTNode.range str_value _ => create_string_value str_value
  | ASTNode.unary_op op_token left _ =>
    let right := interpreter_evaluate pw table left
    if right.is_error then right else eval_unary_op right op_token
  | ASTNode.binary_op op_token left right _ =>
    let left_val := interpreter_evaluate pw table left
    if left_val.is_error then left_val
    else
      let right_val := interpreter_evaluate pw table right
      if right_val.is_error then right_val
      else eval_binary_op pw left_val right_val op_token
  | ASTNode.function_call func_token arguments _ =>
    if func_token = Token.IF then
      match arguments with
      | ASTNode.arg_list cond_node (ASTNode.arg_list true_node third _) _ =>
        match third with
        | ASTNode.null => create_error_value "IF requires 3 arguments"
        | ASTNode.arg_list false_node _ _ =>
          let cond_val := interpreter_evaluate pw table cond_node
          if cond_val.is_error then cond_val
          else if is_truthy cond_val ≠ 0 then interpreter_evaluate pw table true_node
          else interpreter_evaluate pw table false_node
        | _ =>
          let cond_val := interpreter_evaluate pw table cond_node
          if cond_val.is_error then cond_val
          else if is_truthy cond_val ≠ 0 then interpreter_evaluate pw table true_node
          else null_node_error
      | _ => create_error_value "IF requires 3 arguments"
    else interp_call_runtime func_token (eval_arg_list pw table arguments)
  | ASTNode.arg_list _ _ _ => create_error_value "Cannot evaluate argument list directly"
/-- The function eval_arg_list (its `arg_count` output is never read and is
left out). -/
def eval_arg_list (pw : Rat → Rat → Rat) (table : SymbolTable) : ASTNode → List Value
  | ASTNode.null => []
  | ASTNode.arg_list expression next_arg _ =>
    prepend_arg table (interpreter_evaluate pw table expression) (eval_arg_list pw table next_arg)
  | _ => prepend_arg table null_node_error []
end

/-! ## Inputs used in the worked cases -/

/-- A stand-in for `pow` in the worked cases, none of which has a `POWER`
operator. -/
def pow_unused : Rat → Rat → Rat := fun _ _ => 0

/-- The formula `IF(1, 1, 2) + 3`. -/
def formula_if_plus : ASTNode :=
  ASTNode.binary_op Token.PLUS
    (ASTNode.function_call Token.IF
      (ASTNode.arg_list (ASTNode.number 1 1)
        (ASTNode.arg_list (ASTNode.number 1 1)
          (ASTNode.arg_list (ASTNode.number 2 1) ASTNode.null 1) 1) 1) 1)
    (ASTNode.number 3 1) 1

/-- The formula `1 + 2 * 3`. -/
def formula_one_plus_two_times_three : ASTNode :=
  ASTNode.binary_op Token.PLUS (ASTNode.number 1 1)
    (ASTNode.binary_op Token.MULTIPLY (ASTNode.number 2 1) (ASTNode.number 3 1) 1) 1

/-- The instructions of a code array other than `HALT` and `NOP`. -/
def code_body (code : CodeArray) : List Instruction :=
  code.code.filter (fun inst => inst.opcode ≠ OpCode.OP_HALT ∧ inst.opcode ≠ OpCode.OP_NOP)

/-- The table of scenario 6 of the spec before `B1` is given its formula:
`B1` preloaded with 5, then `A1 = B1` analysed (which makes `A1` depend on
`B1`). -/
def table_a1_reads_b1 : Option (Nat × SymbolTable × ErrorSystem) :=
  semantic_analysis 10 (ASTNode.cell_ref "B1" 1)
    (symtab_define_cell symtab_create "B1" 5 none 1) error_system_create "A1"

/-- A context over the empty table, for the target `B1`. -/
def empty_context : SemanticContext :=
  { table := symtab_create, errors := error_system_create, this_cell_ref := "B1",
    error_count := 0 }

/-- A context for the target `B1` over a table that holds `A1 = 2` and `B1`. -/
def context_a1_b1 : SemanticContext :=
  { table := symtab_define_cell (symtab_define_cell symtab_create "A1" 2 none 1) "B1" 0 none 2,
    errors := error_system_create, this_cell_ref := "B1", error_count := 0 }

/-- The value of a purely constant expression: a Number literal, or `PLUS`,
`MINUS`, `MULTIPLY` or `DIVIDE` applied to two constant expressions, the
divisor not being zero.  `none` for every other AST. -/
def constant_value : ASTNode → Option Rat
  | ASTNode.number n _ => some n
  | ASTNode.binary_op op left right _ =>
    match constant_value left, constant_value right with
    | some a, some b =>
      match op with
      | Token.PLUS => some (a + b)
      | Token.MINUS => some (a - b)
      | Token.MULTIPLY => some (a * b)
      | Token.DIVIDE => if b = 0 then none else some (a / b)
      | _ => none
    | _, _ => none
  | _ => none

/-- An AST that is a Number literal, or one binary operator applied to two
Number literals. -/
def at_most_one_operator : ASTNode → Bool
  | ASTNode.number _ _ => true
  | ASTNode.binary_op _ (ASTNode.number _ _) (ASTNode.number _ _) _ => true
  | _ => false

/-! ## The dependency graph of a table -/

/-- An edge of the dependency graph: the cell `a` is found in the table and
its dependency list holds `b`. -/
def depends_on (table : SymbolTable) (a b : String) : Prop :=
  ∃ slot, symtab_get_cell table a = some slot ∧ b ∈ (table.entry slot).dependencies

/-- An edge between two cells other than `origin`. -/
def depends_on_avoiding (table : SymbolTable) (origin a b : String) : Prop :=
  a ≠ origin ∧ b ≠ origin ∧ depends_on table a b

/-- The dependency graph has no cycle that avoids `origin`: no cell other than
`origin` reaches itself through one or more edges between cells other than
`origin`. -/
def no_cycle_avoiding (table : SymbolTable) (origin : String) : Prop :=
  ∀ k, ¬ Relation.TransGen (depends_on_avoiding table origin) k k

/-- `origin` is reachable from `via` by following zero or more dependency
edges. -/
def reaches (table : SymbolTable) (via origin : String) : Prop :=
  Relation.ReflTransGen (depends_on table) via origin

/-- The table the analysis of `A1 = A1 + 1` leaves behind: `A1` depends on
itself. -/
def table_a1_self : SymbolTable :=
  symtab_add_dependency (symtab_define_cell symtab_create "A1" 0 none 0) "A1" "A1"

/-- The formula `A1 + 1`. -/
def formula_a1_plus_one : ASTNode :=
  ASTNode.binary_op Token.PLUS (ASTNode.cell_ref "A1" 1) (ASTNode.number 1 1) 1

/-- The table of scenario 6 of the spec after both formulas: `A1` depends on
`B1` and `B1` on `A1`. -/
def table_a1_b1_cycle : SymbolTable :=
  symtab_add_dependency
    (symtab_add_dependency
      (symtab_define_cell (symtab_define_cell symtab_create "B1" 5 none 1) "A1" 0 none 0)
      "A1" "B1")
    "B1" "A1"

/-! ## Shape of a table -/

/-- The number of slots in use. -/
def occupied (entries : List CellEntry) : Nat :=
  entries.countP (fun e => e.key.isSome)

/-- The part of the hash-table invariant a lookup after an insertion relies
on: the array has `capacity` slots, the capacity is a power of two, and
`count` is not below the number of slots in use.  symtab_create establishes
it. -/
def table_wf (table : SymbolTable) : Prop :=
  table.entries.length = table.capacity ∧ (∃ m, table.capacity = 2 ^ m) ∧
    occupied table.entries ≤ table.count

/-- An edge of the graph as it is stored: some slot in use holds the key `a`
and lists `b` among its dependencies.  Every edge a lookup can see
(`depends_on`) is a stored edge. -/
def stored_edge (table : SymbolTable) (a b : String) : Prop :=
  ∃ e ∈ table.entries, e.key = some a ∧ b ∈ e.dependencies

/-- A stored edge between two cells other than `origin`. -/
def stored_edge_avoiding (table : SymbolTable) (origin a b : String) : Prop :=
  a ≠ origin ∧ b ≠ origin ∧ stored_edge table a b

/-- The stored dependency lists hold no cycle that avoids `origin`. -/
def no_stored_cycle_avoiding (table : SymbolTable) (origin : String) : Prop :=
  ∀ k, ¬ Relation.TransGen (stored_edge_avoiding table origin) k k

/-- Every slot of `table1` that holds a key other than `key` is, unchanged, a
slot of `table`. -/
def entries_kept (key : String) (table table1 : SymbolTable) : Prop :=
  ∀ e ∈ table1.entries, ∀ a, e.key = some a → a ≠ key → e ∈ table.entries

/-- Whether the AST holds a `CellRef` node for `key`. -/
def contains_cell_ref (key : String) : ASTNode → Bool
  | ASTNode.cell_ref ref _ => ref = key
  | ASTNode.unary_op _ left _ => contains_cell_ref key left
  | ASTNode.binary_op _ left right _ => contains_cell_ref key left || contains_cell_ref key right
  | ASTNode.function_call _ arguments _ => contains_cell_ref key arguments
  | ASTNode.arg_list expression next_arg _ =>
    contains_cell_ref key expression || contains_cell_ref key next_arg
  | _ => false

/-- The formula `A1 + B1`. -/
def formula_a1_plus_b1 : ASTNode :=
  ASTNode.binary_op Token.PLUS (ASTNode.cell_ref "A1" 1) (ASTNode.cell_ref "B1" 1) 1

/-- What a traversal for the target `key`, found in slot `slot`, keeps and
changes between the contexts `ctx` and `ctx1`: the target stays in its slot
and defined, its dependency list only grows, no other entry changes, and the
diagnostics are appended one per counted error. -/
def traverse_keeps (key : String) (slot : Nat) (ctx ctx1 : SemanticContext) : Prop :=
  ctx1.this_cell_ref = key ∧
  symtab_get_cell ctx1.table key = some slot ∧
  (ctx1.table.entry slot).is_defined = true ∧
  (∀ d ∈ (ctx.table.entry slot).dependencies, d ∈ (ctx1.table.entry slot).dependencies) ∧
  entries_kept key ctx.table ctx1.table ∧
  ∃ appended : List Error,
    ctx1.errors.errors = ctx.errors.errors ++ appended ∧
    ctx1.error_count = ctx.error_count + appended.length ∧
    ctx1.errors.error_count = ctx.errors.error_count + appended.length ∧
    ctx1.errors.message_buffer = ctx.errors.message_buffer

/-- The table left by the analysis of `A1 = A1 + 1`, once `B1` has been
created in it and the formula `A1 + B1` has been traversed for it: `A1`
depends on itself and `B1` on `A1` and on itself. -/
def table_a1_self_b1 : SymbolTable :=
  symtab_add_dependency
    (symtab_add_dependency (symtab_define_cell table_a1_self "B1" 0 none 0) "B1" "A1")
    "B1" "B1"

/-! ## The layout of generated code -/

/-- The expressions of an argument chain, in chain order. -/
def chain_exprs : ASTNode → List ASTNode
  | ASTNode.arg_list expression next_arg _ => expression :: chain_exprs next_arg
  | _ => []

/-- The instruction emit_op appends. -/
def op_instruction (opcode : OpCode) (line : Int) : Instruction :=
  { opcode := opcode, line := line, operand := Operand.unset }

/-- A jump instruction once patched to `target`. -/
def jump_instruction (opcode : OpCode) (line : Int) (target : Nat) : Instruction :=
  { opcode := opcode, line := line, operand := Operand.address target }

/-- The code of `IF`, laid out from index `start`, given the code of the
condition and the layouts of the two branches: the condition, `JMP_IF_FALSE`
to the first instruction of the else branch, the then branch, `JMP` to the
instruction after the else branch, the else branch. -/
def layout_if (line : Int) (start : Nat) (cond_code : List Instruction)
    (lay_true lay_false : Nat → Option (List Instruction)) : Option (List Instruction) :=
  match lay_true (start + cond_code.length + 1) with
  | none => none
  | some true_code =>
    match lay_false (start + cond_code.length + 1 + true_code.length + 1) with
    | none => none
    | some false_code =>
      some (cond_code ++
        [jump_instruction OpCode.OP_JMP_IF_FALSE line
          (start + cond_code.length + 1 + true_code.length + 1)] ++
        true_code ++
        [jump_instruction OpCode.OP_JMP line
          (start + cond_code.length + 1 + true_code.length + 1 + false_code.length)] ++
        false_code)

mutual
/-- The instructions generate_expr appends for a node when the code array
holds `start` instructions before the call, with every jump already patched
(`generate_expr_layout` proves that this is what generate_expr does). -/
def layout : ASTNode → Nat → Option (List Instruction)
  | ASTNode.null, _ => some []
  | ASTNode.number number line, _ =>
    some [{ opcode := OpCode.OP_PUSH, line := line, operand := Operand.number number }]
  | ASTNode.string _ line, _ =>
    some [{ opcode := OpCode.OP_PUSH, line := line, operand := Operand.number 0 }]
  | ASTNode.cell_ref str_value line, _ =>
    some [{ opcode := OpCode.OP_PUSH_CELL, line := line, operand := Operand.cell_ref str_value }]
  | ASTNode.range str_value line, _ =>
    some [{ opcode := OpCode.OP_PUSH_RANGE, line := line,
            operand := Operand.range_str str_value }]
  | ASTNode.unary_op op_token left line, start =>
    match layout left start with
    | none => none
    | some left_code =>
      some (left_code ++
        (if op_token = Token.MINUS then [op_instruction OpCode.OP_NEG line]
         else if op_token = Token.NOT then [op_instruction OpCode.OP_NOT line]
         else []))
  | ASTNode.binary_op op_token left right line, start =>
    match layout left start with
    | none => none
    | some left_code =>
      match layout right (start + left_code.length) with
      | none => none
      | some right_code =>
        some (left_code ++ right_code ++
          (match binary_opcode op_token with
           | some opcode => [op_instruction opcode line]
           | none => []))
  | ASTNode.function_call func_token arguments line, start =>
    if func_token = Token.IF then
      match arguments with
      | ASTNode.arg_list cond_node (ASTNode.arg_list true_node third _) _ =>
        match third with
        | ASTNode.null => none
        | ASTNode.arg_list false_node _ _ =>
          match layout cond_node start with
          | none => none
          | some cond_code =>
            layout_if line start cond_code (layout true_node) (layout false_node)
        | _ =>
          match layout cond_node start with
          | none => none
          | some cond_code =>
            layout_if line start cond_code (layout true_node) (fun _ => some [])
      | _ => none
    else
      match layout_args arguments start with
      | none => none
      | some (args_code, arg_count) =>
        some (args_code ++
          [{ opcode := OpCode.OP_CALL, line := line,
             operand := Operand.func_call func_token arg_count }])
  | ASTNode.arg_list _ _ _, _ => some []
/-- The instructions the argument loop of generate_expr appends, and the
number of links of the chain. -/
def layout_args : ASTNode → Nat → Option (List Instruction × Int)
  | ASTNode.null, _ => some ([], 0)
  | ASTNode.arg_list expression next_arg _, start =>
    match layout expression start with
    | none => none
    | some code =>
      match layout_args next_arg (start + code.length) with
      | none => none
      | some (rest, arg_count) => some (code ++ rest, arg_count + 1)
  | _, _ => some ([], 1)
end

/-- What generate_expr does to the code array, in terms of `layout`. -/
def generates_layout (node : ASTNode) : Prop :=
  ∀ code : CodeArray, generate_expr node code =
    (layout node code.count).map (fun seg => ({ code := code.code ++ seg } : CodeArray))

/-! ## The fragment on which the two backends are compared -/

mutual
/-- The ASTs both backends treat alike as far as their shape goes: Number,
CellRef and Range leaves, unary `MINUS` and `NOT`, the thirteen binary
operators of the code generator, `IF` calls whose chain starts with three
argument links, and other calls whose arguments form a proper chain.  String
literals (for which generate_expr pushes the placeholder `0`), `NULL`
children and argument lists outside a call are left out. -/
def in_fragment : ASTNode → Bool
  | ASTNode.number _ _ => true
  | ASTNode.cell_ref _ _ => true
  | ASTNode.range _ _ => true
  | ASTNode.unary_op op_token left _ =>
    (op_token = Token.MINUS || op_token = Token.NOT) && in_fragment left
  | ASTNode.binary_op op_token left right _ =>
    (binary_opcode op_token).isSome && in_fragment left && in_fragment right
  | ASTNode.function_call func_token arguments _ =>
    if func_token = Token.IF then
      match arguments with
      | ASTNode.arg_list cond_node (ASTNode.arg_list true_node (ASTNode.arg_list false_node _ _) _) _ =>
        in_fragment cond_node && in_fragment true_node && in_fragment false_node
      | _ => false
    else args_in_fragment arguments
  | _ => false
/-- A proper argument chain of expressions of the fragment. -/
def args_in_fragment : ASTNode → Bool
  | ASTNode.null => true
  | ASTNode.arg_list expression next_arg _ => in_fragment expression && args_in_fragment next_arg
  | _ => false
end

mutual
/-- No function call that the interpreter evaluates yields an Error or is
given an Error argument (`IF` is not such a call: it only selects a branch).
The operand to the right of a failing operand and the branch `IF` does not
select are not evaluated and are not looked at. -/
def calls_clean (pw : Rat → Rat → Rat) (table : SymbolTable) : ASTNode → Bool
  | ASTNode.unary_op _ left _ => calls_clean pw table left
  | ASTNode.binary_op _ left right _ =>
    calls_clean pw table left &&
      ((interpreter_evaluate pw table left).is_error || calls_clean pw table right)
  | ASTNode.function_call func_token arguments _ =>
    if func_token = Token.IF then
      match arguments with
      | ASTNode.arg_list cond_node (ASTNode.arg_list true_node (ASTNode.arg_list false_node _ _) _) _ =>
        calls_clean pw table cond_node &&
          (if (interpreter_evaluate pw table cond_node).is_error then true
           else if is_truthy (interpreter_evaluate pw table cond_node) ≠ 0 then
             calls_clean pw table true_node
           else calls_clean pw table false_node)
      | _ => true
    else
      args_clean pw table arguments &&
        !(interp_call_runtime func_token (eval_arg_list pw table arguments)).is_error
  | _ => true
/-- Every argument of the chain is clean and does not evaluate to an Error. -/
def args_clean (pw : Rat → Rat → Rat) (table : SymbolTable) : ASTNode → Bool
  | ASTNode.arg_list expression next_arg _ =>
    calls_clean pw table expression && !(interpreter_evaluate pw table expression).is_error &&
      args_clean pw table next_arg
  | _ => true
end

mutual
/-- The number of stack slots the generated code of a node uses above the
stack it starts with. -/
def stack_need : ASTNode → Nat
  | ASTNode.number _ _ => 1
  | ASTNode.string _ _ => 1
  | ASTNode.cell_ref _ _ => 1
  | ASTNode.range _ _ => 1
  | ASTNode.unary_op _ left _ => max (stack_need left) 1
  | ASTNode.binary_op _ left right _ => max (stack_need left) (stack_need right + 1)
  | ASTNode.function_call func_token arguments _ =>
    if func_token = Token.IF then
      match arguments with
      | ASTNode.arg_list cond_node (ASTNode.arg_list true_node (ASTNode.arg_list false_node _ _) _) _ =>
        max (stack_need cond_node) (max (stack_need true_node) (stack_need false_node))
      | _ => 0
    else max (args_stack_need arguments) 1
  | _ => 0
/-- The slots used while the arguments of a call are pushed one after the
other. -/
def args_stack_need : ASTNode → Nat
  | ASTNode.arg_list expression next_arg _ =>
    max (stack_need expression) (args_stack_need next_arg + 1)
  | _ => 0
end

/-- The values of the expressions of an argument chain, in chain order. -/
def chain_values (pw : Rat → Rat → Rat) (table : SymbolTable) (arguments : ASTNode) :
    List Value :=
  (chain_exprs arguments).map (interpreter_evaluate pw table)

/-- A run of the VM over one segment of the code `code`, entered at index
`start` with the stack `stack`, for an expression whose value is `v`: within
`len` steps the VM either returns `v`, when `v` is an Error, or stands at
index `start + len` with `v` pushed on the stack. -/
def run_segment (pw : Rat → Rat → Rat) (table : SymbolTable) (code : List Instruction)
    (start : Nat) (stack : List Value) (len : Nat) (v : Value) : Prop :=
  ∃ k, k ≤ len ∧
    if v.is_error then
      0 < k ∧ ∀ f, vm_run pw (k + f)
        { code := { code := code }, symtab := table, pc := (start : Int), stack := stack } =
          some (VMResult.value v)
    else
      ∀ f, vm_run pw (k + f)
        { code := { code := code }, symtab := table, pc := (start : Int), stack := stack } =
        vm_run pw f
          { code := { code := code }, symtab := table, pc := ((start + len : Nat) : Int),
            stack := v :: stack }

/-- The statement of compiler correctness for one node: wherever its code
lies in a code array, the VM runs over it as `run_segment` says for the value
the interpreter computes. -/
def compiles_correctly (pw : Rat → Rat → Rat) (table : SymbolTable) (node : ASTNode) : Prop :=
  in_fragment node = true → calls_clean pw table node = true →
  ∀ (seg pre post code : List Instruction) (stack : List Value),
    layout node pre.length = some seg → code = pre ++ seg ++ post →
    stack.length + stack_need node ≤ VM_STACK_SIZE →
    run_segment pw table code pre.length stack seg.length (interpreter_evaluate pw table node)

/-- The formula `Z9`, a reference to a cell no table of the worked cases
holds. -/
def formula_undefined_reference : ASTNode := ASTNode.cell_ref "Z9" 1

/-! ## The symbol table as a finite map -/

/-- The record a caller reads through the pointer symtab_get_cell returns,
`none` for `NULL`. -/
def get_record (table : SymbolTable) (key : String) : Option CellEntry :=
  (symtab_get_cell table key).map table.entry

/-- Every key stored in a slot is found, in that slot, by the probe of
symtab_get_cell. -/
def findable (entries : List CellEntry) (capacity : Nat) : Prop :=
  ∀ i e k, entries[i]? = some e → e.key = some k →
    get_cell_loop capacity entries capacity k (hash_string k &&& (capacity - 1)) = some (some i)

/-- The invariant of the hash table: the shape of `table_wf`, at least eight
slots, a load of at most three quarters, and every stored key found by its
probe. -/
def table_inv (table : SymbolTable) : Prop :=
  table.entries.length = table.capacity ∧ (∃ m, table.capacity = 2 ^ m) ∧
    8 ≤ table.capacity ∧ occupied table.entries ≤ table.count ∧
    4 * table.count ≤ 3 * table.capacity ∧ findable table.entries table.capacity

/-- The tables the program builds: symtab_create, then any sequence of
symtab_define_cell, symtab_add_dependency and the write
`this_cell->is_defined = 1` of semantic_analysis. -/
inductive reachable : SymbolTable → Prop
  | create : reachable symtab_create
  | define (table : SymbolTable) (key : String) (value : Rat) (formula : Option String)
      (line : Int) : reachable table →
      reachable (symtab_define_cell table key value formula line)
  | add_dependency (table : SymbolTable) (this_cell_key depends_on_key : String) :
      reachable table → reachable (symtab_add_dependency table this_cell_key depends_on_key)
  | mark (table : SymbolTable) (key : String) (table1 : SymbolTable) (slot : Nat) :
      reachable table → mark_this_cell table key = some (table1, slot) → reachable table1

/-- A table that holds the six cells `A1` to `A6`: its eight slots are loaded
so far that the next new cell makes symtab_define_cell resize the table. -/
def table_six_cells : SymbolTable :=
  symtab_define_cell
    (symtab_define_cell
      (symtab_define_cell
        (symtab_define_cell
          (symtab_define_cell (symtab_define_cell symtab_create "A1" 1 none 1) "A2" 2 none 2)
          "A3" 3 none 3)
        "A4" 4 none 4)
      "A5" 5 none 5)
    "A6" 6 none 6

/-- The record of `A1` in `table_a1_b1_cycle`. -/
def record_a1_in_cycle : CellEntry :=
  { key := some "A1", formula_str := none, value := 0, is_defined := true, line := 0,
    dependencies := ["B1"] }

/-! ## What the aggregates are measured against -/

/-- The payloads of the elements of an argument list that are tagged Number,
in list order. -/
def number_elements : List Value → List Rat
  | [] => []
  | Value.number n :: rest => n :: number_elements rest
  | _ :: rest => number_elements rest

/-! ## The cells of a range -/

/-- The key `<column><row>` of a cell, as `"%c%d"` prints it. -/
def cell_key (c : Char) (r : Int) : String := String.singleton c ++ fmt_d r

/-- The loop counters of rt_expand_range stay inside their C types: the last
column is below `CHAR_MAX` and the rows are `int`s below `INT_MAX`, so that
neither `c++` nor `r++` overflows.  (`col_range` and `row_range` count in
exact arithmetic; outside these bounds the C loops do not end as they do.) -/
def counters_in_range (col_end : Char) (row_start row_end : Int) : Prop :=
  col_end.toNat < 127 ∧ -2 ^ 31 ≤ row_start ∧ row_end < 2 ^ 31 - 1

/-- A table that holds `A1 = 1`, `A2 = 2`, `B1 = 3` and `B2 = 4` (scenario 4
of the spec). -/
def table_two_by_two : SymbolTable :=
  symtab_define_cell
    (symtab_define_cell
      (symtab_define_cell (symtab_define_cell symtab_create "A1" 1 none 1) "A2" 2 none 2)
      "B1" 3 none 3)
    "B2" 4 none 4

/-! ## The argument list of a call -/

/-- The flattened argument list as the spec describes it: the values in
order, each String that expands to a range replaced by its expansion. -/
def flatten_args (table : SymbolTable) (vals : List Value) : List Value :=
  vals.flatMap (fun v =>
    match v with
    | Value.string s =>
      match rt_expand_range s table with
      | [] => [v]
      | range_vals => range_vals
    | _ => [v])

/-- A null-terminated argument chain. -/
def proper_chain : ASTNode → Bool
  | ASTNode.null => true
  | ASTNode.arg_list _ next_arg _ => proper_chain next_arg
  | _ => false

/-- The values a reader gets for the cells of the rectangle `c1..c2` by
`r1..r2` (the stored value of a cell that is present and defined, 0 for any
other cell), column by column. -/
def rectangle_values (table : SymbolTable) (c1 : Char) (r1 : Int) (c2 : Char) (r2 : Int) :
    List Rat :=
  (col_range c1 c2).flatMap (fun c =>
    (row_range r1 r2).map (fun r => read_cell table (cell_key c r)))

/-- The formula `SUM(<range>)`. -/
def formula_sum_of_range (range_str : String) (line : Int) : ASTNode :=
  ASTNode.function_call Token.SUM
    (ASTNode.arg_list (ASTNode.range range_str line) ASTNode.null line) line

/-! ## The function-free fragment -/

/-- The ASTs built only from Number, CellRef and Range leaves, unary `MINUS`
and `NOT`, the thirteen binary operators of the code generator, and `IF` calls
with exactly three arguments. -/
def function_free : ASTNode → Bool
  | ASTNode.number _ _ => true
  | ASTNode.cell_ref _ _ => true
  | ASTNode.range _ _ => true
  | ASTNode.unary_op op_token left _ =>
    (op_token = Token.MINUS || op_token = Token.NOT) && function_free left
  | ASTNode.binary_op op_token left right _ =>
    (binary_opcode op_token).isSome && function_free left && function_free right
  | ASTNode.function_call func_token
      (ASTNode.arg_list cond_node
        (ASTNode.arg_list true_node (ASTNode.arg_list false_node ASTNode.null _) _) _) _ =>
    func_token = Token.IF && function_free cond_node && function_free true_node &&
      function_free false_node
  | _ => false

/-- The formula `A1 + A2 * 4` (scenario 1 of the spec). -/
def formula_a1_plus_a2_times_four : ASTNode :=
  ASTNode.binary_op Token.PLUS (ASTNode.cell_ref "A1" 1)
    (ASTNode.binary_op Token.MULTIPLY (ASTNode.cell_ref "A2" 1) (ASTNode.number 4 1) 1) 1

/-- A table that holds `A1 = 2` and `A2 = 3` (scenario 1 of the spec). -/
def table_a1_a2 : SymbolTable :=
  symtab_define_cell (symtab_define_cell symtab_create "A1" 2 none 1) "A2" 3 none 2

/-- The formula `A1 / 0`. -/
def formula_a1_by_zero : ASTNode :=
  ASTNode.binary_op Token.DIVIDE (ASTNode.cell_ref "A1" 1) (ASTNode.number 0 1) 1

/-- A table that holds `A1 = 4` (scenario 3 of the spec). -/
def table_a1_four : SymbolTable := symtab_define_cell symtab_create "A1" 4 none 1

/-! ## Errors on their way out -/

/-- The formula `1 / 0`. -/
def formula_one_by_zero : ASTNode :=
  ASTNode.binary_op Token.DIVIDE (ASTNode.number 1 1) (ASTNode.number 0 1) 1

/-- The formula `SUM(1/0, 2)`. -/
def formula_sum_of_error : ASTNode :=
  ASTNode.function_call Token.SUM
    (ASTNode.arg_list formula_one_by_zero
      (ASTNode.arg_list (ASTNode.number 2 1) ASTNode.null 1) 1) 1

/-- The formula `NOT(1, 2) + 1`. -/
def formula_not_two_args_plus_one : ASTNode :=
  ASTNode.binary_op Token.PLUS
    (ASTNode.function_call Token.NOT
      (ASTNode.arg_list (ASTNode.number 1 1)
        (ASTNode.arg_list (ASTNode.number 2 1) ASTNode.null 1) 1) 1)
    (ASTNode.number 1 1) 1

/-- The value of `sub` is used by the interpreter's evaluation of the node on
the left through the operand of a unary operator, an operand of a binary
operator (the right one only when the left one is not an Error), the condition
of an `IF` or the branch the `IF` selects. -/
inductive used_by (pw : Rat → Rat → Rat) (table : SymbolTable) : ASTNode → ASTNode → Prop
  | self (node : ASTNode) : used_by pw table node node
  | unary (op : Token) (left : ASTNode) (line : Int) (sub : ASTNode) :
      used_by pw table left sub → used_by pw table (ASTNode.unary_op op left line) sub
  | binary_left (op : Token) (left right : ASTNode) (line : Int) (sub : ASTNode) :
      used_by pw table left sub → used_by pw table (ASTNode.binary_op op left right line) sub
  | binary_right (op : Token) (left right : ASTNode) (line : Int) (sub : ASTNode) :
      (interpreter_evaluate pw table left).is_error = false → used_by pw table right sub →
      used_by pw table (ASTNode.binary_op op left right line) sub
  | if_cond (c t e rest : ASTNode) (l1 l2 l3 line : Int) (sub : ASTNode) :
      used_by pw table c sub →
      used_by pw table
        (ASTNode.function_call Token.IF
          (ASTNode.arg_list c (ASTNode.arg_list t (ASTNode.arg_list e rest l3) l2) l1) line) sub
  | if_true (c t e rest : ASTNode) (l1 l2 l3 line : Int) (sub : ASTNode) :
      (interpreter_evaluate pw table c).is_error = false →
      is_truthy (interpreter_evaluate pw table c) ≠ 0 → used_by pw table t sub →
      used_by pw table
        (ASTNode.function_call Token.IF
          (ASTNode.arg_list c (ASTNode.arg_list t (ASTNode.arg_list e rest l3) l2) l1) line) sub
  | if_false (c t e rest : ASTNode) (l1 l2 l3 line : Int) (sub : ASTNode) :
      (interpreter_evaluate pw table c).is_error = false →
      is_truthy (interpreter_evaluate pw table c) = 0 → used_by pw table e sub →
      used_by pw table
        (ASTNode.function_call Token.IF
          (ASTNode.arg_list c (ASTNode.arg_list t (ASTNode.arg_list e rest l3) l2) l1) line) sub

/-! ## Jumps of generated code -/

/-- A `JMP` or `JMP_IF_FALSE` instruction. -/
def is_jump (inst : Instruction) : Bool :=
  inst.opcode = OpCode.OP_JMP || inst.opcode = OpCode.OP_JMP_IF_FALSE

/-- Every jump of the segment `seg`, whose first instruction has index `start`
in its code array, has been patched: its operand is an address that is not
negative, lies after the index of the jump and is at most `bound`. -/
def jumps_patched (start : Nat) (seg : List Instruction) (bound : Nat) : Prop :=
  ∀ (i : Nat) (inst : Instruction), seg[i]? = some inst → is_jump inst = true →
    ∃ target : Nat, inst.operand = Operand.address (target : Int) ∧ start + i < target ∧
      target ≤ bound

mutual
/-- Every `IF` call of the AST has a chain of (at least) three arguments, the
shape generate_expr reads without a check. -/
def if_calls_complete : ASTNode → Bool
  | ASTNode.unary_op _ left _ => if_calls_complete left
  | ASTNode.binary_op _ left right _ => if_calls_complete left && if_calls_complete right
  | ASTNode.function_call func_token arguments _ =>
    if func_token = Token.IF then
      match arguments with
      | ASTNode.arg_list cond_node (ASTNode.arg_list true_node (ASTNode.arg_list false_node _ _) _) _ =>
        if_calls_complete cond_node && if_calls_complete true_node &&
          if_calls_complete false_node
      | _ => false
    else args_complete arguments
  | _ => true
/-- The same for the expressions of an argument chain. -/
def args_complete : ASTNode → Bool
  | ASTNode.arg_list expression next_arg _ => if_calls_complete expression && args_complete next_arg
  | _ => true
end

/-- The jump instruction as emit_jump writes it, before patch_jump. -/
def unpatched_jump (opcode : OpCode) (line : Int) : Instruction :=
  { opcode := opcode, line := line, operand := Operand.address (-1) }

/-! ## ast.h: the node counter -/

/-- The state create_node and free_ast act on: the global `g_node_count`, the
number of nodes create_node has obtained from `calloc`, and the number of
nodes free_ast has released with `free(node)`. -/
structure NodeHeap where
  g_node_count : Int
  allocated : Nat
  freed : Nat
  deriving DecidableEq, Repr

/-- The function create_node, as its effect on the state: the counter is
incremented and one node is allocated. -/
def create_node (heap : NodeHeap) : NodeHeap :=
  { heap with g_node_count := heap.g_node_count + 1, allocated := heap.allocated + 1 }

def create_number_node (value : Rat) (line : Int) (heap : NodeHeap) : ASTNode × NodeHeap :=
  (ASTNode.number value line, create_node heap)

def create_string_node (value : String) (line : Int) (heap : NodeHeap) : ASTNode × NodeHeap :=
  (ASTNode.string value line, create_node heap)

def create_cell_ref_node (cell_ref : String) (line : Int) (heap : NodeHeap) :
    ASTNode × NodeHeap :=
  (ASTNode.cell_ref cell_ref line, create_node heap)

def create_range_node (range_str : String) (line : Int) (heap : NodeHeap) :
    ASTNode × NodeHeap :=
  (ASTNode.range range_str line, create_node heap)

def create_unary_op_node (op_token : Token) (left : ASTNode) (line : Int) (heap : NodeHeap) :
    ASTNode × NodeHeap :=
  (ASTNode.unary_op op_token left line, create_node heap)

def create_binary_op_node (op_token : Token) (left right : ASTNode) (line : Int)
    (heap : NodeHeap) : ASTNode × NodeHeap :=
  (ASTNode.binary_op op_token left right line, create_node heap)

def create_function_call_node (func_token : Token) (args : ASTNode) (line : Int)
    (heap : NodeHeap) : ASTNode × NodeHeap :=
  (ASTNode.function_call func_token args line, create_node heap)

def create_arg_list_node (expr next : ASTNode) (line : Int) (heap : NodeHeap) :
    ASTNode × NodeHeap :=
  (ASTNode.arg_list expr next line, create_node heap)

/-- The state after the constructor calls that build a tree, the children of
a node before the node. -/
def build_ast : ASTNode → NodeHeap → NodeHeap
  | ASTNode.null, heap => heap
  | ASTNode.number value line, heap => (create_number_node value line heap).2
  | ASTNode.string value line, heap => (create_string_node value line heap).2
  | ASTNode.cell_ref cell_ref line, heap => (create_cell_ref_node cell_ref line heap).2
  | ASTNode.range range_str line, heap => (create_range_node range_str line heap).2
  | ASTNode.unary_op op_token left line, heap =>
    (create_unary_op_node op_token left line (build_ast left heap)).2
  | ASTNode.binary_op op_token left right line, heap =>
    (create_binary_op_node op_token left right line (build_ast right (build_ast left heap))).2
  | ASTNode.function_call func_token args line, heap =>
    (create_function_call_node func_token args line (build_ast args heap)).2
  | ASTNode.arg_list expr next line, heap =>
    (create_arg_list_node expr next line (build_ast next (build_ast expr heap))).2

/-- The statement `free(node)` that ends free_ast. -/
def free_node (heap : NodeHeap) : NodeHeap := { heap with freed := heap.freed + 1 }

/-- The function free_ast, as its effect on the state (the `free` of the
string of a String, CellRef or Range node is not counted). -/
def free_ast : ASTNode → NodeHeap → NodeHeap
  | ASTNode.null, heap => heap
  | ASTNode.unary_op _ left _, heap => free_node (free_ast left heap)
  | ASTNode.binary_op _ left right _, heap => free_node (free_ast right (free_ast left heap))
  | ASTNode.function_call _ arguments _, heap => free_node (free_ast arguments heap)
  | ASTNode.arg_list expression next_arg _, heap =>
    free_node (free_ast next_arg (free_ast expression heap))
  | ASTNode.string _ _, heap => free_node heap
  | ASTNode.cell_ref _ _, heap => free_node heap
  | ASTNode.range _ _, heap => free_node heap
  | ASTNode.number _ _, heap => free_node heap

/-- The number of nodes of a tree. -/
def node_count : ASTNode → Nat
  | ASTNode.null => 0
  | ASTNode.unary_op _ left _ => node_count left + 1
  | ASTNode.binary_op _ left right _ => node_count left + node_count right + 1
  | ASTNode.function_call _ arguments _ => node_count arguments + 1
  | ASTNode.arg_list expression next_arg _ => node_count expression + node_count next_arg + 1
  | _ => 1

/-- The state of a program that has not created a node yet. -/
def empty_heap : NodeHeap := { g_node_count := 0, allocated := 0, freed := 0 }

/-- The code of a list of expressions, each one generated on the array the
previous one left: the `code(a1) ... code(an)` of the description of a
function call. -/
def code_of_arguments : List ASTNode → CodeArray → Option CodeArray
  | [], code => some code
  | e :: rest, code =>
    match generate_expr e code with
    | none => none
    | some code1 => code_of_arguments rest code1

/-- The formula `SUM(A1:B2, 3, -A1)`. -/
def formula_sum_three_args : ASTNode :=
  ASTNode.function_call Token.SUM
    (ASTNode.arg_list (ASTNode.range "A1:B2" 1)
      (ASTNode.arg_list (ASTNode.number 3 1)
        (ASTNode.arg_list (ASTNode.unary_op Token.MINUS (ASTNode.cell_ref "A1" 1) 1)
          ASTNode.null 1) 1) 1) 1

/-- Whether check_range reports the text of a `Range` node: it does not parse,
or it parses with the start right of or below the end. -/
def range_rejected (range_str : String) : Bool :=
  match sscanf_range range_str with
  | none => true
  | some (col_start, row_start, col_end, row_end) =>
    decide (col_start > col_end ∨ row_start > row_end)

/-- The context semantic_analysis holds after its traversal of `node`, started
on the table `table1` that step 1 left. -/
def analysis_traversal (node : ASTNode) (table1 : SymbolTable) (errors : ErrorSystem)
    (this_cell_ref : String) : SemanticContext :=
  semantic_traverse node
    { table := table1, errors := errors, this_cell_ref := this_cell_ref, error_count := 0 }

/-- The table in which `B1` holds 5 and `A1` reads `B1`. -/
def table_b1_then_a1 : SymbolTable :=
  symtab_add_dependency
    (symtab_define_cell (symtab_define_cell symtab_create "B1" 5 none 1) "A1" 0 none 1)
    "A1" "B1"

/-- No dependency list of the table holds a key twice. -/
def dependencies_distinct (table : SymbolTable) : Prop :=
  ∀ e ∈ table.entries, e.dependencies.Nodup

/-- The field `count` is the number of slots in use. -/
def count_exact (table : SymbolTable) : Prop := table.count = occupied table.entries

/-- How fold_constants rewrites a run of instructions: it keeps an
instruction, or it rewrites three instructions `PUSH a`, `PUSH b`, `op` whose
constant `fold_result` gives into `PUSH result`, `NOP`, `NOP` (only the
operand of the first and the opcodes of the other two change) and goes on
after them. -/
inductive folded_from : List Instruction → List Instruction → Prop
  | nil : folded_from [] []
  | keep (inst : Instruction) (orig opt : List Instruction) :
      folded_from orig opt → folded_from (inst :: orig) (inst :: opt)
  | fold (inst1 inst2 inst3 : Instruction) (result : Rat) (orig opt : List Instruction) :
      inst1.opcode = OpCode.OP_PUSH → inst2.opcode = OpCode.OP_PUSH →
      fold_result inst3.opcode inst1.operand.as_number inst2.operand.as_number = some result →
      folded_from orig opt →
      folded_from (inst1 :: inst2 :: inst3 :: orig)
        ({ inst1 with opcode := OpCode.OP_PUSH, operand := Operand.number result } ::
          { inst2 with opcode := OpCode.OP_NOP } :: { inst3 with opcode := OpCode.OP_NOP } :: opt)

/-- The three instructions at the indices `j`, `j + 1`, `j + 2` of `orig` are
a triple that was folded into `opt`. -/
def folded_triple_at (orig opt : List Instruction) (j : Nat) : Prop :=
  ∃ (a b c : Instruction) (result : Rat),
    orig[j]? = some a ∧ orig[j + 1]? = some b ∧ orig[j + 2]? = some c ∧
    a.opcode = OpCode.OP_PUSH ∧ b.opcode = OpCode.OP_PUSH ∧
    fold_result c.opcode a.operand.as_number b.operand.as_number = some result ∧
    opt[j]? = some { a with opcode := OpCode.OP_PUSH, operand := Operand.number result } ∧
    opt[j + 1]? = some { b with opcode := OpCode.OP_NOP } ∧
    opt[j + 2]? = some { c with opcode := OpCode.OP_NOP }

/-- A code array in which a jump, a call and a division by the constant zero
stand next to a sum of two constants. -/
def code_with_foldable_sum : CodeArray :=
  { code :=
      [{ opcode := OpCode.OP_PUSH, line := 1, operand := Operand.number 1 },
       { opcode := OpCode.OP_JMP_IF_FALSE, line := 1, operand := Operand.address 9 },
       { opcode := OpCode.OP_PUSH, line := 1, operand := Operand.number 4 },
       { opcode := OpCode.OP_PUSH, line := 1, operand := Operand.number 0 },
       { opcode := OpCode.OP_DIV, line := 1, operand := Operand.unset },
       { opcode := OpCode.OP_PUSH, line := 1, operand := Operand.number 2 },
       { opcode := OpCode.OP_PUSH, line := 1, operand := Operand.number 3 },
       { opcode := OpCode.OP_ADD, line := 1, operand := Operand.unset },
       { opcode := OpCode.OP_CALL, line := 1, operand := Operand.func_call Token.SUM 2 },
       { opcode := OpCode.OP_HALT, line := 1, operand := Operand.unset }] }

/-- The machine that is about to execute the first instruction of `rest`,
with the instructions `pre` before it in the code array. -/
def vm_at (table : SymbolTable) (pre rest : List Instruction) (stack : List Value) : VM :=
  { code := { code := pre ++ rest }, symtab := table, pc := (pre.length : Int), stack := stack }

mutual
/-- The ASTs the parser builds: Number, String, CellRef and Range leaves,
unary `MINUS` and `NOT`, the thirteen binary operators of the code generator,
`IF` calls with exactly three arguments and other calls with a null-terminated
argument chain, every operand and argument being such an AST itself (so no
`NULL` child and no `ArgList` node outside an argument chain). -/
def well_formed : ASTNode → Bool
  | ASTNode.number _ _ => true
  | ASTNode.string _ _ => true
  | ASTNode.cell_ref _ _ => true
  | ASTNode.range _ _ => true
  | ASTNode.unary_op op_token left _ =>
    (op_token = Token.MINUS || op_token = Token.NOT) && well_formed left
  | ASTNode.binary_op op_token left right _ =>
    (binary_opcode op_token).isSome && well_formed left && well_formed right
  | ASTNode.function_call func_token arguments _ =>
    if func_token = Token.IF then
      match arguments with
      | ASTNode.arg_list cond_node
          (ASTNode.arg_list true_node (ASTNode.arg_list false_node ASTNode.null _) _) _ =>
        well_formed cond_node && well_formed true_node && well_formed false_node
      | _ => false
    else args_well_formed arguments
  | _ => false
/-- A null-terminated argument chain of well-formed expressions. -/
def args_well_formed : ASTNode → Bool
  | ASTNode.null => true
  | ASTNode.arg_list expression next_arg _ => well_formed expression && args_well_formed next_arg
  | _ => false
end

/-- Whether the dispatch of `inst` on the machine `vm` calls vm_pop on an
empty stack: a binary operator with fewer than two values, `NEG`, `NOT` or
`JMP_IF_FALSE` with none, a `CALL` with fewer values than its `arg_count`. -/
def pops_empty (vm : VM) (inst : Instruction) : Bool :=
  match inst.opcode with
  | OpCode.OP_ADD | OpCode.OP_SUB | OpCode.OP_MUL | OpCode.OP_DIV | OpCode.OP_POW
  | OpCode.OP_GT | OpCode.OP_LT | OpCode.OP_GTE | OpCode.OP_LTE | OpCode.OP_EQ
  | OpCode.OP_NEQ | OpCode.OP_AND | OpCode.OP_OR => decide (vm.stack.length < 2)
  | OpCode.OP_NEG | OpCode.OP_NOT | OpCode.OP_JMP_IF_FALSE => decide (vm.stack.length < 1)
  | OpCode.OP_CALL =>
    match inst.operand with
    | Operand.func_call _ arg_count => decide (vm.stack.length < arg_count.toNat)
    | _ => false
  | _ => false

/-- The machine stands on an instruction in front of index `bound` that finds
on the stack every value it pops. -/
def step_ok (bound : Nat) (vm : VM) : Prop :=
  0 ≤ vm.pc ∧ vm.pc.toNat < bound ∧
    ∃ inst, vm.code.code[vm.pc.toNat]? = some inst ∧ pops_empty vm inst = false

/-- The loop of vm_run leads from the first machine to the second, and every
machine it passes before the second satisfies `step_ok`. -/
inductive runs_to (pw : Rat → Rat → Rat) (bound : Nat) : VM → VM → Prop
  | refl (vm : VM) : runs_to pw bound vm vm
  | step (vm vm1 vm2 : VM) : step_ok bound vm → vm_step pw vm = VMStep.running vm1 →
      runs_to pw bound vm1 vm2 → runs_to pw bound vm vm2

/-- The loop of vm_run, started on the machine, is left after finitely many
turns, and every machine it passes satisfies `step_ok`. -/
inductive runs_out (pw : Rat → Rat → Rat) (bound : Nat) : VM → Prop
  | finish (vm : VM) (r : VMResult) : step_ok bound vm → vm_step pw vm = VMStep.finished r →
      runs_out pw bound vm
  | step (vm vm1 : VM) : step_ok bound vm → vm_step pw vm = VMStep.running vm1 →
      runs_out pw bound vm1 → runs_out pw bound vm

/-- What the run over the segment `seg` does, started in front of it on the
stack `stack`: it is left inside the segment, or it reaches the end of the
segment with a stack that satisfies `good`; no machine on the way pops an
empty stack. -/
def runs_over (pw : Rat → Rat → Rat) (table : SymbolTable) (bound : Nat)
    (pre seg post : List Instruction) (stack : List Value) (good : List Value → Prop) : Prop :=
  runs_out pw bound (vm_at table pre (seg ++ post) stack) ∨
  ∃ mid, good mid ∧
    runs_to pw bound (vm_at table pre (seg ++ post) stack) (vm_at table (pre ++ seg) post mid)

/-- The run over the code of a node, wherever the code lies in front of index
`bound`: it is left inside the code, or it reaches the end of the code with
one value more on the stack; no machine on the way pops an empty stack. -/
def runs_clean (pw : Rat → Rat → Rat) (table : SymbolTable) (bound : Nat)
    (node : ASTNode) : Prop :=
  ∀ (pre post seg : List Instruction) (stack : List Value),
    layout node pre.length = some seg → pre.length + seg.length ≤ bound →
    runs_over pw table bound pre seg post stack (fun mid => ∃ v, mid = v :: stack)

/-- The formula `IF(A1 > 2, "yes", SUM(A1:B2, 3))`. -/
def formula_if_with_string : ASTNode :=
  ASTNode.function_call Token.IF
    (ASTNode.arg_list
      (ASTNode.binary_op Token.GT (ASTNode.cell_ref "A1" 1) (ASTNode.number 2 1) 1)
      (ASTNode.arg_list (ASTNode.string "yes" 1)
        (ASTNode.arg_list
          (ASTNode.function_call Token.SUM
            (ASTNode.arg_list (ASTNode.range "A1:B2" 1)
              (ASTNode.arg_list (ASTNode.number 3 1) ASTNode.null 1) 1) 1)
          ASTNode.null 1) 1) 1) 1

/-- C9.  A `Range` node makes the traversal append at most one diagnostic and
leaves the table alone.  When the text parses (sscanf converts all four
items) the diagnostic "Invalid range: '<text>'." is appended exactly when
`col_start > col_end` or `row_start > row_end`, and nothing is appended
otherwise; when the text does not parse, "Invalid range format: '<text>'." is
appended.  `A3:A1` and `A1:A3` parse, the first is rejected and the second
accepted. -/
theorem check_range_diagnostics (range_str : String) (line : Int) (ctx : SemanticContext) :
    ∃ appended : List Error,
      (semantic_traverse (ASTNode.range range_str line) ctx).errors.errors =
        ctx.errors.errors ++ appended ∧
      (semantic_traverse (ASTNode.range range_str line) ctx).error_count =
        ctx.error_count + appended.length ∧
      (semantic_traverse (ASTNode.range range_str line) ctx).table = ctx.table ∧
      appended.length ≤ 1 ∧
      (match sscanf_range range_str with
       | some (col_start, row_start, col_end, row_end) =>
         (appended =
            [{ type := ErrorType.ERROR_SEMANTIC, line := line, column := 0,
               message := snprintf 256 ("Invalid range: '" ++ range_str ++ "'."),
               suggestion := some "Start of range must be top-left of end of range." }] ↔
           (col_start > col_end ∨ row_start > row_end)) ∧
         (appended = [] ↔ ¬ (col_start > col_end ∨ row_start > row_end))
       | none =>
         appended =
           [{ type := ErrorType.ERROR_SEMANTIC, line := line, column := 0,
              message := snprintf 256 ("Invalid range format: '" ++ range_str ++ "'."),
              suggestion := some "Expected format like A1:B10." }]) ∧
      sscanf_range "A3:A1" = some ('A', 3, 'A', 1) ∧
      sscanf_range "A1:A3" = some ('A', 1, 'A', 3) ∧
      sscanf_range "A1-A3" = none := by
  simp only [semantic_traverse, check_range]
  cases hp : sscanf_range range_str with
  | none =>
    refine ⟨[{ type := ErrorType.ERROR_SEMANTIC, line := line, column := 0,
               message := snprintf 256 ("Invalid range format: '" ++ range_str ++ "'."),
               suggestion := some "Expected format like A1:B10." }],
      ?_, ?_, rfl, ?_, rfl, by decide, by decide, by decide⟩ <;> simp [error_report]
  | some q =>
    obtain ⟨col_start, row_start, col_end, row_end⟩ := q
    by_cases hc : col_start > col_end ∨ row_start > row_end
    · refine ⟨[{ type := ErrorType.ERROR_SEMANTIC, line := line, column := 0,
                 message := snprintf 256 ("Invalid range: '" ++ range_str ++ "'."),
                 suggestion := some "Start of range must be top-left of end of range." }],
        ?_, ?_, ?_, ?_, ⟨?_, ?_⟩, by decide, by decide, by decide⟩
      · simp only [hc, if_true, error_report]
      · simp [hc]
      · simp [hc]
      · simp
      · exact ⟨fun _ => hc, fun _ => rfl⟩
      · simp [hc]
    · refine ⟨[], ?_, ?_, ?_, ?_, ⟨?_, ?_⟩, by decide, by decide, by decide⟩
      · simp [hc]
      · simp [hc]
      · simp [hc]
      · simp
      · simp [hc]
      · simp [hc]

/-- C2, evaluated at the formula `IF(1, 1, 2) + 3`.  The generated code is
`PUSH 1, JMP_IF_FALSE 4, PUSH 1, JMP 5, PUSH 2, PUSH 3, ADD, HALT`; the VM
returns 4 on it, as the interpreter does.  fold_constants folds the triple at
indices 4 to 6 (`PUSH 2, PUSH 3, ADD`) although index 5 is the target of the
`JMP`, and on the optimized code the VM returns 1. -/
theorem optimizer_changes_if_plus_constant :
    (generate_code formula_if_plus).bind
        (fun code => vm_execute pow_unused 100 (vm_create code symtab_create)) =
      some (VMResult.value (Value.number 4)) ∧
    (generate_code formula_if_plus).bind
        (fun code =>
          vm_execute pow_unused 100 (vm_create (optimize_bytecode code) symtab_create)) =
      some (VMResult.value (Value.number 1)) ∧
    interpreter_evaluate pow_unused symtab_create formula_if_plus = Value.number 4 := by
  decide!

/-- C3 fails at `1 + 2 * 3`: after the optimizer the instructions other than
`HALT` and `NOP` are `PUSH 1, PUSH 6, ADD`, not a single `PUSH 7`. -/
theorem constant_folding_stops_after_one_level :
    (generate_code formula_one_plus_two_times_three).map
        (fun code => code_body (optimize_bytecode code)) =
      some [{ opcode := OpCode.OP_PUSH, line := 1, operand := Operand.number 1 },
            { opcode := OpCode.OP_PUSH, line := 1, operand := Operand.number 6 },
            { opcode := OpCode.OP_ADD, line := 1, operand := Operand.unset }] := by
  decide!

/-- C6, evaluated at scenario 6 of the spec: with `A1` depending on `B1`, the
analysis of `B1 = A1` returns the count 2 and leaves exactly one diagnostic, of
kind Semantic, whose message is "Circular dependency detected: B1 -> A1 -> A1"
and not "Circular dependency detected: B1 -> A1 -> B1". -/
theorem circular_message_scenario_six :
    (table_a1_reads_b1.bind
        (fun r => semantic_analysis 10 (ASTNode.cell_ref "A1" 1) r.2.1 r.2.2 "B1")).map
        (fun r => (r.1, r.2.2)) =
      some (2,
        { errors :=
            [{ type := ErrorType.ERROR_SEMANTIC, line := 0, column := 0,
               message := "Circular dependency detected: B1 -> A1 -> A1",
               suggestion := some "Remove the dependency." }],
          error_count := 1, message_buffer := "" }) ∧
    "Circular dependency detected: B1 -> A1 -> A1" ≠
      "Circular dependency detected: B1 -> A1 -> B1" := by
  decide!

/-- C8 fails at the reference `Z9` over the empty table: the one diagnostic
appended carries the message "Undefined cell reference: 'Z9'." with a final
period, so no diagnostic carries the message "Undefined cell reference: 'Z9'". -/
theorem undefined_reference_message_ends_with_period :
    (semantic_traverse (ASTNode.cell_ref "Z9" 1) empty_context).errors.errors =
      [{ type := ErrorType.ERROR_SEMANTIC, line := 1, column := 0,
         message := "Undefined cell reference: 'Z9'.",
         suggestion := some "Ensure this cell has a value." }] ∧
    ¬ ∃ d ∈ (semantic_traverse (ASTNode.cell_ref "Z9" 1) empty_context).errors.errors,
        d.message = "Undefined cell reference: 'Z9'" := by
  decide!

/-! ## Symbol table: what a lookup depends on -/

theorem get_cell_loop_keys (entries entries1 : List CellEntry)
    (hkeys : entries.map CellEntry.key = entries1.map CellEntry.key) (capacity : Nat)
    (key : String) (fuel : Nat) :
    ∀ index, get_cell_loop fuel entries capacity key index =
      get_cell_loop fuel entries1 capacity key index := by
  induction fuel with
  | zero => intro index; rfl
  | succ fuel ih =>
    intro index
    have h : (entries[index]?).map CellEntry.key = (entries1[index]?).map CellEntry.key := by
      have := congrArg (fun l => l[index]?) hkeys
      simpa using this
    simp only [get_cell_loop]
    cases h1 : entries[index]? with
    | none =>
      cases h2 : entries1[index]? with
      | none => rfl
      | some e2 => simp [h1, h2] at h
    | some e1 =>
      cases h2 : entries1[index]? with
      | none => simp [h1, h2] at h
      | some e2 =>
        have hk : e1.key = e2.key := by simpa [h1, h2] using h
        simp only [hk, ih]

theorem get_cell_loop_found (entries : List CellEntry) (capacity : Nat) (key : String)
    (fuel : Nat) :
    ∀ index slot, get_cell_loop fuel entries capacity key index = some (some slot) →
      ∃ e, entries[slot]? = some e ∧ e.key = some key := by
  induction fuel with
  | zero => intro index slot h; simp [get_cell_loop] at h
  | succ fuel ih =>
    intro index slot h
    simp only [get_cell_loop] at h
    cases h1 : entries[index]? with
    | none => simp [h1] at h
    | some e =>
      simp only [h1] at h
      by_cases hn : e.key = none
      · simp [hn] at h
      · by_cases hk : e.key = some key
        · simp only [hn, hk, if_true, if_false] at h
          have : index = slot := by simpa using h
          subst this
          exact ⟨e, h1, hk⟩
        · simp only [hn, hk, if_false] at h
          exact ih _ _ h

/-- The slot symtab_get_cell answers holds the key asked for. -/
theorem symtab_get_cell_found (table : SymbolTable) (key : String) (slot : Nat)
    (h : symtab_get_cell table key = some slot) :
    ∃ e, table.entries[slot]? = some e ∧ e.key = some key ∧ table.entry slot = e := by
  unfold symtab_get_cell at h
  by_cases hc : table.count = 0
  · simp [hc] at h
  · simp only [hc, if_false] at h
    cases hl : get_cell_loop table.capacity table.entries table.capacity key
        (hash_string key &&& (table.capacity - 1)) with
    | none => simp [hl] at h
    | some r =>
      simp only [hl, Option.getD_some] at h
      subst h
      obtain ⟨e, he, hk⟩ := get_cell_loop_found _ _ _ _ _ _ hl
      refine ⟨e, he, hk, ?_⟩
      simp [SymbolTable.entry, List.getD, he]

/-- A lookup depends on the table only through `count` being zero or not, the
capacity and the keys of the slots. -/
theorem symtab_get_cell_congr (table table1 : SymbolTable)
    (hcount : table.count = 0 ↔ table1.count = 0) (hcap : table.capacity = table1.capacity)
    (hkeys : table.entries.map CellEntry.key = table1.entries.map CellEntry.key)
    (key : String) : symtab_get_cell table key = symtab_get_cell table1 key := by
  unfold symtab_get_cell
  by_cases hc : table.count = 0
  · simp [hc, hcount.mp hc]
  · have hc1 : ¬ table1.count = 0 := fun h => hc (hcount.mpr h)
    simp only [hc, hc1, if_false, ← hcap]
    rw [get_cell_loop_keys _ _ hkeys]

theorem map_key_set (entries : List CellEntry) (e1 : CellEntry) :
    ∀ (slot : Nat) (e : CellEntry), entries[slot]? = some e → e1.key = e.key →
      (entries.set slot e1).map CellEntry.key = entries.map CellEntry.key := by
  induction entries with
  | nil => intro slot e h; simp at h
  | cons a rest ih =>
    intro slot e h hk
    cases slot with
    | zero =>
      simp at h
      subst h
      simp [hk]
    | succ n =>
      simp at h
      simp [ih n e h hk]

theorem entry_set_self (table : SymbolTable) (slot : Nat) (e e1 : CellEntry)
    (h : table.entries[slot]? = some e) :
    ({ table with entries := table.entries.set slot e1 } : SymbolTable).entry slot = e1 := by
  have hlt : slot < table.entries.length := by
    rcases Nat.lt_or_ge slot table.entries.length with hl | hl
    · exact hl
    · rw [List.getElem?_eq_none hl] at h; cases h
  simp [SymbolTable.entry, List.getD, List.getElem?_set, hlt]

theorem entry_set_other (table : SymbolTable) (slot other : Nat) (e1 : CellEntry)
    (h : other ≠ slot) :
    ({ table with entries := table.entries.set slot e1 } : SymbolTable).entry other =
      table.entry other := by
  simp [SymbolTable.entry, List.getD, List.getElem?_set, Ne.symm h]

/-- When the cell is in the table, symtab_add_dependency keeps the count, the
capacity and the keys of the slots, and afterwards the dependency is in the
list of the cell. -/
theorem symtab_add_dependency_present (table : SymbolTable) (this_cell_key dep : String)
    (slot : Nat) (h : symtab_get_cell table this_cell_key = some slot) :
    (symtab_add_dependency table this_cell_key dep).count = table.count ∧
    (symtab_add_dependency table this_cell_key dep).capacity = table.capacity ∧
    (symtab_add_dependency table this_cell_key dep).entries.map CellEntry.key =
      table.entries.map CellEntry.key ∧
    (∀ other, other ≠ slot →
      (symtab_add_dependency table this_cell_key dep).entry other = table.entry other) ∧
    (symtab_add_dependency table this_cell_key dep).entry slot =
      { table.entry slot with
        dependencies :=
          if dep ∈ (table.entry slot).dependencies then (table.entry slot).dependencies
          else (table.entry slot).dependencies ++ [dep] } := by
  obtain ⟨e, he, hk, hentry⟩ := symtab_get_cell_found table this_cell_key slot h
  unfold symtab_add_dependency
  simp only [h]
  by_cases hmem : dep ∈ (table.entry slot).dependencies
  · simp [hmem]
  · simp only [hmem, if_false]
    refine ⟨trivial, trivial, ?_, ?_, ?_⟩
    · exact map_key_set _ _ slot e he (by simp [hentry])
    · intro other ho
      exact entry_set_other table slot other _ ho
    · exact entry_set_self table slot e _ he

/-- After symtab_add_dependency on a present cell every lookup answers as
before. -/
theorem symtab_add_dependency_get (table : SymbolTable) (this_cell_key dep : String)
    (slot : Nat) (h : symtab_get_cell table this_cell_key = some slot) (key : String) :
    symtab_get_cell (symtab_add_dependency table this_cell_key dep) key =
      symtab_get_cell table key := by
  obtain ⟨hc, hcap, hkeys, _, _⟩ := symtab_add_dependency_present table this_cell_key dep slot h
  exact symtab_get_cell_congr _ _ (by rw [hc]) hcap hkeys key

/-- C8, amended.  For a `CellRef` node visited while the target cell is in the
table (semantic_analysis traverses only after it has found or created the
target): if the referenced cell is absent or not defined, exactly one
diagnostic is appended, of kind Semantic, with the message
"Undefined cell reference: '<key>'." (final period included, cut by snprintf
to 255 characters) and the suggestion "Ensure this cell has a value.", and the
table is left as it is; otherwise nothing is appended and the referenced key
is in the dependency list of the target afterwards. -/
theorem check_cell_ref_effect (ref : String) (line : Int) (ctx : SemanticContext)
    (htarget : symtab_get_cell ctx.table ctx.this_cell_ref ≠ none) :
    if cell_defined ctx.table ref then
      (semantic_traverse (ASTNode.cell_ref ref line) ctx).errors = ctx.errors ∧
      (semantic_traverse (ASTNode.cell_ref ref line) ctx).error_count = ctx.error_count ∧
      ∃ slot,
        symtab_get_cell (semantic_traverse (ASTNode.cell_ref ref line) ctx).table
          ctx.this_cell_ref = some slot ∧
        ref ∈ ((semantic_traverse (ASTNode.cell_ref ref line) ctx).table.entry slot).dependencies
    else
      (semantic_traverse (ASTNode.cell_ref ref line) ctx).errors.errors =
        ctx.errors.errors ++
          [{ type := ErrorType.ERROR_SEMANTIC, line := line, column := 0,
             message := snprintf 256 ("Undefined cell reference: '" ++ ref ++ "'."),
             suggestion := some "Ensure this cell has a value." }] ∧
      (semantic_traverse (ASTNode.cell_ref ref line) ctx).error_count = ctx.error_count + 1 ∧
      (semantic_traverse (ASTNode.cell_ref ref line) ctx).table = ctx.table := by
  simp only [semantic_traverse, check_cell_ref]
  by_cases hd : cell_defined ctx.table ref = true
  · simp only [hd, if_true]
    cases hs : symtab_get_cell ctx.table ctx.this_cell_ref with
    | none => exact absurd hs htarget
    | some slot =>
      obtain ⟨_, _, _, _, hslot⟩ := symtab_add_dependency_present ctx.table ctx.this_cell_ref ref slot hs
      refine ⟨trivial, trivial, slot, ?_, ?_⟩
      · rw [symtab_add_dependency_get _ _ _ slot hs]; exact hs
      · rw [hslot]
        by_cases hmem : ref ∈ (ctx.table.entry slot).dependencies
        · simp [hmem]
        · simp [hmem]
  · simp [hd, error_report]

/-- C8, amended, at the reference `A1` met while `B1` is analysed over a table
holding both: nothing is reported and `A1` becomes a dependency of `B1`. -/
theorem check_cell_ref_effect_witness :
    symtab_get_cell context_a1_b1.table context_a1_b1.this_cell_ref ≠ none ∧
    ((semantic_traverse (ASTNode.cell_ref "A1" 1) context_a1_b1).errors = context_a1_b1.errors ∧
     (semantic_traverse (ASTNode.cell_ref "A1" 1) context_a1_b1).error_count =
       context_a1_b1.error_count ∧
     ∃ slot,
       symtab_get_cell (semantic_traverse (ASTNode.cell_ref "A1" 1) context_a1_b1).table
         context_a1_b1.this_cell_ref = some slot ∧
       "A1" ∈ ((semantic_traverse (ASTNode.cell_ref "A1" 1) context_a1_b1).table.entry
         slot).dependencies) := by
  have hdef : cell_defined context_a1_b1.table "A1" = true := by decide!
  have h := check_cell_ref_effect "A1" 1 context_a1_b1 (by decide!)
  rw [if_pos hdef] at h
  exact ⟨by decide!, h⟩

/-! ## Constant folding of a single operator -/

/-- C3, amended.  For an AST that is a Number literal, or one of `PLUS`,
`MINUS`, `MULTIPLY`, `DIVIDE` applied to two Number literals (the divisor not
zero), generate_code followed by optimize_bytecode yields a code array whose
instructions other than `HALT` and `NOP` are exactly one `PUSH`, of the value
of the expression. -/
theorem single_operator_folds_to_one_push (ast : ASTNode) (v : Rat)
    (hconst : constant_value ast = some v) (hshallow : at_most_one_operator ast = true) :
    ∃ code line, generate_code ast = some code ∧
      code_body (optimize_bytecode code) =
        [{ opcode := OpCode.OP_PUSH, line := line, operand := Operand.number v }] := by
  cases ast with
  | number n l =>
    simp only [constant_value, Option.some.injEq] at hconst
    subst hconst
    exact ⟨_, l, by simp [generate_code, generate_expr, emit_push, emit_op, write_instruction,
      create_code_array]; rfl, by
      simp [code_body, optimize_bytecode, fold_constants, CodeArray.count, fold_constants_loop]⟩
  | binary_op op left right line =>
    cases left <;> simp [at_most_one_operator] at hshallow
    cases right <;> simp [at_most_one_operator] at hshallow
    rename_i a la b lb
    simp only [constant_value] at hconst
    cases op <;> simp at hconst
    · subst hconst
      exact ⟨_, la, by simp [generate_code, generate_expr, emit_push, emit_op, write_instruction,
        create_code_array, binary_opcode]; rfl, by
        simp [code_body, optimize_bytecode, fold_constants, CodeArray.count, fold_constants_loop,
          fold_result, Operand.as_number]⟩
    · subst hconst
      exact ⟨_, la, by simp [generate_code, generate_expr, emit_push, emit_op, write_instruction,
        create_code_array, binary_opcode]; rfl, by
        simp [code_body, optimize_bytecode, fold_constants, CodeArray.count, fold_constants_loop,
          fold_result, Operand.as_number]⟩
    · subst hconst
      exact ⟨_, la, by simp [generate_code, generate_expr, emit_push, emit_op, write_instruction,
        create_code_array, binary_opcode]; rfl, by
        simp [code_body, optimize_bytecode, fold_constants, CodeArray.count, fold_constants_loop,
          fold_result, Operand.as_number]⟩
    · obtain ⟨hb, hv⟩ := hconst
      subst hv
      exact ⟨_, la, by simp [generate_code, generate_expr, emit_push, emit_op, write_instruction,
        create_code_array, binary_opcode]; rfl, by
        simp [code_body, optimize_bytecode, fold_constants, CodeArray.count, fold_constants_loop,
          fold_result, Operand.as_number, hb]⟩
  | _ => simp [constant_value] at hconst

/-- C3, amended, at `2 * 3`: the optimized code keeps the single `PUSH 6`. -/
theorem single_operator_folds_to_one_push_witness :
    constant_value (ASTNode.binary_op Token.MULTIPLY (ASTNode.number 2 1) (ASTNode.number 3 1) 1)
      = some 6 ∧
    at_most_one_operator
      (ASTNode.binary_op Token.MULTIPLY (ASTNode.number 2 1) (ASTNode.number 3 1) 1) = true ∧
    ∃ code line,
      generate_code (ASTNode.binary_op Token.MULTIPLY (ASTNode.number 2 1) (ASTNode.number 3 1) 1)
        = some code ∧
      code_body (optimize_bytecode code) =
        [{ opcode := OpCode.OP_PUSH, line := line, operand := Operand.number 6 }] :=
  ⟨by decide!, by decide!,
    single_operator_folds_to_one_push _ 6 (by decide!) (by decide!)⟩

/-! ## The cycle check: fuel, termination, meaning -/

theorem check_dep_loop_mono (rec1 rec2 : String → ErrorSystem → Option (Bool × ErrorSystem))
    (hrec : ∀ d e r, rec1 d e = some r → rec2 d e = some r) (key : String) :
    ∀ (deps : List String) (errors : ErrorSystem) (r : Bool × ErrorSystem),
      check_dep_loop rec1 key deps errors = some r →
      check_dep_loop rec2 key deps errors = some r := by
  intro deps
  induction deps with
  | nil => intro errors r h; simpa [check_dep_loop] using h
  | cons d rest ih =>
    intro errors r h
    simp only [check_dep_loop] at h ⊢
    cases h1 : rec1 d errors with
    | none => simp [h1] at h
    | some x =>
      rw [hrec d errors x h1]
      rw [h1] at h
      obtain ⟨b, e1⟩ := x
      cases b with
      | true => simpa using h
      | false => exact ih e1 r (by simpa using h)

/-- More fuel does not change an answer already given. -/
theorem check_dep_recursive_mono (table : SymbolTable) (origin : String) (fuel : Nat) :
    ∀ (via : String) (errors : ErrorSystem) (r : Bool × ErrorSystem),
      check_dep_recursive fuel table origin via errors = some r →
      check_dep_recursive (fuel + 1) table origin via errors = some r := by
  induction fuel with
  | zero => intro via errors r h; simp [check_dep_recursive] at h
  | succ fuel ih =>
    intro via errors r h
    rw [check_dep_recursive] at h ⊢
    by_cases heq : origin = via
    · simpa [heq] using h
    · simp only [heq, if_false] at h ⊢
      cases hg : symtab_get_cell table via with
      | none => simpa [hg] using h
      | some slot =>
        simp only [hg] at h ⊢
        by_cases hz : (table.entry slot).dep_count = 0
        · simpa [hz] using h
        · simp only [hz, if_false] at h ⊢
          exact check_dep_loop_mono _ _ (fun d e r hr => ih d e r hr) _ _ _ _ h

theorem check_dep_recursive_mono_le (table : SymbolTable) (origin : String) (fuel fuel1 : Nat)
    (hle : fuel ≤ fuel1) (via : String) (errors : ErrorSystem) (r : Bool × ErrorSystem)
    (h : check_dep_recursive fuel table origin via errors = some r) :
    check_dep_recursive fuel1 table origin via errors = some r := by
  induction hle with
  | refl => exact h
  | step _ ih => exact check_dep_recursive_mono _ _ _ _ _ _ ih

theorem check_dep_loop_total (rec1 : String → ErrorSystem → Option (Bool × ErrorSystem))
    (key : String) :
    ∀ (deps : List String), (∀ d ∈ deps, ∀ e, ∃ r, rec1 d e = some r) →
      ∀ errors, ∃ r, check_dep_loop rec1 key deps errors = some r := by
  intro deps
  induction deps with
  | nil => intro _ errors; exact ⟨_, rfl⟩
  | cons d rest ih =>
    intro hall errors
    obtain ⟨⟨b, e1⟩, hr⟩ := hall d (List.mem_cons_self _ _) errors
    simp only [check_dep_loop, hr]
    cases b with
    | true => exact ⟨_, rfl⟩
    | false => exact ih (fun d1 hd1 => hall d1 (List.mem_cons_of_mem _ hd1)) e1

/-- Distinct keys that are all found in a table are no more than its slots. -/
theorem present_keys_bounded (table : SymbolTable) (visited : List String)
    (hnodup : visited.Nodup) (hpresent : ∀ x ∈ visited, symtab_get_cell table x ≠ none) :
    visited.length ≤ table.entries.length := by
  have hsub : visited.map some ⊆ table.entries.map CellEntry.key := by
    intro k hk
    obtain ⟨x, hx, rfl⟩ := List.mem_map.mp hk
    cases hg : symtab_get_cell table x with
    | none => exact absurd hg (hpresent x hx)
    | some slot =>
      obtain ⟨e, he, hkey, _⟩ := symtab_get_cell_found table x slot hg
      exact List.mem_map.mpr ⟨e, List.getElem?_mem he, hkey⟩
  have hnd : (visited.map some).Nodup := hnodup.map (Option.some_injective _)
  have := (List.subperm_of_subset hnd hsub).length_le
  simpa using this

/-- Termination of check_dep_recursive on a graph without a cycle avoiding
`origin`.  `visited` lists the cells on the recursion stack: distinct, found in
the table, other than `origin`, each reaching `via` through edges that avoid
`origin`.  They cannot outnumber the slots, which bounds the depth. -/
theorem check_dep_recursive_total_aux (table : SymbolTable) (origin : String)
    (hacyclic : no_cycle_avoiding table origin) (n : Nat) :
    ∀ (via : String) (errors : ErrorSystem) (visited : List String),
      visited.Nodup →
      (∀ x ∈ visited, symtab_get_cell table x ≠ none) →
      (via ≠ origin →
        ∀ x ∈ visited, Relation.TransGen (depends_on_avoiding table origin) x via) →
      table.entries.length + 1 ≤ visited.length + n →
      ∃ r, check_dep_recursive (n + 1) table origin via errors = some r := by
  induction n with
  | zero =>
    intro via errors visited hnodup hpresent hpath hlen
    rw [check_dep_recursive]
    by_cases heq : origin = via
    · exact ⟨(true, errors), by simp [heq]⟩
    · simp only [heq, if_false]
      cases hg : symtab_get_cell table via with
      | none => exact ⟨(false, errors), rfl⟩
      | some slot =>
        exfalso
        have hne : via ≠ origin := fun h => heq h.symm
        have hnotin : via ∉ visited := fun hin => hacyclic via (hpath hne via hin)
        have hb := present_keys_bounded table (via :: visited)
          (List.nodup_cons.mpr ⟨hnotin, hnodup⟩)
          (by
            intro x hx
            rcases List.mem_cons.mp hx with rfl | hx
            · simp [hg]
            · exact hpresent x hx)
        simp at hb
        omega
  | succ m ih =>
    intro via errors visited hnodup hpresent hpath hlen
    rw [check_dep_recursive]
    by_cases heq : origin = via
    · exact ⟨(true, errors), by simp [heq]⟩
    · simp only [heq, if_false]
      cases hg : symtab_get_cell table via with
      | none => exact ⟨(false, errors), rfl⟩
      | some slot =>
        simp only []
        by_cases hz : (table.entry slot).dep_count = 0
        · exact ⟨(false, errors), by simp [hz]⟩
        · simp only [hz, if_false]
          have hne : via ≠ origin := fun h => heq h.symm
          have hnotin : via ∉ visited := fun hin => hacyclic via (hpath hne via hin)
          apply check_dep_loop_total
          intro d hd e
          apply ih d e (via :: visited) (List.nodup_cons.mpr ⟨hnotin, hnodup⟩)
          · intro x hx
            rcases List.mem_cons.mp hx with rfl | hx
            · simp [hg]
            · exact hpresent x hx
          · intro hdne x hx
            have hedge : depends_on_avoiding table origin via d :=
              ⟨hne, hdne, slot, hg, hd⟩
            rcases List.mem_cons.mp hx with rfl | hx
            · exact Relation.TransGen.single hedge
            · exact Relation.TransGen.tail (hpath hne x hx) hedge
          · simp only [List.length_cons]
            omega

/-- On a graph without a cycle avoiding `origin`, check_dep_recursive returns
for every fuel above the number of slots plus one. -/
theorem check_dep_recursive_total (table : SymbolTable) (origin : String)
    (hacyclic : no_cycle_avoiding table origin) (via : String) (errors : ErrorSystem)
    (fuel : Nat) (hfuel : table.entries.length + 2 ≤ fuel) :
    ∃ r, check_dep_recursive fuel table origin via errors = some r := by
  obtain ⟨r, hr⟩ := check_dep_recursive_total_aux table origin hacyclic
    (table.entries.length + 1) via errors [] List.nodup_nil (by simp) (by simp) (by simp)
  exact ⟨r, check_dep_recursive_mono_le _ _ _ _ hfuel _ _ _ hr⟩

theorem check_dep_loop_true (rec1 : String → ErrorSystem → Option (Bool × ErrorSystem))
    (key : String) :
    ∀ (deps : List String) (errors errors1 : ErrorSystem),
      check_dep_loop rec1 key deps errors = some (true, errors1) →
      ∃ d ∈ deps, ∃ e1 e2, rec1 d e1 = some (true, e2) := by
  intro deps
  induction deps with
  | nil => intro errors errors1 h; simp [check_dep_loop] at h
  | cons d rest ih =>
    intro errors errors1 h
    simp only [check_dep_loop] at h
    cases h1 : rec1 d errors with
    | none => simp [h1] at h
    | some x =>
      obtain ⟨b, e1⟩ := x
      cases b with
      | true => exact ⟨d, List.mem_cons_self _ _, errors, e1, h1⟩
      | false =>
        rw [h1] at h
        obtain ⟨d1, hd1, hr⟩ := ih e1 errors1 (by simpa using h)
        exact ⟨d1, List.mem_cons_of_mem _ hd1, hr⟩

theorem check_dep_loop_false (rec1 : String → ErrorSystem → Option (Bool × ErrorSystem))
    (key : String) :
    ∀ (deps : List String) (errors errors1 : ErrorSystem),
      check_dep_loop rec1 key deps errors = some (false, errors1) →
      ∀ d ∈ deps, ∃ e1 e2, rec1 d e1 = some (false, e2) := by
  intro deps
  induction deps with
  | nil => intro errors errors1 _ d hd; simp at hd
  | cons d rest ih =>
    intro errors errors1 h d1 hd1
    simp only [check_dep_loop] at h
    cases h1 : rec1 d errors with
    | none => simp [h1] at h
    | some x =>
      obtain ⟨b, e1⟩ := x
      rw [h1] at h
      cases b with
      | true => simp at h
      | false =>
        rcases List.mem_cons.mp hd1 with rfl | hd1
        · exact ⟨errors, e1, h1⟩
        · exact ih e1 errors1 (by simpa using h) d1 hd1

/-- An answer `1` of check_dep_recursive comes with a path to `origin`. -/
theorem check_dep_recursive_true (table : SymbolTable) (origin : String) (fuel : Nat) :
    ∀ (via : String) (errors errors1 : ErrorSystem),
      check_dep_recursive fuel table origin via errors = some (true, errors1) →
      reaches table via origin := by
  induction fuel with
  | zero => intro via errors errors1 h; simp [check_dep_recursive] at h
  | succ fuel ih =>
    intro via errors errors1 h
    rw [check_dep_recursive] at h
    by_cases heq : origin = via
    · subst heq; exact Relation.ReflTransGen.refl
    · simp only [heq, if_false] at h
      cases hg : symtab_get_cell table via with
      | none => simp [hg] at h
      | some slot =>
        simp only [hg] at h
        by_cases hz : (table.entry slot).dep_count = 0
        · simp [hz] at h
        · simp only [hz, if_false] at h
          obtain ⟨d, hd, e1, e2, hr⟩ := check_dep_loop_true _ _ _ _ _ h
          exact Relation.ReflTransGen.head ⟨slot, hg, hd⟩ (ih d e1 e2 hr)

/-- An answer `0` of check_dep_recursive excludes every path to `origin`. -/
theorem check_dep_recursive_false (table : SymbolTable) (origin : String) (fuel : Nat) :
    ∀ (via : String) (errors errors1 : ErrorSystem),
      check_dep_recursive fuel table origin via errors = some (false, errors1) →
      ¬ reaches table via origin := by
  induction fuel with
  | zero => intro via errors errors1 h; simp [check_dep_recursive] at h
  | succ fuel ih =>
    intro via errors errors1 h hreach
    rw [check_dep_recursive] at h
    by_cases heq : origin = via
    · simp [heq] at h
    · simp only [heq, if_false] at h
      rcases Relation.ReflTransGen.cases_head hreach with hsame | ⟨d, ⟨slot, hslot, hd⟩, hrest⟩
      · exact heq hsame.symm
      · simp only [hslot] at h
        by_cases hz : (table.entry slot).dep_count = 0
        · have : (table.entry slot).dependencies = [] := by
            simpa [CellEntry.dep_count] using hz
          rw [this] at hd
          simp at hd
        · simp only [hz, if_false] at h
          obtain ⟨e1, e2, hr⟩ := check_dep_loop_false _ _ _ _ _ h d hd
          exact ih d e1 e2 hr hrest

/-- The cycle check on a cycle that does not pass through `origin`: in the
table left by the analysis of `A1 = A1 + 1`, where `A1` depends on itself, the
check for `origin = B1` through `A1` never returns. -/
theorem check_dep_recursive_self_loop_diverges :
    ∀ (fuel : Nat) (errors : ErrorSystem),
      check_dep_recursive fuel table_a1_self "B1" "A1" errors = none := by
  intro fuel
  induction fuel with
  | zero => intro errors; rfl
  | succ fuel ih =>
    intro errors
    have hg : symtab_get_cell table_a1_self "A1" = some 7 := by decide!
    have hd : (table_a1_self.entry 7).dependencies = ["A1"] := by decide!
    have hne : ¬ ("B1" = "A1") := by decide
    rw [check_dep_recursive]
    simp only [hne, if_false, hg, CellEntry.dep_count, hd, check_dep_loop, ih]
    simp

/-- C4 fails on a cycle that does not pass through `origin`.  The analysis of
`A1 = A1 + 1` over the empty table reports the circle and leaves `A1`
depending on itself; in that table symtab_check_circular_dep for
`origin = B1` through `A1` does not return, whatever the fuel. -/
theorem symtab_check_circular_dep_diverges :
    (semantic_analysis 10 formula_a1_plus_one symtab_create error_system_create "A1").map
        (fun r => r.2.1) = some table_a1_self ∧
    ∀ fuel : Nat,
      symtab_check_circular_dep fuel table_a1_self "B1" "A1" error_system_create = none := by
  refine ⟨by decide!, fun fuel => ?_⟩
  simp [symtab_check_circular_dep, check_dep_recursive_self_loop_diverges]

/-- C4, amended.  On every table whose dependency graph has no cycle that
avoids `origin` (self-loops at `origin`, diamonds and cycles through `origin`
are allowed), symtab_check_circular_dep returns for every pair of keys: a
recursion depth of the number of slots plus two is enough. -/
theorem symtab_check_circular_dep_terminates (table : SymbolTable) (origin via : String)
    (errors : ErrorSystem) (hacyclic : no_cycle_avoiding table origin)
    (fuel : Nat) (hfuel : table.entries.length + 2 ≤ fuel) :
    ∃ r, symtab_check_circular_dep fuel table origin via errors = some r := by
  obtain ⟨⟨b, e1⟩, hr⟩ := check_dep_recursive_total table origin hacyclic via errors fuel hfuel
  unfold symtab_check_circular_dep
  rw [hr]
  cases b <;> exact ⟨_, rfl⟩

/-- C5.  On every table whose dependency graph has no cycle that avoids
`origin`, symtab_check_circular_dep returns, and it returns true if and only
if `origin` is reachable from `via` by following zero or more dependency
edges; in particular it returns true when `origin` equals `via`. -/
theorem symtab_check_circular_dep_iff_reaches (table : SymbolTable) (origin via : String)
    (errors : ErrorSystem) (hacyclic : no_cycle_avoiding table origin)
    (fuel : Nat) (hfuel : table.entries.length + 2 ≤ fuel) :
    ∃ r errors1, symtab_check_circular_dep fuel table origin via errors = some (r, errors1) ∧
      (r = true ↔ reaches table via origin) ∧ (origin = via → r = true) := by
  obtain ⟨⟨b, e1⟩, hr⟩ := check_dep_recursive_total table origin hacyclic via errors fuel hfuel
  unfold symtab_check_circular_dep
  rw [hr]
  cases b with
  | true =>
    exact ⟨true, _, rfl, Iff.intro (fun _ => check_dep_recursive_true _ _ _ _ _ _ hr)
      (fun _ => rfl), fun _ => rfl⟩
  | false =>
    have hnot := check_dep_recursive_false _ _ _ _ _ _ hr
    refine ⟨false, _, rfl, Iff.intro (fun h => by cases h) (fun h => absurd h hnot),
      fun h => ?_⟩
    subst h
    exact absurd Relation.ReflTransGen.refl hnot

/-- In the table of scenario 6 every dependency edge starts or ends at `B1`. -/
theorem table_a1_b1_cycle_no_edge_avoiding (a b : String) :
    ¬ depends_on_avoiding table_a1_b1_cycle "B1" a b := by
  rintro ⟨ha, hb, slot, hg, hd⟩
  obtain ⟨e, he, hk, hentry⟩ := symtab_get_cell_found _ _ _ hg
  rw [hentry] at hd
  have hall : ∀ e ∈ table_a1_b1_cycle.entries,
      e.key = none ∨ e.key = some "B1" ∨ (e.key = some "A1" ∧ e.dependencies = ["B1"]) := by
    decide!
  rcases hall e (List.getElem?_mem he) with h | h | ⟨_, h⟩
  · rw [h] at hk; cases hk
  · rw [h] at hk; exact ha (Option.some.inj hk).symm
  · rw [h] at hd; exact hb (by simpa using hd)

theorem table_a1_b1_cycle_acyclic : no_cycle_avoiding table_a1_b1_cycle "B1" := by
  intro k h
  cases h with
  | single h => exact table_a1_b1_cycle_no_edge_avoiding _ _ h
  | tail _ h => exact table_a1_b1_cycle_no_edge_avoiding _ _ h

/-- C4, amended, at scenario 6: the table has the cycle `B1 -> A1 -> B1`
through the origin `B1`, and the check through `A1` returns. -/
theorem symtab_check_circular_dep_terminates_witness :
    no_cycle_avoiding table_a1_b1_cycle "B1" ∧
    table_a1_b1_cycle.entries.length + 2 ≤ 10 ∧
    ∃ r, symtab_check_circular_dep 10 table_a1_b1_cycle "B1" "A1" error_system_create = some r :=
  ⟨table_a1_b1_cycle_acyclic, by decide!,
    symtab_check_circular_dep_terminates table_a1_b1_cycle "B1" "A1" error_system_create
      table_a1_b1_cycle_acyclic 10 (by decide!)⟩

/-- C5 at scenario 6, for the check of `B1` through `A1`. -/
theorem symtab_check_circular_dep_iff_reaches_witness :
    no_cycle_avoiding table_a1_b1_cycle "B1" ∧
    table_a1_b1_cycle.entries.length + 2 ≤ 12 ∧
    ∃ r errors1,
      symtab_check_circular_dep 12 table_a1_b1_cycle "B1" "A1" error_system_create =
        some (r, errors1) ∧
      (r = true ↔ reaches table_a1_b1_cycle "A1" "B1") ∧ ("B1" = "A1" → r = true) :=
  ⟨table_a1_b1_cycle_acyclic, by decide!,
    symtab_check_circular_dep_iff_reaches table_a1_b1_cycle "B1" "A1" error_system_create
      table_a1_b1_cycle_acyclic 12 (by decide!)⟩

/-! ## Symbol table: a lookup after an insertion -/

/-- The probe reaches a free slot `d` steps ahead, so it answers within
`d + 1` steps. -/
theorem find_entry_loop_reaches (entries : List CellEntry) (m : Nat)
    (hlen : entries.length = 2 ^ m) (key : String) (free : Nat)
    (hfree : ∃ e, entries[free]? = some e ∧ e.key = none) (d : Nat) :
    ∀ (fuel start : Nat), d + 1 ≤ fuel → start < 2 ^ m → (start + d) % 2 ^ m = free →
      ∃ slot, find_entry_loop fuel entries (2 ^ m) key start = some slot := by
  induction d with
  | zero =>
    intro fuel start hfuel hstart hd
    obtain ⟨e, he, hk⟩ := hfree
    have hs : start = free := by
      rw [Nat.add_zero, Nat.mod_eq_of_lt hstart] at hd; exact hd
    subst hs
    obtain ⟨f, rfl⟩ : ∃ f, fuel = f + 1 := ⟨fuel - 1, by omega⟩
    exact ⟨start, by simp [find_entry_loop, he, hk]⟩
  | succ d ih =>
    intro fuel start hfuel hstart hd
    obtain ⟨f, rfl⟩ : ∃ f, fuel = f + 1 := ⟨fuel - 1, by omega⟩
    have hlt : start < entries.length := by rw [hlen]; exact hstart
    simp only [find_entry_loop, List.getElem?_eq_getElem hlt]
    by_cases h1 : entries[start].key = none
    · exact ⟨start, by simp [h1]⟩
    · by_cases h2 : entries[start].key = some key
      · exact ⟨start, by simp [h2]⟩
      · simp only [h1, h2, if_false]
        rw [Nat.and_pow_two_sub_one_eq_mod]
        apply ih f _ (by omega) (Nat.mod_lt _ (Nat.two_pow_pos m))
        rw [Nat.mod_add_mod]
        rw [← hd]
        congr 1
        omega

/-- In an array of `2 ^ m` slots one of which is free, find_entry's probe
answers within `capacity` steps. -/
theorem find_entry_loop_wf (entries : List CellEntry) (m : Nat)
    (hlen : entries.length = 2 ^ m) (hroom : occupied entries < entries.length) (key : String)
    (start : Nat) (hstart : start < 2 ^ m) :
    ∃ slot, find_entry_loop (2 ^ m) entries (2 ^ m) key start = some slot := by
  have hex : ∃ e ∈ entries, e.key = none := by
    by_contra hno
    have hall : ∀ e ∈ entries, (fun e : CellEntry => e.key.isSome) e = true := by
      intro e he
      cases hk : e.key with
      | none => exact absurd ⟨e, he, hk⟩ hno
      | some k => simp [hk]
    have := List.countP_eq_length.mpr hall
    unfold occupied at hroom
    omega
  obtain ⟨e, he, hk⟩ := hex
  obtain ⟨free, hfree⟩ := List.mem_iff_getElem?.mp he
  have hfl : free < 2 ^ m := by
    rw [← hlen]
    rcases Nat.lt_or_ge free entries.length with h | h
    · exact h
    · rw [List.getElem?_eq_none h] at hfree; cases hfree
  have hpos := Nat.two_pow_pos m
  refine find_entry_loop_reaches entries m hlen key free ⟨e, hfree, hk⟩
    ((free + 2 ^ m - start) % 2 ^ m) _ start ?_ hstart ?_
  · have := Nat.mod_lt (free + 2 ^ m - start) hpos
    omega
  · rw [Nat.add_mod_mod]
    have : start + (free + 2 ^ m - start) = free + 2 ^ m := by omega
    rw [this, Nat.add_mod_right, Nat.mod_eq_of_lt hfl]

/-- The slot find_entry's probe answers is inside the array and is free or
holds the key. -/
theorem find_entry_loop_slot (entries : List CellEntry) (capacity : Nat) (key : String)
    (fuel : Nat) :
    ∀ start slot, find_entry_loop fuel entries capacity key start = some slot →
      ∃ e, entries[slot]? = some e ∧ (e.key = none ∨ e.key = some key) := by
  induction fuel with
  | zero => intro start slot h; simp [find_entry_loop] at h
  | succ fuel ih =>
    intro start slot h
    simp only [find_entry_loop] at h
    cases h1 : entries[start]? with
    | none => simp [h1] at h
    | some e =>
      simp only [h1] at h
      by_cases hn : e.key = none
      · simp only [hn, if_true, Option.some.injEq] at h
        subst h
        exact ⟨e, h1, Or.inl hn⟩
      · by_cases hk : e.key = some key
        · simp [hk] at h
          subst h
          exact ⟨e, h1, Or.inr hk⟩
        · simp only [hn, hk, if_false] at h
          exact ih _ _ h

/-- Once the key has been written into the slot find_entry answered, the probe
of symtab_get_cell walks the same slots and answers that slot. -/
theorem get_cell_loop_after_write (entries : List CellEntry) (capacity : Nat) (key : String)
    (e1 : CellEntry) (hkey : e1.key = some key) (fuel : Nat) :
    ∀ start slot, find_entry_loop fuel entries capacity key start = some slot →
      get_cell_loop fuel (entries.set slot e1) capacity key start = some (some slot) := by
  induction fuel with
  | zero => intro start slot h; simp [find_entry_loop] at h
  | succ fuel ih =>
    intro start slot h
    obtain ⟨es, hes, _⟩ := find_entry_loop_slot _ _ _ _ _ _ h
    have hslot : slot < entries.length := by
      rcases Nat.lt_or_ge slot entries.length with hl | hl
      · exact hl
      · rw [List.getElem?_eq_none hl] at hes; cases hes
    simp only [find_entry_loop] at h
    simp only [get_cell_loop]
    cases h1 : entries[start]? with
    | none => simp [h1] at h
    | some e =>
      simp only [h1] at h
      by_cases hst : start = slot
      · subst hst
        simp [List.getElem?_set, hslot, hkey]
      · have hother : (entries.set slot e1)[start]? = some e := by
          rw [List.getElem?_set_ne (Ne.symm hst)]; exact h1
        rw [hother]
        by_cases hn : e.key = none
        · simp only [hn, if_true, Option.some.injEq] at h
          exact absurd h hst
        · by_cases hk : e.key = some key
          · simp [hk] at h
            exact absurd h hst
          · simp only [hn, hk, if_false] at h ⊢
            exact ih _ _ h

theorem countP_set_le {α : Type} (p : α → Bool) (x : α) :
    ∀ (l : List α) (i : Nat), (l.set i x).countP p ≤ l.countP p + 1 := by
  intro l
  induction l with
  | nil => intro i; simp
  | cons a rest ih =>
    intro i
    cases i with
    | zero =>
      simp only [List.set_cons_zero, List.countP_cons]
      split <;> split <;> omega
    | succ n =>
      simp only [List.set_cons_succ, List.countP_cons]
      have := ih n
      omega

/-- The re-hash loop keeps the length of the new array, fills at most one slot
per entry moved, and moves at most as many entries as there are old slots. -/
theorem rehash_shape (capacity : Nat) :
    ∀ (old acc : List CellEntry) (count : Nat),
      (rehash old acc capacity count).1.length = acc.length ∧
      occupied (rehash old acc capacity count).1 + count ≤
        occupied acc + (rehash old acc capacity count).2 ∧
      (rehash old acc capacity count).2 ≤ count + old.length := by
  intro old
  induction old with
  | nil => intro acc count; simp [rehash]
  | cons o rest ih =>
    intro acc count
    cases hk : o.key with
    | none =>
      simp only [rehash, hk]
      obtain ⟨h1, h2, h3⟩ := ih acc count
      exact ⟨h1, h2, by simp only [List.length_cons]; omega⟩
    | some k =>
      simp only [rehash, hk]
      obtain ⟨h1, h2, h3⟩ := ih (acc.set (find_entry acc capacity k) o) (count + 1)
      have hset := countP_set_le (fun e : CellEntry => e.key.isSome) o acc
        (find_entry acc capacity k)
      refine ⟨by rw [h1, List.length_set], ?_, by simp only [List.length_cons]; omega⟩
      unfold occupied at h2 ⊢
      omega

/-- After resize_table the array has `capacity` slots, a power of two of them
when the old capacity was one, and at least one slot is free. -/
theorem resize_table_shape (table : SymbolTable) (hpow : ∃ m, table.capacity = 2 ^ m) :
    (resize_table table).entries.length = (resize_table table).capacity ∧
    (∃ m, (resize_table table).capacity = 2 ^ m) ∧
    occupied (resize_table table).entries ≤ (resize_table table).count ∧
    occupied (resize_table table).entries < (resize_table table).entries.length := by
  obtain ⟨h1, h2, h3⟩ := rehash_shape (if table.capacity < 8 then 8 else table.capacity * 2)
    (table.entries.take table.capacity)
    (List.replicate (if table.capacity < 8 then 8 else table.capacity * 2) CellEntry.empty) 0
  have hempty : occupied (List.replicate (if table.capacity < 8 then 8 else table.capacity * 2)
      CellEntry.empty) = 0 := by
    simp [occupied, List.countP_eq_zero, CellEntry.empty]
  have htake : (table.entries.take table.capacity).length ≤ table.capacity := by
    simp only [List.length_take]; omega
  simp only [resize_table]
  rw [hempty] at h2
  simp only [List.length_replicate] at h1
  refine ⟨h1, ?_, by omega, ?_⟩
  · obtain ⟨m, hm⟩ := hpow
    by_cases h8 : table.capacity < 8
    · exact ⟨3, by simp [h8]⟩
    · exact ⟨m + 1, by rw [if_neg h8, hm, Nat.pow_succ]⟩
  · rw [h1]
    by_cases h8 : table.capacity < 8
    · simp only [h8, if_true] at h2 h3 ⊢; omega
    · simp only [h8, if_false] at h2 h3 ⊢; omega

/-- In a table of the right shape the cell symtab_define_cell has just
written is found by symtab_get_cell, in a slot that holds the key and is
marked as defined. -/
theorem symtab_define_cell_get (table : SymbolTable) (hwf : table_wf table) (key : String)
    (value : Rat) (formula : Option String) (line : Int) :
    ∃ slot,
      symtab_get_cell (symtab_define_cell table key value formula line) key = some slot ∧
      ((symtab_define_cell table key value formula line).entry slot).is_defined = true := by
  obtain ⟨hlen, hpow, hocc⟩ := hwf
  -- the table the entry is written into
  have hshape : ∀ t1 : SymbolTable,
      t1 = (if over_load_factor table.count table.capacity then resize_table table else table) →
      t1.entries.length = t1.capacity ∧ (∃ m, t1.capacity = 2 ^ m) ∧
        occupied t1.entries ≤ t1.count ∧ occupied t1.entries < t1.entries.length := by
    intro t1 ht1
    by_cases hov : over_load_factor table.count table.capacity = true
    · rw [if_pos hov] at ht1
      subst ht1
      exact resize_table_shape table hpow
    · rw [if_neg hov] at ht1
      subst ht1
      refine ⟨hlen, hpow, hocc, ?_⟩
      simp only [over_load_factor, decide_eq_true_eq, not_lt] at hov
      omega
  generalize ht1 : (if over_load_factor table.count table.capacity then resize_table table
    else table) = t1 at hshape
  obtain ⟨hlen1, ⟨m, hm⟩, hocc1, hroom1⟩ := hshape t1 rfl
  have hstart : hash_string key &&& (t1.capacity - 1) < 2 ^ m := by
    rw [hm, Nat.and_pow_two_sub_one_eq_mod]
    exact Nat.mod_lt _ (Nat.two_pow_pos m)
  obtain ⟨slot, hslot⟩ := find_entry_loop_wf t1.entries m (by rw [hlen1, hm]) hroom1 key
    (hash_string key &&& (t1.capacity - 1)) hstart
  rw [← hm] at hslot
  have hfind : find_entry t1.entries t1.capacity key = slot := by
    simp [find_entry, hslot]
  obtain ⟨es, hes, hes_key⟩ := find_entry_loop_slot _ _ _ _ _ _ hslot
  have hlt : slot < t1.entries.length := by
    rcases Nat.lt_or_ge slot t1.entries.length with hl | hl
    · exact hl
    · rw [List.getElem?_eq_none hl] at hes; cases hes
  refine ⟨slot, ?_, ?_⟩
  · unfold symtab_get_cell symtab_define_cell
    simp only [ht1, hfind]
    have hentry : t1.entry slot = es := by simp [SymbolTable.entry, List.getD, hes]
    have hcount : ¬ (if (t1.entry slot).key = none then t1.count + 1 else t1.count) = 0 := by
      rw [hentry]
      rcases hes_key with hk | hk
      · simp [hk]
      · have : 0 < occupied t1.entries := by
          unfold occupied
          rw [List.countP_pos_iff]
          exact ⟨es, List.getElem?_mem hes, by simp [hk]⟩
        simp only [hk, reduceCtorEq, if_false]
        omega
    simp only [hcount, if_false]
    rw [get_cell_loop_after_write t1.entries t1.capacity key _ rfl _ _ _ hslot]
    rfl
  · unfold symtab_define_cell
    simp only [ht1, hfind]
    simp [SymbolTable.entry, List.getD, List.getElem?_set, hlt]

theorem symtab_create_wf : table_wf symtab_create :=
  ⟨by decide!, ⟨3, by decide!⟩, by decide!⟩

/-! ## What the analyzer changes in the table -/

theorem entries_kept_refl (key : String) (table : SymbolTable) : entries_kept key table table :=
  fun _ he _ _ _ => he

theorem entries_kept_trans (key : String) (t0 t1 t2 : SymbolTable)
    (h01 : entries_kept key t0 t1) (h12 : entries_kept key t1 t2) : entries_kept key t0 t2 :=
  fun e he a hk hne => h01 e (h12 e he a hk hne) a hk hne

/-- Writing into one slot an entry that holds `key` keeps the other entries. -/
theorem entries_kept_set (key : String) (table : SymbolTable) (slot : Nat) (e1 : CellEntry)
    (hkey : e1.key = some key) :
    entries_kept key table { table with entries := table.entries.set slot e1 } := by
  intro e he a hk hne
  rcases List.mem_or_eq_of_mem_set he with h | h
  · exact h
  · subst h
    rw [hkey] at hk
    exact absurd (Option.some.inj hk).symm hne

theorem rehash_mem (capacity : Nat) :
    ∀ (old acc : List CellEntry) (count : Nat) (e : CellEntry),
      e ∈ (rehash old acc capacity count).1 → e ∈ acc ∨ e ∈ old := by
  intro old
  induction old with
  | nil => intro acc count e h; exact Or.inl (by simpa [rehash] using h)
  | cons o rest ih =>
    intro acc count e h
    cases hk : o.key with
    | none =>
      simp only [rehash, hk] at h
      rcases ih acc count e h with h1 | h1
      · exact Or.inl h1
      · exact Or.inr (List.mem_cons_of_mem _ h1)
    | some k =>
      simp only [rehash, hk] at h
      rcases ih _ _ e h with h1 | h1
      · rcases List.mem_or_eq_of_mem_set h1 with h2 | h2
        · exact Or.inl h2
        · exact Or.inr (by rw [h2]; exact List.mem_cons_self _ _)
      · exact Or.inr (List.mem_cons_of_mem _ h1)

theorem entries_kept_resize (key : String) (table : SymbolTable) :
    entries_kept key table (resize_table table) := by
  intro e he a hk hne
  simp only [resize_table] at he
  rcases rehash_mem _ _ _ _ e he with h | h
  · have := List.eq_of_mem_replicate h
    rw [this] at hk
    simp [CellEntry.empty] at hk
  · exact List.mem_of_mem_take h

theorem entries_kept_define (key : String) (table : SymbolTable) (value : Rat)
    (formula : Option String) (line : Int) :
    entries_kept key table (symtab_define_cell table key value formula line) := by
  unfold symtab_define_cell
  by_cases hov : over_load_factor table.count table.capacity = true
  · simp only [hov, if_true]
    intro e he a hk hne
    rcases List.mem_or_eq_of_mem_set he with h | h
    · exact entries_kept_resize key table e h a hk hne
    · subst h
      simp at hk
      exact absurd hk.symm hne
  · simp only [hov]
    intro e he a hk hne
    rcases List.mem_or_eq_of_mem_set he with h | h
    · exact h
    · subst h
      simp at hk
      exact absurd hk.symm hne

/-- Step 1 of semantic_analysis on a table of the right shape: the target is
found afterwards, it is marked as defined, and no other entry has changed. -/
theorem ensure_this_cell_spec (table : SymbolTable) (hwf : table_wf table) (key : String) :
    ∃ table1 slot, ensure_this_cell table key = some (table1, slot) ∧
      symtab_get_cell table1 key = some slot ∧ (table1.entry slot).is_defined = true ∧
      entries_kept key table table1 := by
  have hfound : ∀ t : SymbolTable, entries_kept key table t →
      ∀ slot, symtab_get_cell t key = some slot →
      ∃ table1 slot1, mark_this_cell t key = some (table1, slot1) ∧
        symtab_get_cell table1 key = some slot1 ∧ (table1.entry slot1).is_defined = true ∧
        entries_kept key table table1 := by
    intro t hkept slot hslot
    obtain ⟨e, he, hk, hentry⟩ := symtab_get_cell_found t key slot hslot
    refine ⟨{ t with entries := t.entries.set slot { t.entry slot with is_defined := true } },
      slot, by simp only [mark_this_cell, hslot], ?_, ?_, ?_⟩
    · rw [← hslot]
      exact symtab_get_cell_congr
        { t with entries := t.entries.set slot { t.entry slot with is_defined := true } } t
        Iff.rfl rfl (map_key_set _ _ slot e he (by rw [← hentry])) key
    · rw [entry_set_self t slot e _ he]
    · exact entries_kept_trans key table t _ hkept
        (entries_kept_set key t slot _ (by simp [hentry, hk]))
  unfold ensure_this_cell
  cases hg : symtab_get_cell table key with
  | some slot =>
    simp only []
    exact hfound table (entries_kept_refl key table) slot hg
  | none =>
    simp only []
    obtain ⟨slot, hslot, _⟩ := symtab_define_cell_get table hwf key 0 none 0
    exact hfound _ (entries_kept_define key table 0 none 0) slot hslot

theorem traverse_keeps_refl (key : String) (slot : Nat) (ctx : SemanticContext)
    (h1 : ctx.this_cell_ref = key) (h2 : symtab_get_cell ctx.table key = some slot)
    (h3 : (ctx.table.entry slot).is_defined = true) : traverse_keeps key slot ctx ctx :=
  ⟨h1, h2, h3, fun _ h => h, entries_kept_refl _ _, [], by simp, by simp, by simp, rfl⟩

theorem traverse_keeps_trans (key : String) (slot : Nat) (c0 c1 c2 : SemanticContext)
    (h01 : traverse_keeps key slot c0 c1) (h12 : traverse_keeps key slot c1 c2) :
    traverse_keeps key slot c0 c2 := by
  obtain ⟨_, _, _, hd1, hk1, a1, he1, hc1, hn1, hb1⟩ := h01
  obtain ⟨g1, g2, g3, hd2, hk2, a2, he2, hc2, hn2, hb2⟩ := h12
  refine ⟨g1, g2, g3, fun d hd => hd2 d (hd1 d hd), entries_kept_trans _ _ _ _ hk1 hk2,
    a1 ++ a2, ?_, ?_, ?_, ?_⟩
  · rw [he2, he1, List.append_assoc]
  · rw [hc2, hc1, List.length_append]; omega
  · rw [hn2, hn1, List.length_append]; omega
  · rw [hb2, hb1]

/-- A step that only reports one diagnostic. -/
theorem traverse_keeps_report (key : String) (slot : Nat) (ctx : SemanticContext)
    (h1 : ctx.this_cell_ref = key) (h2 : symtab_get_cell ctx.table key = some slot)
    (h3 : (ctx.table.entry slot).is_defined = true) (line : Int) (message : String)
    (suggestion : Option String) :
    traverse_keeps key slot ctx
      { ctx with
        errors := error_report ctx.errors ErrorType.ERROR_SEMANTIC line 0 message suggestion
        error_count := ctx.error_count + 1 } :=
  ⟨h1, h2, h3, fun _ h => h, entries_kept_refl _ _,
    [{ type := ErrorType.ERROR_SEMANTIC, line := line, column := 0, message := message,
       suggestion := suggestion }],
    by simp [error_report], by simp, by simp [error_report], by simp [error_report]⟩

theorem entries_kept_add_dependency (table : SymbolTable) (key dep : String) (slot : Nat)
    (h : symtab_get_cell table key = some slot) :
    entries_kept key table (symtab_add_dependency table key dep) := by
  obtain ⟨e, he, hk, hentry⟩ := symtab_get_cell_found table key slot h
  unfold symtab_add_dependency
  simp only [h]
  by_cases hmem : dep ∈ (table.entry slot).dependencies
  · simp only [hmem, if_true]
    exact entries_kept_refl _ _
  · simp only [hmem, if_false]
    exact entries_kept_set key table slot _ (by simp [hentry, hk])

/-- The traversal of any AST keeps the target in its slot, defined, with a
dependency list that only grows; and a `CellRef` to the target puts the target
into its own dependency list. -/
theorem semantic_traverse_keeps (key : String) (slot : Nat) (node : ASTNode) :
    ∀ ctx : SemanticContext, ctx.this_cell_ref = key →
      symtab_get_cell ctx.table key = some slot → (ctx.table.entry slot).is_defined = true →
      traverse_keeps key slot ctx (semantic_traverse node ctx) ∧
      (contains_cell_ref key node = true →
        key ∈ ((semantic_traverse node ctx).table.entry slot).dependencies) := by
  induction node with
  | null | number _ _ | string _ _ =>
    intro ctx h1 h2 h3
    exact ⟨traverse_keeps_refl key slot ctx h1 h2 h3, by simp [contains_cell_ref]⟩
  | cell_ref ref line =>
    intro ctx h1 h2 h3
    simp only [semantic_traverse, check_cell_ref, contains_cell_ref, decide_eq_true_eq]
    by_cases hd : cell_defined ctx.table ref = true
    · simp only [hd, if_true, h1]
      obtain ⟨hc, hcap, hkeys, hother, hslot⟩ :=
        symtab_add_dependency_present ctx.table key ref slot h2
      refine ⟨⟨rfl, ?_, ?_, ?_, entries_kept_add_dependency _ _ _ slot h2, [], by simp, by simp,
        by simp, rfl⟩, ?_⟩
      · simp only []
        rw [symtab_add_dependency_get _ _ _ slot h2]; exact h2
      · simp only []
        rw [hslot]; exact h3
      · intro d hdm
        simp only []
        rw [hslot]
        by_cases hmem : ref ∈ (ctx.table.entry slot).dependencies
        · simpa [hmem] using hdm
        · simp [hmem, hdm]
      · intro hrk
        subst hrk
        rw [hslot]
        by_cases hmem : ref ∈ (ctx.table.entry slot).dependencies
        · simp [hmem]
        · simp [hmem]
    · simp only [hd]
      refine ⟨traverse_keeps_report key slot ctx h1 h2 h3 line _ _, ?_⟩
      intro hrk
      subst hrk
      exfalso
      apply hd
      simp [cell_defined, h2, h3]
  | range range_str line =>
    intro ctx h1 h2 h3
    refine ⟨?_, by simp [contains_cell_ref]⟩
    simp only [semantic_traverse, check_range]
    cases sscanf_range range_str with
    | none => exact traverse_keeps_report key slot ctx h1 h2 h3 line _ _
    | some q =>
      obtain ⟨c1, r1, c2, r2⟩ := q
      simp only []
      split
      · exact traverse_keeps_report key slot ctx h1 h2 h3 line _ _
      · exact traverse_keeps_refl key slot ctx h1 h2 h3
  | unary_op op left line ih =>
    intro ctx h1 h2 h3
    simp only [semantic_traverse, contains_cell_ref]
    exact ih ctx h1 h2 h3
  | binary_op op left right line ihl ihr =>
    intro ctx h1 h2 h3
    obtain ⟨hl, hlc⟩ := ihl ctx h1 h2 h3
    obtain ⟨hr, hrc⟩ := ihr (semantic_traverse left ctx) hl.1 hl.2.1 hl.2.2.1
    simp only [semantic_traverse, contains_cell_ref, Bool.or_eq_true]
    refine ⟨traverse_keeps_trans key slot _ _ _ hl hr, ?_⟩
    rintro (h | h)
    · exact hr.2.2.2.1 key (hlc h)
    · exact hrc h
  | function_call func arguments line ih =>
    intro ctx h1 h2 h3
    obtain ⟨ha, hac⟩ := ih ctx h1 h2 h3
    have g1 := ha.1
    have g2 := ha.2.1
    have g3 := ha.2.2.1
    have htable : (check_function_args func arguments line (semantic_traverse arguments ctx)).table
        = (semantic_traverse arguments ctx).table := by
      unfold check_function_args
      cases func <;> simp only [] <;> (try split) <;> rfl
    have hcheck : traverse_keeps key slot (semantic_traverse arguments ctx)
        (check_function_args func arguments line (semantic_traverse arguments ctx)) := by
      unfold check_function_args
      cases func <;> simp only [] <;>
        first
        | exact traverse_keeps_refl key slot _ g1 g2 g3
        | (split
           · exact traverse_keeps_report key slot _ g1 g2 g3 line _ _
           · exact traverse_keeps_refl key slot _ g1 g2 g3)
    simp only [semantic_traverse, contains_cell_ref]
    refine ⟨traverse_keeps_trans key slot _ _ _ ha hcheck, ?_⟩
    intro h
    rw [htable]
    exact hac h
  | arg_list expression next_arg line ihe ihn =>
    intro ctx h1 h2 h3
    obtain ⟨hl, hlc⟩ := ihe ctx h1 h2 h3
    obtain ⟨hr, hrc⟩ := ihn (semantic_traverse expression ctx) hl.1 hl.2.1 hl.2.2.1
    simp only [semantic_traverse, contains_cell_ref, Bool.or_eq_true]
    refine ⟨traverse_keeps_trans key slot _ _ _ hl hr, ?_⟩
    rintro (h | h)
    · exact hr.2.2.2.1 key (hlc h)
    · exact hrc h

/-! ## The cycle check and the error system -/

theorem check_dep_loop_errors (rec1 : String → ErrorSystem → Option (Bool × ErrorSystem))
    (hrec : ∀ d e b e1, rec1 d e = some (b, e1) →
      e1.errors = e.errors ∧ e1.error_count = e.error_count ∧ (b = false → e1 = e))
    (key : String) :
    ∀ (deps : List String) (errors : ErrorSystem) (b : Bool) (e2 : ErrorSystem),
      check_dep_loop rec1 key deps errors = some (b, e2) →
      e2.errors = errors.errors ∧ e2.error_count = errors.error_count ∧
        (b = false → e2 = errors) := by
  intro deps
  induction deps with
  | nil =>
    intro errors b e2 h
    simp only [check_dep_loop, Option.some.injEq, Prod.mk.injEq] at h
    obtain ⟨rfl, rfl⟩ := h
    exact ⟨rfl, rfl, fun _ => rfl⟩
  | cons d rest ih =>
    intro errors b e2 h
    simp only [check_dep_loop] at h
    cases h1 : rec1 d errors with
    | none => simp [h1] at h
    | some x =>
      obtain ⟨b1, e1⟩ := x
      obtain ⟨g1, g2, g3⟩ := hrec d errors b1 e1 h1
      rw [h1] at h
      cases b1 with
      | true =>
        simp only [Option.some.injEq, Prod.mk.injEq] at h
        obtain ⟨rfl, rfl⟩ := h
        exact ⟨g1, g2, fun hb => by cases hb⟩
      | false =>
        have he : e1 = errors := g3 rfl
        subst he
        exact ih e1 b e2 (by simpa using h)

/-- The recursive check never touches the list of diagnostics, and leaves the
whole error system alone when it answers `0`. -/
theorem check_dep_recursive_errors (table : SymbolTable) (origin : String) (fuel : Nat) :
    ∀ (via : String) (errors : ErrorSystem) (b : Bool) (e1 : ErrorSystem),
      check_dep_recursive fuel table origin via errors = some (b, e1) →
      e1.errors = errors.errors ∧ e1.error_count = errors.error_count ∧
        (b = false → e1 = errors) := by
  induction fuel with
  | zero => intro via errors b e1 h; simp [check_dep_recursive] at h
  | succ fuel ih =>
    intro via errors b e1 h
    rw [check_dep_recursive] at h
    by_cases heq : origin = via
    · simp only [heq, if_true, Option.some.injEq, Prod.mk.injEq] at h
      obtain ⟨rfl, rfl⟩ := h
      exact ⟨rfl, rfl, fun hb => by cases hb⟩
    · simp only [heq, if_false] at h
      cases hg : symtab_get_cell table via with
      | none =>
        simp only [hg, Option.some.injEq, Prod.mk.injEq] at h
        obtain ⟨rfl, rfl⟩ := h
        exact ⟨rfl, rfl, fun _ => rfl⟩
      | some slot =>
        simp only [hg] at h
        by_cases hz : (table.entry slot).dep_count = 0
        · simp only [hz, if_true, Option.some.injEq, Prod.mk.injEq] at h
          obtain ⟨rfl, rfl⟩ := h
          exact ⟨rfl, rfl, fun _ => rfl⟩
        · simp only [hz, if_false] at h
          exact check_dep_loop_errors _ (fun d e b e1 hr => ih d e b e1 hr) _ _ _ _ _ h

/-- The message symtab_check_circular_dep builds starts with
"Circular dependency detected: ". -/
theorem circular_message_prefix (x y : String) (n : Nat) :
    ∃ rest, strncat (snprintf 512 ("Circular dependency detected: " ++ x)) y n =
      "Circular dependency detected: " ++ rest := by
  refine ⟨String.mk ((x.data.take (511 - 30)) ++ y.data.take n), ?_⟩
  apply String.ext
  simp only [strncat, snprintf, String.data_append, List.take_append_eq_append_take]
  have h30 : "Circular dependency detected: ".data.length = 30 := by decide
  rw [h30, List.take_of_length_le (by rw [h30]; omega)]
  simp

/-- What symtab_check_circular_dep answers: `0` with the error system as it
was, or `1` with one Semantic diagnostic appended. -/
theorem symtab_check_circular_dep_errors (fuel : Nat) (table : SymbolTable)
    (origin via : String) (errors : ErrorSystem) (b : Bool) (e2 : ErrorSystem)
    (h : symtab_check_circular_dep fuel table origin via errors = some (b, e2)) :
    (b = false → e2 = errors) ∧
    (b = true → ∃ rest,
      e2.errors = errors.errors ++
        [{ type := ErrorType.ERROR_SEMANTIC, line := 0, column := 0,
           message := "Circular dependency detected: " ++ rest,
           suggestion := some "Remove the dependency." }] ∧
      e2.error_count = errors.error_count + 1) := by
  unfold symtab_check_circular_dep at h
  cases hr : check_dep_recursive fuel table origin via errors with
  | none => simp [hr] at h
  | some x =>
    obtain ⟨b1, e1⟩ := x
    obtain ⟨g1, g2, g3⟩ := check_dep_recursive_errors _ _ _ _ _ _ _ hr
    rw [hr] at h
    cases b1 with
    | false =>
      simp only [Option.some.injEq, Prod.mk.injEq] at h
      obtain ⟨rfl, rfl⟩ := h
      exact ⟨fun _ => g3 rfl, fun hb => by cases hb⟩
    | true =>
      simp only [Option.some.injEq, Prod.mk.injEq] at h
      obtain ⟨rfl, rfl⟩ := h
      refine ⟨fun hb => (by cases hb), fun _ => ?_⟩
      obtain ⟨rest, hrest⟩ := circular_message_prefix (origin ++ " -> " ++ via)
        (error_get_messages e1)
        (512 - (snprintf 512 ("Circular dependency detected: " ++ origin ++ " -> " ++ via)).length
          - 1)
      refine ⟨rest, ?_, ?_⟩
      · simp only [error_report, error_clear_messages, g1]
        rw [← hrest]
        simp [String.append_assoc]
      · simp [error_report, error_clear_messages, g2]

/-! ## A formula that reads its own cell -/

/-- Every edge a lookup sees is stored in the table. -/
theorem depends_on_stored (table : SymbolTable) (a b : String) (h : depends_on table a b) :
    stored_edge table a b := by
  obtain ⟨slot, hg, hd⟩ := h
  obtain ⟨e, he, hk, hentry⟩ := symtab_get_cell_found table a slot hg
  exact ⟨e, List.getElem?_mem he, hk, by rw [← hentry]; exact hd⟩

/-- A table whose entries for other keys all come from `table` has no cycle
avoiding `key` when the lists stored in `table` have none. -/
theorem no_cycle_of_entries_kept (key : String) (table table1 : SymbolTable)
    (hkept : entries_kept key table table1) (hacyclic : no_stored_cycle_avoiding table key) :
    no_cycle_avoiding table1 key := by
  intro k hk
  apply hacyclic k
  refine Relation.TransGen.mono ?_ hk
  rintro a b ⟨ha, hb, hdep⟩
  obtain ⟨e, he, hek, hed⟩ := depends_on_stored table1 a b hdep
  exact ⟨ha, hb, e, hkept e he a hek ha, hek, hed⟩

/-- The loop of semantic_analysis over a dependency list that holds the target
itself, on a graph without a cycle avoiding the target: it returns, finds a
circle and appends exactly one diagnostic. -/
theorem circular_loop_finds_self (table : SymbolTable) (key : String)
    (hacyclic : no_cycle_avoiding table key) (fuel : Nat)
    (hfuel : table.entries.length + 2 ≤ fuel) :
    ∀ (deps : List String) (errors : ErrorSystem), key ∈ deps →
      ∃ e2 rest, circular_loop fuel table key deps errors = some (true, e2) ∧
        e2.errors = errors.errors ++
          [{ type := ErrorType.ERROR_SEMANTIC, line := 0, column := 0,
             message := "Circular dependency detected: " ++ rest,
             suggestion := some "Remove the dependency." }] ∧
        e2.error_count = errors.error_count + 1 := by
  intro deps
  induction deps with
  | nil => intro errors h; simp at h
  | cons d rest ih =>
    intro errors hmem
    obtain ⟨b, e1, hr, _, hself⟩ :=
      symtab_check_circular_dep_iff_reaches table key d errors hacyclic fuel hfuel
    obtain ⟨hfalse, htrue⟩ := symtab_check_circular_dep_errors _ _ _ _ _ _ _ hr
    simp only [circular_loop, hr]
    cases b with
    | true =>
      obtain ⟨msg, hm1, hm2⟩ := htrue rfl
      exact ⟨e1, msg, rfl, hm1, hm2⟩
    | false =>
      have hne : key ≠ d := fun h => by cases hself h
      have hin : key ∈ rest := by
        rcases List.mem_cons.mp hmem with h | h
        · exact absurd h hne
        · exact h
      rw [hfalse rfl]
      exact ih errors hin

/-- C7, amended.  Let the table have the right shape and let its stored
dependency lists hold no cycle that avoids the target `key`.  For every
formula that holds a `CellRef` to `key` and whose traversal reports no error,
semantic_analysis returns (for every recursion bound above the number of
slots plus one), the count it returns is not zero, and it has appended exactly
one diagnostic, of kind Semantic, whose message starts with
"Circular dependency detected: ".  This holds whether or not `key` was in the
table before the call. -/
theorem semantic_analysis_self_reference (table : SymbolTable) (errors : ErrorSystem)
    (key : String) (ast : ASTNode) (hwf : table_wf table)
    (hacyclic : no_stored_cycle_avoiding table key)
    (hself : contains_cell_ref key ast = true)
    (hclean : ∀ table1 slot, ensure_this_cell table key = some (table1, slot) →
      (semantic_traverse ast
        { table := table1, errors := errors, this_cell_ref := key, error_count := 0 }).error_count
        = 0) :
    ∃ bound, ∀ fuel, bound ≤ fuel →
      ∃ count table2 errors2 rest,
        semantic_analysis fuel ast table errors key = some (count, table2, errors2) ∧
        count ≠ 0 ∧
        errors2.errors = errors.errors ++
          [{ type := ErrorType.ERROR_SEMANTIC, line := 0, column := 0,
             message := "Circular dependency detected: " ++ rest,
             suggestion := some "Remove the dependency." }] := by
  obtain ⟨table1, slot, hens, hget, hdef, hkept⟩ := ensure_this_cell_spec table hwf key
  have hcount := hclean table1 slot hens
  obtain ⟨hkeeps, hin⟩ := semantic_traverse_keeps key slot ast
    { table := table1, errors := errors, this_cell_ref := key, error_count := 0 } rfl hget hdef
  obtain ⟨_, _, _, _, hkept2, appended, happ, hcnt, _, _⟩ := hkeeps
  have hnil : appended = [] := by
    rw [hcount] at hcnt
    simp only [Nat.zero_add] at hcnt
    exact List.length_eq_zero.mp hcnt.symm
  subst hnil
  simp only [List.append_nil] at happ
  generalize hctx : semantic_traverse ast
    { table := table1, errors := errors, this_cell_ref := key, error_count := 0 } = ctx
    at hcount hin hkept2 happ
  have hacyc2 : no_cycle_avoiding ctx.table key :=
    no_cycle_of_entries_kept key table ctx.table
      (entries_kept_trans key table table1 ctx.table hkept hkept2) hacyclic
  have hnull : ast ≠ ASTNode.null := by
    intro h; subst h; simp [contains_cell_ref] at hself
  refine ⟨ctx.table.entries.length + 2, fun fuel hfuel => ?_⟩
  obtain ⟨e2, rest, hloop, herr, hec⟩ := circular_loop_finds_self ctx.table key hacyc2 fuel hfuel
    (ctx.table.entry slot).dependencies ctx.errors (hin hself)
  have hpos : (ctx.table.entry slot).dep_count > 0 := by
    unfold CellEntry.dep_count
    exact List.length_pos_of_mem (hin hself)
  refine ⟨ctx.error_count + 1 + error_get_count e2, ctx.table, e2, rest, ?_, by omega, ?_⟩
  · simp only [semantic_analysis, hnull, if_false, hens, hctx, hcount, hpos, and_self, if_true,
      hloop]
  · rw [herr, happ]

theorem check_dep_recursive_self_loop_diverges_b1 :
    ∀ (fuel : Nat) (errors : ErrorSystem),
      check_dep_recursive fuel table_a1_self_b1 "B1" "A1" errors = none := by
  intro fuel
  induction fuel with
  | zero => intro errors; rfl
  | succ fuel ih =>
    intro errors
    have hg : symtab_get_cell table_a1_self_b1 "A1" = some 7 := by decide!
    have hd : (table_a1_self_b1.entry 7).dependencies = ["A1"] := by decide!
    have hne : ¬ ("B1" = "A1") := by decide
    rw [check_dep_recursive]
    simp only [hne, if_false, hg, CellEntry.dep_count, hd, check_dep_loop, ih]
    simp

/-- C7 fails on a table that already holds a cycle avoiding the target.  After
the analysis of `A1 = A1 + 1` (which reports the circle and leaves `A1`
depending on itself), the analysis of `B1 = A1 + B1`, a formula that reads its
own cell and has no other error, does not return, whatever the recursion
bound: the check of the first dependency `A1` runs round the self-loop of `A1`
for ever, and no diagnostic is reported. -/
theorem semantic_analysis_self_reference_diverges :
    (semantic_analysis 10 formula_a1_plus_one symtab_create error_system_create "A1").map
        (fun r => r.2.1) = some table_a1_self ∧
    contains_cell_ref "B1" formula_a1_plus_b1 = true ∧
    ∀ fuel : Nat,
      semantic_analysis fuel formula_a1_plus_b1 table_a1_self error_system_create "B1" = none := by
  refine ⟨by decide!, by decide!, fun fuel => ?_⟩
  have hens : ensure_this_cell table_a1_self "B1" =
      some (symtab_define_cell table_a1_self "B1" 0 none 0, 0) := by decide!
  have htrav : semantic_traverse formula_a1_plus_b1
      { table := symtab_define_cell table_a1_self "B1" 0 none 0, errors := error_system_create,
        this_cell_ref := "B1", error_count := 0 } =
      { table := table_a1_self_b1, errors := error_system_create, this_cell_ref := "B1",
        error_count := 0 } := by decide!
  have hdeps : (table_a1_self_b1.entry 0).dependencies = ["A1", "B1"] := by decide!
  have hnull : formula_a1_plus_b1 ≠ ASTNode.null := by decide
  simp [semantic_analysis, hnull, hens, htrav, CellEntry.dep_count, hdeps, circular_loop,
    symtab_check_circular_dep, check_dep_recursive_self_loop_diverges_b1]

theorem symtab_create_no_stored_cycle (key : String) :
    no_stored_cycle_avoiding symtab_create key := by
  have hnone : ∀ e ∈ symtab_create.entries, e.key = none := by decide!
  have hno : ∀ a b, ¬ stored_edge_avoiding symtab_create key a b := by
    rintro a b ⟨_, _, e, he, hk, _⟩
    rw [hnone e he] at hk
    cases hk
  intro k h
  cases h with
  | single h => exact hno _ _ h
  | tail _ h => exact hno _ _ h

/-- C7, amended, at `A1 = A1 + 1` over the empty table, where `A1` does not
exist before the call. -/
theorem semantic_analysis_self_reference_witness :
    table_wf symtab_create ∧
    no_stored_cycle_avoiding symtab_create "A1" ∧
    contains_cell_ref "A1" formula_a1_plus_one = true ∧
    symtab_get_cell symtab_create "A1" = none ∧
    ∃ bound, ∀ fuel, bound ≤ fuel →
      ∃ count table2 errors2 rest,
        semantic_analysis fuel formula_a1_plus_one symtab_create error_system_create "A1" =
          some (count, table2, errors2) ∧
        count ≠ 0 ∧
        errors2.errors = error_system_create.errors ++
          [{ type := ErrorType.ERROR_SEMANTIC, line := 0, column := 0,
             message := "Circular dependency detected: " ++ rest,
             suggestion := some "Remove the dependency." }] :=
  ⟨symtab_create_wf, symtab_create_no_stored_cycle "A1", by decide!, by decide!,
    semantic_analysis_self_reference symtab_create error_system_create "A1" formula_a1_plus_one
      symtab_create_wf (symtab_create_no_stored_cycle "A1") (by decide!)
      (by
        intro table1 slot h
        have hens : ensure_this_cell symtab_create "A1" =
            some (symtab_define_cell symtab_create "A1" 0 none 0, 7) := by decide!
        rw [hens] at h
        simp only [Option.some.injEq, Prod.mk.injEq] at h
        obtain ⟨rfl, rfl⟩ := h
        decide!)⟩

/-! ## generate_expr and the layout of its code -/

/-- Induction over an AST in which a function call hands down the property of
every expression of its argument chain. -/
theorem ast_induction {P : ASTNode → Prop} (hnull : P ASTNode.null)
    (hnumber : ∀ n line, P (ASTNode.number n line))
    (hstring : ∀ s line, P (ASTNode.string s line))
    (hcell : ∀ s line, P (ASTNode.cell_ref s line))
    (hrange : ∀ s line, P (ASTNode.range s line))
    (hunary : ∀ op left line, P left → P (ASTNode.unary_op op left line))
    (hbinary : ∀ op left right line, P left → P right → P (ASTNode.binary_op op left right line))
    (hcall : ∀ tok arguments line, (∀ e ∈ chain_exprs arguments, P e) →
      P (ASTNode.function_call tok arguments line))
    (harg : ∀ e next line, P e → P next → P (ASTNode.arg_list e next line)) :
    ∀ node, P node := by
  have h : ∀ node, P node ∧ ∀ e ∈ chain_exprs node, P e := by
    intro node
    induction node with
    | null => exact ⟨hnull, by simp [chain_exprs]⟩
    | number n line => exact ⟨hnumber n line, by simp [chain_exprs]⟩
    | string s line => exact ⟨hstring s line, by simp [chain_exprs]⟩
    | cell_ref s line => exact ⟨hcell s line, by simp [chain_exprs]⟩
    | range s line => exact ⟨hrange s line, by simp [chain_exprs]⟩
    | unary_op op left line ih => exact ⟨hunary op left line ih.1, by simp [chain_exprs]⟩
    | binary_op op left right line ihl ihr =>
      exact ⟨hbinary op left right line ihl.1 ihr.1, by simp [chain_exprs]⟩
    | function_call tok arguments line ih =>
      exact ⟨hcall tok arguments line ih.2, by simp [chain_exprs]⟩
    | arg_list e next line ihe ihn =>
      refine ⟨harg e next line ihe.1 ihn.1, ?_⟩
      intro x hx
      simp only [chain_exprs, List.mem_cons] at hx
      rcases hx with rfl | hx
      · exact ihe.1
      · exact ihn.2 x hx
  exact fun node => (h node).1


/-- patch_jump on the jump instruction that follows `pre`. -/
theorem patch_jump_at (l pre post : List Instruction) (opcode : OpCode) (line : Int)
    (old : Operand) (i n : Nat)
    (hl : l = pre ++ { opcode := opcode, line := line, operand := old } :: post)
    (hi : i = pre.length) (hn : n = l.length) :
    patch_jump { code := l } i = { code := pre ++ jump_instruction opcode line n :: post } := by
  subst hl hi hn
  have hget : (pre ++ ({ opcode := opcode, line := line, operand := old } : Instruction)
      :: post)[pre.length]? = some { opcode := opcode, line := line, operand := old } := by
    rw [List.getElem?_append_right (Nat.le_refl _)]
    simp
  simp only [patch_jump, hget, CodeArray.count]
  congr 1
  rw [List.set_append_right _ _ (Nat.le_refl _)]
  simp [jump_instruction]

theorem generate_if_tail_layout (line : Int)
    (gen_true gen_false : CodeArray → Option CodeArray)
    (lay_true lay_false : Nat → Option (List Instruction))
    (ht : ∀ code : CodeArray, gen_true code =
      (lay_true code.count).map (fun seg => ({ code := code.code ++ seg } : CodeArray)))
    (hf : ∀ code : CodeArray, gen_false code =
      (lay_false code.count).map (fun seg => ({ code := code.code ++ seg } : CodeArray)))
    (code : CodeArray) (cond_code : List Instruction) :
    generate_if_tail line gen_true gen_false { code := code.code ++ cond_code } =
      (layout_if line code.count cond_code lay_true lay_false).map
        (fun seg => ({ code := code.code ++ seg } : CodeArray)) := by
  unfold generate_if_tail layout_if
  simp only [emit_jump, write_instruction, ht, CodeArray.count, List.length_append,
    List.length_singleton]
  cases h1 : lay_true (code.code.length + cond_code.length + 1) with
  | none => rfl
  | some true_code =>
    simp only [Option.map_some']
    rw [patch_jump_at _ (code.code ++ cond_code)
      (true_code ++ [{ opcode := OpCode.OP_JMP, line := line, operand := Operand.address (-1) }])
      OpCode.OP_JMP_IF_FALSE line (Operand.address (-1)) _
      (code.code.length + cond_code.length + 1 + true_code.length + 1)
      (by simp) (by simp) (by simp; omega)]
    rw [hf]
    simp only [CodeArray.count, List.length_append, List.length_cons, List.length_nil,
      List.length_singleton]
    have hlen : code.code.length + cond_code.length + (true_code.length + (0 + 1) + 1) =
        code.code.length + cond_code.length + 1 + true_code.length + 1 := by omega
    rw [hlen]
    cases h2 : lay_false (code.code.length + cond_code.length + 1 + true_code.length + 1) with
    | none => rfl
    | some false_code =>
      simp only [Option.map_some', Option.some.injEq]
      rw [patch_jump_at _
        (code.code ++ cond_code ++
          jump_instruction OpCode.OP_JMP_IF_FALSE line
            (code.code.length + cond_code.length + 1 + true_code.length + 1) :: true_code)
        false_code OpCode.OP_JMP line (Operand.address (-1)) _
        (code.code.length + cond_code.length + 1 + true_code.length + 1 + false_code.length)
        (by simp) (by simp; omega) (by simp; omega)]
      simp

/-- The argument loop of generate_expr in terms of `layout_args`, given the
layout of every expression of the chain. -/
theorem generate_args_layout (arguments : ASTNode) :
    (∀ e ∈ chain_exprs arguments, generates_layout e) →
    ∀ (code : CodeArray) (n : Int), generate_args arguments code n =
      (layout_args arguments code.count).map
        (fun r => (({ code := code.code ++ r.1 } : CodeArray), n + r.2)) := by
  induction arguments with
  | arg_list e next line _ ihn =>
    intro h code n
    have he : generates_layout e := h e (by simp [chain_exprs])
    have hn := ihn (fun x hx => h x (by simp [chain_exprs, hx]))
    simp only [generate_args, layout_args, he code]
    cases h1 : layout e code.count with
    | none => rfl
    | some seg =>
      simp only [Option.map_some', hn, CodeArray.count, List.length_append]
      cases h2 : layout_args next (code.code.length + seg.length) with
      | none => rfl
      | some r =>
        obtain ⟨rest, m⟩ := r
        simp only [Option.map_some', Option.some.injEq, Prod.mk.injEq, List.append_assoc,
          true_and]
        omega
  | null => intro _ code n; simp [generate_args, layout_args]
  | number _ _ | string _ _ | cell_ref _ _ | range _ _ | unary_op _ _ _ | binary_op _ _ _ _
  | function_call _ _ _ =>
    intro _ code n; simp [generate_args, layout_args]

theorem generate_expr_call (tok : Token) (arguments : ASTNode) (line : Int) (code : CodeArray)
    (hif : tok ≠ Token.IF) :
    generate_expr (ASTNode.function_call tok arguments line) code =
      match generate_args arguments code 0 with
      | none => none
      | some (code1, arg_count) => some (emit_call code1 tok arg_count line).1 := by
  cases arguments with
  | arg_list c second l1 =>
    cases second with
    | arg_list t third l2 => cases third <;> simp only [generate_expr, hif, if_false]
    | _ => simp only [generate_expr, hif, if_false]
  | _ => simp only [generate_expr, hif, if_false]

theorem layout_call (tok : Token) (arguments : ASTNode) (line : Int) (start : Nat)
    (hif : tok ≠ Token.IF) :
    layout (ASTNode.function_call tok arguments line) start =
      match layout_args arguments start with
      | none => none
      | some (args_code, arg_count) =>
        some (args_code ++
          [{ opcode := OpCode.OP_CALL, line := line,
             operand := Operand.func_call tok arg_count }]) := by
  cases arguments with
  | arg_list c second l1 =>
    cases second with
    | arg_list t third l2 => cases third <;> simp only [layout, hif, if_false]
    | _ => simp only [layout, hif, if_false]
  | _ => simp only [layout, hif, if_false]

/-- generate_expr appends to the code array exactly the instructions of
`layout`, and fails (dereferences `NULL`) exactly when `layout` is `none`. -/
theorem generate_expr_layout : ∀ node, generates_layout node := by
  apply ast_induction
  · intro code; simp [generate_expr, layout]
  · intro n line code; simp [generate_expr, layout, emit_push, write_instruction]
  · intro s line code; simp [generate_expr, layout, emit_push, write_instruction]
  · intro s line code; simp [generate_expr, layout, emit_push_cell, write_instruction]
  · intro s line code; simp [generate_expr, layout, emit_push_range, write_instruction]
  · intro op left line ih code
    simp only [generate_expr, layout, ih code]
    cases layout left code.count with
    | none => rfl
    | some seg =>
      by_cases h1 : op = Token.MINUS
      · simp [h1, emit_op, write_instruction, op_instruction]
      · by_cases h2 : op = Token.NOT
        · simp [h1, h2, emit_op, write_instruction, op_instruction]
        · simp [h1, h2]
  · intro op left right line ihl ihr code
    simp only [generate_expr, layout, ihl code]
    cases layout left code.count with
    | none => rfl
    | some seg1 =>
      simp only [Option.map_some', ihr { code := code.code ++ seg1 }, CodeArray.count,
        List.length_append]
      cases layout right (code.code.length + seg1.length) with
      | none => rfl
      | some seg2 =>
        cases binary_opcode op with
        | none => simp
        | some opcode => simp [emit_op, write_instruction, op_instruction]
  · intro tok arguments line hchain code
    by_cases hif : tok = Token.IF
    · subst hif
      cases arguments with
      | arg_list c second l1 =>
        cases second with
        | arg_list t third l2 =>
          have hc : generates_layout c := hchain c (by simp [chain_exprs])
          have ht : generates_layout t := hchain t (by simp [chain_exprs])
          cases third with
          | null => simp [generate_expr, layout]
          | arg_list e rest l3 =>
            have he : generates_layout e := hchain e (by simp [chain_exprs])
            simp only [generate_expr, layout, if_true, hc code]
            cases layout c code.count with
            | none => rfl
            | some cond_code =>
              simp only [Option.map_some']
              exact generate_if_tail_layout line _ _ _ _ ht he code cond_code
          | number _ _ | string _ _ | cell_ref _ _ | range _ _ | unary_op _ _ _
          | binary_op _ _ _ _ | function_call _ _ _ =>
            simp only [generate_expr, layout, if_true, hc code]
            cases layout c code.count with
            | none => rfl
            | some cond_code =>
              simp only [Option.map_some']
              exact generate_if_tail_layout line _ _ _ _ ht (fun _ => by simp) code cond_code
        | _ => simp [generate_expr, layout]
      | _ => simp [generate_expr, layout]
    · rw [generate_expr_call _ _ _ _ hif, layout_call _ _ _ _ hif,
        generate_args_layout arguments hchain]
      cases layout_args arguments code.count with
      | none => rfl
      | some r =>
        obtain ⟨seg, m⟩ := r
        simp [emit_call, write_instruction]
  · intro e next line _ _ code
    simp [generate_expr, layout]

/-! ## The VM on generated code -/

theorem vm_run_running (pw : Rat → Rat → Rat) (vm vm1 : VM) (h : vm_step pw vm = VMStep.running vm1)
    (f : Nat) : vm_run pw (f + 1) vm = vm_run pw f vm1 := by
  simp [vm_run, h]

theorem vm_run_finished (pw : Rat → Rat → Rat) (vm : VM) (r : VMResult)
    (h : vm_step pw vm = VMStep.finished r) (f : Nat) : vm_run pw (f + 1) vm = some r := by
  simp [vm_run, h]

/-- The fetch of the instruction that follows `pre`. -/
theorem vm_step_fetch (pw : Rat → Rat → Rat) (table : SymbolTable)
    (code pre post : List Instruction) (inst : Instruction) (stack : List Value)
    (hcode : code = pre ++ inst :: post) :
    vm_step pw { code := { code := code }, symtab := table, pc := (pre.length : Int),
                 stack := stack } =
      vm_dispatch pw { code := { code := code }, symtab := table, pc := (pre.length : Int) + 1,
                       stack := stack } inst := by
  subst hcode
  have hget : (pre ++ inst :: post)[pre.length]? = some inst := by
    rw [List.getElem?_append_right (Nat.le_refl _)]
    simp
  have hlt : ¬ ((pre.length : Int) ≥ ((pre ++ inst :: post).length : Nat)) := by
    simp only [List.length_append, List.length_cons]
    omega
  have hnn : ¬ ((pre.length : Int) < 0) := by omega
  simp only [vm_step, CodeArray.count, hlt, if_false, hnn, Int.toNat_ofNat, hget]

/-- One step over an instruction that pushes a value. -/
theorem run_push (pw : Rat → Rat → Rat) (table : SymbolTable)
    (code pre post : List Instruction) (inst : Instruction) (stack : List Value) (v : Value)
    (hcode : code = pre ++ inst :: post)
    (hdisp : ∀ vm1 : VM, vm1.symtab = table → vm_dispatch pw vm1 inst = push_and_continue vm1 v)
    (hroom : stack.length + 1 ≤ VM_STACK_SIZE) (f : Nat) :
    vm_run pw (f + 1) { code := { code := code }, symtab := table, pc := (pre.length : Int),
                        stack := stack } =
      vm_run pw f { code := { code := code }, symtab := table,
                    pc := ((pre.length + 1 : Nat) : Int), stack := v :: stack } := by
  apply vm_run_running
  rw [vm_step_fetch pw table code pre post inst stack hcode, hdisp _ rfl]
  have : ¬ stack.length ≥ VM_STACK_SIZE := by omega
  simp [push_and_continue, vm_push, this]

theorem binary_op_result_eq (pw : Rat → Rat → Rat) (tok : Token) (opcode : OpCode)
    (h : binary_opcode tok = some opcode) (a b : Value) :
    binary_op_result pw opcode a b = eval_binary_op pw a b tok := by
  cases tok <;> simp [binary_opcode] at h <;> subst h <;> rfl

theorem call_runtime_eq (tok : Token) (args : List Value)
    (h : (interp_call_runtime tok args).is_error = false) :
    vm_call_runtime tok args = interp_call_runtime tok args := by
  cases tok <;> first | rfl | simp [interp_call_runtime, create_error_value, Value.is_error] at h

theorem run_segment_leaf (pw : Rat → Rat → Rat) (table : SymbolTable)
    (code pre post : List Instruction) (inst : Instruction) (stack : List Value) (v : Value)
    (hcode : code = pre ++ [inst] ++ post)
    (hdisp : ∀ vm1 : VM, vm1.symtab = table → vm_dispatch pw vm1 inst = push_and_continue vm1 v)
    (hv : v.is_error = false) (hroom : stack.length + 1 ≤ VM_STACK_SIZE) :
    run_segment pw table code pre.length stack [inst].length v := by
  refine ⟨1, by simp, ?_⟩
  rw [if_neg (by simp [hv])]
  intro f
  rw [Nat.add_comm 1 f]
  exact run_push pw table code pre post inst stack v (by simp [hcode]) hdisp hroom f

theorem compiles_number (pw : Rat → Rat → Rat) (table : SymbolTable) (n : Rat) (line : Int) :
    compiles_correctly pw table (ASTNode.number n line) := by
  intro _ _ seg pre post code stack hlay hcode hstack
  simp only [layout, Option.some.injEq] at hlay
  subst hlay
  simp only [stack_need] at hstack
  exact run_segment_leaf pw table code pre post _ stack _ hcode
    (fun vm1 _ => by simp [vm_dispatch, Operand.as_number, interpreter_evaluate]) rfl hstack

theorem compiles_cell_ref (pw : Rat → Rat → Rat) (table : SymbolTable) (s : String)
    (line : Int) : compiles_correctly pw table (ASTNode.cell_ref s line) := by
  intro _ _ seg pre post code stack hlay hcode hstack
  simp only [layout, Option.some.injEq] at hlay
  subst hlay
  simp only [stack_need] at hstack
  exact run_segment_leaf pw table code pre post _ stack _ hcode
    (fun vm1 h => by simp [vm_dispatch, Operand.as_cell_ref, h, interpreter_evaluate]) rfl hstack

theorem compiles_range (pw : Rat → Rat → Rat) (table : SymbolTable) (s : String)
    (line : Int) : compiles_correctly pw table (ASTNode.range s line) := by
  intro _ _ seg pre post code stack hlay hcode hstack
  simp only [layout, Option.some.injEq] at hlay
  subst hlay
  simp only [stack_need] at hstack
  exact run_segment_leaf pw table code pre post _ stack _ hcode
    (fun vm1 _ => by simp [vm_dispatch, Operand.as_range_str, interpreter_evaluate]) rfl hstack

theorem compiles_unary (pw : Rat → Rat → Rat) (table : SymbolTable) (op : Token)
    (left : ASTNode) (line : Int) (ih : compiles_correctly pw table left) :
    compiles_correctly pw table (ASTNode.unary_op op left line) := by
  intro hfrag hclean seg pre post code stack hlay hcode hstack
  simp only [in_fragment, Bool.and_eq_true, Bool.or_eq_true, decide_eq_true_eq] at hfrag
  obtain ⟨hop, hfl⟩ := hfrag
  simp only [calls_clean] at hclean
  simp only [stack_need] at hstack
  simp only [layout] at hlay
  cases hl : layout left pre.length with
  | none => simp [hl] at hlay
  | some lcode =>
    simp only [hl, Option.some.injEq] at hlay
    -- the operator instruction
    obtain ⟨inst, hinst, hopc⟩ : ∃ inst : Instruction,
        (if op = Token.MINUS then [op_instruction OpCode.OP_NEG line]
         else if op = Token.NOT then [op_instruction OpCode.OP_NOT line] else []) = [inst] ∧
        ((op = Token.MINUS ∧ inst.opcode = OpCode.OP_NEG) ∨
         (op = Token.NOT ∧ inst.opcode = OpCode.OP_NOT)) := by
      rcases hop with h | h
      · exact ⟨op_instruction OpCode.OP_NEG line, by simp [h], Or.inl ⟨h, rfl⟩⟩
      · exact ⟨op_instruction OpCode.OP_NOT line, by simp [h], Or.inr ⟨h, rfl⟩⟩
    rw [hinst] at hlay
    subst hlay
    obtain ⟨k, hk, hrun⟩ := ih hfl hclean lcode pre ([inst] ++ post) code stack hl
      (by simp [hcode]) (by omega)
    simp only [interpreter_evaluate]
    by_cases herr : (interpreter_evaluate pw table left).is_error = true
    · rw [if_pos herr] at hrun
      rw [if_pos herr]
      exact ⟨k, by simp; omega, by rw [if_pos herr]; exact hrun⟩
    · rw [if_neg herr] at hrun
      rw [if_neg herr]
      have hne : (eval_unary_op (interpreter_evaluate pw table left) op).is_error = false := by
        rcases hopc with ⟨h, _⟩ | ⟨h, _⟩ <;> subst h <;> rfl
      refine ⟨k + 1, by simp; omega, ?_⟩
      rw [if_neg (by simp [hne])]
      intro f
      rw [show k + 1 + f = k + (f + 1) by omega, hrun (f + 1)]
      apply vm_run_running
      have hpos : ((pre.length + lcode.length : Nat) : Int) = ((pre ++ lcode).length : Nat) := by
        simp
      rw [hpos, vm_step_fetch pw table code (pre ++ lcode) post inst _ (by simp [hcode])]
      have hroom : ¬ stack.length ≥ VM_STACK_SIZE := by omega
      rcases hopc with ⟨h, ho⟩ | ⟨h, ho⟩ <;> subst h <;>
        simp [vm_dispatch, ho, vm_pop, push_and_continue, vm_push, hroom, eval_unary_op] <;>
        omega

theorem compiles_binary (pw : Rat → Rat → Rat) (table : SymbolTable) (op : Token)
    (left right : ASTNode) (line : Int) (ihl : compiles_correctly pw table left)
    (ihr : compiles_correctly pw table right) :
    compiles_correctly pw table (ASTNode.binary_op op left right line) := by
  intro hfrag hclean seg pre post code stack hlay hcode hstack
  simp only [in_fragment, Bool.and_eq_true] at hfrag
  obtain ⟨⟨hop, hfl⟩, hfr⟩ := hfrag
  simp only [calls_clean, Bool.and_eq_true, Bool.or_eq_true] at hclean
  obtain ⟨hcl, hcr⟩ := hclean
  simp only [stack_need] at hstack
  simp only [layout] at hlay
  obtain ⟨opcode, hopcode⟩ := Option.isSome_iff_exists.mp hop
  cases hl : layout left pre.length with
  | none => simp [hl] at hlay
  | some lcode =>
    simp only [hl] at hlay
    cases hr : layout right (pre.length + lcode.length) with
    | none => simp [hr] at hlay
    | some rcode =>
      simp only [hr, hopcode, Option.some.injEq] at hlay
      subst hlay
      obtain ⟨kl, hkl, hrunl⟩ := ihl hfl hcl lcode pre
        (rcode ++ [op_instruction opcode line] ++ post) code stack hl
        (by simp [hcode]) (by omega)
      simp only [interpreter_evaluate]
      by_cases herrl : (interpreter_evaluate pw table left).is_error = true
      · rw [if_pos herrl] at hrunl
        rw [if_pos herrl]
        exact ⟨kl, by simp; omega, by rw [if_pos herrl]; exact hrunl⟩
      · rw [if_neg herrl] at hrunl
        rw [if_neg herrl]
        have hcr1 : calls_clean pw table right = true := by
          rcases hcr with h | h
          · exact absurd h herrl
          · exact h
        obtain ⟨kr, hkr, hrunr⟩ := ihr hfr hcr1 rcode (pre ++ lcode)
          ([op_instruction opcode line] ++ post) code
          (interpreter_evaluate pw table left :: stack)
          (by simpa using hr) (by simp [hcode]) (by simp only [List.length_cons]; omega)
        simp only [List.length_append] at hrunr
        by_cases herrr : (interpreter_evaluate pw table right).is_error = true
        · rw [if_pos herrr] at hrunr
          rw [if_pos herrr]
          refine ⟨kl + kr, by simp; omega, ?_⟩
          rw [if_pos herrr]
          refine ⟨by omega, fun f => ?_⟩
          rw [show kl + kr + f = kl + (kr + f) by omega, hrunl (kr + f)]
          exact hrunr.2 f
        · rw [if_neg herrr] at hrunr
          rw [if_neg herrr]
          have hres := binary_op_result_eq pw op opcode hopcode
            (interpreter_evaluate pw table left) (interpreter_evaluate pw table right)
          have hpos : ((pre.length + lcode.length + rcode.length : Nat) : Int) =
              ((pre ++ lcode ++ rcode).length : Nat) := by simp [Nat.add_assoc]
          have hstep := vm_step_fetch pw table code (pre ++ lcode ++ rcode) post
            (op_instruction opcode line)
            (interpreter_evaluate pw table right :: interpreter_evaluate pw table left :: stack)
            (by simp [hcode])
          have hdisp : ∀ vm1 : VM,
              vm1.stack = interpreter_evaluate pw table right ::
                interpreter_evaluate pw table left :: stack →
              vm_dispatch pw vm1 (op_instruction opcode line) =
                if (eval_binary_op pw (interpreter_evaluate pw table left)
                    (interpreter_evaluate pw table right) op).is_error then
                  VMStep.finished (VMResult.value
                    (eval_binary_op pw (interpreter_evaluate pw table left)
                      (interpreter_evaluate pw table right) op))
                else push_and_continue { vm1 with stack := stack }
                    (eval_binary_op pw (interpreter_evaluate pw table left)
                      (interpreter_evaluate pw table right) op) := by
            intro vm1 hs
            rw [← hres]
            cases op <;> simp [binary_opcode] at hopcode <;> subst hopcode <;>
              simp [vm_dispatch, op_instruction, vm_pop, hs]
          rw [hdisp _ rfl] at hstep
          by_cases hre : (eval_binary_op pw (interpreter_evaluate pw table left)
              (interpreter_evaluate pw table right) op).is_error = true
          · refine ⟨kl + kr + 1, by simp; omega, ?_⟩
            rw [if_pos hre]
            refine ⟨by omega, fun f => ?_⟩
            rw [show kl + kr + 1 + f = kl + (kr + (f + 1)) by omega, hrunl, hrunr, hpos]
            apply vm_run_finished
            rw [hstep, if_pos hre]
          · refine ⟨kl + kr + 1, by simp; omega, ?_⟩
            rw [if_neg hre]
            intro f
            rw [show kl + kr + 1 + f = kl + (kr + (f + 1)) by omega, hrunl, hrunr, hpos]
            apply vm_run_running
            rw [hstep, if_neg hre]
            have hroom : ¬ stack.length ≥ VM_STACK_SIZE := by omega
            simp [push_and_continue, vm_push, hroom]
            omega

theorem compiles_if (pw : Rat → Rat → Rat) (table : SymbolTable)
    (c t e rest : ASTNode) (l1 l2 l3 line : Int) (hc : compiles_correctly pw table c)
    (ht : compiles_correctly pw table t) (he : compiles_correctly pw table e) :
    compiles_correctly pw table
      (ASTNode.function_call Token.IF
        (ASTNode.arg_list c (ASTNode.arg_list t (ASTNode.arg_list e rest l3) l2) l1) line) := by
  intro hfrag hclean seg pre post code stack hlay hcode hstack
  simp only [in_fragment, if_true, Bool.and_eq_true] at hfrag
  obtain ⟨⟨hfc, hft⟩, hfe⟩ := hfrag
  simp only [calls_clean, if_true, Bool.and_eq_true] at hclean
  obtain ⟨hcc, hcrest⟩ := hclean
  simp only [stack_need, if_true] at hstack
  simp only [layout, if_true] at hlay
  cases hlc : layout c pre.length with
  | none => simp [hlc] at hlay
  | some lc =>
    simp only [hlc, layout_if] at hlay
    cases hlt : layout t (pre.length + lc.length + 1) with
    | none => simp [hlt] at hlay
    | some lt =>
      simp only [hlt] at hlay
      cases hle : layout e (pre.length + lc.length + 1 + lt.length + 1) with
      | none => simp [hle] at hlay
      | some le =>
        simp only [hle, Option.some.injEq] at hlay
        subst hlay
        obtain ⟨kc, hkc, hrunc⟩ := hc hfc hcc lc pre
          ([jump_instruction OpCode.OP_JMP_IF_FALSE line
              (pre.length + lc.length + 1 + lt.length + 1)] ++ lt ++
            [jump_instruction OpCode.OP_JMP line
              (pre.length + lc.length + 1 + lt.length + 1 + le.length)] ++ le ++ post)
          code stack hlc
          (by rw [hcode]; simp) (by omega)
        simp only [interpreter_evaluate, if_true]
        by_cases herrc : (interpreter_evaluate pw table c).is_error = true
        · rw [if_pos herrc] at hrunc
          rw [if_pos herrc]
          exact ⟨kc, by simp; omega, by rw [if_pos herrc]; exact hrunc⟩
        · rw [if_neg herrc] at hrunc
          rw [if_neg herrc]
          rw [if_neg herrc] at hcrest
          -- the conditional jump
          have hposj : ((pre.length + lc.length : Nat) : Int) = ((pre ++ lc).length : Nat) := by
            simp
          have hstepj := vm_step_fetch pw table code (pre ++ lc)
            (lt ++ [jump_instruction OpCode.OP_JMP line
              (pre.length + lc.length + 1 + lt.length + 1 + le.length)] ++ le ++ post)
            (jump_instruction OpCode.OP_JMP_IF_FALSE line
              (pre.length + lc.length + 1 + lt.length + 1))
            (interpreter_evaluate pw table c :: stack)
            (by rw [hcode]; simp)
          by_cases htruthy : is_truthy (interpreter_evaluate pw table c) ≠ 0
          · rw [if_pos htruthy]
            rw [if_pos htruthy] at hcrest
            have hj : vm_step pw
                { code := { code := code }, symtab := table,
                  pc := ((pre.length + lc.length : Nat) : Int),
                  stack := interpreter_evaluate pw table c :: stack } =
                VMStep.running
                  { code := { code := code }, symtab := table,
                    pc := (((pre ++ lc ++ [jump_instruction OpCode.OP_JMP_IF_FALSE line
                      (pre.length + lc.length + 1 + lt.length + 1)]).length : Nat) : Int),
                    stack := stack } := by
              rw [hposj, hstepj]
              simp [vm_dispatch, jump_instruction, vm_pop, htruthy]
              omega
            obtain ⟨kt, hkt, hrunt⟩ := ht hft hcrest lt
              (pre ++ lc ++ [jump_instruction OpCode.OP_JMP_IF_FALSE line
                (pre.length + lc.length + 1 + lt.length + 1)])
              ([jump_instruction OpCode.OP_JMP line
                (pre.length + lc.length + 1 + lt.length + 1 + le.length)] ++ le ++ post)
              code stack
              (by
                have hlen : (pre ++ lc ++ [jump_instruction OpCode.OP_JMP_IF_FALSE line
                    (pre.length + lc.length + 1 + lt.length + 1)]).length =
                    pre.length + lc.length + 1 := by
                  simp only [List.length_append, List.length_singleton]
                rw [hlen]; exact hlt)
              (by rw [hcode]; simp) (by omega)
            by_cases herrt : (interpreter_evaluate pw table t).is_error = true
            · rw [if_pos herrt] at hrunt
              refine ⟨kc + 1 + kt, by simp; omega, ?_⟩
              rw [if_pos herrt]
              refine ⟨by omega, fun f => ?_⟩
              rw [show kc + 1 + kt + f = kc + ((kt + f) + 1) by omega, hrunc,
                vm_run_running pw _ _ hj]
              exact hrunt.2 f
            · rw [if_neg herrt] at hrunt
              refine ⟨kc + 1 + kt + 1, by simp; omega, ?_⟩
              rw [if_neg herrt]
              intro f
              rw [show kc + 1 + kt + 1 + f = kc + ((kt + (f + 1)) + 1) by omega, hrunc,
                vm_run_running pw _ _ hj, hrunt]
              apply vm_run_running
              have hpos2 : (((pre ++ lc ++ [jump_instruction OpCode.OP_JMP_IF_FALSE line
                  (pre.length + lc.length + 1 + lt.length + 1)]).length + lt.length : Nat) : Int) =
                  ((pre ++ lc ++ [jump_instruction OpCode.OP_JMP_IF_FALSE line
                    (pre.length + lc.length + 1 + lt.length + 1)] ++ lt).length : Nat) := by
                simp
                omega
              rw [hpos2, vm_step_fetch pw table code _ (le ++ post)
                (jump_instruction OpCode.OP_JMP line
                  (pre.length + lc.length + 1 + lt.length + 1 + le.length)) _
                (by rw [hcode]; simp)]
              simp [vm_dispatch, jump_instruction, Operand.as_address]
              omega
          · rw [if_neg htruthy]
            rw [if_neg htruthy] at hcrest
            have hz : is_truthy (interpreter_evaluate pw table c) = 0 := by
              simpa using htruthy
            have hj : vm_step pw
                { code := { code := code }, symtab := table,
                  pc := ((pre.length + lc.length : Nat) : Int),
                  stack := interpreter_evaluate pw table c :: stack } =
                VMStep.running
                  { code := { code := code }, symtab := table,
                    pc := (((pre ++ lc ++ [jump_instruction OpCode.OP_JMP_IF_FALSE line
                      (pre.length + lc.length + 1 + lt.length + 1)] ++ lt ++
                      [jump_instruction OpCode.OP_JMP line
                        (pre.length + lc.length + 1 + lt.length + 1 + le.length)]).length : Nat)
                      : Int),
                    stack := stack } := by
              rw [hposj, hstepj]
              simp [vm_dispatch, jump_instruction, vm_pop, hz, Operand.as_address]
              omega
            obtain ⟨ke, hke, hrune⟩ := he hfe hcrest le
              (pre ++ lc ++ [jump_instruction OpCode.OP_JMP_IF_FALSE line
                (pre.length + lc.length + 1 + lt.length + 1)] ++ lt ++
                [jump_instruction OpCode.OP_JMP line
                  (pre.length + lc.length + 1 + lt.length + 1 + le.length)])
              post code stack
              (by
                have hlen : (pre ++ lc ++ [jump_instruction OpCode.OP_JMP_IF_FALSE line
                    (pre.length + lc.length + 1 + lt.length + 1)] ++ lt ++
                    [jump_instruction OpCode.OP_JMP line
                      (pre.length + lc.length + 1 + lt.length + 1 + le.length)]).length =
                    pre.length + lc.length + 1 + lt.length + 1 := by
                  simp only [List.length_append, List.length_singleton]
                rw [hlen]; exact hle)
              (by rw [hcode]; simp) (by omega)
            by_cases herre : (interpreter_evaluate pw table e).is_error = true
            · rw [if_pos herre] at hrune
              refine ⟨kc + 1 + ke, by simp; omega, ?_⟩
              rw [if_pos herre]
              refine ⟨by omega, fun f => ?_⟩
              rw [show kc + 1 + ke + f = kc + ((ke + f) + 1) by omega, hrunc,
                vm_run_running pw _ _ hj]
              exact hrune.2 f
            · rw [if_neg herre] at hrune
              refine ⟨kc + 1 + ke, by simp; omega, ?_⟩
              rw [if_neg herre]
              intro f
              rw [show kc + 1 + ke + f = kc + ((ke + f) + 1) by omega, hrunc,
                vm_run_running pw _ _ hj, hrune]
              congr 3
              simp
              omega

/-- The argument list of the interpreter for a proper chain: the values of
the chain, each put in front by prepend_arg, the last one first. -/
theorem eval_arg_list_chain (pw : Rat → Rat → Rat) (table : SymbolTable) (arguments : ASTNode) :
    args_in_fragment arguments = true →
    eval_arg_list pw table arguments =
      (chain_values pw table arguments).foldr (prepend_arg table) [] := by
  induction arguments with
  | null => intro _; simp [eval_arg_list, chain_values, chain_exprs]
  | arg_list e next line _ ihn =>
    intro h
    simp only [args_in_fragment, Bool.and_eq_true] at h
    simp only [eval_arg_list, ihn h.2, chain_values, chain_exprs, List.map_cons, List.foldr_cons]
  | number _ _ | string _ _ | cell_ref _ _ | range _ _ | unary_op _ _ _ | binary_op _ _ _ _
  | function_call _ _ _ =>
    intro h; simp [args_in_fragment] at h

/-- The loop of `OP_CALL` on a stack that holds the values `rs` on top. -/
theorem collect_args_pops (table : SymbolTable) (rs stack : List Value) :
    ∀ arg_head : List Value, collect_args table rs.length (rs ++ stack) arg_head =
      some (rs.foldl (fun acc v => prepend_arg table v acc) arg_head, stack) := by
  induction rs with
  | nil => intro arg_head; simp [collect_args]
  | cons v rest ih =>
    intro arg_head
    simp only [List.length_cons, List.cons_append, collect_args, ih, List.foldl_cons]

/-- The code of an argument chain pushes the values of the chain, the first
one lowest, and the recorded count is the length of the chain. -/
theorem run_args (pw : Rat → Rat → Rat) (table : SymbolTable) (arguments : ASTNode) :
    (∀ e ∈ chain_exprs arguments, compiles_correctly pw table e) →
    args_in_fragment arguments = true → args_clean pw table arguments = true →
    ∀ (seg : List Instruction) (n : Int) (pre post code : List Instruction) (stack : List Value),
      layout_args arguments pre.length = some (seg, n) → code = pre ++ seg ++ post →
      stack.length + args_stack_need arguments ≤ VM_STACK_SIZE →
      n = ((chain_exprs arguments).length : Nat) ∧
      ∃ k, k ≤ seg.length ∧ ∀ f, vm_run pw (k + f)
        { code := { code := code }, symtab := table, pc := (pre.length : Int), stack := stack } =
        vm_run pw f
          { code := { code := code }, symtab := table,
            pc := ((pre.length + seg.length : Nat) : Int),
            stack := (chain_values pw table arguments).reverse ++ stack } := by
  induction arguments with
  | null =>
    intro _ _ _ seg n pre post code stack hlay _ _
    simp only [layout_args, Option.some.injEq, Prod.mk.injEq] at hlay
    obtain ⟨rfl, rfl⟩ := hlay
    refine ⟨by simp [chain_exprs], 0, Nat.le_refl _, fun f => ?_⟩
    simp [chain_values, chain_exprs]
  | arg_list e next line _ ihn =>
    intro hchain hfrag hclean seg n pre post code stack hlay hcode hstack
    simp only [args_in_fragment, Bool.and_eq_true] at hfrag
    simp only [args_clean, Bool.and_eq_true, Bool.not_eq_true'] at hclean
    obtain ⟨⟨hce, hne⟩, hcn⟩ := hclean
    simp only [args_stack_need] at hstack
    simp only [layout_args] at hlay
    cases hle : layout e pre.length with
    | none => simp [hle] at hlay
    | some ecode =>
      simp only [hle] at hlay
      cases hln : layout_args next (pre.length + ecode.length) with
      | none => simp [hln] at hlay
      | some r =>
        obtain ⟨rest, m⟩ := r
        simp only [hln, Option.some.injEq, Prod.mk.injEq] at hlay
        obtain ⟨rfl, rfl⟩ := hlay
        obtain ⟨k1, hk1, hrun1⟩ := hchain e (by simp [chain_exprs]) hfrag.1 hce ecode pre
          (rest ++ post) code stack hle (by rw [hcode]; simp) (by omega)
        rw [if_neg (by simp [hne])] at hrun1
        obtain ⟨hm, k2, hk2, hrun2⟩ := ihn (fun x hx => hchain x (by simp [chain_exprs, hx]))
          hfrag.2 hcn rest m (pre ++ ecode) post code
          (interpreter_evaluate pw table e :: stack)
          (by rw [List.length_append]; exact hln) (by rw [hcode]; simp)
          (by simp only [List.length_cons]; omega)
        refine ⟨by simp [chain_exprs, hm], k1 + k2, by simp; omega, fun f => ?_⟩
        rw [show k1 + k2 + f = k1 + (k2 + f) by omega, hrun1]
        have hpos : ((pre.length + ecode.length : Nat) : Int) = ((pre ++ ecode).length : Nat) := by
          simp
        rw [hpos, hrun2]
        simp [chain_values, chain_exprs, Nat.add_assoc]
  | number _ _ | string _ _ | cell_ref _ _ | range _ _ | unary_op _ _ _ | binary_op _ _ _ _
  | function_call _ _ _ =>
    intro _ h; simp [args_in_fragment] at h

theorem in_fragment_call (tok : Token) (arguments : ASTNode) (line : Int) (hif : tok ≠ Token.IF) :
    in_fragment (ASTNode.function_call tok arguments line) = args_in_fragment arguments := by
  cases arguments with
  | arg_list c second l1 =>
    cases second with
    | arg_list t third l2 => cases third <;> simp only [in_fragment, hif, if_false]
    | _ => simp only [in_fragment, hif, if_false]
  | _ => simp only [in_fragment, hif, if_false]

theorem calls_clean_call (pw : Rat → Rat → Rat) (table : SymbolTable) (tok : Token)
    (arguments : ASTNode) (line : Int) (hif : tok ≠ Token.IF) :
    calls_clean pw table (ASTNode.function_call tok arguments line) =
      (args_clean pw table arguments &&
        !(interp_call_runtime tok (eval_arg_list pw table arguments)).is_error) := by
  cases arguments with
  | arg_list c second l1 =>
    cases second with
    | arg_list t third l2 => cases third <;> simp only [calls_clean, hif, if_false]
    | _ => simp only [calls_clean, hif, if_false]
  | _ => simp only [calls_clean, hif, if_false]

theorem stack_need_call (tok : Token) (arguments : ASTNode) (line : Int) (hif : tok ≠ Token.IF) :
    stack_need (ASTNode.function_call tok arguments line) = max (args_stack_need arguments) 1 := by
  cases arguments with
  | arg_list c second l1 =>
    cases second with
    | arg_list t third l2 => cases third <;> simp only [stack_need, hif, if_false]
    | _ => simp only [stack_need, hif, if_false]
  | _ => simp only [stack_need, hif, if_false]

theorem interpreter_evaluate_call (pw : Rat → Rat → Rat) (table : SymbolTable) (tok : Token)
    (arguments : ASTNode) (line : Int) (hif : tok ≠ Token.IF) :
    interpreter_evaluate pw table (ASTNode.function_call tok arguments line) =
      interp_call_runtime tok (eval_arg_list pw table arguments) := by
  cases arguments with
  | arg_list c second l1 =>
    cases second with
    | arg_list t third l2 => cases third <;> simp only [interpreter_evaluate, hif, if_false]
    | _ => simp only [interpreter_evaluate, hif, if_false]
  | _ => simp only [interpreter_evaluate, hif, if_false]

theorem compiles_call (pw : Rat → Rat → Rat) (table : SymbolTable) (tok : Token)
    (arguments : ASTNode) (line : Int) (hif : tok ≠ Token.IF)
    (hchain : ∀ e ∈ chain_exprs arguments, compiles_correctly pw table e) :
    compiles_correctly pw table (ASTNode.function_call tok arguments line) := by
  intro hfrag hclean seg pre post code stack hlay hcode hstack
  rw [in_fragment_call _ _ _ hif] at hfrag
  rw [calls_clean_call _ _ _ _ _ hif] at hclean
  simp only [Bool.and_eq_true, Bool.not_eq_true'] at hclean
  obtain ⟨hargs, hres⟩ := hclean
  rw [stack_need_call _ _ _ hif] at hstack
  rw [layout_call _ _ _ _ hif] at hlay
  rw [interpreter_evaluate_call _ _ _ _ _ hif]
  cases hla : layout_args arguments pre.length with
  | none => simp [hla] at hlay
  | some r =>
    obtain ⟨acode, n⟩ := r
    simp only [hla, Option.some.injEq] at hlay
    subst hlay
    obtain ⟨hn, k, hk, hrun⟩ := run_args pw table arguments hchain hfrag hargs acode n pre
      ([{ opcode := OpCode.OP_CALL, line := line, operand := Operand.func_call tok n }] ++ post)
      code stack hla (by rw [hcode]; simp) (by omega)
    refine ⟨k + 1, by simp; omega, ?_⟩
    rw [if_neg (by simp [hres])]
    intro f
    rw [show k + 1 + f = k + (f + 1) by omega, hrun]
    apply vm_run_running
    have hpos : ((pre.length + acode.length : Nat) : Int) = ((pre ++ acode).length : Nat) := by
      simp
    rw [hpos, vm_step_fetch pw table code (pre ++ acode) post
      { opcode := OpCode.OP_CALL, line := line, operand := Operand.func_call tok n } _
      (by rw [hcode]; simp)]
    have hlen : n.toNat = (chain_values pw table arguments).reverse.length := by
      simp [hn, chain_values]
    have hroom : ¬ stack.length ≥ VM_STACK_SIZE := by omega
    simp only [vm_dispatch, hlen, collect_args_pops, push_and_continue, vm_push, hroom,
      if_false, List.foldl_reverse]
    rw [call_runtime_eq tok _ (by rw [← eval_arg_list_chain pw table arguments hfrag]; exact hres),
      ← eval_arg_list_chain pw table arguments hfrag]
    simp
    omega

/-- The code of every node of the fragment runs on the VM to the value the
interpreter computes, wherever it lies in a code array. -/
theorem compiles_all (pw : Rat → Rat → Rat) (table : SymbolTable) :
    ∀ node, compiles_correctly pw table node := by
  apply ast_induction
  · intro h; simp [in_fragment] at h
  · exact compiles_number pw table
  · intro s line h; simp [in_fragment] at h
  · exact compiles_cell_ref pw table
  · exact compiles_range pw table
  · exact compiles_unary pw table
  · exact compiles_binary pw table
  · intro tok arguments line hchain
    by_cases hif : tok = Token.IF
    · subst hif
      cases arguments with
      | arg_list c second l1 =>
        cases second with
        | arg_list t third l2 =>
          cases third with
          | arg_list e rest l3 =>
            exact compiles_if pw table c t e rest l1 l2 l3 line
              (hchain c (by simp [chain_exprs])) (hchain t (by simp [chain_exprs]))
              (hchain e (by simp [chain_exprs]))
          | _ => intro h; simp [in_fragment] at h
        | _ => intro h; simp [in_fragment] at h
      | _ => intro h; simp [in_fragment] at h
    · exact compiles_call pw table tok arguments line hif hchain
  · intro e next line _ _ h; simp [in_fragment] at h

theorem layout_args_some (arguments : ASTNode) :
    (∀ e ∈ chain_exprs arguments, in_fragment e = true → ∀ start, (layout e start).isSome) →
    args_in_fragment arguments = true → ∀ start, (layout_args arguments start).isSome := by
  induction arguments with
  | null => intro _ _ start; simp [layout_args]
  | arg_list e next line _ ihn =>
    intro hchain hfrag start
    simp only [args_in_fragment, Bool.and_eq_true] at hfrag
    have he := hchain e (by simp [chain_exprs]) hfrag.1 start
    obtain ⟨ecode, hecode⟩ := Option.isSome_iff_exists.mp he
    have hn := ihn (fun x hx => hchain x (by simp [chain_exprs, hx])) hfrag.2
      (start + ecode.length)
    obtain ⟨r, hr⟩ := Option.isSome_iff_exists.mp hn
    simp [layout_args, hecode, hr]
  | number _ _ | string _ _ | cell_ref _ _ | range _ _ | unary_op _ _ _ | binary_op _ _ _ _
  | function_call _ _ _ =>
    intro _ h; simp [args_in_fragment] at h

/-- The code generator returns on every node of the fragment. -/
theorem layout_some : ∀ node, in_fragment node = true → ∀ start, (layout node start).isSome := by
  apply ast_induction
  · intro h; simp [in_fragment] at h
  · intro n line _ start; simp [layout]
  · intro s line h; simp [in_fragment] at h
  · intro s line _ start; simp [layout]
  · intro s line _ start; simp [layout]
  · intro op left line ih hfrag start
    simp only [in_fragment, Bool.and_eq_true] at hfrag
    obtain ⟨lcode, hl⟩ := Option.isSome_iff_exists.mp (ih hfrag.2 start)
    simp [layout, hl]
  · intro op left right line ihl ihr hfrag start
    simp only [in_fragment, Bool.and_eq_true] at hfrag
    obtain ⟨lcode, hl⟩ := Option.isSome_iff_exists.mp (ihl hfrag.1.2 start)
    obtain ⟨rcode, hr⟩ := Option.isSome_iff_exists.mp (ihr hfrag.2 (start + lcode.length))
    simp [layout, hl, hr]
  · intro tok arguments line hchain hfrag start
    by_cases hif : tok = Token.IF
    · subst hif
      cases arguments with
      | arg_list c second l1 =>
        cases second with
        | arg_list t third l2 =>
          cases third with
          | arg_list e rest l3 =>
            simp only [in_fragment, if_true, Bool.and_eq_true] at hfrag
            obtain ⟨cc, hc⟩ := Option.isSome_iff_exists.mp
              (hchain c (by simp [chain_exprs]) hfrag.1.1 start)
            obtain ⟨tc, ht⟩ := Option.isSome_iff_exists.mp
              (hchain t (by simp [chain_exprs]) hfrag.1.2 (start + cc.length + 1))
            obtain ⟨ec, he⟩ := Option.isSome_iff_exists.mp
              (hchain e (by simp [chain_exprs]) hfrag.2 (start + cc.length + 1 + tc.length + 1))
            simp [layout, layout_if, hc, ht, he]
          | _ => simp [in_fragment] at hfrag
        | _ => simp [in_fragment] at hfrag
      | _ => simp [in_fragment] at hfrag
    · rw [in_fragment_call _ _ _ hif] at hfrag
      obtain ⟨r, hr⟩ := Option.isSome_iff_exists.mp
        (layout_args_some arguments hchain hfrag start)
      rw [layout_call _ _ _ _ hif, hr]
      rfl
  · intro e next line _ _ h; simp [in_fragment] at h

/-- The loop over the direct dependencies appends one diagnostic when it finds
a circle and leaves the error system as it is otherwise. -/
theorem circular_loop_errors (fuel : Nat) (table : SymbolTable) (key : String) :
    ∀ (deps : List String) (errors : ErrorSystem) (b : Bool) (e2 : ErrorSystem),
      circular_loop fuel table key deps errors = some (b, e2) →
      (b = false → e2 = errors) ∧
      (b = true → ∃ d, e2.errors = errors.errors ++ [d] ∧
        e2.error_count = errors.error_count + 1) := by
  intro deps
  induction deps with
  | nil =>
    intro errors b e2 h
    simp only [circular_loop, Option.some.injEq, Prod.mk.injEq] at h
    obtain ⟨rfl, rfl⟩ := h
    simp
  | cons dep rest ih =>
    intro errors b e2 h
    simp only [circular_loop] at h
    cases hc : symtab_check_circular_dep fuel table key dep errors with
    | none => simp [hc] at h
    | some r =>
      obtain ⟨b1, e1⟩ := r
      obtain ⟨hfalse, htrue⟩ := symtab_check_circular_dep_errors fuel table key dep errors b1 e1 hc
      cases b1 with
      | true =>
        simp only [hc, Option.some.injEq, Prod.mk.injEq] at h
        obtain ⟨rfl, rfl⟩ := h
        obtain ⟨rest1, h1, h2⟩ := htrue rfl
        exact ⟨by simp, fun _ => ⟨_, h1, h2⟩⟩
      | false =>
        simp only [hc] at h
        rw [hfalse rfl] at h
        exact ih errors b e2 h

/-- What semantic_analysis returns for a formula, in a table of the right
shape: the count of the error system before the call plus twice the number of
diagnostics the call appends (each of them is counted once in the local
counter and once more in the counter of the error system). -/
theorem semantic_analysis_count (fuel : Nat) (node : ASTNode) (table : SymbolTable)
    (errors : ErrorSystem) (key : String) (hwf : table_wf table) (hnode : node ≠ ASTNode.null)
    (n : Nat) (table2 : SymbolTable) (errors2 : ErrorSystem)
    (h : semantic_analysis fuel node table errors key = some (n, table2, errors2)) :
    ∃ appended : List Error, errors2.errors = errors.errors ++ appended ∧
      errors2.error_count = errors.error_count + appended.length ∧
      n = errors.error_count + 2 * appended.length := by
  obtain ⟨table1, slot, hens, hget, hdef, _⟩ := ensure_this_cell_spec table hwf key
  simp only [semantic_analysis, hnode, if_false, hens] at h
  obtain ⟨⟨_, _, _, _, _, appended, ha1, ha2, ha3, _⟩, _⟩ := semantic_traverse_keeps key slot node
    { table := table1, errors := errors, this_cell_ref := key, error_count := 0 } rfl hget hdef
  simp only at ha1 ha2 ha3
  generalize semantic_traverse node
    { table := table1, errors := errors, this_cell_ref := key, error_count := 0 } = ctx
    at h ha1 ha2 ha3
  split at h
  · rename_i hcond
    cases hl : circular_loop fuel ctx.table key (ctx.table.entry slot).dependencies ctx.errors with
    | none => simp [hl] at h
    | some r =>
      obtain ⟨b, e1⟩ := r
      obtain ⟨hfalse, htrue⟩ := circular_loop_errors fuel ctx.table key _ _ _ _ hl
      have hzero : appended.length = 0 := by omega
      have hnil : appended = [] := List.length_eq_zero.mp hzero
      subst hnil
      cases b with
      | true =>
        simp only [hl, Option.some.injEq, Prod.mk.injEq] at h
        obtain ⟨rfl, _, rfl⟩ := h
        obtain ⟨d, h1, h2⟩ := htrue rfl
        refine ⟨[d], by rw [h1, ha1]; simp, by rw [h2, ha3]; simp, ?_⟩
        simp only [error_get_count, h2, ha3, hcond.1, List.length_nil, List.length_singleton]
        omega
      | false =>
        simp only [hl, Option.some.injEq, Prod.mk.injEq] at h
        obtain ⟨rfl, _, rfl⟩ := h
        rw [hfalse rfl]
        refine ⟨[], ha1, ha3, ?_⟩
        simp only [error_get_count, ha3, hcond.1, List.length_nil]
        omega
  · simp only [Option.some.injEq, Prod.mk.injEq] at h
    obtain ⟨rfl, _, rfl⟩ := h
    refine ⟨appended, ha1, ha3, ?_⟩
    simp only [error_get_count, ha3, ha2]
    omega

/-- C11 (code bug): started with an empty error system and an empty table,
semantic_analysis of the formula `Z9` for the cell `B1` appends exactly one
diagnostic (the undefined reference) and returns 2, not 1: the returned sum
`ctx.error_count + error_get_count(errors)` counts the diagnostic of this pass
twice. -/
theorem semantic_analysis_counts_new_errors_twice :
    error_get_count error_system_create = 0 ∧
    (semantic_analysis 10 formula_undefined_reference symtab_create error_system_create "B1").map
        (fun r => (r.1, r.2.2.errors.length, error_get_count r.2.2)) = some (2, 1, 1) := by
  decide!

/-! ## The symbol table as a finite map -/

/-- The two probes walk the same slots: where find_entry answers a slot,
symtab_get_cell answers `NULL` when the slot is free and the slot otherwise. -/
theorem get_cell_loop_of_find (entries : List CellEntry) (capacity : Nat) (key : String)
    (fuel : Nat) :
    ∀ start slot, find_entry_loop fuel entries capacity key start = some slot →
      ∀ e, entries[slot]? = some e →
        get_cell_loop fuel entries capacity key start =
          some (if e.key = none then none else some slot) := by
  induction fuel with
  | zero => intro start slot h; simp [find_entry_loop] at h
  | succ fuel ih =>
    intro start slot h e he
    simp only [find_entry_loop] at h
    simp only [get_cell_loop]
    cases h1 : entries[start]? with
    | none => simp [h1] at h
    | some e0 =>
      simp only [h1] at h ⊢
      by_cases hn : e0.key = none
      · simp only [hn, if_true, Option.some.injEq] at h
        subst h
        rw [h1] at he
        cases he
        simp [hn]
      · by_cases hk : e0.key = some key
        · simp only [hk, reduceCtorEq, if_false, if_true, Option.some.injEq] at h
          subst h
          rw [h1] at he
          cases he
          simp [hk]
        · simp only [hn, hk, if_false] at h ⊢
          exact ih _ _ h e he

/-- Where symtab_get_cell finds the key, find_entry answers the same slot. -/
theorem find_of_get_cell_loop (entries : List CellEntry) (capacity : Nat) (key : String)
    (fuel : Nat) :
    ∀ start slot, get_cell_loop fuel entries capacity key start = some (some slot) →
      find_entry_loop fuel entries capacity key start = some slot := by
  induction fuel with
  | zero => intro start slot h; simp [get_cell_loop] at h
  | succ fuel ih =>
    intro start slot h
    simp only [get_cell_loop] at h
    simp only [find_entry_loop]
    cases h1 : entries[start]? with
    | none => simp [h1] at h
    | some e0 =>
      simp only [h1] at h ⊢
      by_cases hn : e0.key = none
      · simp [hn] at h
      · by_cases hk : e0.key = some key
        · simp only [hk, reduceCtorEq, if_false, if_true, Option.some.injEq] at h
          subst h
          simp [hk]
        · simp only [hn, hk, if_false] at h ⊢
          exact ih _ _ h

/-- A key that is found stays found, in the same slot, when a free slot is
written. -/
theorem get_cell_loop_set_found (entries : List CellEntry) (capacity : Nat) (key : String)
    (s : Nat) (es e1 : CellEntry) (hes : entries[s]? = some es) (hfree : es.key = none)
    (fuel : Nat) :
    ∀ start slot, get_cell_loop fuel entries capacity key start = some (some slot) →
      get_cell_loop fuel (entries.set s e1) capacity key start = some (some slot) := by
  induction fuel with
  | zero => intro start slot h; simp [get_cell_loop] at h
  | succ fuel ih =>
    intro start slot h
    simp only [get_cell_loop] at h ⊢
    cases h1 : entries[start]? with
    | none => simp [h1] at h
    | some e0 =>
      simp only [h1] at h
      by_cases hn : e0.key = none
      · simp [hn] at h
      · have hne : s ≠ start := by
          intro heq
          subst heq
          rw [hes] at h1
          cases h1
          exact hn hfree
        rw [List.getElem?_set_ne hne, h1]
        by_cases hk : e0.key = some key
        · simp only [hk, reduceCtorEq, if_false, if_true] at h ⊢
          exact h
        · simp only [hn, hk, if_false] at h ⊢
          exact ih _ _ h

/-- Writing an entry with key `key` into the slot find_entry answers for `key`
keeps every stored key findable. -/
theorem findable_set (entries : List CellEntry) (capacity : Nat) (key : String)
    (hfind : findable entries capacity) (s : Nat)
    (hs : find_entry_loop capacity entries capacity key (hash_string key &&& (capacity - 1)) =
      some s)
    (e1 : CellEntry) (hkey : e1.key = some key) :
    findable (entries.set s e1) capacity := by
  obtain ⟨es, hes, hes_key⟩ := find_entry_loop_slot _ _ _ _ _ _ hs
  have hslt : s < entries.length := by
    rcases Nat.lt_or_ge s entries.length with hl | hl
    · exact hl
    · rw [List.getElem?_eq_none hl] at hes; cases hes
  intro i e k hi hk
  by_cases his : i = s
  · subst his
    simp only [List.getElem?_set, hslt, if_true, Option.some.injEq] at hi
    subst hi
    rw [hkey] at hk
    cases hk
    exact get_cell_loop_after_write entries capacity key e1 hkey capacity _ _ hs
  · rw [List.getElem?_set_ne (Ne.symm his)] at hi
    have hold := hfind i e k hi hk
    rcases hes_key with hnone | hsome
    · exact get_cell_loop_set_found entries capacity k s es e1 hes hnone capacity _ _ hold
    · have hkeys : (entries.set s e1).map CellEntry.key = entries.map CellEntry.key :=
        map_key_set entries e1 s es hes (by rw [hkey, hsome])
      rw [get_cell_loop_keys _ _ hkeys]
      exact hold

theorem occupied_of_keys (entries entries1 : List CellEntry)
    (hkeys : entries1.map CellEntry.key = entries.map CellEntry.key) :
    occupied entries1 = occupied entries := by
  have h : ∀ l : List CellEntry, occupied l = (l.map CellEntry.key).countP Option.isSome := by
    intro l
    simp [occupied, List.countP_map, Function.comp_def]
  rw [h, h, hkeys]

theorem occupied_pos_of_mem (entries : List CellEntry) (e : CellEntry) (k : String)
    (he : e ∈ entries) (hk : e.key = some k) : 0 < occupied entries := by
  unfold occupied
  exact List.countP_pos_iff.mpr ⟨e, he, by simp [hk]⟩

/-- An element other than the one in slot `s` is still there after slot `s`
is written. -/
theorem mem_set_of_ne {α : Type} (l : List α) (s : Nat) (x y e : α) (hs : l[s]? = some x)
    (he : e ∈ l) (hne : e ≠ x) : e ∈ l.set s y := by
  obtain ⟨i, hi⟩ := List.mem_iff_getElem?.mp he
  have his : s ≠ i := by
    intro heq
    subst heq
    rw [hs] at hi
    cases hi
    exact hne rfl
  exact List.mem_iff_getElem?.mpr ⟨i, by rw [List.getElem?_set_ne his]; exact hi⟩

/-- In a table that satisfies the invariant the record read for a key is the
entry of the array that holds the key. -/
theorem get_record_iff (table : SymbolTable) (hinv : table_inv table) (key : String)
    (e : CellEntry) :
    get_record table key = some e ↔ e ∈ table.entries ∧ e.key = some key := by
  obtain ⟨hlen, hpow, h8, hocc, hload, hfind⟩ := hinv
  constructor
  · intro h
    unfold get_record at h
    cases hg : symtab_get_cell table key with
    | none => simp [hg] at h
    | some slot =>
      simp only [hg, Option.map_some', Option.some.injEq] at h
      obtain ⟨e0, he0, hk0, hentry⟩ := symtab_get_cell_found table key slot hg
      rw [hentry] at h
      subst h
      exact ⟨List.getElem?_mem he0, hk0⟩
  · rintro ⟨hmem, hk⟩
    obtain ⟨i, hi⟩ := List.mem_iff_getElem?.mp hmem
    have hloop := hfind i e key hi hk
    have hpos := occupied_pos_of_mem table.entries e key hmem hk
    have hc : table.count ≠ 0 := by omega
    unfold get_record symtab_get_cell
    simp [hc, hloop, SymbolTable.entry, hi]

/-- Two tables that satisfy the invariant and hold the same entries for a key
answer the same record for it. -/
theorem get_record_congr (table table1 : SymbolTable) (hinv : table_inv table)
    (hinv1 : table_inv table1) (key : String)
    (hmem : ∀ e : CellEntry, e.key = some key → (e ∈ table1.entries ↔ e ∈ table.entries)) :
    get_record table1 key = get_record table key := by
  apply Option.ext
  intro e
  simp only [Option.mem_def]
  rw [get_record_iff table1 hinv1, get_record_iff table hinv]
  constructor
  · rintro ⟨h1, h2⟩
    exact ⟨(hmem e h2).mp h1, h2⟩
  · rintro ⟨h1, h2⟩
    exact ⟨(hmem e h2).mpr h1, h2⟩

/-- A change of the table that keeps the count, the capacity and the key of
every slot keeps the invariant. -/
theorem table_inv_of_keys (table table1 : SymbolTable) (hinv : table_inv table)
    (hcount : table1.count = table.count) (hcap : table1.capacity = table.capacity)
    (hkeys : table1.entries.map CellEntry.key = table.entries.map CellEntry.key) :
    table_inv table1 := by
  obtain ⟨hlen, hpow, h8, hocc, hload, hfind⟩ := hinv
  have hl : table1.entries.length = table.entries.length := by
    have := congrArg List.length hkeys
    simpa using this
  refine ⟨by rw [hl, hlen, hcap], by rw [hcap]; exact hpow, by rw [hcap]; exact h8,
    by rw [occupied_of_keys _ _ hkeys, hcount]; exact hocc, by rw [hcount, hcap]; exact hload, ?_⟩
  intro i e k hi hk
  rw [hcap, get_cell_loop_keys _ _ hkeys]
  have hkey_i : (table.entries.map CellEntry.key)[i]? = some (some k) := by
    rw [← hkeys, List.getElem?_map, hi]
    simp [hk]
  rw [List.getElem?_map] at hkey_i
  cases hti : table.entries[i]? with
  | none => simp [hti] at hkey_i
  | some e0 =>
    simp only [hti, Option.map_some', Option.some.injEq] at hkey_i
    exact hfind i e0 k hti hkey_i

/-- No two slots of an array with findable keys hold the same key. -/
theorem findable_pairwise (entries : List CellEntry) (capacity : Nat)
    (hfind : findable entries capacity) :
    entries.Pairwise (fun a b => ∀ k, a.key = some k → b.key ≠ some k) := by
  rw [List.pairwise_iff_getElem]
  intro i j hi hj hij k hki hkj
  have h1 := hfind i entries[i] k (List.getElem?_eq_getElem hi) hki
  have h2 := hfind j entries[j] k (List.getElem?_eq_getElem hj) hkj
  rw [h1] at h2
  simp only [Option.some.injEq] at h2
  omega

/-- The re-hash loop of resize_table, started on an array `acc` with findable
keys and room for the entries still to be moved, none of which has a key of
`acc` or shares its key with another one: the keys of the array it returns are
findable, and its entries that hold a key are those of `acc` and the moved
ones. -/
theorem rehash_spec (m : Nat) :
    ∀ (old acc : List CellEntry) (count : Nat), acc.length = 2 ^ m →
      findable acc (2 ^ m) → occupied acc + old.length < 2 ^ m →
      old.Pairwise (fun a b => ∀ k, a.key = some k → b.key ≠ some k) →
      (∀ o ∈ old, ∀ k, o.key = some k → ∀ a ∈ acc, a.key ≠ some k) →
      findable (rehash old acc (2 ^ m) count).1 (2 ^ m) ∧
      ∀ (e : CellEntry) (k : String), e.key = some k →
        (e ∈ (rehash old acc (2 ^ m) count).1 ↔ e ∈ acc ∨ e ∈ old) := by
  intro old
  induction old with
  | nil =>
    intro acc count _ hfind _ _ _
    simp [rehash, hfind]
  | cons o rest ih =>
    intro acc count hlen hfind hroom hpair hfresh
    rw [List.pairwise_cons] at hpair
    obtain ⟨hhead, hpair_rest⟩ := hpair
    simp only [List.length_cons] at hroom
    cases hk : o.key with
    | none =>
      simp only [rehash, hk]
      obtain ⟨h1, h2⟩ := ih acc count hlen hfind (by omega) hpair_rest
        (fun o1 ho1 => hfresh o1 (List.mem_cons_of_mem _ ho1))
      refine ⟨h1, fun e k hek => ?_⟩
      rw [h2 e k hek, List.mem_cons]
      constructor
      · rintro (h | h)
        · exact Or.inl h
        · exact Or.inr (Or.inr h)
      · rintro (h | h | h)
        · exact Or.inl h
        · subst h
          rw [hk] at hek
          cases hek
        · exact Or.inr h
    | some k0 =>
      simp only [rehash, hk]
      have hstart : hash_string k0 &&& (2 ^ m - 1) < 2 ^ m := by
        rw [Nat.and_pow_two_sub_one_eq_mod]
        exact Nat.mod_lt _ (Nat.two_pow_pos m)
      obtain ⟨s, hs⟩ := find_entry_loop_wf acc m hlen (by omega) k0 _ hstart
      have hfe : find_entry acc (2 ^ m) k0 = s := by
        unfold find_entry
        rw [hs]
        rfl
      rw [hfe]
      obtain ⟨es, hes, hes_key⟩ := find_entry_loop_slot _ _ _ _ _ _ hs
      have hes_none : es.key = none := by
        rcases hes_key with h | h
        · exact h
        · exact absurd h (hfresh o (List.mem_cons_self _ _) k0 hk es (List.getElem?_mem hes))
      have hocc := countP_set_le (fun e : CellEntry => e.key.isSome) o acc s
      obtain ⟨h1, h2⟩ := ih (acc.set s o) (count + 1) (by rw [List.length_set]; exact hlen)
        (findable_set acc (2 ^ m) k0 hfind s hs o hk)
        (by unfold occupied at hroom ⊢; omega) hpair_rest
        (by
          intro o1 ho1 k1 hk1 a ha
          rcases List.mem_or_eq_of_mem_set ha with h | h
          · exact hfresh o1 (List.mem_cons_of_mem _ ho1) k1 hk1 a h
          · subst h
            intro hak
            exact hhead o1 ho1 k1 hak hk1)
      refine ⟨h1, fun e k hek => ?_⟩
      rw [h2 e k hek, List.mem_cons]
      constructor
      · rintro (h | h)
        · rcases List.mem_or_eq_of_mem_set h with h3 | h3
          · exact Or.inl h3
          · exact Or.inr (Or.inl h3)
        · exact Or.inr (Or.inr h)
      · rintro (h | h | h)
        · refine Or.inl (mem_set_of_ne acc s es o e hes h ?_)
          intro heq
          subst heq
          rw [hes_none] at hek
          cases hek
        · subst h
          exact Or.inl (List.mem_iff_getElem?.mpr ⟨s, by
            have hslt : s < acc.length := by
              rcases Nat.lt_or_ge s acc.length with hl | hl
              · exact hl
              · rw [List.getElem?_eq_none hl] at hes; cases hes
            simp [List.getElem?_set, hslt]⟩)
        · exact Or.inr h

/-- After resize_table the invariant holds with room for one more cell, and
the entries that hold a key are those of the table before. -/
theorem resize_table_spec (table : SymbolTable) (hinv : table_inv table) :
    table_inv (resize_table table) ∧
    4 * ((resize_table table).count + 1) ≤ 3 * (resize_table table).capacity ∧
    ∀ (e : CellEntry) (k : String), e.key = some k →
      (e ∈ (resize_table table).entries ↔ e ∈ table.entries) := by
  obtain ⟨hlen, ⟨m, hm⟩, h8, hocc, hload, hfind⟩ := hinv
  have h8' : ¬ table.capacity < 8 := by omega
  have hp : 2 ^ (m + 1) = 2 * 2 ^ m := by rw [Nat.pow_succ]; omega
  have hc2 : table.capacity * 2 = 2 ^ (m + 1) := by rw [hm]; omega
  have hrt : resize_table table =
      { count := (rehash table.entries (List.replicate (2 ^ (m + 1)) CellEntry.empty)
          (2 ^ (m + 1)) 0).2,
        capacity := 2 ^ (m + 1),
        entries := (rehash table.entries (List.replicate (2 ^ (m + 1)) CellEntry.empty)
          (2 ^ (m + 1)) 0).1 } := by
    unfold resize_table
    simp only [if_neg h8']
    rw [List.take_of_length_le (Nat.le_of_eq hlen), hc2]
  have hempty : occupied (List.replicate (2 ^ (m + 1)) CellEntry.empty) = 0 := by
    simp [occupied, List.countP_eq_zero, CellEntry.empty]
  obtain ⟨r1, r2⟩ := rehash_spec (m + 1) table.entries
    (List.replicate (2 ^ (m + 1)) CellEntry.empty) 0 (by simp)
    (by
      intro i e k hi hk
      have := List.getElem?_mem hi
      rw [List.mem_replicate] at this
      rw [this.2] at hk
      simp [CellEntry.empty] at hk)
    (by rw [hempty, hlen, hm]; have := Nat.two_pow_pos m; omega)
    (findable_pairwise _ _ hfind)
    (by
      intro o _ k _ a ha
      rw [List.mem_replicate] at ha
      rw [ha.2]
      simp [CellEntry.empty])
  obtain ⟨q1, q2, q3⟩ := rehash_shape (2 ^ (m + 1)) table.entries
    (List.replicate (2 ^ (m + 1)) CellEntry.empty) 0
  rw [hempty] at q2
  rw [hlen, hm] at q3
  simp only [List.length_replicate] at q1
  rw [hrt]
  refine ⟨⟨q1, ⟨m + 1, rfl⟩, ?_, ?_, ?_, r1⟩, ?_, ?_⟩
  · dsimp only
    omega
  · dsimp only
    omega
  · dsimp only
    omega
  · dsimp only
    omega
  · intro e k hek
    show e ∈ (rehash table.entries (List.replicate (2 ^ (m + 1)) CellEntry.empty)
      (2 ^ (m + 1)) 0).1 ↔ _
    rw [r2 e k hek]
    constructor
    · rintro (h | h)
      · rw [List.mem_replicate] at h
        rw [h.2] at hek
        simp [CellEntry.empty] at hek
      · exact h
    · exact fun h => Or.inr h

/-- What symtab_define_cell does to a table that satisfies the invariant: the
invariant is kept, the entries of every other key stay as they are (also
through a resize), and the record of `key` is the one it had before (or a free
slot) with the key, the value, the formula, the line and the defined flag
written into it. -/
theorem symtab_define_cell_spec (table : SymbolTable) (hinv : table_inv table) (key : String)
    (value : Rat) (formula : Option String) (line : Int) :
    table_inv (symtab_define_cell table key value formula line) ∧
    (∀ (e : CellEntry) (k : String), k ≠ key → e.key = some k →
      (e ∈ (symtab_define_cell table key value formula line).entries ↔ e ∈ table.entries)) ∧
    ∃ e0 : CellEntry,
      (get_record table key = some e0 ∨ (get_record table key = none ∧ e0.key = none)) ∧
      get_record (symtab_define_cell table key value formula line) key =
        some { e0 with key := some key, value := value, formula_str := formula, line := line,
                       is_defined := true } := by
  -- the table the entry is written into
  have hstep : ∀ t1 : SymbolTable,
      t1 = (if over_load_factor table.count table.capacity then resize_table table else table) →
      table_inv t1 ∧ 4 * (t1.count + 1) ≤ 3 * t1.capacity ∧
        ∀ (e : CellEntry) (k : String), e.key = some k →
          (e ∈ t1.entries ↔ e ∈ table.entries) := by
    intro t1 ht1
    by_cases hov : over_load_factor table.count table.capacity = true
    · rw [if_pos hov] at ht1
      subst ht1
      exact resize_table_spec table hinv
    · rw [if_neg hov] at ht1
      subst ht1
      simp only [over_load_factor, decide_eq_true_eq, not_lt] at hov
      exact ⟨hinv, hov, fun _ _ _ => Iff.rfl⟩
  unfold symtab_define_cell
  generalize ht1 : (if over_load_factor table.count table.capacity then resize_table table
    else table) = t1 at hstep
  obtain ⟨⟨hlen1, ⟨m, hm⟩, h81, hocc1, hload1, hfind1⟩, hroom1, hmem1⟩ := hstep t1 rfl
  have hinv1 : table_inv t1 := ⟨hlen1, ⟨m, hm⟩, h81, hocc1, hload1, hfind1⟩
  have hstart : hash_string key &&& (t1.capacity - 1) < 2 ^ m := by
    rw [hm, Nat.and_pow_two_sub_one_eq_mod]
    exact Nat.mod_lt _ (Nat.two_pow_pos m)
  obtain ⟨s, hs⟩ := find_entry_loop_wf t1.entries m (by rw [hlen1, hm]) (by omega) key
    (hash_string key &&& (t1.capacity - 1)) hstart
  rw [← hm] at hs
  have hfe : find_entry t1.entries t1.capacity key = s := by
    unfold find_entry
    rw [hs]
    rfl
  obtain ⟨es, hes, hes_key⟩ := find_entry_loop_slot _ _ _ _ _ _ hs
  have hslt : s < t1.entries.length := by
    rcases Nat.lt_or_ge s t1.entries.length with hl | hl
    · exact hl
    · rw [List.getElem?_eq_none hl] at hes; cases hes
  have hentry : t1.entry s = es := by simp [SymbolTable.entry, List.getD, hes]
  simp only [hfe, hentry]
  have hnew_mem :
      ({ es with
          key := some key, value := value, formula_str := formula, line := line,
          is_defined := true } : CellEntry) ∈
        t1.entries.set s
          { es with
            key := some key, value := value, formula_str := formula, line := line,
            is_defined := true } :=
    List.mem_iff_getElem?.mpr ⟨s, by simp [List.getElem?_set, hslt]⟩
  have hinv2 : table_inv
      { t1 with
        count := (if es.key = none then t1.count + 1 else t1.count),
        entries := t1.entries.set s
          { es with
            key := some key, value := value, formula_str := formula, line := line,
            is_defined := true } } := by
    refine ⟨by simp only [List.length_set]; exact hlen1, ⟨m, hm⟩, h81, ?_, ?_,
      findable_set t1.entries t1.capacity key hfind1 s hs _ rfl⟩
    · dsimp only
      rcases hes_key with hk | hk
      · have := countP_set_le (fun e : CellEntry => e.key.isSome)
          { es with
            key := some key, value := value, formula_str := formula, line := line,
            is_defined := true } t1.entries s
        simp only [hk, if_true]
        unfold occupied at hocc1 ⊢
        omega
      · rw [occupied_of_keys _ _ (map_key_set t1.entries _ s es hes (by rw [hk]))]
        simp only [hk, reduceCtorEq, if_false]
        exact hocc1
    · dsimp only
      split <;> omega
  refine ⟨hinv2, ?_, es, ?_, ?_⟩
  · intro e k hne hek
    rw [← hmem1 e k hek]
    constructor
    · intro h
      rcases List.mem_or_eq_of_mem_set h with h1 | h1
      · exact h1
      · subst h1
        simp only [Option.some.injEq] at hek
        exact absurd hek.symm hne
    · intro h
      refine mem_set_of_ne t1.entries s es _ e hes h ?_
      intro heq
      subst heq
      rcases hes_key with hk | hk
      · rw [hk] at hek
        cases hek
      · rw [hk] at hek
        simp only [Option.some.injEq] at hek
        exact hne hek.symm
  · rcases hes_key with hk | hk
    · refine Or.inr ⟨?_, hk⟩
      cases hg : get_record table key with
      | none => rfl
      | some e =>
        exfalso
        obtain ⟨hm_e, hk_e⟩ := (get_record_iff table hinv key e).mp hg
        have hm1 := (hmem1 e key hk_e).mpr hm_e
        obtain ⟨j, hj⟩ := List.mem_iff_getElem?.mp hm1
        have hloop := find_of_get_cell_loop _ _ _ _ _ _ (hfind1 j e key hj hk_e)
        rw [hs] at hloop
        simp only [Option.some.injEq] at hloop
        subst hloop
        rw [hes] at hj
        cases hj
        rw [hk] at hk_e
        cases hk_e
    · exact Or.inl ((get_record_iff table hinv key es).mpr
        ⟨(hmem1 es key hk).mp (List.getElem?_mem hes), hk⟩)
  · exact (get_record_iff _ hinv2 key _).mpr ⟨hnew_mem, rfl⟩

theorem table_wf_of_inv (table : SymbolTable) (hinv : table_inv table) : table_wf table :=
  ⟨hinv.1, hinv.2.1, hinv.2.2.2.1⟩

theorem symtab_create_inv : table_inv symtab_create := by
  have hentries : symtab_create.entries = List.replicate 8 CellEntry.empty := by decide!
  refine ⟨by decide!, ⟨3, by decide!⟩, by decide!, by decide!, by decide!, ?_⟩
  intro i e k hi hk
  have hmem := List.getElem?_mem hi
  rw [hentries, List.mem_replicate] at hmem
  rw [hmem.2] at hk
  simp [CellEntry.empty] at hk

/-- On a cell that is not in the table symtab_add_dependency first defines the
cell and then does what it does on a present cell. -/
theorem symtab_add_dependency_absent (table : SymbolTable) (this_cell_key dep : String)
    (slot : Nat) (h : symtab_get_cell table this_cell_key = none)
    (h1 : symtab_get_cell (symtab_define_cell table this_cell_key 0 none 0) this_cell_key =
      some slot) :
    symtab_add_dependency table this_cell_key dep =
      symtab_add_dependency (symtab_define_cell table this_cell_key 0 none 0) this_cell_key
        dep := by
  unfold symtab_add_dependency
  simp only [h, h1]

theorem symtab_add_dependency_inv (table : SymbolTable) (hinv : table_inv table)
    (this_cell_key dep : String) :
    table_inv (symtab_add_dependency table this_cell_key dep) := by
  cases h : symtab_get_cell table this_cell_key with
  | some slot =>
    obtain ⟨hc, hcap, hkeys, _, _⟩ :=
      symtab_add_dependency_present table this_cell_key dep slot h
    exact table_inv_of_keys _ _ hinv hc hcap hkeys
  | none =>
    obtain ⟨slot, hslot, _⟩ := symtab_define_cell_get table (table_wf_of_inv table hinv)
      this_cell_key 0 none 0
    rw [symtab_add_dependency_absent table this_cell_key dep slot h hslot]
    obtain ⟨hc, hcap, hkeys, _, _⟩ :=
      symtab_add_dependency_present _ this_cell_key dep slot hslot
    exact table_inv_of_keys _ _
      (symtab_define_cell_spec table hinv this_cell_key 0 none 0).1 hc hcap hkeys

theorem mark_this_cell_inv (table : SymbolTable) (hinv : table_inv table) (key : String)
    (table1 : SymbolTable) (slot : Nat) (h : mark_this_cell table key = some (table1, slot)) :
    table_inv table1 := by
  unfold mark_this_cell at h
  cases hg : symtab_get_cell table key with
  | none => simp [hg] at h
  | some index =>
    simp only [hg, Option.some.injEq, Prod.mk.injEq] at h
    obtain ⟨rfl, _⟩ := h
    obtain ⟨e, he, _, hentry⟩ := symtab_get_cell_found table key index hg
    exact table_inv_of_keys _ _ hinv rfl rfl (map_key_set _ _ index e he (by rw [hentry]))

/-- Every table the program builds satisfies the invariant. -/
theorem reachable_inv (table : SymbolTable) (h : reachable table) : table_inv table := by
  induction h with
  | create => exact symtab_create_inv
  | define table key value formula line _ ih =>
    exact (symtab_define_cell_spec table ih key value formula line).1
  | add_dependency table a b _ ih => exact symtab_add_dependency_inv table ih a b
  | mark table key table1 slot _ hmark ih => exact mark_this_cell_inv table ih key table1 slot hmark

/-- A second symtab_add_dependency of the same edge on a present cell changes
nothing. -/
theorem symtab_add_dependency_again (table : SymbolTable) (this_cell_key dep : String)
    (slot : Nat) (h : symtab_get_cell table this_cell_key = some slot) :
    symtab_add_dependency (symtab_add_dependency table this_cell_key dep) this_cell_key dep =
      symtab_add_dependency table this_cell_key dep := by
  have hget := symtab_add_dependency_get table this_cell_key dep slot h this_cell_key
  rw [h] at hget
  obtain ⟨_, _, _, _, hentry⟩ := symtab_add_dependency_present table this_cell_key dep slot h
  have hmem : dep ∈ ((symtab_add_dependency table this_cell_key dep).entry slot).dependencies := by
    rw [hentry]
    by_cases hd : dep ∈ (table.entry slot).dependencies
    · simp [hd]
    · simp [hd]
  generalize symtab_add_dependency table this_cell_key dep = t1 at hget hmem
  unfold symtab_add_dependency
  simp only [hget, hmem, if_true]

/-- The table of the six cells is built by symtab_define_cell alone. -/
theorem table_six_cells_reachable : reachable table_six_cells :=
  reachable.define _ _ _ _ _ (reachable.define _ _ _ _ _ (reachable.define _ _ _ _ _
    (reachable.define _ _ _ _ _ (reachable.define _ _ _ _ _
      (reachable.define _ _ _ _ _ reachable.create)))))

/-- C12: for every table the program builds and every pair of keys, a second
symtab_add_dependency of the same edge leaves the table exactly as the first
call left it, so the dependency list and `dep_count` of the cell do not change
(the record read for the cell is the same). -/
theorem symtab_add_dependency_idempotent (table : SymbolTable) (h : reachable table)
    (this_cell_key depends_on_key : String) :
    symtab_add_dependency (symtab_add_dependency table this_cell_key depends_on_key)
        this_cell_key depends_on_key =
      symtab_add_dependency table this_cell_key depends_on_key ∧
    ∃ r, get_record (symtab_add_dependency table this_cell_key depends_on_key) this_cell_key =
        some r ∧ depends_on_key ∈ r.dependencies ∧
      get_record
        (symtab_add_dependency (symtab_add_dependency table this_cell_key depends_on_key)
          this_cell_key depends_on_key) this_cell_key = some r := by
  have hinv := reachable_inv table h
  have hmain : ∀ t : SymbolTable, ∀ slot, symtab_get_cell t this_cell_key = some slot →
      symtab_add_dependency (symtab_add_dependency t this_cell_key depends_on_key)
          this_cell_key depends_on_key =
        symtab_add_dependency t this_cell_key depends_on_key ∧
      ∃ r, get_record (symtab_add_dependency t this_cell_key depends_on_key) this_cell_key =
          some r ∧ depends_on_key ∈ r.dependencies ∧
        get_record
          (symtab_add_dependency (symtab_add_dependency t this_cell_key depends_on_key)
            this_cell_key depends_on_key) this_cell_key = some r := by
    intro t slot hslot
    have heq := symtab_add_dependency_again t this_cell_key depends_on_key slot hslot
    have hget := symtab_add_dependency_get t this_cell_key depends_on_key slot hslot
      this_cell_key
    rw [hslot] at hget
    obtain ⟨_, _, _, _, hentry⟩ :=
      symtab_add_dependency_present t this_cell_key depends_on_key slot hslot
    refine ⟨heq, _, by rw [get_record, hget]; rfl, ?_, by rw [heq, get_record, hget]; rfl⟩
    rw [hentry]
    by_cases hd : depends_on_key ∈ (t.entry slot).dependencies
    · simp [hd]
    · simp [hd]
  cases hg : symtab_get_cell table this_cell_key with
  | some slot => exact hmain table slot hg
  | none =>
    obtain ⟨slot, hslot, _⟩ := symtab_define_cell_get table (table_wf_of_inv table hinv)
      this_cell_key 0 none 0
    rw [symtab_add_dependency_absent table this_cell_key depends_on_key slot hg hslot]
    exact hmain _ slot hslot

theorem symtab_add_dependency_idempotent_witness :
    reachable table_six_cells ∧
    symtab_add_dependency (symtab_add_dependency table_six_cells "C1" "A1") "C1" "A1" =
      symtab_add_dependency table_six_cells "C1" "A1" :=
  ⟨table_six_cells_reachable,
    (symtab_add_dependency_idempotent table_six_cells
      (table_six_cells_reachable) "C1" "A1").1⟩

/-- C13: for every table the program builds from symtab_create, after
symtab_define_cell of a key the lookup of that key answers a record with the
key, the value and the defined flag set, and the lookup of every other key
answers what it answered before: `NULL` stays `NULL` and a record keeps all
its fields, also when the call resizes the table. -/
theorem symtab_define_cell_finite_map (table : SymbolTable) (h : reachable table)
    (key : String) (value : Rat) (formula : Option String) (line : Int) :
    (∃ r, get_record (symtab_define_cell table key value formula line) key = some r ∧
      r.key = some key ∧ r.value = value ∧ r.is_defined = true) ∧
    ∀ other : String, other ≠ key →
      get_record (symtab_define_cell table key value formula line) other =
        get_record table other := by
  have hinv := reachable_inv table h
  obtain ⟨hinv1, hmem, e0, _, hrec⟩ := symtab_define_cell_spec table hinv key value formula line
  refine ⟨⟨_, hrec, rfl, rfl, rfl⟩, fun other hne => ?_⟩
  exact get_record_congr table _ hinv hinv1 other (fun e he => hmem e other hne he)

/-- C14: for every table the program builds and every key that is present,
symtab_define_cell of that key leaves the record as it was but for the value,
the formula text, the line and the defined flag: the dependency list and
`dep_count` are exactly as before. -/
theorem symtab_define_cell_keeps_dependencies (table : SymbolTable) (h : reachable table)
    (key : String) (e0 : CellEntry) (hpresent : get_record table key = some e0) (value : Rat)
    (formula : Option String) (line : Int) :
    get_record (symtab_define_cell table key value formula line) key =
      some { e0 with value := value, formula_str := formula, line := line, is_defined := true } ∧
    ∀ r, get_record (symtab_define_cell table key value formula line) key = some r →
      r.dependencies = e0.dependencies ∧ r.dep_count = e0.dep_count := by
  have hinv := reachable_inv table h
  obtain ⟨_, _, e1, he1, hrec⟩ := symtab_define_cell_spec table hinv key value formula line
  have hk0 := ((get_record_iff table hinv key e0).mp hpresent).2
  have he : e1 = e0 := by
    rcases he1 with h1 | h1
    · rw [hpresent] at h1
      exact (Option.some.inj h1).symm
    · rw [hpresent] at h1
      cases h1.1
  subst he
  have hfirst : get_record (symtab_define_cell table key value formula line) key =
      some { e1 with value := value, formula_str := formula, line := line,
                     is_defined := true } := by
    rw [hrec, ← hk0]
  refine ⟨hfirst, fun r hr => ?_⟩
  rw [hfirst] at hr
  cases hr
  exact ⟨rfl, rfl⟩

theorem symtab_define_cell_finite_map_witness :
    reachable table_six_cells ∧
    over_load_factor table_six_cells.count table_six_cells.capacity = true ∧
    ((∃ r, get_record (symtab_define_cell table_six_cells "A7" 7 none 7) "A7" = some r ∧
      r.key = some "A7" ∧ r.value = 7 ∧ r.is_defined = true) ∧
    ∀ other : String, other ≠ "A7" →
      get_record (symtab_define_cell table_six_cells "A7" 7 none 7) other =
        get_record table_six_cells other) :=
  ⟨table_six_cells_reachable, by decide!,
    symtab_define_cell_finite_map table_six_cells table_six_cells_reachable "A7" 7 none 7⟩

theorem table_a1_b1_cycle_reachable : reachable table_a1_b1_cycle :=
  reachable.add_dependency _ _ _ (reachable.add_dependency _ _ _
    (reachable.define _ _ _ _ _ (reachable.define _ _ _ _ _ reachable.create)))

theorem symtab_define_cell_keeps_dependencies_witness :
    reachable table_a1_b1_cycle ∧
    get_record table_a1_b1_cycle "A1" = some record_a1_in_cycle ∧
    get_record (symtab_define_cell table_a1_b1_cycle "A1" 7 (some "B1+2") 3) "A1" =
      some { record_a1_in_cycle with
              value := 7, formula_str := some "B1+2", line := 3, is_defined := true } :=
  ⟨table_a1_b1_cycle_reachable, by decide!,
    (symtab_define_cell_keeps_dependencies table_a1_b1_cycle table_a1_b1_cycle_reachable "A1"
      record_a1_in_cycle (by decide!) 7 (some "B1+2") 3).1⟩

/-! ## The aggregates of the runtime library -/

/-- The loop of accumulate adds the Number elements to the running sum and
counts them. -/
theorem accumulate_loop_eq :
    ∀ (args : List Value) (acc : Rat × Int),
      accumulate_loop args acc =
        (acc.1 + (number_elements args).sum, acc.2 + ((number_elements args).length : Nat)) := by
  intro args
  induction args with
  | nil => intro acc; simp [accumulate_loop, number_elements]
  | cons v rest ih =>
    intro acc
    cases v with
    | number n =>
      simp only [accumulate_loop, number_elements, ih, List.sum_cons, List.length_cons]
      refine Prod.ext ?_ ?_
      · simp only []
        ring
      · simp only []
        push_cast
        ring
    | boolean b => simp only [accumulate_loop, number_elements, ih]
    | string s => simp only [accumulate_loop, number_elements, ih]
    | error s => simp only [accumulate_loop, number_elements, ih]

theorem accumulate_eq (args : List Value) :
    accumulate args =
      ((number_elements args).sum, (((number_elements args).length : Nat) : Int)) := by
  simp [accumulate, accumulate_loop_eq]

/-- What rt_sum returns, in terms of the Number elements. -/
theorem rt_sum_eq (args : List Value) :
    rt_sum args = Value.number (number_elements args).sum := by
  simp [rt_sum, accumulate_eq, create_number_value]

/-- C15: for every argument list rt_sum returns the Number whose payload is
the sum of the payloads of exactly the elements tagged Number; it is the
Number 0 when there is no such element (the empty list included), and never an
Error. -/
theorem rt_sum_numbers (args : List Value) :
    rt_sum args = Value.number (number_elements args).sum ∧
    (rt_sum args).is_error = false ∧
    (number_elements args = [] → rt_sum args = Value.number 0) ∧
    rt_sum [] = Value.number 0 := by
  have h := rt_sum_eq args
  refine ⟨h, by rw [h]; rfl, fun hnil => by rw [h, hnil]; rfl, rfl⟩

/-- C16: for every argument list rt_average returns an Error exactly when the
list has no element tagged Number, and otherwise the Number
(sum of the Number elements) / (count of the Number elements); for
`[3, 5, 7]` it returns 5. -/
theorem rt_average_numbers (args : List Value) :
    ((rt_average args).is_error = true ↔ number_elements args = []) ∧
    (number_elements args ≠ [] →
      rt_average args =
        Value.number ((number_elements args).sum / ((number_elements args).length : Nat))) ∧
    rt_average [Value.number 3, Value.number 5, Value.number 7] = Value.number 5 := by
  refine ⟨?_, ?_, by decide!⟩
  · by_cases hnil : number_elements args = []
    · simp [rt_average, accumulate_eq, hnil, create_error_value, Value.is_error]
    · have hlen : (number_elements args).length ≠ 0 := by
        intro h
        exact hnil (List.length_eq_zero.mp h)
      simp [rt_average, accumulate_eq, hnil, hlen, create_number_value, Value.is_error]
  · intro hnil
    have hlen : (number_elements args).length ≠ 0 := by
      intro h
      exact hnil (List.length_eq_zero.mp h)
    simp [rt_average, accumulate_eq, hlen, create_number_value]

/-- The loop of rt_min on a list without NaN, started from no value or from a
number: it answers `none` only when it started from `none` on a list without
Number elements; otherwise its answer is a number, which is the start value or
a Number element, is at most the start value and at most every Number
element. -/
theorem min_loop_spec :
    ∀ (args : List Element), Element.number CDouble.nan ∉ args → ∀ (acc : Option Rat),
      match min_loop args (acc.map CDouble.num) with
      | none => acc = none ∧ ∀ d, Element.number d ∉ args
      | some CDouble.nan => False
      | some (CDouble.num r) =>
        (acc = some r ∨ Element.number (CDouble.num r) ∈ args) ∧ (∀ m, acc = some m → r ≤ m) ∧
          ∀ n, Element.number (CDouble.num n) ∈ args → r ≤ n := by
  intro args
  induction args with
  | nil =>
    intro _ acc
    cases acc with
    | none => simp [min_loop]
    | some m => simp [min_loop]
  | cons v rest ih =>
    intro hnan acc
    have hrest : Element.number CDouble.nan ∉ rest := fun h => hnan (List.mem_cons_of_mem _ h)
    cases v with
    | other =>
      have h := ih hrest acc
      simp only [min_loop]
      cases hr : min_loop rest (acc.map CDouble.num) with
      | none =>
        simp only [hr] at h
        exact ⟨h.1, fun d hd => by
          rcases List.mem_cons.mp hd with h1 | h1
          · cases h1
          · exact h.2 d h1⟩
      | some r =>
        cases r with
        | nan => simp only [hr] at h
        | num q =>
          simp only [hr] at h
          obtain ⟨h1, h2, h3⟩ := h
          refine ⟨?_, h2, ?_⟩
          · rcases h1 with h1 | h1
            · exact Or.inl h1
            · exact Or.inr (List.mem_cons_of_mem _ h1)
          · intro n hn
            rcases List.mem_cons.mp hn with h4 | h4
            · cases h4
            · exact h3 n h4
    | number d =>
      cases d with
      | nan => exact absurd (List.mem_cons_self _ _) hnan
      | num n =>
        cases acc with
        | none =>
          have h := ih hrest (some n)
          simp only [Option.map_none', Option.map_some', min_loop] at h ⊢
          cases hr : min_loop rest (some (CDouble.num n)) with
          | none => simp [hr] at h
          | some r =>
            cases r with
            | nan => simp only [hr] at h
            | num q =>
              simp only [hr] at h
              obtain ⟨h1, h2, h3⟩ := h
              refine ⟨Or.inr ?_, by simp, ?_⟩
              · rcases h1 with h1 | h1
                · simp only [Option.some.injEq] at h1
                  rw [h1]
                  exact List.mem_cons_self _ _
                · exact List.mem_cons_of_mem _ h1
              · intro x hx
                rcases List.mem_cons.mp hx with h4 | h4
                · simp only [Element.number.injEq, CDouble.num.injEq] at h4
                  exact h2 x (by rw [h4])
                · exact h3 x h4
        | some m =>
          have h := ih hrest (some (min m n))
          simp only [Option.map_some', min_loop, fmin] at h ⊢
          cases hr : min_loop rest (some (CDouble.num (min m n))) with
          | none => simp [hr] at h
          | some r =>
            cases r with
            | nan => simp only [hr] at h
            | num q =>
              simp only [hr] at h
              obtain ⟨h1, h2, h3⟩ := h
              have hle := h2 (min m n) rfl
              refine ⟨?_, ?_, ?_⟩
              · rcases h1 with h1 | h1
                · simp only [Option.some.injEq] at h1
                  rcases min_choice m n with hc | hc
                  · exact Or.inl (by rw [← h1, hc])
                  · exact Or.inr (by rw [← h1, hc]; exact List.mem_cons_self _ _)
                · exact Or.inr (List.mem_cons_of_mem _ h1)
              · intro m1 hm1
                simp only [Option.some.injEq] at hm1
                subst hm1
                exact le_trans hle (min_le_left _ _)
              · intro x hx
                rcases List.mem_cons.mp hx with h4 | h4
                · simp only [Element.number.injEq, CDouble.num.injEq] at h4
                  subst h4
                  exact le_trans hle (min_le_right _ _)
                · exact h3 x h4

/-- The loop of rt_max, as `min_loop_spec`. -/
theorem max_loop_spec :
    ∀ (args : List Element), Element.number CDouble.nan ∉ args → ∀ (acc : Option Rat),
      match max_loop args (acc.map CDouble.num) with
      | none => acc = none ∧ ∀ d, Element.number d ∉ args
      | some CDouble.nan => False
      | some (CDouble.num r) =>
        (acc = some r ∨ Element.number (CDouble.num r) ∈ args) ∧ (∀ m, acc = some m → m ≤ r) ∧
          ∀ n, Element.number (CDouble.num n) ∈ args → n ≤ r := by
  intro args
  induction args with
  | nil =>
    intro _ acc
    cases acc with
    | none => simp [max_loop]
    | some m => simp [max_loop]
  | cons v rest ih =>
    intro hnan acc
    have hrest : Element.number CDouble.nan ∉ rest := fun h => hnan (List.mem_cons_of_mem _ h)
    cases v with
    | other =>
      have h := ih hrest acc
      simp only [max_loop]
      cases hr : max_loop rest (acc.map CDouble.num) with
      | none =>
        simp only [hr] at h
        exact ⟨h.1, fun d hd => by
          rcases List.mem_cons.mp hd with h1 | h1
          · cases h1
          · exact h.2 d h1⟩
      | some r =>
        cases r with
        | nan => simp only [hr] at h
        | num q =>
          simp only [hr] at h
          obtain ⟨h1, h2, h3⟩ := h
          refine ⟨?_, h2, ?_⟩
          · rcases h1 with h1 | h1
            · exact Or.inl h1
            · exact Or.inr (List.mem_cons_of_mem _ h1)
          · intro n hn
            rcases List.mem_cons.mp hn with h4 | h4
            · cases h4
            · exact h3 n h4
    | number d =>
      cases d with
      | nan => exact absurd (List.mem_cons_self _ _) hnan
      | num n =>
        cases acc with
        | none =>
          have h := ih hrest (some n)
          simp only [Option.map_none', Option.map_some', max_loop] at h ⊢
          cases hr : max_loop rest (some (CDouble.num n)) with
          | none => simp [hr] at h
          | some r =>
            cases r with
            | nan => simp only [hr] at h
            | num q =>
              simp only [hr] at h
              obtain ⟨h1, h2, h3⟩ := h
              refine ⟨Or.inr ?_, by simp, ?_⟩
              · rcases h1 with h1 | h1
                · simp only [Option.some.injEq] at h1
                  rw [h1]
                  exact List.mem_cons_self _ _
                · exact List.mem_cons_of_mem _ h1
              · intro x hx
                rcases List.mem_cons.mp hx with h4 | h4
                · simp only [Element.number.injEq, CDouble.num.injEq] at h4
                  exact h2 x (by rw [h4])
                · exact h3 x h4
        | some m =>
          have h := ih hrest (some (max m n))
          simp only [Option.map_some', max_loop, fmax] at h ⊢
          cases hr : max_loop rest (some (CDouble.num (max m n))) with
          | none => simp [hr] at h
          | some r =>
            cases r with
            | nan => simp only [hr] at h
            | num q =>
              simp only [hr] at h
              obtain ⟨h1, h2, h3⟩ := h
              have hle := h2 (max m n) rfl
              refine ⟨?_, ?_, ?_⟩
              · rcases h1 with h1 | h1
                · simp only [Option.some.injEq] at h1
                  rcases max_choice m n with hc | hc
                  · exact Or.inl (by rw [← h1, hc])
                  · exact Or.inr (by rw [← h1, hc]; exact List.mem_cons_self _ _)
                · exact Or.inr (List.mem_cons_of_mem _ h1)
              · intro m1 hm1
                simp only [Option.some.injEq] at hm1
                subst hm1
                exact le_trans (le_max_left _ _) hle
              · intro x hx
                rcases List.mem_cons.mp hx with h4 | h4
                · simp only [Element.number.injEq, CDouble.num.injEq] at h4
                  subst h4
                  exact le_trans (le_max_right _ _) hle
                · exact h3 x h4

/-- What rt_min and rt_max return on a list of elements without NaN. -/
theorem rt_min_max_double_spec (args : List Element)
    (hnan : Element.number CDouble.nan ∉ args) :
    ((∀ d, Element.number d ∉ args) →
      rt_min_double args = CDouble.num 0 ∧ rt_max_double args = CDouble.num 0) ∧
    ((∃ d, Element.number d ∈ args) →
      ∃ lo hi, rt_min_double args = CDouble.num lo ∧ Element.number (CDouble.num lo) ∈ args ∧
        (∀ n, Element.number (CDouble.num n) ∈ args → lo ≤ n) ∧
        rt_max_double args = CDouble.num hi ∧ Element.number (CDouble.num hi) ∈ args ∧
        (∀ n, Element.number (CDouble.num n) ∈ args → n ≤ hi)) := by
  have hmin := min_loop_spec args hnan none
  have hmax := max_loop_spec args hnan none
  simp only [Option.map_none'] at hmin hmax
  have hrmin : rt_min_double args =
      match min_loop args none with
      | some m => m
      | none => CDouble.num 0 := by
    cases args with
    | nil => rfl
    | cons v rest => rfl
  have hrmax : rt_max_double args =
      match max_loop args none with
      | some m => m
      | none => CDouble.num 0 := by
    cases args with
    | nil => rfl
    | cons v rest => rfl
  rw [hrmin, hrmax]
  constructor
  · intro hnone
    cases h1 : min_loop args none with
    | some r =>
      cases r with
      | nan => simp only [h1] at hmin
      | num q =>
        simp only [h1] at hmin
        rcases hmin.1 with h | h
        · cases h
        · exact absurd h (hnone _)
    | none =>
      cases h2 : max_loop args none with
      | some r =>
        cases r with
        | nan => simp only [h2] at hmax
        | num q =>
          simp only [h2] at hmax
          rcases hmax.1 with h | h
          · cases h
          · exact absurd h (hnone _)
      | none => exact ⟨rfl, rfl⟩
  · rintro ⟨d, hd⟩
    cases h1 : min_loop args none with
    | none =>
      simp only [h1] at hmin
      exact absurd hd (hmin.2 d)
    | some lo =>
      cases h2 : max_loop args none with
      | none =>
        simp only [h2] at hmax
        exact absurd hd (hmax.2 d)
      | some hi =>
        cases lo with
        | nan => simp only [h1] at hmin
        | num lo =>
          cases hi with
          | nan => simp only [h2] at hmax
          | num hi =>
            simp only [h1] at hmin
            simp only [h2] at hmax
            obtain ⟨a1, _, a3⟩ := hmin
            obtain ⟨b1, _, b3⟩ := hmax
            have ha : Element.number (CDouble.num lo) ∈ args := by
              rcases a1 with h | h
              · cases h
              · exact h
            have hb : Element.number (CDouble.num hi) ∈ args := by
              rcases b1 with h | h
              · cases h
              · exact h
            exact ⟨lo, hi, rfl, ha, a3, rfl, hb, b3⟩

/-- The elements of a list of values of the model: none of them is NaN, and
the Number elements are the Number values. -/
theorem mem_map_element (vals : List Value) :
    Element.number CDouble.nan ∉ vals.map Value.element ∧
    ∀ n, Element.number (CDouble.num n) ∈ vals.map Value.element ↔ Value.number n ∈ vals := by
  constructor
  · intro h
    obtain ⟨v, _, hv⟩ := List.mem_map.mp h
    cases v <;> simp [Value.element] at hv
  · intro n
    constructor
    · intro h
      obtain ⟨v, hmem, hv⟩ := List.mem_map.mp h
      cases v <;> simp [Value.element] at hv
      subst hv
      exact hmem
    · intro h
      exact List.mem_map.mpr ⟨_, h, rfl⟩

/-- On values of the model rt_min and rt_max return a Number that is not
NaN. -/
theorem rt_min_of_values (vals : List Value) :
    (∃ m, rt_min_double (vals.map Value.element) = CDouble.num m ∧
      rt_min vals = Value.number m) ∧
    ∃ m, rt_max_double (vals.map Value.element) = CDouble.num m ∧
      rt_max vals = Value.number m := by
  obtain ⟨hnan, hmem⟩ := mem_map_element vals
  obtain ⟨h0, h1⟩ := rt_min_max_double_spec (vals.map Value.element) hnan
  by_cases hex : ∃ d, Element.number d ∈ vals.map Value.element
  · obtain ⟨lo, hi, a1, _, _, b1, _, _⟩ := h1 hex
    exact ⟨⟨lo, a1, by simp [rt_min, a1, create_number_value]⟩,
      ⟨hi, b1, by simp [rt_max, b1, create_number_value]⟩⟩
  · obtain ⟨a1, b1⟩ := h0 (fun d hd => hex ⟨d, hd⟩)
    exact ⟨⟨0, a1, by simp [rt_min, a1, create_number_value]⟩,
      ⟨0, b1, by simp [rt_max, b1, create_number_value]⟩⟩

theorem length_flatMap_const {α β : Type} (f : α → List β) (n : Nat) :
    ∀ l : List α, (∀ x ∈ l, (f x).length = n) → (l.flatMap f).length = l.length * n := by
  intro l
  induction l with
  | nil => intro _; simp
  | cons x xs ih =>
    intro h
    rw [List.flatMap_cons, List.length_append, h x (List.mem_cons_self _ _),
      ih (fun y hy => h y (List.mem_cons_of_mem _ hy)), List.length_cons]
    ring

/-- The element `j` of block `i` of a list made of blocks of equal length. -/
theorem getElem?_flatMap_const {α β : Type} (f : α → List β) (n : Nat) :
    ∀ (l : List α), (∀ x ∈ l, (f x).length = n) → ∀ (i j : Nat) (x : α), l[i]? = some x →
      j < n → (l.flatMap f)[i * n + j]? = (f x)[j]? := by
  intro l
  induction l with
  | nil => intro _ i j x hx; simp at hx
  | cons y ys ih =>
    intro h i j x hx hj
    rw [List.flatMap_cons]
    cases i with
    | zero =>
      simp only [List.getElem?_cons_zero, Option.some.injEq] at hx
      subst hx
      rw [Nat.zero_mul, Nat.zero_add,
        List.getElem?_append_left (by rw [h y (List.mem_cons_self _ _)]; exact hj)]
    | succ i =>
      simp only [List.getElem?_cons_succ] at hx
      have hlen := h y (List.mem_cons_self _ _)
      rw [List.getElem?_append_right (by rw [hlen, Nat.succ_mul]; omega)]
      have hidx : (i + 1) * n + j - (f y).length = i * n + j := by
        rw [hlen, Nat.succ_mul]; omega
      rw [hidx]
      exact ih (fun z hz => h z (List.mem_cons_of_mem _ hz)) i j x hx hj

/-- The text of an `int` has at most eleven characters. -/
theorem fmt_d_length (r : Int) (h1 : -2 ^ 31 ≤ r) (h2 : r < 2 ^ 31) : (fmt_d r).length ≤ 11 := by
  cases r with
  | ofNat n =>
    show (Nat.repr n).length ≤ 11
    have hn : n < 10 ^ 10 := by
      have : (n : Int) < 2 ^ 31 := h2
      omega
    exact le_trans (Nat.repr_length n 10 (by norm_num) hn) (by norm_num)
  | negSucc n =>
    show ("-" ++ Nat.repr (n + 1)).length ≤ 11
    have hn : n + 1 < 10 ^ 10 := by
      have hneg : -2 ^ 31 ≤ Int.negSucc n := h1
      rw [Int.negSucc_eq] at hneg
      omega
    rw [String.length_append]
    have := Nat.repr_length (n + 1) 10 (by norm_num) hn
    have h1 : "-".length = 1 := rfl
    omega

/-- The buffer of sixteen characters holds the key of every cell whose row is
an `int`. -/
theorem snprintf_cell_key (c : Char) (r : Int) (h1 : -2 ^ 31 ≤ r) (h2 : r < 2 ^ 31) :
    snprintf 16 (String.singleton c ++ fmt_d r) = cell_key c r := by
  have hlen := fmt_d_length r h1 h2
  unfold snprintf cell_key
  have hdata : (String.singleton c ++ fmt_d r).data.length ≤ 16 - 1 := by
    have : (String.singleton c ++ fmt_d r).length = 1 + (fmt_d r).length := by
      rw [String.length_append]; rfl
    have h3 : (String.singleton c ++ fmt_d r).data.length =
        (String.singleton c ++ fmt_d r).length := rfl
    omega
  rw [List.take_of_length_le hdata]

theorem col_range_getElem (c1 c2 c : Char) (h1 : c1 ≤ c) (h2 : c ≤ c2) :
    (col_range c1 c2)[c.toNat - c1.toNat]? = some c := by
  have h1n : c1.toNat ≤ c.toNat := h1
  have h2n : c.toNat ≤ c2.toNat := h2
  unfold col_range
  rw [List.getElem?_map, List.getElem?_range (by omega)]
  simp only [Option.map_some', Option.some.injEq]
  rw [show c1.toNat + (c.toNat - c1.toNat) = c.toNat by omega, Char.ofNat_toNat]

theorem row_range_getElem (r1 r2 r : Int) (h1 : r1 ≤ r) (h2 : r ≤ r2) :
    (row_range r1 r2)[(r - r1).toNat]? = some r := by
  unfold row_range
  rw [List.getElem?_map, List.getElem?_range (by omega)]
  simp only [Option.map_some', Option.some.injEq]
  omega

theorem mem_row_range (r1 r2 r : Int) : r ∈ row_range r1 r2 ↔ r1 ≤ r ∧ r ≤ r2 := by
  unfold row_range
  simp only [List.mem_map, List.mem_range]
  constructor
  · rintro ⟨i, hi, rfl⟩
    omega
  · rintro ⟨h1, h2⟩
    exact ⟨(r - r1).toNat, by omega, by omega⟩

/-- C18: for every range text that sscanf reads as `<c1><r1>:<c2><r2>` with
`c1 <= c2` and `r1 <= r2` (the loop counters inside their C types),
rt_expand_range returns a list of exactly `(c2-c1+1)*(r2-r1+1)` values, all of
them Numbers, in column-major order: the element for the cell `<c><r>` of the
rectangle stands at index `(c-c1)*(r2-r1+1) + (r-r1)` and is the stored value
of that cell when the cell is present and defined, and 0 otherwise. -/
theorem rt_expand_range_column_major (range_str : String) (table : SymbolTable)
    (c1 c2 : Char) (r1 r2 : Int) (hparse : sscanf_range range_str = some (c1, r1, c2, r2))
    (hcol : c1 ≤ c2) (hrow : r1 ≤ r2) (hcounters : counters_in_range c2 r1 r2) :
    (rt_expand_range range_str table).length = (c2.toNat - c1.toNat + 1) * (r2 - r1 + 1).toNat ∧
    (∀ (c : Char) (r : Int), c1 ≤ c → c ≤ c2 → r1 ≤ r → r ≤ r2 →
      (rt_expand_range range_str table)[(c.toNat - c1.toNat) * (r2 - r1 + 1).toNat +
          (r - r1).toNat]? =
        some (Value.number (read_cell table (cell_key c r)))) ∧
    ∀ v ∈ rt_expand_range range_str table, ∃ n, v = Value.number n := by
  obtain ⟨_, hlo, hhi⟩ := hcounters
  have hcn : c1.toNat ≤ c2.toNat := hcol
  have hrows : (row_range r1 r2).length = (r2 - r1 + 1).toNat := by
    simp only [row_range, List.length_map, List.length_range]
    omega
  have hcols : (col_range c1 c2).length = c2.toNat - c1.toNat + 1 := by
    simp only [col_range, List.length_map, List.length_range]
    omega
  have hblock : ∀ x ∈ col_range c1 c2,
      ((row_range r1 r2).map (fun r =>
        create_number_value
          (read_cell table (snprintf 16 (String.singleton x ++ fmt_d r))))).length =
        (r2 - r1 + 1).toNat := by
    intro x _
    rw [List.length_map, hrows]
  unfold rt_expand_range
  simp only [hparse]
  refine ⟨?_, ?_, ?_⟩
  · rw [length_flatMap_const _ _ _ hblock, hcols]
  · intro c r hc1 hc2 hr1 hr2
    rw [getElem?_flatMap_const _ _ _ hblock _ _ c (col_range_getElem c1 c2 c hc1 hc2)
      (by omega), List.getElem?_map, row_range_getElem r1 r2 r hr1 hr2]
    simp only [Option.map_some', Option.some.injEq, create_number_value]
    rw [snprintf_cell_key c r (by omega) (by omega)]
  · intro v hv
    simp only [List.mem_flatMap, List.mem_map] at hv
    obtain ⟨_, _, _, _, rfl⟩ := hv
    exact ⟨_, rfl⟩

/-- The range `A1:A1` expands to the one-element list of the value of `A1`, on
every table. -/
theorem rt_expand_range_single_cell (table : SymbolTable) :
    rt_expand_range "A1:A1" table = [Value.number (read_cell table "A1")] := by
  have hparse : sscanf_range "A1:A1" = some ('A', 1, 'A', 1) := by decide!
  have hkey : snprintf 16 (String.singleton 'A' ++ fmt_d 1) = "A1" := by decide!
  have hcol : col_range 'A' 'A' = ['A'] := by decide!
  have hrow : row_range 1 1 = [1] := by decide!
  unfold rt_expand_range
  simp only [hparse, hcol, hrow, List.flatMap_cons, List.flatMap_nil, List.map_cons,
    List.map_nil, List.append_nil, hkey, create_number_value]

theorem rt_expand_range_column_major_witness :
    sscanf_range "A1:B2" = some ('A', 1, 'B', 2) ∧ counters_in_range 'B' 1 2 ∧
    rt_expand_range "A1:B2" table_two_by_two =
      [Value.number 1, Value.number 2, Value.number 3, Value.number 4] ∧
    (rt_expand_range "A1:B2" table_two_by_two).length =
      ('B'.toNat - 'A'.toNat + 1) * (2 - 1 + 1 : Int).toNat ∧
    (rt_expand_range "A1:B2" table_two_by_two)[('B'.toNat - 'A'.toNat) * (2 - 1 + 1 : Int).toNat +
        ((1 : Int) - 1).toNat]? =
      some (Value.number (read_cell table_two_by_two (cell_key 'B' 1))) :=
  ⟨by decide!, ⟨by decide!, by decide!, by decide!⟩, by decide!,
    (rt_expand_range_column_major "A1:B2" table_two_by_two 'A' 'B' 1 2 (by decide!)
      (by decide!) (by decide!) ⟨by decide!, by decide!, by decide!⟩).1,
    (rt_expand_range_column_major "A1:B2" table_two_by_two 'A' 'B' 1 2 (by decide!)
      (by decide!) (by decide!) ⟨by decide!, by decide!, by decide!⟩).2.1 'B' 1 (by decide!)
      (by decide!) (by decide!) (by decide!)⟩

/-! ## The argument list of a call on both backends -/

theorem prepend_arg_flatten (table : SymbolTable) (v : Value) (arg_head : List Value) :
    prepend_arg table v arg_head = flatten_args table [v] ++ arg_head := by
  cases v with
  | string s =>
    simp only [prepend_arg, flatten_args, List.flatMap_cons, List.flatMap_nil, List.append_nil]
    cases rt_expand_range s table with
    | nil => rfl
    | cons x xs => rfl
  | number n => simp [prepend_arg, flatten_args]
  | boolean b => simp [prepend_arg, flatten_args]
  | error s => simp [prepend_arg, flatten_args]

theorem foldr_prepend_arg (table : SymbolTable) (vals : List Value) :
    vals.foldr (prepend_arg table) [] = flatten_args table vals := by
  induction vals with
  | nil => rfl
  | cons v rest ih =>
    rw [List.foldr_cons, ih, prepend_arg_flatten]
    simp [flatten_args]

/-- The argument list of the interpreter for a null-terminated chain. -/
theorem eval_arg_list_proper (pw : Rat → Rat → Rat) (table : SymbolTable) (arguments : ASTNode) :
    proper_chain arguments = true →
    eval_arg_list pw table arguments =
      (chain_values pw table arguments).foldr (prepend_arg table) [] := by
  induction arguments with
  | null => intro _; simp [eval_arg_list, chain_values, chain_exprs]
  | arg_list e next line _ ihn =>
    intro h
    simp only [proper_chain] at h
    simp only [eval_arg_list, ihn h, chain_values, chain_exprs, List.map_cons, List.foldr_cons]
  | number _ _ | string _ _ | cell_ref _ _ | range _ _ | unary_op _ _ _ | binary_op _ _ _ _
  | function_call _ _ _ =>
    intro h; simp [proper_chain] at h

/-- C19: both backends build the same flattened argument list.  For every
table and every sequence of argument values `v1..vn` lying on the VM stack
with `v1` deepest, the loop of `OP_CALL` that pops `n` values builds the
concatenation, for `i = 1..n` in that order, of the expansion of `vi` when `vi`
is a String that expands to a range and of the single element `vi` otherwise
(and leaves the rest of the stack); for every null-terminated argument chain
eval_arg_list builds that same list from the values of the chain. -/
theorem argument_lists_agree (pw : Rat → Rat → Rat) (table : SymbolTable) :
    (∀ (vals stack : List Value),
      collect_args table vals.length (vals.reverse ++ stack) [] =
        some (flatten_args table vals, stack)) ∧
    (∀ arguments : ASTNode, proper_chain arguments = true →
      eval_arg_list pw table arguments = flatten_args table (chain_values pw table arguments)) ∧
    (∀ (arguments : ASTNode) (stack : List Value), proper_chain arguments = true →
      collect_args table (chain_values pw table arguments).length
          ((chain_values pw table arguments).reverse ++ stack) [] =
        some (eval_arg_list pw table arguments, stack)) := by
  have hvm : ∀ (vals stack : List Value),
      collect_args table vals.length (vals.reverse ++ stack) [] =
        some (flatten_args table vals, stack) := by
    intro vals stack
    have h := collect_args_pops table vals.reverse stack []
    rw [List.length_reverse, List.foldl_reverse] at h
    rw [h, foldr_prepend_arg]
  have hinterp : ∀ arguments : ASTNode, proper_chain arguments = true →
      eval_arg_list pw table arguments =
        flatten_args table (chain_values pw table arguments) := by
    intro arguments hproper
    rw [eval_arg_list_proper pw table arguments hproper, foldr_prepend_arg]
  exact ⟨hvm, hinterp, fun arguments stack hproper => by rw [hvm, hinterp arguments hproper]⟩

/-! ## The sum of a range -/

theorem flatMap_congr_mem {α β : Type} (f g : α → List β) :
    ∀ l : List α, (∀ x ∈ l, f x = g x) → l.flatMap f = l.flatMap g := by
  intro l
  induction l with
  | nil => intro _; rfl
  | cons x xs ih =>
    intro h
    rw [List.flatMap_cons, List.flatMap_cons, h x (List.mem_cons_self _ _),
      ih (fun y hy => h y (List.mem_cons_of_mem _ hy))]

theorem number_elements_map (l : List Rat) : number_elements (l.map Value.number) = l := by
  induction l with
  | nil => rfl
  | cons x xs ih => simp [number_elements, ih]

/-- The expansion of a range text, as the Numbers of its rectangle. -/
theorem rt_expand_range_rectangle (range_str : String) (table : SymbolTable)
    (c1 c2 : Char) (r1 r2 : Int) (hparse : sscanf_range range_str = some (c1, r1, c2, r2))
    (hcounters : counters_in_range c2 r1 r2) :
    rt_expand_range range_str table = (rectangle_values table c1 r1 c2 r2).map Value.number := by
  obtain ⟨_, hlo, hhi⟩ := hcounters
  unfold rt_expand_range rectangle_values
  simp only [hparse, List.map_flatMap, List.map_map]
  apply flatMap_congr_mem
  intro c _
  apply List.map_congr_left
  intro r hr
  rw [mem_row_range] at hr
  simp only [Function.comp, create_number_value]
  rw [snprintf_cell_key c r (by omega) (by omega)]

theorem rectangle_values_ne_nil (table : SymbolTable) (c1 c2 : Char) (r1 r2 : Int)
    (hcol : c1 ≤ c2) (hrow : r1 ≤ r2) : rectangle_values table c1 r1 c2 r2 ≠ [] := by
  have hcn : c1.toNat ≤ c2.toNat := hcol
  intro h
  have hlen := congrArg List.length h
  unfold rectangle_values at hlen
  rw [length_flatMap_const _ ((r2 - r1 + 1).toNat) _
    (by
      intro x _
      simp only [List.length_map, row_range, List.length_range]
      omega)] at hlen
  simp only [col_range, List.length_map, List.length_range, List.length_nil,
    Nat.mul_eq_zero] at hlen
  omega

/-- The argument list of `SUM(<range>)` on both backends: the Numbers of the
rectangle. -/
theorem prepend_arg_range (range_str : String) (table : SymbolTable)
    (c1 c2 : Char) (r1 r2 : Int) (hparse : sscanf_range range_str = some (c1, r1, c2, r2))
    (hcol : c1 ≤ c2) (hrow : r1 ≤ r2) (hcounters : counters_in_range c2 r1 r2) :
    prepend_arg table (Value.string range_str) [] =
      (rectangle_values table c1 r1 c2 r2).map Value.number := by
  have hexp := rt_expand_range_rectangle range_str table c1 c2 r1 r2 hparse hcounters
  have hne := rectangle_values_ne_nil table c1 c2 r1 r2 hcol hrow
  simp only [prepend_arg, hexp]
  cases hv : rectangle_values table c1 r1 c2 r2 with
  | nil => exact absurd hv hne
  | cons x xs => simp

/-- C20: for every table and every range text that reads as
`<c1><r1>:<c2><r2>` with `c1 <= c2` and `r1 <= r2` (the loop counters inside
their C types), the interpreter evaluates `SUM(<range>)` to the Number whose
payload is the sum of the values of the cells of the rectangle (the stored
value of each defined cell, 0 for the others), generate_code returns a code
array for it, and the VM run on that code returns the same Number. -/
theorem sum_of_range_on_both_backends (pw : Rat → Rat → Rat) (table : SymbolTable)
    (range_str : String) (line : Int) (c1 c2 : Char) (r1 r2 : Int)
    (hparse : sscanf_range range_str = some (c1, r1, c2, r2))
    (hcol : c1 ≤ c2) (hrow : r1 ≤ r2) (hcounters : counters_in_range c2 r1 r2) :
    interpreter_evaluate pw table (formula_sum_of_range range_str line) =
      Value.number (rectangle_values table c1 r1 c2 r2).sum ∧
    ∃ code, generate_code (formula_sum_of_range range_str line) = some code ∧
      ∀ fuel, 3 ≤ fuel →
        vm_execute pw fuel (vm_create code table) =
          some (VMResult.value (Value.number (rectangle_values table c1 r1 c2 r2).sum)) := by
  have hargs := prepend_arg_range range_str table c1 c2 r1 r2 hparse hcol hrow hcounters
  have hsum : rt_sum ((rectangle_values table c1 r1 c2 r2).map Value.number) =
      Value.number (rectangle_values table c1 r1 c2 r2).sum := by
    rw [rt_sum_eq, number_elements_map]
  refine ⟨?_, _, rfl, ?_⟩
  · unfold formula_sum_of_range
    rw [interpreter_evaluate_call pw table Token.SUM _ line (by decide)]
    simp only [eval_arg_list, interpreter_evaluate, create_string_value, interp_call_runtime]
    rw [hargs, hsum]
  · intro fuel hfuel
    obtain ⟨f, rfl⟩ := Nat.exists_eq_add_of_le hfuel
    rw [Nat.add_comm]
    have hroom : ¬ 0 ≥ VM_STACK_SIZE := by decide
    simp [vm_execute, vm_create, vm_run, vm_step, vm_dispatch, CodeArray.count, emit_op,
      emit_call, emit_push_range, write_instruction, create_code_array, push_and_continue,
      vm_push, VM_STACK_SIZE, Operand.as_range_str, create_string_value, collect_args,
      vm_call_runtime, hargs, hsum]

theorem sum_of_range_on_both_backends_witness :
    sscanf_range "A1:B2" = some ('A', 1, 'B', 2) ∧ counters_in_range 'B' 1 2 ∧
    (rectangle_values table_two_by_two 'A' 1 'B' 2).sum = 10 ∧
    interpreter_evaluate pow_unused table_two_by_two (formula_sum_of_range "A1:B2" 1) =
      Value.number (rectangle_values table_two_by_two 'A' 1 'B' 2).sum ∧
    ∃ code, generate_code (formula_sum_of_range "A1:B2" 1) = some code ∧
      ∀ fuel, 3 ≤ fuel →
        vm_execute pow_unused fuel (vm_create code table_two_by_two) =
          some (VMResult.value
            (Value.number (rectangle_values table_two_by_two 'A' 1 'B' 2).sum)) :=
  ⟨by decide!, ⟨by decide!, by decide!, by decide!⟩, by decide!,
    sum_of_range_on_both_backends pow_unused table_two_by_two "A1:B2" 1 'A' 'B' 1 2
      (by decide!) (by decide!) (by decide!) ⟨by decide!, by decide!, by decide!⟩⟩

/-! ## The two backends on generated code -/

/-- From the run over the code of the root to the result of vm_execute: when
the code of `ast`, laid out from index 0 and followed by `HALT`, runs as a
segment for the value `v`, generate_code returns that code and vm_execute
returns `v` for every loop budget of at least the length of the code. -/
theorem run_generated_code (pw : Rat → Rat → Rat) (table : SymbolTable) (ast : ASTNode)
    (seg : List Instruction) (v : Value) (hne : ast ≠ ASTNode.null)
    (hseg : layout ast 0 = some seg)
    (hrun : run_segment pw table (seg ++ [op_instruction OpCode.OP_HALT ast.line_of]) 0 []
      seg.length v) :
    ∃ code, generate_code ast = some code ∧
      ∀ fuel, code.count ≤ fuel →
        vm_execute pw fuel (vm_create code table) = some (VMResult.value v) := by
  have hgen : generate_expr ast create_code_array = some { code := seg } := by
    rw [generate_expr_layout ast create_code_array]
    simp [create_code_array, CodeArray.count, hseg]
  refine ⟨{ code := seg ++ [op_instruction OpCode.OP_HALT ast.line_of] }, ?_, ?_⟩
  · simp [generate_code, hne, hgen, emit_op, write_instruction, op_instruction]
  · intro fuel hfuel
    simp only [CodeArray.count, List.length_append, List.length_singleton] at hfuel
    obtain ⟨k, hk, hrun⟩ := hrun
    simp only [vm_execute, vm_create]
    simp only [Nat.cast_zero, Nat.zero_add] at hrun
    by_cases herr : v.is_error = true
    · rw [if_pos herr] at hrun
      obtain ⟨f, rfl⟩ := Nat.exists_eq_add_of_le (show k ≤ fuel by omega)
      exact hrun.2 f
    · rw [if_neg herr] at hrun
      obtain ⟨f, rfl⟩ := Nat.exists_eq_add_of_le (show k + 1 ≤ fuel by omega)
      rw [show k + 1 + f = k + (f + 1) by omega, hrun]
      apply vm_run_finished
      rw [vm_step_fetch pw table _ seg [] (op_instruction OpCode.OP_HALT ast.line_of) _ rfl]
      simp [vm_dispatch, op_instruction]

/-- The code generated for an AST of the fragment whose evaluated calls are
clean runs on the VM to the value of the interpreter. -/
theorem fragment_code_runs (pw : Rat → Rat → Rat) (table : SymbolTable) (ast : ASTNode)
    (hfrag : in_fragment ast = true) (hclean : calls_clean pw table ast = true)
    (hstack : stack_need ast ≤ VM_STACK_SIZE) :
    ∃ code, generate_code ast = some code ∧
      ∀ fuel, code.count ≤ fuel →
        vm_execute pw fuel (vm_create code table) =
          some (VMResult.value (interpreter_evaluate pw table ast)) := by
  obtain ⟨seg, hseg⟩ := Option.isSome_iff_exists.mp (layout_some ast hfrag 0)
  have hne : ast ≠ ASTNode.null := by
    rintro rfl
    simp [in_fragment] at hfrag
  exact run_generated_code pw table ast seg _ hne hseg
    (compiles_all pw table ast hfrag hclean seg [] [op_instruction OpCode.OP_HALT ast.line_of]
      (seg ++ [op_instruction OpCode.OP_HALT ast.line_of]) [] hseg (by simp)
      (by simpa using hstack))

/-- An AST of the function-free fragment is in the fragment of the two
backends, and it has no call of a runtime function that could fail. -/
theorem function_free_fragment (pw : Rat → Rat → Rat) (table : SymbolTable) :
    ∀ node, function_free node = true →
      in_fragment node = true ∧ calls_clean pw table node = true := by
  apply ast_induction
  · intro h; simp [function_free] at h
  · intro n line _; simp [in_fragment, calls_clean]
  · intro s line h; simp [function_free] at h
  · intro s line _; simp [in_fragment, calls_clean]
  · intro s line _; simp [in_fragment, calls_clean]
  · intro op left line ih h
    simp only [function_free, Bool.and_eq_true] at h
    obtain ⟨h1, h2⟩ := ih h.2
    simp only [in_fragment, calls_clean, Bool.and_eq_true]
    exact ⟨⟨h.1, h1⟩, h2⟩
  · intro op left right line ihl ihr h
    simp only [function_free, Bool.and_eq_true] at h
    obtain ⟨l1, l2⟩ := ihl h.1.2
    obtain ⟨r1, r2⟩ := ihr h.2
    simp only [in_fragment, calls_clean, Bool.and_eq_true, Bool.or_eq_true]
    exact ⟨⟨⟨h.1.1, l1⟩, r1⟩, l2, Or.inr r2⟩
  · intro tok arguments line hchain h
    cases arguments with
    | arg_list c second l1 =>
      cases second with
      | arg_list t third l2 =>
        cases third with
        | arg_list e rest l3 =>
          cases rest with
          | null =>
            simp only [function_free, Bool.and_eq_true, decide_eq_true_eq] at h
            obtain ⟨⟨⟨htok, hc⟩, ht⟩, he⟩ := h
            subst htok
            obtain ⟨c1, c2⟩ := hchain c (by simp [chain_exprs]) hc
            obtain ⟨t1, t2⟩ := hchain t (by simp [chain_exprs]) ht
            obtain ⟨e1, e2⟩ := hchain e (by simp [chain_exprs]) he
            simp only [in_fragment, calls_clean, if_true, Bool.and_eq_true]
            refine ⟨⟨⟨c1, t1⟩, e1⟩, c2, ?_⟩
            split
            · rfl
            · split
              · exact t2
              · exact e2
          | _ => simp [function_free] at h
        | _ => simp [function_free] at h
      | _ => simp [function_free] at h
    | _ => simp [function_free] at h
  · intro e next line _ _ h; simp [function_free] at h

/-- C29: compiler correctness on the function-free fragment.  For every AST
built only from Number, CellRef and Range leaves, unary `MINUS` and `NOT`, the
thirteen binary operators and `IF` calls with exactly three arguments, whose
code needs at most `VM_STACK_SIZE` (256) stack slots, generate_code returns a
code array and vm_execute on it returns exactly the Value interpreter_evaluate
computes over the same table, the Error of a division by zero included. -/
theorem function_free_backends_agree (pw : Rat → Rat → Rat) (table : SymbolTable)
    (ast : ASTNode) (hfree : function_free ast = true)
    (hstack : stack_need ast ≤ VM_STACK_SIZE) :
    ∃ code, generate_code ast = some code ∧
      ∀ fuel, code.count ≤ fuel →
        vm_execute pw fuel (vm_create code table) =
          some (VMResult.value (interpreter_evaluate pw table ast)) := by
  obtain ⟨hfrag, hclean⟩ := function_free_fragment pw table ast hfree
  exact fragment_code_runs pw table ast hfrag hclean hstack

theorem function_free_backends_agree_witness :
    function_free formula_a1_plus_a2_times_four = true ∧
    stack_need formula_a1_plus_a2_times_four ≤ VM_STACK_SIZE ∧
    interpreter_evaluate pow_unused table_a1_a2 formula_a1_plus_a2_times_four =
      Value.number 14 ∧
    interpreter_evaluate pow_unused table_a1_four formula_a1_by_zero =
      Value.error "Division by zero" ∧
    (∃ code, generate_code formula_a1_plus_a2_times_four = some code ∧
      ∀ fuel, code.count ≤ fuel →
        vm_execute pow_unused fuel (vm_create code table_a1_a2) =
          some (VMResult.value
            (interpreter_evaluate pow_unused table_a1_a2 formula_a1_plus_a2_times_four))) ∧
    ∃ code, generate_code formula_a1_by_zero = some code ∧
      ∀ fuel, code.count ≤ fuel →
        vm_execute pow_unused fuel (vm_create code table_a1_four) =
          some (VMResult.value
            (interpreter_evaluate pow_unused table_a1_four formula_a1_by_zero)) :=
  ⟨by decide!, by decide!, by decide!, by decide!,
    function_free_backends_agree pow_unused table_a1_a2 formula_a1_plus_a2_times_four
      (by decide!) (by decide!),
    function_free_backends_agree pow_unused table_a1_four formula_a1_by_zero
      (by decide!) (by decide!)⟩

/-- In the interpreter an Error passes unchanged through the operators and
through `IF`: when a sub-expression whose value is used in one of these ways
yields an Error, the whole AST evaluates to that Error (for two failing
operands of a binary operator, to the Error of the left one). -/
theorem interpreter_error_propagates (pw : Rat → Rat → Rat) (table : SymbolTable)
    (node sub : ASTNode) (hused : used_by pw table node sub)
    (herr : (interpreter_evaluate pw table sub).is_error = true) :
    interpreter_evaluate pw table node = interpreter_evaluate pw table sub := by
  induction hused with
  | self node => rfl
  | unary op left line sub _ ih =>
    have h := ih herr
    simp only [interpreter_evaluate, h, herr, if_true]
  | binary_left op left right line sub _ ih =>
    have h := ih herr
    simp only [interpreter_evaluate, h, herr, if_true]
  | binary_right op left right line sub hleft _ ih =>
    have h := ih herr
    simp only [interpreter_evaluate, hleft, Bool.false_eq_true, if_false, h, herr, if_true]
  | if_cond c t e rest l1 l2 l3 line sub _ ih =>
    have h := ih herr
    simp only [interpreter_evaluate, if_true, h, herr]
  | if_true c t e rest l1 l2 l3 line sub hc htrue _ ih =>
    have h := ih herr
    simp only [interpreter_evaluate, if_true, hc, Bool.false_eq_true, if_false, htrue, ne_eq,
      not_false_eq_true, h]
  | if_false c t e rest l1 l2 l3 line sub hc hfalse _ ih =>
    have h := ih herr
    simp only [interpreter_evaluate, if_true, hc, Bool.false_eq_true, if_false, hfalse, ne_eq,
      not_true_eq_false, h]

/-- C22 (code bug): the interpreter does not propagate the Error of a function
argument.  In `SUM(1/0, 2)` the argument `1/0` evaluates to the Error
"Division by zero", yet interpreter_evaluate of the whole formula returns the
Number 2: eval_arg_list puts the Error into the argument list without a test
and rt_sum skips it.  The VM run on the generated code returns the Error. -/
theorem interpreter_drops_argument_error (pw : Rat → Rat → Rat) (table : SymbolTable) :
    interpreter_evaluate pw table formula_one_by_zero = Value.error "Division by zero" ∧
    interpreter_evaluate pw table formula_sum_of_error = Value.number 2 ∧
    ∃ code, generate_code formula_sum_of_error = some code ∧
      vm_execute pw 10 (vm_create code table) =
        some (VMResult.value (Value.error "Division by zero")) := by
  have h1 : interpreter_evaluate pw table formula_one_by_zero =
      Value.error "Division by zero" := by
    simp [formula_one_by_zero, interpreter_evaluate, eval_binary_op, create_number_value,
      create_error_value, Value.is_error, get_numeric]
  refine ⟨h1, ?_, _, rfl, ?_⟩
  · rw [formula_sum_of_error, interpreter_evaluate_call pw table Token.SUM _ 1 (by decide)]
    simp [eval_arg_list, h1, interpreter_evaluate, prepend_arg, create_number_value,
      interp_call_runtime, rt_sum, accumulate, accumulate_loop]
  · simp [vm_execute, vm_create, vm_run, vm_step, vm_dispatch, CodeArray.count, emit_op,
      emit_call, emit_push, write_instruction, create_code_array, push_and_continue,
      vm_push, vm_pop, VM_STACK_SIZE, Operand.as_number, create_number_value,
      binary_op_result, get_numeric, create_error_value, Value.is_error]

/-- C23 (code bug): the VM goes on after a call has produced an Error.  In the
code generated for `NOT(1, 2) + 1` the instruction `CALL NOT 2` produces the
Error "NOT expects exactly 1 argument"; the VM pushes it, and the following
`PUSH 1` and `ADD` turn it into the Number 1, which vm_execute returns.  The
interpreter returns the Error for the same formula. -/
theorem vm_continues_after_call_error (pw : Rat → Rat → Rat) (table : SymbolTable) :
    vm_call_runtime Token.NOT [Value.number 1, Value.number 2] =
      Value.error "NOT expects exactly 1 argument" ∧
    interpreter_evaluate pw table formula_not_two_args_plus_one =
      Value.error "NOT expects exactly 1 argument" ∧
    ∃ code, generate_code formula_not_two_args_plus_one = some code ∧
      code.code.map (fun inst => inst.opcode) =
        [OpCode.OP_PUSH, OpCode.OP_PUSH, OpCode.OP_CALL, OpCode.OP_PUSH, OpCode.OP_ADD,
          OpCode.OP_HALT] ∧
      vm_execute pw 10 (vm_create code table) = some (VMResult.value (Value.number 1)) := by
  refine ⟨rfl, ?_, _, rfl, rfl, ?_⟩
  · have hcall : interpreter_evaluate pw table
        (ASTNode.function_call Token.NOT
          (ASTNode.arg_list (ASTNode.number 1 1)
            (ASTNode.arg_list (ASTNode.number 2 1) ASTNode.null 1) 1) 1) =
        Value.error "NOT expects exactly 1 argument" := by
      rw [interpreter_evaluate_call pw table Token.NOT _ 1 (by decide)]
      simp [eval_arg_list, interpreter_evaluate, prepend_arg, create_number_value,
        interp_call_runtime, rt_not, create_error_value]
    unfold formula_not_two_args_plus_one
    rw [interpreter_evaluate, hcall]
    rfl
  · simp [vm_execute, vm_create, vm_run, vm_step, vm_dispatch, CodeArray.count, emit_op,
      emit_call, emit_push, write_instruction, create_code_array, push_and_continue,
      vm_push, vm_pop, VM_STACK_SIZE, Operand.as_number, create_number_value,
      binary_op_result, get_numeric, create_error_value, Value.is_error, collect_args,
      prepend_arg, vm_call_runtime, rt_not]

/-! ## The jumps of generated code -/

theorem jumps_patched_nil (start bound : Nat) : jumps_patched start [] bound := by
  intro i inst h
  simp at h

theorem jumps_patched_single (start bound : Nat) (inst : Instruction)
    (h : is_jump inst = false) : jumps_patched start [inst] bound := by
  intro i inst1 hi hj
  cases i with
  | zero =>
    simp only [List.getElem?_cons_zero, Option.some.injEq] at hi
    subst hi
    rw [h] at hj
    cases hj
  | succ i => simp at hi

theorem jumps_patched_jump (start bound : Nat) (opcode : OpCode) (line : Int) (target : Nat)
    (h1 : start < target) (h2 : target ≤ bound) :
    jumps_patched start [jump_instruction opcode line target] bound := by
  intro i inst hi _
  cases i with
  | zero =>
    simp only [List.getElem?_cons_zero, Option.some.injEq] at hi
    subst hi
    exact ⟨target, rfl, by omega, h2⟩
  | succ i => simp at hi

theorem jumps_patched_append (start bound : Nat) (a b : List Instruction)
    (ha : jumps_patched start a bound) (hb : jumps_patched (start + a.length) b bound) :
    jumps_patched start (a ++ b) bound := by
  intro i inst hi hj
  rcases Nat.lt_or_ge i a.length with hlt | hge
  · rw [List.getElem?_append_left hlt] at hi
    exact ha i inst hi hj
  · rw [List.getElem?_append_right hge] at hi
    obtain ⟨target, h1, h2, h3⟩ := hb (i - a.length) inst hi hj
    exact ⟨target, h1, by omega, h3⟩

theorem jumps_patched_mono (start start1 bound bound1 : Nat) (seg : List Instruction)
    (h : jumps_patched start seg bound) (hs : start = start1) (hle : bound ≤ bound1) :
    jumps_patched start1 seg bound1 := by
  subst hs
  intro i inst hi hj
  obtain ⟨target, h1, h2, h3⟩ := h i inst hi hj
  exact ⟨target, h1, h2, by omega⟩

/-- The two jumps of an `IF` are patched, as are the jumps of its three
parts. -/
theorem layout_if_jumps (line : Int) (start : Nat) (cond_code : List Instruction)
    (lay_true lay_false : Nat → Option (List Instruction))
    (hc : jumps_patched start cond_code (start + cond_code.length))
    (ht : ∀ s seg, lay_true s = some seg → jumps_patched s seg (s + seg.length))
    (hf : ∀ s seg, lay_false s = some seg → jumps_patched s seg (s + seg.length))
    (seg : List Instruction)
    (h : layout_if line start cond_code lay_true lay_false = some seg) :
    jumps_patched start seg (start + seg.length) := by
  unfold layout_if at h
  cases h1 : lay_true (start + cond_code.length + 1) with
  | none => simp [h1] at h
  | some true_code =>
    simp only [h1] at h
    cases h2 : lay_false (start + cond_code.length + 1 + true_code.length + 1) with
    | none => simp [h2] at h
    | some false_code =>
      simp only [h2, Option.some.injEq] at h
      subst h
      have ht1 := ht _ _ h1
      have hf1 := hf _ _ h2
      simp only [List.length_append, List.length_singleton]
      apply jumps_patched_append
      · apply jumps_patched_append
        · apply jumps_patched_append
          · apply jumps_patched_append
            · exact jumps_patched_mono _ _ _ _ _ hc (by omega) (by omega)
            · exact jumps_patched_jump _ _ _ _ _ (by omega) (by omega)
          · simp only [List.length_append, List.length_singleton]
            exact jumps_patched_mono _ _ _ _ _ ht1 (by omega) (by omega)
        · simp only [List.length_append, List.length_singleton]
          exact jumps_patched_jump _ _ _ _ _ (by omega) (by omega)
      · simp only [List.length_append, List.length_singleton]
        exact jumps_patched_mono _ _ _ _ _ hf1 (by omega) (by omega)

theorem binary_opcode_not_jump (tok : Token) (opcode : OpCode) (line : Int)
    (h : binary_opcode tok = some opcode) : is_jump (op_instruction opcode line) = false := by
  cases tok <;> simp [binary_opcode] at h <;> subst h <;> rfl

theorem layout_args_jumps (arguments : ASTNode) :
    (∀ e ∈ chain_exprs arguments, ∀ start seg, layout e start = some seg →
      jumps_patched start seg (start + seg.length)) →
    ∀ start seg n, layout_args arguments start = some (seg, n) →
      jumps_patched start seg (start + seg.length) := by
  induction arguments with
  | arg_list e next line _ ihn =>
    intro h start seg n hlay
    simp only [layout_args] at hlay
    cases h1 : layout e start with
    | none => simp [h1] at hlay
    | some code =>
      simp only [h1] at hlay
      cases h2 : layout_args next (start + code.length) with
      | none => simp [h2] at hlay
      | some r =>
        obtain ⟨rest, m⟩ := r
        simp only [h2, Option.some.injEq, Prod.mk.injEq] at hlay
        obtain ⟨rfl, _⟩ := hlay
        have he := h e (by simp [chain_exprs]) start code h1
        have hn := ihn (fun x hx => h x (by simp [chain_exprs, hx])) _ _ _ h2
        simp only [List.length_append]
        exact jumps_patched_append _ _ _ _ (jumps_patched_mono _ _ _ _ _ he (by omega) (by omega))
          (jumps_patched_mono _ _ _ _ _ hn (by omega) (by omega))
  | null =>
    intro _ start seg n hlay
    simp only [layout_args, Option.some.injEq, Prod.mk.injEq] at hlay
    obtain ⟨rfl, _⟩ := hlay
    exact jumps_patched_nil _ _
  | number _ _ | string _ _ | cell_ref _ _ | range _ _ | unary_op _ _ _ | binary_op _ _ _ _
  | function_call _ _ _ =>
    intro _ start seg n hlay
    simp only [layout_args, Option.some.injEq, Prod.mk.injEq] at hlay
    obtain ⟨rfl, _⟩ := hlay
    exact jumps_patched_nil _ _

/-- Every jump in the code of a node is patched and stays inside the code of
the node or points right behind it. -/
theorem layout_jumps : ∀ node, ∀ start seg, layout node start = some seg →
    jumps_patched start seg (start + seg.length) := by
  apply ast_induction
  · intro start seg h
    simp only [layout, Option.some.injEq] at h
    subst h
    exact jumps_patched_nil _ _
  · intro n line start seg h
    simp only [layout, Option.some.injEq] at h
    subst h
    exact jumps_patched_single _ _ _ rfl
  · intro s line start seg h
    simp only [layout, Option.some.injEq] at h
    subst h
    exact jumps_patched_single _ _ _ rfl
  · intro s line start seg h
    simp only [layout, Option.some.injEq] at h
    subst h
    exact jumps_patched_single _ _ _ rfl
  · intro s line start seg h
    simp only [layout, Option.some.injEq] at h
    subst h
    exact jumps_patched_single _ _ _ rfl
  · intro op left line ih start seg h
    simp only [layout] at h
    cases hl : layout left start with
    | none => simp [hl] at h
    | some lcode =>
      simp only [hl, Option.some.injEq] at h
      subst h
      have hleft := ih start lcode hl
      simp only [List.length_append]
      apply jumps_patched_append
      · exact jumps_patched_mono _ _ _ _ _ hleft rfl (by omega)
      · by_cases h1 : op = Token.MINUS
        · simp only [h1, if_true]
          exact jumps_patched_single _ _ _ rfl
        · by_cases h2 : op = Token.NOT
          · simp only [h1, h2, if_true, if_false]
            exact jumps_patched_single _ _ _ rfl
          · simp only [h1, h2, if_false]
            exact jumps_patched_nil _ _
  · intro op left right line ihl ihr start seg h
    simp only [layout] at h
    cases hl : layout left start with
    | none => simp [hl] at h
    | some lcode =>
      simp only [hl] at h
      cases hr : layout right (start + lcode.length) with
      | none => simp [hr] at h
      | some rcode =>
        simp only [hr, Option.some.injEq] at h
        subst h
        have hleft := ihl start lcode hl
        have hright := ihr _ rcode hr
        simp only [List.length_append]
        apply jumps_patched_append
        · apply jumps_patched_append
          · exact jumps_patched_mono _ _ _ _ _ hleft rfl (by omega)
          · exact jumps_patched_mono _ _ _ _ _ hright rfl (by omega)
        · cases hop : binary_opcode op with
          | none => exact jumps_patched_nil _ _
          | some opcode =>
            exact jumps_patched_single _ _ _ (binary_opcode_not_jump op opcode line hop)
  · intro tok arguments line hchain start seg h
    by_cases hif : tok = Token.IF
    · subst hif
      cases arguments with
      | arg_list c second l1 =>
        cases second with
        | arg_list t third l2 =>
          have hc := hchain c (by simp [chain_exprs])
          have ht := hchain t (by simp [chain_exprs])
          cases third with
          | null => simp [layout] at h
          | arg_list e rest l3 =>
            have he := hchain e (by simp [chain_exprs])
            simp only [layout, if_true] at h
            cases hlc : layout c start with
            | none => simp [hlc] at h
            | some cc =>
              simp only [hlc] at h
              exact layout_if_jumps line start cc _ _ (hc start cc hlc) ht he seg h
          | number _ _ | string _ _ | cell_ref _ _ | range _ _ | unary_op _ _ _
          | binary_op _ _ _ _ | function_call _ _ _ =>
            simp only [layout, if_true] at h
            cases hlc : layout c start with
            | none => simp [hlc] at h
            | some cc =>
              simp only [hlc] at h
              refine layout_if_jumps line start cc _ _ (hc start cc hlc) ht ?_ seg h
              intro s seg1 hs
              simp only [Option.some.injEq] at hs
              subst hs
              exact jumps_patched_nil _ _
        | _ => simp [layout] at h
      | _ => simp [layout] at h
    · rw [layout_call _ _ _ _ hif] at h
      cases hla : layout_args arguments start with
      | none => simp [hla] at h
      | some r =>
        obtain ⟨acode, n⟩ := r
        simp only [hla, Option.some.injEq] at h
        subst h
        have hargs := layout_args_jumps arguments hchain start acode n hla
        simp only [List.length_append]
        exact jumps_patched_append _ _ _ _
          (jumps_patched_mono _ _ _ _ _ hargs rfl (by omega))
          (jumps_patched_single _ _ _ rfl)
  · intro e next line _ _ start seg h
    simp only [layout, Option.some.injEq] at h
    subst h
    exact jumps_patched_nil _ _

theorem layout_args_complete_some (arguments : ASTNode) :
    (∀ e ∈ chain_exprs arguments, if_calls_complete e = true →
      ∀ start, (layout e start).isSome) →
    args_complete arguments = true → ∀ start, (layout_args arguments start).isSome := by
  induction arguments with
  | arg_list e next line _ ihn =>
    intro hchain hfrag start
    simp only [args_complete, Bool.and_eq_true] at hfrag
    have he := hchain e (by simp [chain_exprs]) hfrag.1 start
    obtain ⟨ecode, hecode⟩ := Option.isSome_iff_exists.mp he
    have hn := ihn (fun x hx => hchain x (by simp [chain_exprs, hx])) hfrag.2
      (start + ecode.length)
    obtain ⟨r, hr⟩ := Option.isSome_iff_exists.mp hn
    simp [layout_args, hecode, hr]
  | null => intro _ _ start; simp [layout_args]
  | number _ _ | string _ _ | cell_ref _ _ | range _ _ | unary_op _ _ _ | binary_op _ _ _ _
  | function_call _ _ _ =>
    intro _ _ start; simp [layout_args]

theorem if_calls_complete_call (tok : Token) (arguments : ASTNode) (line : Int)
    (hif : tok ≠ Token.IF) :
    if_calls_complete (ASTNode.function_call tok arguments line) = args_complete arguments := by
  cases arguments with
  | arg_list c second l1 =>
    cases second with
    | arg_list t third l2 => cases third <;> simp only [if_calls_complete, hif, if_false]
    | _ => simp only [if_calls_complete, hif, if_false]
  | _ => simp only [if_calls_complete, hif, if_false]

/-- The code generator returns on every AST whose `IF` calls have their three
arguments. -/
theorem layout_complete_some : ∀ node, if_calls_complete node = true →
    ∀ start, (layout node start).isSome := by
  apply ast_induction
  · intro _ start; simp [layout]
  · intro n line _ start; simp [layout]
  · intro s line _ start; simp [layout]
  · intro s line _ start; simp [layout]
  · intro s line _ start; simp [layout]
  · intro op left line ih h start
    simp only [if_calls_complete] at h
    obtain ⟨lcode, hl⟩ := Option.isSome_iff_exists.mp (ih h start)
    simp [layout, hl]
  · intro op left right line ihl ihr h start
    simp only [if_calls_complete, Bool.and_eq_true] at h
    obtain ⟨lcode, hl⟩ := Option.isSome_iff_exists.mp (ihl h.1 start)
    obtain ⟨rcode, hr⟩ := Option.isSome_iff_exists.mp (ihr h.2 (start + lcode.length))
    simp [layout, hl, hr]
  · intro tok arguments line hchain h start
    by_cases hif : tok = Token.IF
    · subst hif
      cases arguments with
      | arg_list c second l1 =>
        cases second with
        | arg_list t third l2 =>
          cases third with
          | arg_list e rest l3 =>
            simp only [if_calls_complete, if_true, Bool.and_eq_true] at h
            obtain ⟨cc, hc⟩ := Option.isSome_iff_exists.mp
              (hchain c (by simp [chain_exprs]) h.1.1 start)
            obtain ⟨tc, ht⟩ := Option.isSome_iff_exists.mp
              (hchain t (by simp [chain_exprs]) h.1.2 (start + cc.length + 1))
            obtain ⟨ec, he⟩ := Option.isSome_iff_exists.mp
              (hchain e (by simp [chain_exprs]) h.2 (start + cc.length + 1 + tc.length + 1))
            simp [layout, layout_if, hc, ht, he]
          | _ => simp [if_calls_complete] at h
        | _ => simp [if_calls_complete] at h
      | _ => simp [if_calls_complete] at h
    · rw [if_calls_complete_call _ _ _ hif] at h
      obtain ⟨r, hr⟩ := Option.isSome_iff_exists.mp
        (layout_args_complete_some arguments hchain h start)
      rw [layout_call _ _ _ _ hif, hr]
      rfl
  · intro e next line _ _ _ start
    simp [layout]

/-- C25: for every AST whose `IF` calls have their three arguments
generate_code returns a code array in which every `JMP` and `JMP_IF_FALSE`
has been patched: its operand is an address that is not negative (so not the
placeholder -1), is strictly greater than the index of the jump and is at most
`count - 1`, the index of the final `HALT`. -/
theorem generated_jumps_are_patched (ast : ASTNode) (hroot : ast ≠ ASTNode.null)
    (hcomplete : if_calls_complete ast = true) :
    ∃ code, generate_code ast = some code ∧
      (code.code[code.count - 1]?).map (fun inst => inst.opcode) = some OpCode.OP_HALT ∧
      ∀ (i : Nat) (inst : Instruction), code.code[i]? = some inst → is_jump inst = true →
        ∃ target : Nat, inst.operand = Operand.address (target : Int) ∧
          inst.operand ≠ Operand.address (-1) ∧ i < target ∧ target ≤ code.count - 1 := by
  obtain ⟨seg, hseg⟩ := Option.isSome_iff_exists.mp (layout_complete_some ast hcomplete 0)
  have hgen : generate_expr ast create_code_array = some { code := seg } := by
    rw [generate_expr_layout ast create_code_array]
    simp [create_code_array, CodeArray.count, hseg]
  have hjumps := layout_jumps ast 0 seg hseg
  refine ⟨{ code := seg ++ [op_instruction OpCode.OP_HALT ast.line_of] }, ?_, ?_, ?_⟩
  · simp [generate_code, hroot, hgen, emit_op, write_instruction, op_instruction]
  · simp [CodeArray.count, op_instruction]
  · intro i inst hi hj
    simp only [CodeArray.count, List.length_append, List.length_singleton,
      Nat.add_sub_cancel]
    have hall := jumps_patched_append 0 (0 + seg.length) seg
      [op_instruction OpCode.OP_HALT ast.line_of] hjumps (jumps_patched_single _ _ _ rfl)
    obtain ⟨target, h1, h2, h3⟩ := hall i inst hi hj
    refine ⟨target, h1, ?_, by omega, by omega⟩
    rw [h1]
    intro hneg
    simp only [Operand.address.injEq] at hneg
    omega

theorem generated_jumps_are_patched_witness :
    if_calls_complete formula_if_plus = true ∧
    (generate_code formula_if_plus).map (fun code => code.code.map (fun inst => inst.operand)) =
      some [Operand.number 1, Operand.address 4, Operand.number 1, Operand.address 5,
        Operand.number 2, Operand.number 3, Operand.unset, Operand.unset] ∧
    ∃ code, generate_code formula_if_plus = some code ∧
      (code.code[code.count - 1]?).map (fun inst => inst.opcode) = some OpCode.OP_HALT ∧
      ∀ (i : Nat) (inst : Instruction), code.code[i]? = some inst → is_jump inst = true →
        ∃ target : Nat, inst.operand = Operand.address (target : Int) ∧
          inst.operand ≠ Operand.address (-1) ∧ i < target ∧ target ≤ code.count - 1 :=
  ⟨by decide!, by decide!,
    generated_jumps_are_patched formula_if_plus (by decide!) (by decide!)⟩

/-! ## The code of an IF call -/

/-- What generate_expr has appended for a node is the layout of the node at
the old length of the array. -/
theorem layout_of_generate_expr (node : ASTNode) (code : CodeArray) (seg : List Instruction)
    (h : generate_expr node code = some { code := code.code ++ seg }) :
    layout node code.count = some seg := by
  rw [generate_expr_layout node code] at h
  cases hl : layout node code.count with
  | none => simp [hl] at h
  | some seg1 =>
    simp only [hl, Option.map_some', Option.some.injEq, CodeArray.mk.injEq] at h
    rw [List.append_cancel_left h]

/-- C30: for every `IF(c, t, e)` node, when the calls of generate_expr for
`c`, `t` and `e` (each made on the array as it stands at that point) append
the codes `sc`, `st` and `se`, the call for the `IF` node appends `sc`, then
`JMP_IF_FALSE` whose target is the absolute index of the first instruction of
`se`, then `st`, then `JMP` whose target is the absolute index of the
instruction right after `se`, then `se`: the `IF` itself contributes these two
jumps and no `CALL`. -/
theorem generate_expr_if_code (c t e rest : ASTNode) (l1 l2 l3 line : Int) (code : CodeArray)
    (sc st se : List Instruction)
    (hc : generate_expr c code = some { code := code.code ++ sc })
    (ht : generate_expr t
        { code := code.code ++ sc ++ [unpatched_jump OpCode.OP_JMP_IF_FALSE line] } =
      some { code := code.code ++ sc ++ [unpatched_jump OpCode.OP_JMP_IF_FALSE line] ++ st })
    (he : generate_expr e
        { code := code.code ++ sc ++
            [jump_instruction OpCode.OP_JMP_IF_FALSE line
              (code.count + sc.length + 1 + st.length + 1)] ++ st ++
            [unpatched_jump OpCode.OP_JMP line] } =
      some { code := code.code ++ sc ++
            [jump_instruction OpCode.OP_JMP_IF_FALSE line
              (code.count + sc.length + 1 + st.length + 1)] ++ st ++
            [unpatched_jump OpCode.OP_JMP line] ++ se }) :
    generate_expr
        (ASTNode.function_call Token.IF
          (ASTNode.arg_list c (ASTNode.arg_list t (ASTNode.arg_list e rest l3) l2) l1) line)
        code =
      some { code := code.code ++ sc ++
        [jump_instruction OpCode.OP_JMP_IF_FALSE line
          (code.count + sc.length + 1 + st.length + 1)] ++ st ++
        [jump_instruction OpCode.OP_JMP line
          (code.count + sc.length + 1 + st.length + 1 + se.length)] ++ se } ∧
    (code.code ++ sc ++
        [jump_instruction OpCode.OP_JMP_IF_FALSE line
          (code.count + sc.length + 1 + st.length + 1)] ++ st ++
        [jump_instruction OpCode.OP_JMP line
          (code.count + sc.length + 1 + st.length + 1 + se.length)]).length =
      code.count + sc.length + 1 + st.length + 1 ∧
    (code.code ++ sc ++
        [jump_instruction OpCode.OP_JMP_IF_FALSE line
          (code.count + sc.length + 1 + st.length + 1)] ++ st ++
        [jump_instruction OpCode.OP_JMP line
          (code.count + sc.length + 1 + st.length + 1 + se.length)] ++ se).length =
      code.count + sc.length + 1 + st.length + 1 + se.length := by
  have hlc := layout_of_generate_expr c code sc hc
  have hlt := layout_of_generate_expr t
    { code := code.code ++ sc ++ [unpatched_jump OpCode.OP_JMP_IF_FALSE line] } st ht
  have hle := layout_of_generate_expr e
    { code := code.code ++ sc ++
        [jump_instruction OpCode.OP_JMP_IF_FALSE line
          (code.count + sc.length + 1 + st.length + 1)] ++ st ++
        [unpatched_jump OpCode.OP_JMP line] } se he
  simp only [CodeArray.count, List.length_append, List.length_singleton] at hlc hlt hle
  refine ⟨?_, ?_, ?_⟩
  · rw [generate_expr_layout]
    simp only [layout, if_true, hlc, layout_if, CodeArray.count, hlt, hle, Option.map_some',
      List.append_assoc]
  · simp only [CodeArray.count, List.length_append, List.length_singleton]
  · simp only [CodeArray.count, List.length_append, List.length_singleton]

theorem generate_expr_if_code_witness :
    generate_expr
        (ASTNode.function_call Token.IF
          (ASTNode.arg_list (ASTNode.number 1 1)
            (ASTNode.arg_list (ASTNode.number 7 1)
              (ASTNode.arg_list (ASTNode.number 9 1) ASTNode.null 1) 1) 1) 2)
        create_code_array =
      some { code :=
        [{ opcode := OpCode.OP_PUSH, line := 1, operand := Operand.number 1 },
         { opcode := OpCode.OP_JMP_IF_FALSE, line := 2, operand := Operand.address 4 },
         { opcode := OpCode.OP_PUSH, line := 1, operand := Operand.number 7 },
         { opcode := OpCode.OP_JMP, line := 2, operand := Operand.address 5 },
         { opcode := OpCode.OP_PUSH, line := 1, operand := Operand.number 9 }] } :=
  (generate_expr_if_code (ASTNode.number 1 1) (ASTNode.number 7 1) (ASTNode.number 9 1)
    ASTNode.null 1 1 1 2 create_code_array
    [{ opcode := OpCode.OP_PUSH, line := 1, operand := Operand.number 1 }]
    [{ opcode := OpCode.OP_PUSH, line := 1, operand := Operand.number 7 }]
    [{ opcode := OpCode.OP_PUSH, line := 1, operand := Operand.number 9 }]
    (by decide!) (by decide!) (by decide!)).1

/-! ## The node counter of ast.h -/

theorem build_ast_counts (ast : ASTNode) :
    ∀ heap : NodeHeap,
      (build_ast ast heap).g_node_count = heap.g_node_count + node_count ast ∧
      (build_ast ast heap).allocated = heap.allocated + node_count ast ∧
      (build_ast ast heap).freed = heap.freed := by
  induction ast with
  | null => intro heap; simp [build_ast, node_count]
  | number n line => intro heap; simp [build_ast, node_count, create_number_node, create_node]
  | string s line => intro heap; simp [build_ast, node_count, create_string_node, create_node]
  | cell_ref s line =>
    intro heap; simp [build_ast, node_count, create_cell_ref_node, create_node]
  | range s line => intro heap; simp [build_ast, node_count, create_range_node, create_node]
  | unary_op op left line ih =>
    intro heap
    obtain ⟨h1, h2, h3⟩ := ih heap
    simp only [build_ast, node_count, create_unary_op_node, create_node, h1, h2, h3]
    refine ⟨?_, ?_, trivial⟩
    · push_cast; ring
    · ring
  | binary_op op left right line ihl ihr =>
    intro heap
    obtain ⟨l1, l2, l3⟩ := ihl heap
    obtain ⟨r1, r2, r3⟩ := ihr (build_ast left heap)
    simp only [build_ast, node_count, create_binary_op_node, create_node, r1, r2, r3, l1, l2, l3]
    refine ⟨?_, ?_, trivial⟩
    · push_cast; ring
    · ring
  | function_call tok args line ih =>
    intro heap
    obtain ⟨h1, h2, h3⟩ := ih heap
    simp only [build_ast, node_count, create_function_call_node, create_node, h1, h2, h3]
    refine ⟨?_, ?_, trivial⟩
    · push_cast; ring
    · ring
  | arg_list e next line ihe ihn =>
    intro heap
    obtain ⟨l1, l2, l3⟩ := ihe heap
    obtain ⟨r1, r2, r3⟩ := ihn (build_ast e heap)
    simp only [build_ast, node_count, create_arg_list_node, create_node, r1, r2, r3, l1, l2, l3]
    refine ⟨?_, ?_, trivial⟩
    · push_cast; ring
    · ring

theorem free_ast_counts (ast : ASTNode) :
    ∀ heap : NodeHeap,
      (free_ast ast heap).g_node_count = heap.g_node_count ∧
      (free_ast ast heap).allocated = heap.allocated ∧
      (free_ast ast heap).freed = heap.freed + node_count ast := by
  induction ast with
  | null => intro heap; simp [free_ast, node_count]
  | number n line => intro heap; simp [free_ast, node_count, free_node]
  | string s line => intro heap; simp [free_ast, node_count, free_node]
  | cell_ref s line => intro heap; simp [free_ast, node_count, free_node]
  | range s line => intro heap; simp [free_ast, node_count, free_node]
  | unary_op op left line ih =>
    intro heap
    obtain ⟨h1, h2, h3⟩ := ih heap
    simp only [free_ast, node_count, free_node, h1, h2, h3]
    exact ⟨trivial, trivial, by ring⟩
  | binary_op op left right line ihl ihr =>
    intro heap
    obtain ⟨l1, l2, l3⟩ := ihl heap
    obtain ⟨r1, r2, r3⟩ := ihr (free_ast left heap)
    simp only [free_ast, node_count, free_node, r1, r2, r3, l1, l2, l3]
    exact ⟨trivial, trivial, by ring⟩
  | function_call tok args line ih =>
    intro heap
    obtain ⟨h1, h2, h3⟩ := ih heap
    simp only [free_ast, node_count, free_node, h1, h2, h3]
    exact ⟨trivial, trivial, by ring⟩
  | arg_list e next line ihe ihn =>
    intro heap
    obtain ⟨l1, l2, l3⟩ := ihe heap
    obtain ⟨r1, r2, r3⟩ := ihn (free_ast e heap)
    simp only [free_ast, node_count, free_node, r1, r2, r3, l1, l2, l3]
    exact ⟨trivial, trivial, by ring⟩

/-- C26 (counterexample): starting from `g_node_count = 0`, after the one-node
AST of the literal `1` has been built and passed to free_ast, the counter is 1,
not 0, although the node has been allocated and freed once. -/
theorem node_counter_not_reset_by_free :
    (free_ast (ASTNode.number 1 1) (build_ast (ASTNode.number 1 1) empty_heap)).g_node_count =
      1 ∧
    (free_ast (ASTNode.number 1 1) (build_ast (ASTNode.number 1 1) empty_heap)).allocated = 1 ∧
    (free_ast (ASTNode.number 1 1) (build_ast (ASTNode.number 1 1) empty_heap)).freed = 1 := by
  decide

/-- C26 (amended): `g_node_count` counts the nodes created, not the live ones.
After any AST has been built with the constructor functions and free_ast has
been called on its root, the counter has grown by the number of nodes of the
tree (free_ast never changes it), every created node has been freed exactly
once (as many `free(node)` calls as nodes allocated). -/
theorem node_counter_counts_created_nodes (ast : ASTNode) (heap : NodeHeap) :
    (free_ast ast (build_ast ast heap)).g_node_count = heap.g_node_count + node_count ast ∧
    (free_ast ast (build_ast ast heap)).g_node_count = (build_ast ast heap).g_node_count ∧
    (free_ast ast (build_ast ast heap)).allocated = heap.allocated + node_count ast ∧
    (free_ast ast (build_ast ast heap)).freed = heap.freed + node_count ast := by
  obtain ⟨b1, b2, b3⟩ := build_ast_counts ast heap
  obtain ⟨f1, f2, f3⟩ := free_ast_counts ast (build_ast ast heap)
  exact ⟨by rw [f1, b1], f1, by rw [f2, b2], by rw [f3, b3]⟩

/-! ## Readers of undefined cells, and the helpers of value.h -/

/-- The element of the expansion of a range that stands for the cell
`<c><r>` of the rectangle. -/
theorem rt_expand_range_getElem (range_str : String) (table : SymbolTable)
    (c1 c2 : Char) (r1 r2 : Int) (hparse : sscanf_range range_str = some (c1, r1, c2, r2))
    (hcounters : counters_in_range c2 r1 r2) (c : Char) (r : Int) (hc1 : c1 ≤ c) (hc2 : c ≤ c2)
    (hr1 : r1 ≤ r) (hr2 : r ≤ r2) :
    (rt_expand_range range_str table)[(c.toNat - c1.toNat) * (r2 - r1 + 1).toNat +
        (r - r1).toNat]? =
      some (Value.number (read_cell table (cell_key c r))) := by
  have hblock : ∀ x ∈ col_range c1 c2,
      ((row_range r1 r2).map (fun r => read_cell table (cell_key x r))).length =
        (r2 - r1 + 1).toNat := by
    intro x _
    simp only [List.length_map, row_range, List.length_range]
    omega
  rw [rt_expand_range_rectangle range_str table c1 c2 r1 r2 hparse hcounters,
    List.getElem?_map]
  unfold rectangle_values
  rw [getElem?_flatMap_const _ _ _ hblock _ _ c (col_range_getElem c1 c2 c hc1 hc2)
    (by omega), List.getElem?_map, row_range_getElem r1 r2 r hr1 hr2]
  rfl

/-- C27: a read of an undefined cell yields 0 in every reader.  For every key
whose cell is absent from the table, or present with `is_defined = 0` whatever
its `value` field holds, interpreter_evaluate of a CellRef to it returns the
Number 0, `OP_PUSH_CELL` pushes the Number 0, and the element of
rt_expand_range that stands for the cell is the Number 0. -/
theorem undefined_cell_reads_zero (pw : Rat → Rat → Rat) (table : SymbolTable) (key : String)
    (hundef : symtab_get_cell table key = none ∨
      ∃ slot, symtab_get_cell table key = some slot ∧ (table.entry slot).is_defined = false) :
    (∀ line : Int, interpreter_evaluate pw table (ASTNode.cell_ref key line) = Value.number 0) ∧
    (∀ (vm1 : VM) (line : Int), vm1.symtab = table →
      vm_dispatch pw vm1
          { opcode := OpCode.OP_PUSH_CELL, line := line, operand := Operand.cell_ref key } =
        push_and_continue vm1 (Value.number 0)) ∧
    (∀ (range_str : String) (c1 c2 : Char) (r1 r2 : Int) (c : Char) (r : Int),
      sscanf_range range_str = some (c1, r1, c2, r2) → counters_in_range c2 r1 r2 →
      c1 ≤ c → c ≤ c2 → r1 ≤ r → r ≤ r2 → cell_key c r = key →
      (rt_expand_range range_str table)[(c.toNat - c1.toNat) * (r2 - r1 + 1).toNat +
          (r - r1).toNat]? = some (Value.number 0)) := by
  have hread : read_cell table key = 0 := by
    unfold read_cell
    rcases hundef with h | ⟨slot, h1, h2⟩
    · simp [h]
    · simp [h1, h2]
  refine ⟨?_, ?_, ?_⟩
  · intro line
    simp [interpreter_evaluate, hread, create_number_value]
  · intro vm1 line hsym
    simp [vm_dispatch, Operand.as_cell_ref, hsym, hread, create_number_value]
  · intro range_str c1 c2 r1 r2 c r hparse hcounters hc1 hc2 hr1 hr2 hkey
    rw [rt_expand_range_getElem range_str table c1 c2 r1 r2 hparse hcounters c r hc1 hc2 hr1 hr2,
      hkey, hread]

theorem undefined_cell_reads_zero_witness :
    symtab_get_cell table_a1_four "B7" = none ∧
    interpreter_evaluate pow_unused table_a1_four (ASTNode.cell_ref "B7" 1) = Value.number 0 ∧
    rt_expand_range "A1:B7" table_a1_four =
      [Value.number 4, Value.number 0, Value.number 0, Value.number 0, Value.number 0,
        Value.number 0, Value.number 0, Value.number 0, Value.number 0, Value.number 0,
        Value.number 0, Value.number 0, Value.number 0, Value.number 0] ∧
    (rt_expand_range "A1:B7" table_a1_four)[('B'.toNat - 'A'.toNat) * (7 - 1 + 1 : Int).toNat +
        ((7 : Int) - 1).toNat]? = some (Value.number 0) :=
  ⟨by decide!,
    (undefined_cell_reads_zero pow_unused table_a1_four "B7" (Or.inl (by decide!))).1 1,
    by decide!,
    (undefined_cell_reads_zero pow_unused table_a1_four "B7" (Or.inl (by decide!))).2.2
      "A1:B7" 'A' 'B' 1 7 'B' 7 (by decide!) ⟨by decide!, by decide!, by decide!⟩
      (by decide!) (by decide!) (by decide!) (by decide!) (by decide!)⟩

/-- C28: is_truthy is `payload != 0` for a Number, the stored flag for a
Boolean, `text is not empty` for a String and false for an Error; get_numeric
is the payload for a Number, 1 or 0 for a Boolean that is true or false, and 0
for a String or an Error; every Boolean built by create_boolean_value has the
payload 0 or 1. -/
theorem value_helpers (v : Value) :
    (is_truthy v ≠ 0 ↔
      match v with
      | Value.number n => n ≠ 0
      | Value.boolean b => b ≠ 0
      | Value.string s => s ≠ ""
      | Value.error _ => False) ∧
    (∀ b, v = Value.boolean b → is_truthy v = b) ∧
    get_numeric v =
      (match v with
       | Value.number n => n
       | Value.boolean b => if b ≠ 0 then 1 else 0
       | Value.string _ => 0
       | Value.error _ => 0) ∧
    (∀ b : Int, ∃ flag : Int, create_boolean_value b = Value.boolean flag ∧
      (flag = 0 ∨ flag = 1) ∧ (flag = 1 ↔ b ≠ 0) ∧
      is_truthy (create_boolean_value b) = flag ∧
      get_numeric (create_boolean_value b) = (flag : Rat)) := by
  refine ⟨?_, ?_, ?_, ?_⟩
  · cases v with
    | number n => by_cases h : n = 0 <;> simp [is_truthy, c_bool, h]
    | boolean b => simp [is_truthy]
    | string s => by_cases h : s = "" <;> simp [is_truthy, c_bool, h]
    | error s => simp [is_truthy]
  · intro b hb
    subst hb
    rfl
  · cases v <;> rfl
  · intro b
    by_cases h : b = 0
    · exact ⟨0, by simp [create_boolean_value, c_bool, h], Or.inl rfl, by simp [h],
        by simp [create_boolean_value, c_bool, h, is_truthy],
        by simp [create_boolean_value, c_bool, h, get_numeric]⟩
    · exact ⟨1, by simp [create_boolean_value, c_bool, h], Or.inr rfl, by simp [h],
        by simp [create_boolean_value, c_bool, h, is_truthy],
        by simp [create_boolean_value, c_bool, h, get_numeric]⟩

/-- The argument loop of generate_expr on a null-terminated chain: the code of
the expressions in chain order, and one more in the counter per link. -/
theorem generate_args_proper : ∀ (arguments : ASTNode), proper_chain arguments = true →
    ∀ (code : CodeArray) (n : Int),
    generate_args arguments code n =
      (code_of_arguments (chain_exprs arguments) code).map
        (fun code1 => (code1, n + ((chain_exprs arguments).length : Int))) ∧
    arg_chain_length arguments = (chain_exprs arguments).length := by
  intro arguments
  induction arguments with
  | null => intro _ code n; simp [generate_args, chain_exprs, code_of_arguments, arg_chain_length]
  | arg_list e next line _ ihn =>
    intro hp code n
    simp only [proper_chain] at hp
    simp only [generate_args, chain_exprs, code_of_arguments, arg_chain_length, List.length_cons]
    refine ⟨?_, by rw [(ihn hp code n).2]⟩
    cases generate_expr e code with
    | none => rfl
    | some code1 =>
      simp only [(ihn hp code1 (n + 1)).1]
      cases code_of_arguments (chain_exprs next) code1 with
      | none => rfl
      | some code2 =>
        simp only [Option.map_some', Option.some.injEq, Prod.mk.injEq, true_and]
        push_cast
        omega
  | _ => intro hp; simp [proper_chain] at hp

/-- C31: for a function call whose token is not `IF` and whose argument chain
`a1 .. an` is null-terminated, generate_expr appends the code of `a1`, ...,
the code of `an` in chain order (each generated on the array the previous one
left) and then one `CALL` instruction that carries the function token and
`arg_count = n`, the number of links of the chain; and the last instruction of
every array generate_code returns is `HALT` with the line of the root. -/
theorem generate_expr_call_code (func_token : Token) (arguments : ASTNode) (line : Int)
    (code : CodeArray) (hif : func_token ≠ Token.IF) (hp : proper_chain arguments = true) :
    generate_expr (ASTNode.function_call func_token arguments line) code =
      (code_of_arguments (chain_exprs arguments) code).map
        (fun code1 => ({ code := code1.code ++
          [{ opcode := OpCode.OP_CALL, line := line,
             operand := Operand.func_call func_token ((chain_exprs arguments).length : Int) }] }
          : CodeArray)) ∧
    arg_chain_length arguments = (chain_exprs arguments).length ∧
    ∀ (root : ASTNode) (halted : CodeArray), generate_code root = some halted →
      halted.code.getLast? = some (op_instruction OpCode.OP_HALT root.line_of) := by
  refine ⟨?_, (generate_args_proper arguments hp code 0).2, ?_⟩
  · rw [generate_expr_call func_token arguments line code hif,
      (generate_args_proper arguments hp code 0).1]
    cases code_of_arguments (chain_exprs arguments) code with
    | none => rfl
    | some code1 => simp [emit_call, write_instruction]
  · intro root halted h
    unfold generate_code at h
    by_cases hr : root = ASTNode.null
    · simp [hr] at h
    · simp only [hr, if_false] at h
      cases hg : generate_expr root create_code_array with
      | none => simp [hg] at h
      | some code1 =>
        simp only [hg, Option.some.injEq] at h
        rw [← h]
        simp [emit_op, write_instruction, op_instruction]

theorem generate_expr_call_code_witness :
    generate_expr formula_sum_three_args create_code_array =
      some { code :=
        [{ opcode := OpCode.OP_PUSH_RANGE, line := 1, operand := Operand.range_str "A1:B2" },
         { opcode := OpCode.OP_PUSH, line := 1, operand := Operand.number 3 },
         { opcode := OpCode.OP_PUSH_CELL, line := 1, operand := Operand.cell_ref "A1" },
         { opcode := OpCode.OP_NEG, line := 1, operand := Operand.unset },
         { opcode := OpCode.OP_CALL, line := 1, operand := Operand.func_call Token.SUM 3 }] } ∧
    (generate_code formula_sum_three_args).map (fun halted => halted.code.getLast?) =
      some (some (op_instruction OpCode.OP_HALT 1)) := by
  have h := generate_expr_call_code Token.SUM
    (ASTNode.arg_list (ASTNode.range "A1:B2" 1)
      (ASTNode.arg_list (ASTNode.number 3 1)
        (ASTNode.arg_list (ASTNode.unary_op Token.MINUS (ASTNode.cell_ref "A1" 1) 1)
          ASTNode.null 1) 1) 1) 1 create_code_array (by decide) (by decide)
  refine ⟨?_, ?_⟩
  · unfold formula_sum_three_args
    rw [h.1]
    decide!
  · have h2 := h.2.2 formula_sum_three_args
    cases hg : generate_code formula_sum_three_args with
    | none => exact absurd hg (by decide!)
    | some halted =>
      rw [Option.map_some', h2 halted hg]
      rfl

/-- The check of a `Range` node: the table stays, and one diagnostic is
appended when the text is rejected. -/
theorem check_range_counts (s : String) (line : Int) (ctx : SemanticContext) :
    (check_range s line ctx).this_cell_ref = ctx.this_cell_ref ∧
    (check_range s line ctx).table = ctx.table ∧
    ∃ appended : List Error,
      (check_range s line ctx).errors.errors = ctx.errors.errors ++ appended ∧
      appended.length = (if range_rejected s then 1 else 0) ∧
      (check_range s line ctx).error_count = ctx.error_count + appended.length := by
  have hcases : sscanf_range s = none ∨ ∃ r, sscanf_range s = some r := by
    cases sscanf_range s <;> simp
  unfold check_range range_rejected
  rcases hcases with hs | ⟨⟨c1, r1, c2, r2⟩, hs⟩
  · refine ⟨by simp [hs], by simp [hs], ?_⟩
    simp only [hs]
    exact ⟨_, rfl, rfl, rfl⟩
  · by_cases hb : c1 > c2 ∨ r1 > r2
    · refine ⟨by simp [hs, hb], by simp [hs, hb], ?_⟩
      simp only [hs, hb, if_true, decide_True]
      exact ⟨_, rfl, rfl, rfl⟩
    · refine ⟨by simp [hs, hb], by simp [hs, hb], ?_⟩
      simp only [hs, hb, if_false, decide_False]
      exact ⟨[], by simp, rfl, rfl⟩

/-- The loop over the direct dependencies stops at the first one that closes a
circle: the ones before it were checked and answered "no", leaving the error
system as it was. -/
theorem circular_loop_first (fuel : Nat) (table : SymbolTable) (key : String) :
    ∀ (deps : List String) (errors : ErrorSystem) (b : Bool) (e2 : ErrorSystem),
      circular_loop fuel table key deps errors = some (b, e2) →
      (b = false → e2 = errors ∧
        ∀ d ∈ deps, symtab_check_circular_dep fuel table key d errors = some (false, errors)) ∧
      (b = true → ∃ pre d post, deps = pre ++ d :: post ∧
        (∀ x ∈ pre, symtab_check_circular_dep fuel table key x errors = some (false, errors)) ∧
        symtab_check_circular_dep fuel table key d errors = some (true, e2)) := by
  intro deps
  induction deps with
  | nil =>
    intro errors b e2 h
    simp only [circular_loop, Option.some.injEq, Prod.mk.injEq] at h
    obtain ⟨rfl, rfl⟩ := h
    simp
  | cons dep rest ih =>
    intro errors b e2 h
    simp only [circular_loop] at h
    cases hc : symtab_check_circular_dep fuel table key dep errors with
    | none => simp [hc] at h
    | some r =>
      obtain ⟨b1, e1⟩ := r
      obtain ⟨hfalse, _⟩ := symtab_check_circular_dep_errors fuel table key dep errors b1 e1 hc
      cases b1 with
      | true =>
        simp only [hc, Option.some.injEq, Prod.mk.injEq] at h
        obtain ⟨rfl, rfl⟩ := h
        exact ⟨by simp, fun _ => ⟨[], dep, rest, rfl, by simp, hc⟩⟩
      | false =>
        simp only [hc] at h
        have he : e1 = errors := hfalse rfl
        subst he
        obtain ⟨q1, q2⟩ := ih e1 b e2 h
        refine ⟨fun hb => ⟨(q1 hb).1, ?_⟩, fun hb => ?_⟩
        · intro d hd
          rcases List.mem_cons.mp hd with rfl | hd
          · exact hc
          · exact (q1 hb).2 d hd
        · obtain ⟨pre, d, post, hdeps, hpre, hd⟩ := q2 hb
          refine ⟨dep :: pre, d, post, by rw [hdeps]; rfl, ?_, hd⟩
          intro x hx
          rcases List.mem_cons.mp hx with rfl | hx
          · exact hc
          · exact hpre x hx

theorem table_b1_then_a1_wf : table_wf table_b1_then_a1 :=
  ⟨by decide!, ⟨3, by decide!⟩, by decide!⟩

/-- C33: semantic_analysis of a formula (step 1 leaves the table `table1` with
the target in slot `slot`; `analysis_traversal` is the context after the
traversal).  When the traversal counted an error the call returns for every
fuel with the error system of the traversal: no cycle check runs and no
circular-dependency diagnostic is appended.  Whenever the call returns, either
its error system is the one of the traversal, and then, if the traversal
counted no error, every direct dependency of the target was checked and
answered "no cycle"; or the traversal counted no error, the direct
dependencies before some dependency `d` of the list answered "no cycle", the
check of `d` found one, no later dependency was checked, and exactly one
diagnostic, whose message starts with "Circular dependency detected: ", was
appended. -/
theorem semantic_analysis_cycle_check (fuel : Nat) (node : ASTNode) (table : SymbolTable)
    (errors : ErrorSystem) (key : String) (hwf : table_wf table) (hnode : node ≠ ASTNode.null) :
    ∃ table1 slot, ensure_this_cell table key = some (table1, slot) ∧
      ((analysis_traversal node table1 errors key).error_count ≠ 0 →
        semantic_analysis fuel node table errors key =
          some ((analysis_traversal node table1 errors key).error_count +
              error_get_count (analysis_traversal node table1 errors key).errors,
            (analysis_traversal node table1 errors key).table,
            (analysis_traversal node table1 errors key).errors)) ∧
      ∀ n table2 errors2, semantic_analysis fuel node table errors key = some (n, table2, errors2) →
        table2 = (analysis_traversal node table1 errors key).table ∧
        ((errors2 = (analysis_traversal node table1 errors key).errors ∧
          ((analysis_traversal node table1 errors key).error_count = 0 →
            ∀ d ∈ ((analysis_traversal node table1 errors key).table.entry slot).dependencies,
              symtab_check_circular_dep fuel (analysis_traversal node table1 errors key).table
                key d (analysis_traversal node table1 errors key).errors =
              some (false, (analysis_traversal node table1 errors key).errors))) ∨
         ((analysis_traversal node table1 errors key).error_count = 0 ∧
          ∃ pre d post rest,
            ((analysis_traversal node table1 errors key).table.entry slot).dependencies =
              pre ++ d :: post ∧
            (∀ x ∈ pre,
              symtab_check_circular_dep fuel (analysis_traversal node table1 errors key).table
                key x (analysis_traversal node table1 errors key).errors =
              some (false, (analysis_traversal node table1 errors key).errors)) ∧
            symtab_check_circular_dep fuel (analysis_traversal node table1 errors key).table
              key d (analysis_traversal node table1 errors key).errors = some (true, errors2) ∧
            errors2.errors = (analysis_traversal node table1 errors key).errors.errors ++
              [{ type := ErrorType.ERROR_SEMANTIC, line := 0, column := 0,
                 message := "Circular dependency detected: " ++ rest,
                 suggestion := some "Remove the dependency." }])) := by
  obtain ⟨table1, slot, hens, _, _, _⟩ := ensure_this_cell_spec table hwf key
  refine ⟨table1, slot, hens, ?_, ?_⟩
  · intro hne
    simp only [semantic_analysis, hnode, if_false, hens]
    unfold analysis_traversal at hne
    simp only [hne, false_and, if_false]
    rfl
  · intro n table2 errors2 h
    simp only [semantic_analysis, hnode, if_false, hens] at h
    unfold analysis_traversal
    generalize semantic_traverse node
      { table := table1, errors := errors, this_cell_ref := key, error_count := 0 } = ctx at h
    split at h
    · rename_i hcond
      cases hl : circular_loop fuel ctx.table key (ctx.table.entry slot).dependencies
          ctx.errors with
      | none => simp [hl] at h
      | some r =>
        obtain ⟨b, e1⟩ := r
        obtain ⟨hfalse, htrue⟩ := circular_loop_first fuel ctx.table key _ _ _ _ hl
        cases b with
        | true =>
          simp only [hl, Option.some.injEq, Prod.mk.injEq] at h
          obtain ⟨_, rfl, rfl⟩ := h
          obtain ⟨pre, d, post, hdeps, hpre, hd⟩ := htrue rfl
          obtain ⟨rest, hmsg, _⟩ :=
            (symtab_check_circular_dep_errors fuel ctx.table key d ctx.errors true e1 hd).2 rfl
          exact ⟨rfl, Or.inr ⟨hcond.1, pre, d, post, rest, hdeps, hpre, hd, hmsg⟩⟩
        | false =>
          simp only [hl, Option.some.injEq, Prod.mk.injEq] at h
          obtain ⟨_, rfl, rfl⟩ := h
          exact ⟨rfl, Or.inl ⟨(hfalse rfl).1, fun _ => (hfalse rfl).2⟩⟩
    · rename_i hcond
      simp only [Option.some.injEq, Prod.mk.injEq] at h
      obtain ⟨_, rfl, rfl⟩ := h
      refine ⟨rfl, Or.inl ⟨rfl, ?_⟩⟩
      intro hz d hd
      have hdc : (ctx.table.entry slot).dependencies = [] := by
        have : ¬ (ctx.table.entry slot).dep_count > 0 := fun hp => hcond ⟨hz, hp⟩
        unfold CellEntry.dep_count at this
        exact List.length_eq_zero.mp (by omega)
      rw [hdc] at hd
      cases hd

theorem semantic_analysis_cycle_check_witness :
    table_wf table_b1_then_a1 ∧
    (semantic_analysis 10 (ASTNode.cell_ref "A1" 1) table_b1_then_a1 error_system_create
      "B1").map (fun r => (r.1, r.2.2.errors.length)) = some (2, 1) ∧
    ∃ table1 slot, ensure_this_cell table_b1_then_a1 "B1" = some (table1, slot) ∧
      ((analysis_traversal (ASTNode.cell_ref "A1" 1) table1 error_system_create
          "B1").error_count ≠ 0 →
        semantic_analysis 10 (ASTNode.cell_ref "A1" 1) table_b1_then_a1 error_system_create "B1" =
          some ((analysis_traversal (ASTNode.cell_ref "A1" 1) table1 error_system_create
                "B1").error_count +
              error_get_count (analysis_traversal (ASTNode.cell_ref "A1" 1) table1
                error_system_create "B1").errors,
            (analysis_traversal (ASTNode.cell_ref "A1" 1) table1 error_system_create "B1").table,
            (analysis_traversal (ASTNode.cell_ref "A1" 1) table1 error_system_create
              "B1").errors)) :=
  ⟨table_b1_then_a1_wf, by decide!,
    (semantic_analysis_cycle_check 10 (ASTNode.cell_ref "A1" 1) table_b1_then_a1
      error_system_create "B1" table_b1_then_a1_wf (by decide)).imp
      (fun _ h => h.imp (fun _ h1 => ⟨h1.1, h1.2.1⟩))⟩

theorem dependencies_distinct_entry (table : SymbolTable) (h : dependencies_distinct table)
    (index : Nat) : (table.entry index).dependencies.Nodup := by
  unfold SymbolTable.entry
  cases hi : table.entries[index]? with
  | none =>
    have : table.entries.getD index CellEntry.empty = CellEntry.empty := by
      simp [List.getD, hi]
    rw [this]
    exact List.nodup_nil
  | some e =>
    have : table.entries.getD index CellEntry.empty = e := by simp [List.getD, hi]
    rw [this]
    exact h e (List.getElem?_mem hi)

theorem dependencies_distinct_set (table tbl : SymbolTable) (h : dependencies_distinct table)
    (index : Nat) (e1 : CellEntry) (h1 : e1.dependencies.Nodup)
    (hset : tbl.entries = table.entries.set index e1) : dependencies_distinct tbl := by
  intro e he
  rw [hset] at he
  rcases List.mem_or_eq_of_mem_set he with hm | rfl
  · exact h e hm
  · exact h1

theorem dependencies_distinct_resize (table : SymbolTable) (h : dependencies_distinct table) :
    dependencies_distinct (resize_table table) := by
  intro e he
  unfold resize_table at he
  rcases rehash_mem _ _ _ _ e he with hm | hm
  · rw [List.eq_of_mem_replicate hm]
    exact List.nodup_nil
  · exact h e (List.mem_of_mem_take hm)

theorem dependencies_distinct_define (table : SymbolTable) (h : dependencies_distinct table)
    (key : String) (value : Rat) (formula : Option String) (line : Int) :
    dependencies_distinct (symtab_define_cell table key value formula line) := by
  have h1 : dependencies_distinct
      (if over_load_factor table.count table.capacity then resize_table table else table) := by
    split
    · exact dependencies_distinct_resize table h
    · exact h
  refine dependencies_distinct_set _ _ h1
    (find_entry (if over_load_factor table.count table.capacity then resize_table table
      else table).entries (if over_load_factor table.count table.capacity then resize_table table
      else table).capacity key) _ ?_ rfl
  exact dependencies_distinct_entry _ h1 _

theorem dependencies_distinct_add (table : SymbolTable) (h : dependencies_distinct table)
    (this_cell_key depends_on_key : String) :
    dependencies_distinct (symtab_add_dependency table this_cell_key depends_on_key) := by
  have h1 : dependencies_distinct
      (match symtab_get_cell table this_cell_key with
       | none => symtab_define_cell table this_cell_key 0 none 0
       | some _ => table) := by
    split
    · exact dependencies_distinct_define table h _ _ _ _
    · exact h
  unfold symtab_add_dependency
  dsimp only
  split
  · exact h1
  · rename_i index _
    split
    · exact h1
    · rename_i hmem
      refine dependencies_distinct_set _ _ h1 index _ ?_ rfl
      exact List.Nodup.append (dependencies_distinct_entry _ h1 index) (List.nodup_singleton _)
        (by
          intro a ha hb
          rw [List.mem_singleton] at hb
          subst hb
          exact hmem ha)

theorem dependencies_distinct_mark (table : SymbolTable) (h : dependencies_distinct table)
    (key : String) (table1 : SymbolTable) (slot : Nat)
    (hm : mark_this_cell table key = some (table1, slot)) : dependencies_distinct table1 := by
  unfold mark_this_cell at hm
  cases hs : symtab_get_cell table key with
  | none => simp [hs] at hm
  | some index =>
    simp only [hs, Option.some.injEq, Prod.mk.injEq] at hm
    rw [← hm.1]
    refine dependencies_distinct_set _ _ h index _ ?_ rfl
    exact dependencies_distinct_entry _ h index

theorem reachable_dependencies_distinct (table : SymbolTable) (h : reachable table) :
    dependencies_distinct table := by
  induction h with
  | create =>
    intro e he
    have : symtab_create.entries = List.replicate 8 CellEntry.empty := by decide!
    rw [this] at he
    rw [List.eq_of_mem_replicate he]
    exact List.nodup_nil
  | define table key value formula line _ ih => exact dependencies_distinct_define table ih _ _ _ _
  | add_dependency table a b _ ih => exact dependencies_distinct_add table ih a b
  | mark table key table1 slot _ hm ih => exact dependencies_distinct_mark table ih key table1 slot hm

/-- The traversal changes the table only through symtab_add_dependency. -/
theorem semantic_traverse_reachable : ∀ (node : ASTNode) (ctx : SemanticContext),
    reachable ctx.table → reachable (semantic_traverse node ctx).table := by
  intro node
  induction node with
  | null => intro ctx h; exact h
  | number _ _ => intro ctx h; exact h
  | string _ _ => intro ctx h; exact h
  | cell_ref ref line =>
    intro ctx h
    simp only [semantic_traverse, check_cell_ref]
    split
    · exact reachable.add_dependency _ _ _ h
    · exact h
  | range s line =>
    intro ctx h
    simp only [semantic_traverse]
    rw [(check_range_counts s line ctx).2.1]
    exact h
  | unary_op op left line ih => intro ctx h; exact ih ctx h
  | binary_op op left right line ihl ihr =>
    intro ctx h
    exact ihr _ (ihl ctx h)
  | function_call func arguments line ih =>
    intro ctx h
    simp only [semantic_traverse]
    have : (check_function_args func arguments line (semantic_traverse arguments ctx)).table =
        (semantic_traverse arguments ctx).table := by
      unfold check_function_args
      cases func <;> dsimp only <;> first | rfl | (split <;> rfl)
    rw [this]
    exact ih ctx h
  | arg_list e next line ihe ihn =>
    intro ctx h
    exact ihn _ (ihe ctx h)

/-- A call of semantic_analysis leaves a table that symtab_define_cell,
symtab_add_dependency and the write of the defined flag build. -/
theorem semantic_analysis_reachable (fuel : Nat) (node : ASTNode) (table : SymbolTable)
    (errors : ErrorSystem) (key : String) (n : Nat) (table2 : SymbolTable)
    (errors2 : ErrorSystem) (hr : reachable table)
    (h : semantic_analysis fuel node table errors key = some (n, table2, errors2)) :
    reachable table2 := by
  unfold semantic_analysis at h
  by_cases hnode : node = ASTNode.null
  · simp only [hnode, if_true, Option.some.injEq, Prod.mk.injEq] at h
    rw [← h.2.1]; exact hr
  · simp only [hnode, if_false] at h
    cases hens : ensure_this_cell table key with
    | none => simp [hens] at h
    | some r =>
      obtain ⟨table1, slot⟩ := r
      have hr1 : reachable table1 := by
        unfold ensure_this_cell at hens
        split at hens
        · exact reachable.mark _ key table1 slot (reachable.define _ _ _ _ _ hr) hens
        · exact reachable.mark _ key table1 slot hr hens
      have hr2 := semantic_traverse_reachable node
        { table := table1, errors := errors, this_cell_ref := key, error_count := 0 } hr1
      simp only [hens] at h
      generalize semantic_traverse node
        { table := table1, errors := errors, this_cell_ref := key, error_count := 0 } = ctx
        at h hr2
      split at h
      · split at h
        · cases h
        · simp only [Option.some.injEq, Prod.mk.injEq] at h
          rw [← h.2.1]; exact hr2
        · simp only [Option.some.injEq, Prod.mk.injEq] at h
          rw [← h.2.1]; exact hr2
      · simp only [Option.some.injEq, Prod.mk.injEq] at h
        rw [← h.2.1]; exact hr2

/-- C35: in every table built from symtab_create by calls of
symtab_define_cell, symtab_add_dependency and semantic_analysis, no dependency
list holds a key twice: this holds of every slot and of the record every
lookup returns, and a returning call of semantic_analysis leads from a table
so built to a table so built. -/
theorem dependency_lists_hold_no_key_twice (table : SymbolTable) (h : reachable table) :
    (∀ e ∈ table.entries, e.dependencies.Nodup) ∧
    (∀ key record, get_record table key = some record → record.dependencies.Nodup) ∧
    (∀ fuel node errors key n table2 errors2,
      semantic_analysis fuel node table errors key = some (n, table2, errors2) →
      reachable table2 ∧ ∀ e ∈ table2.entries, e.dependencies.Nodup) := by
  refine ⟨reachable_dependencies_distinct table h, ?_, ?_⟩
  · intro key record hrec
    unfold get_record at hrec
    cases hs : symtab_get_cell table key with
    | none => simp [hs] at hrec
    | some index =>
      simp only [hs, Option.map_some', Option.some.injEq] at hrec
      rw [← hrec]
      exact dependencies_distinct_entry table (reachable_dependencies_distinct table h) index
  · intro fuel node errors key n table2 errors2 hsem
    have hr2 := semantic_analysis_reachable fuel node table errors key n table2 errors2 h hsem
    exact ⟨hr2, reachable_dependencies_distinct table2 hr2⟩

theorem dependency_lists_hold_no_key_twice_witness :
    reachable table_a1_b1_cycle ∧
    (get_record table_a1_b1_cycle "A1").map CellEntry.dependencies = some ["B1"] ∧
    ∀ key record, get_record table_a1_b1_cycle key = some record →
      record.dependencies.Nodup :=
  ⟨table_a1_b1_cycle_reachable, by decide!,
    (dependency_lists_hold_no_key_twice table_a1_b1_cycle table_a1_b1_cycle_reachable).2.1⟩

theorem occupied_set_free (o : CellEntry) (k : String) (hk : o.key = some k) :
    ∀ (l : List CellEntry) (s : Nat) (es : CellEntry), l[s]? = some es → es.key = none →
      occupied (l.set s o) = occupied l + 1 := by
  intro l
  induction l with
  | nil => intro s es h; simp at h
  | cons a rest ih =>
    intro s es h hes
    cases s with
    | zero =>
      simp only [List.getElem?_cons_zero, Option.some.injEq] at h
      subst h
      simp [occupied, List.countP_cons, hk, hes]
    | succ n =>
      simp only [List.getElem?_cons_succ] at h
      have := ih n es h hes
      unfold occupied at this ⊢
      simp only [List.set_cons_succ, List.countP_cons]
      omega

/-- The re-hash loop counts every entry it moves, and every entry it moves
takes a free slot. -/
theorem rehash_count (m : Nat) :
    ∀ (old acc : List CellEntry) (count : Nat), acc.length = 2 ^ m →
      findable acc (2 ^ m) → occupied acc + old.length < 2 ^ m →
      old.Pairwise (fun a b => ∀ k, a.key = some k → b.key ≠ some k) →
      (∀ o ∈ old, ∀ k, o.key = some k → ∀ a ∈ acc, a.key ≠ some k) →
      (rehash old acc (2 ^ m) count).2 + occupied acc =
        count + occupied (rehash old acc (2 ^ m) count).1 := by
  intro old
  induction old with
  | nil =>
    intro acc count _ _ _ _ _
    simp only [rehash]
  | cons o rest ih =>
    intro acc count hlen hfind hroom hpair hfresh
    rw [List.pairwise_cons] at hpair
    obtain ⟨hhead, hpair_rest⟩ := hpair
    simp only [List.length_cons] at hroom
    cases hk : o.key with
    | none =>
      simp only [rehash, hk]
      exact ih acc count hlen hfind (by omega) hpair_rest
        (fun o1 ho1 => hfresh o1 (List.mem_cons_of_mem _ ho1))
    | some k0 =>
      simp only [rehash, hk]
      have hstart : hash_string k0 &&& (2 ^ m - 1) < 2 ^ m := by
        rw [Nat.and_pow_two_sub_one_eq_mod]
        exact Nat.mod_lt _ (Nat.two_pow_pos m)
      obtain ⟨s, hs⟩ := find_entry_loop_wf acc m hlen (by omega) k0 _ hstart
      have hfe : find_entry acc (2 ^ m) k0 = s := by
        unfold find_entry
        rw [hs]
        rfl
      rw [hfe]
      obtain ⟨es, hes, hes_key⟩ := find_entry_loop_slot _ _ _ _ _ _ hs
      have hes_none : es.key = none := by
        rcases hes_key with h | h
        · exact h
        · exact absurd h (hfresh o (List.mem_cons_self _ _) k0 hk es (List.getElem?_mem hes))
      have hocc := occupied_set_free o k0 hk acc s es hes hes_none
      have h1 := ih (acc.set s o) (count + 1) (by rw [List.length_set]; exact hlen)
        (findable_set acc (2 ^ m) k0 hfind s hs o hk)
        (by omega) hpair_rest
        (by
          intro o1 ho1 k1 hk1 a ha
          rcases List.mem_or_eq_of_mem_set ha with h | h
          · exact hfresh o1 (List.mem_cons_of_mem _ ho1) k1 hk1 a h
          · subst h
            intro hak
            exact hhead o1 ho1 k1 hak hk1)
      omega

theorem resize_table_count (table : SymbolTable) (hinv : table_inv table) :
    count_exact (resize_table table) := by
  obtain ⟨hlen, ⟨m, hm⟩, h8, hocc, hload, hfind⟩ := hinv
  have h8' : ¬ table.capacity < 8 := by omega
  have hp : 2 ^ (m + 1) = 2 * 2 ^ m := by rw [Nat.pow_succ]; omega
  have hc2 : table.capacity * 2 = 2 ^ (m + 1) := by rw [hm]; omega
  have hrt : resize_table table =
      { count := (rehash table.entries (List.replicate (2 ^ (m + 1)) CellEntry.empty)
          (2 ^ (m + 1)) 0).2,
        capacity := 2 ^ (m + 1),
        entries := (rehash table.entries (List.replicate (2 ^ (m + 1)) CellEntry.empty)
          (2 ^ (m + 1)) 0).1 } := by
    unfold resize_table
    simp only [if_neg h8']
    rw [List.take_of_length_le (Nat.le_of_eq hlen), hc2]
  have hempty : occupied (List.replicate (2 ^ (m + 1)) CellEntry.empty) = 0 := by
    simp [occupied, List.countP_eq_zero, CellEntry.empty]
  have r := rehash_count (m + 1) table.entries
    (List.replicate (2 ^ (m + 1)) CellEntry.empty) 0 (by simp)
    (by
      intro i e k hi hk
      have := List.getElem?_mem hi
      rw [List.mem_replicate] at this
      rw [this.2] at hk
      simp [CellEntry.empty] at hk)
    (by rw [hempty, hlen, hm]; have := Nat.two_pow_pos m; omega)
    (findable_pairwise _ _ hfind)
    (by
      intro o _ k _ a ha
      rw [List.mem_replicate] at ha
      rw [ha.2]
      simp [CellEntry.empty])
  rw [hempty] at r
  rw [hrt]
  unfold count_exact
  dsimp only
  omega

theorem symtab_define_cell_count (table : SymbolTable) (hinv : table_inv table)
    (hexact : count_exact table) (key : String) (value : Rat) (formula : Option String)
    (line : Int) : count_exact (symtab_define_cell table key value formula line) := by
  have hstep : ∀ t1 : SymbolTable,
      t1 = (if over_load_factor table.count table.capacity then resize_table table else table) →
      table_inv t1 ∧ 4 * (t1.count + 1) ≤ 3 * t1.capacity ∧ count_exact t1 := by
    intro t1 ht1
    by_cases hov : over_load_factor table.count table.capacity = true
    · rw [if_pos hov] at ht1
      subst ht1
      exact ⟨(resize_table_spec table hinv).1, (resize_table_spec table hinv).2.1,
        resize_table_count table hinv⟩
    · rw [if_neg hov] at ht1
      subst ht1
      simp only [over_load_factor, decide_eq_true_eq, not_lt] at hov
      exact ⟨hinv, hov, hexact⟩
  unfold symtab_define_cell
  generalize ht1 : (if over_load_factor table.count table.capacity then resize_table table
    else table) = t1 at hstep
  obtain ⟨⟨hlen1, ⟨m, hm⟩, h81, hocc1, hload1, hfind1⟩, hroom1, hex1⟩ := hstep t1 rfl
  have hstart : hash_string key &&& (t1.capacity - 1) < 2 ^ m := by
    rw [hm, Nat.and_pow_two_sub_one_eq_mod]
    exact Nat.mod_lt _ (Nat.two_pow_pos m)
  obtain ⟨s, hs⟩ := find_entry_loop_wf t1.entries m (by rw [hlen1, hm]) (by omega) key
    (hash_string key &&& (t1.capacity - 1)) hstart
  rw [← hm] at hs
  have hfe : find_entry t1.entries t1.capacity key = s := by
    unfold find_entry
    rw [hs]
    rfl
  obtain ⟨es, hes, hes_key⟩ := find_entry_loop_slot _ _ _ _ _ _ hs
  have hentry : t1.entry s = es := by simp [SymbolTable.entry, List.getD, hes]
  simp only [hfe, hentry]
  unfold count_exact at hex1 ⊢
  dsimp only
  rcases hes_key with hk | hk
  · rw [occupied_set_free _ key rfl t1.entries s es hes hk]
    simp only [hk, if_true]
    omega
  · rw [occupied_of_keys _ _ (map_key_set t1.entries _ s es hes (by rw [hk]))]
    simp only [hk, reduceCtorEq, if_false]
    exact hex1

theorem count_exact_of_keys (table table1 : SymbolTable) (h : count_exact table)
    (hc : table1.count = table.count)
    (hkeys : table1.entries.map CellEntry.key = table.entries.map CellEntry.key) :
    count_exact table1 := by
  unfold count_exact at h ⊢
  rw [hc, occupied_of_keys _ _ hkeys]
  exact h

theorem symtab_add_dependency_count (table : SymbolTable) (hinv : table_inv table)
    (hexact : count_exact table) (this_cell_key dep : String) :
    count_exact (symtab_add_dependency table this_cell_key dep) := by
  cases h : symtab_get_cell table this_cell_key with
  | some slot =>
    obtain ⟨hc, _, hkeys, _, _⟩ :=
      symtab_add_dependency_present table this_cell_key dep slot h
    exact count_exact_of_keys _ _ hexact hc hkeys
  | none =>
    obtain ⟨slot, hslot, _⟩ := symtab_define_cell_get table (table_wf_of_inv table hinv)
      this_cell_key 0 none 0
    rw [symtab_add_dependency_absent table this_cell_key dep slot h hslot]
    obtain ⟨hc, _, hkeys, _, _⟩ :=
      symtab_add_dependency_present _ this_cell_key dep slot hslot
    exact count_exact_of_keys _ _
      (symtab_define_cell_count table hinv hexact this_cell_key 0 none 0) hc hkeys

theorem mark_this_cell_count (table : SymbolTable) (hexact : count_exact table) (key : String)
    (table1 : SymbolTable) (slot : Nat) (h : mark_this_cell table key = some (table1, slot)) :
    count_exact table1 := by
  unfold mark_this_cell at h
  cases hg : symtab_get_cell table key with
  | none => simp [hg] at h
  | some index =>
    simp only [hg, Option.some.injEq, Prod.mk.injEq] at h
    obtain ⟨rfl, _⟩ := h
    obtain ⟨e, he, _, hentry⟩ := symtab_get_cell_found table key index hg
    exact count_exact_of_keys _ _ hexact rfl (map_key_set _ _ index e he (by rw [hentry]))

theorem reachable_count_exact (table : SymbolTable) (h : reachable table) :
    count_exact table := by
  induction h with
  | create => unfold count_exact; decide!
  | define table key value formula line hr ih =>
    exact symtab_define_cell_count table (reachable_inv table hr) ih key value formula line
  | add_dependency table a b hr ih =>
    exact symtab_add_dependency_count table (reachable_inv table hr) ih a b
  | mark table key table1 slot _ hmark ih => exact mark_this_cell_count table ih key table1 slot hmark

/-- C36: in every table built from symtab_create by calls of
symtab_define_cell and symtab_add_dependency (and the write of the defined
flag), the capacity is a power of two and at least 8, the array has `capacity`
slots, `count` is the number of slots in use and at most three quarters of the
capacity, so some slot is empty and the probes of find_entry and of
symtab_get_cell answer within `capacity` steps for every key, and no two slots
in use hold the same key. -/
theorem reachable_table_shape (table : SymbolTable) (h : reachable table) :
    (∃ m, table.capacity = 2 ^ m) ∧ 8 ≤ table.capacity ∧
    table.entries.length = table.capacity ∧
    table.count = occupied table.entries ∧ 4 * table.count ≤ 3 * table.capacity ∧
    (∃ (i : Nat) (e : CellEntry), table.entries[i]? = some e ∧ e.key = none) ∧
    (∀ key, ∃ slot, find_entry_loop table.capacity table.entries table.capacity key
      (hash_string key &&& (table.capacity - 1)) = some slot) ∧
    (∀ key, ∃ answer, get_cell_loop table.capacity table.entries table.capacity key
      (hash_string key &&& (table.capacity - 1)) = some answer) ∧
    (∀ (i j : Nat) (ei ej : CellEntry) (k : String),
      table.entries[i]? = some ei → table.entries[j]? = some ej →
      ei.key = some k → ej.key = some k → i = j) := by
  obtain ⟨hlen, ⟨m, hm⟩, h8, hocc, hload, hfind⟩ := reachable_inv table h
  have hexact := reachable_count_exact table h
  unfold count_exact at hexact
  have hroom : occupied table.entries < table.entries.length := by omega
  have hfindloop : ∀ key, ∃ slot, find_entry_loop table.capacity table.entries table.capacity
      key (hash_string key &&& (table.capacity - 1)) = some slot := by
    intro key
    have hstart : hash_string key &&& (table.capacity - 1) < 2 ^ m := by
      rw [hm, Nat.and_pow_two_sub_one_eq_mod]
      exact Nat.mod_lt _ (Nat.two_pow_pos m)
    obtain ⟨s, hs⟩ := find_entry_loop_wf table.entries m (by rw [hlen, hm]) hroom key
      (hash_string key &&& (table.capacity - 1)) hstart
    rw [← hm] at hs
    exact ⟨s, hs⟩
  refine ⟨⟨m, hm⟩, h8, hlen, hexact, hload, ?_, hfindloop, ?_, ?_⟩
  · by_contra hnone
    have hall : ∀ a ∈ table.entries, (fun e : CellEntry => e.key.isSome) a = true := by
      intro a ha
      obtain ⟨i, hi⟩ := List.mem_iff_getElem?.mp ha
      cases hk : a.key with
      | none => exact absurd ⟨i, a, hi, hk⟩ hnone
      | some k => simp [hk]
    have := List.countP_eq_length.mpr hall
    unfold occupied at hroom
    omega
  · intro key
    obtain ⟨s, hs⟩ := hfindloop key
    obtain ⟨es, hes, _⟩ := find_entry_loop_slot _ _ _ _ _ _ hs
    exact ⟨_, get_cell_loop_of_find _ _ _ _ _ _ hs es hes⟩
  · intro i j ei ej k hi hj hki hkj
    have h1 := hfind i ei k hi hki
    have h2 := hfind j ej k hj hkj
    rw [h1] at h2
    simpa using h2

theorem reachable_table_shape_witness :
    reachable table_six_cells ∧ table_six_cells.count = 6 ∧ table_six_cells.capacity = 8 ∧
    table_six_cells.count = occupied table_six_cells.entries ∧
    4 * table_six_cells.count ≤ 3 * table_six_cells.capacity :=
  ⟨table_six_cells_reachable, by decide!, by decide!,
    (reachable_table_shape table_six_cells table_six_cells_reachable).2.2.2.1,
    (reachable_table_shape table_six_cells table_six_cells_reachable).2.2.2.2.1⟩

theorem folded_from_refl : ∀ code : List Instruction, folded_from code code
  | [] => folded_from.nil
  | inst :: rest => folded_from.keep inst rest rest (folded_from_refl rest)

theorem folded_from_length (orig opt : List Instruction) (h : folded_from orig opt) :
    opt.length = orig.length := by
  induction h with
  | nil => rfl
  | keep inst orig opt _ ih => simp [ih]
  | fold a b c r orig opt _ _ _ _ ih => simp [ih]

/-- The loop of fold_constants, run from the end of `pre` with fuel for the
rest of the array, leaves `pre` as it is and rewrites the rest as
`folded_from` describes. -/
theorem fold_constants_loop_folded : ∀ (fuel : Nat) (pre rest : List Instruction),
    rest.length ≤ fuel →
    ∃ opt, folded_from rest opt ∧
      fold_constants_loop fuel pre.length (pre ++ rest) = pre ++ opt := by
  intro fuel
  induction fuel with
  | zero =>
    intro pre rest hlen
    have : rest = [] := List.length_eq_zero.mp (by omega)
    subst this
    exact ⟨[], folded_from.nil, by simp [fold_constants_loop]⟩
  | succ fuel ih =>
    intro pre rest hlen
    match rest, hlen with
    | [], _ => exact ⟨[], folded_from.nil, by simp [fold_constants_loop]⟩
    | [a], _ =>
      refine ⟨[a], folded_from_refl _, ?_⟩
      simp [fold_constants_loop]
    | [a, b], _ =>
      refine ⟨[a, b], folded_from_refl _, ?_⟩
      simp [fold_constants_loop]
    | a :: b :: c :: tail, hlen =>
      simp only [List.length_cons] at hlen
      have hlt : pre.length + 2 < (pre ++ a :: b :: c :: tail).length := by
        simp only [List.length_append, List.length_cons]; omega
      have h0 : (pre ++ a :: b :: c :: tail)[pre.length]? = some a := by
        rw [List.getElem?_append_right (Nat.le_refl _)]; simp
      have h1 : (pre ++ a :: b :: c :: tail)[pre.length + 1]? = some b := by
        rw [List.getElem?_append_right (by omega)]; simp
      have h2 : (pre ++ a :: b :: c :: tail)[pre.length + 2]? = some c := by
        rw [List.getElem?_append_right (by omega)]; simp
      rw [fold_constants_loop]
      simp only [hlt, if_true, h0, h1, h2]
      by_cases hpp : a.opcode = OpCode.OP_PUSH ∧ b.opcode = OpCode.OP_PUSH
      · simp only [hpp, and_self, if_true]
        cases hf : fold_result c.opcode a.operand.as_number b.operand.as_number with
        | none =>
          dsimp only
          obtain ⟨opt, ho, he⟩ := ih (pre ++ [a]) (b :: c :: tail)
            (by simp only [List.length_cons]; omega)
          simp only [List.length_append, List.length_singleton, List.append_assoc,
            List.singleton_append] at he
          exact ⟨a :: opt, folded_from.keep a _ _ ho, he⟩
        | some r =>
          dsimp only
          have hset : (((pre ++ a :: b :: c :: tail).set pre.length
              { a with opcode := OpCode.OP_PUSH, operand := Operand.number r }).set
                (pre.length + 1) { b with opcode := OpCode.OP_NOP }).set (pre.length + 2)
                { c with opcode := OpCode.OP_NOP } =
              (pre ++ [{ a with opcode := OpCode.OP_PUSH, operand := Operand.number r },
                { b with opcode := OpCode.OP_NOP }, { c with opcode := OpCode.OP_NOP }]) ++
                tail := by
            simp [List.set_append]
          rw [hset]
          obtain ⟨opt, ho, he⟩ := ih
            (pre ++ [{ a with opcode := OpCode.OP_PUSH, operand := Operand.number r },
              { b with opcode := OpCode.OP_NOP }, { c with opcode := OpCode.OP_NOP }]) tail
            (by omega)
          have hl3 : (pre ++ [({ a with opcode := OpCode.OP_PUSH, operand := Operand.number r }
              : Instruction), { b with opcode := OpCode.OP_NOP },
              { c with opcode := OpCode.OP_NOP }]).length = pre.length + 3 := by simp
          rw [hl3] at he
          rw [he]
          exact ⟨_, folded_from.fold a b c r tail opt hpp.1 hpp.2 hf ho, by simp⟩
      · simp only [hpp, if_false]
        obtain ⟨opt, ho, he⟩ := ih (pre ++ [a]) (b :: c :: tail)
          (by simp only [List.length_cons]; omega)
        simp only [List.length_append, List.length_singleton, List.append_assoc,
          List.singleton_append] at he
        exact ⟨a :: opt, folded_from.keep a _ _ ho, he⟩

/-- The optimizer rewrites the code array as `folded_from` describes. -/
theorem optimize_bytecode_folded (code : CodeArray) :
    folded_from code.code (optimize_bytecode code).code := by
  obtain ⟨opt, ho, he⟩ := fold_constants_loop_folded code.count [] code.code (Nat.le_refl _)
  simp only [List.length_nil, List.nil_append] at he
  unfold optimize_bytecode fold_constants
  rw [he]
  exact ho

theorem folded_triple_at_shift (orig opt : List Instruction) (x y : Instruction) (j : Nat)
    (h : folded_triple_at orig opt j) : folded_triple_at (x :: orig) (y :: opt) (j + 1) := by
  obtain ⟨a, b, c, r, h0, h1, h2, ha, hb, hf, o0, o1, o2⟩ := h
  exact ⟨a, b, c, r, by simpa using h0, by simpa using h1, by simpa using h2, ha, hb, hf,
    by simpa using o0, by simpa using o1, by simpa using o2⟩

/-- Every index of a rewritten array holds the instruction it held before, or
is the first, the second or the third index of a folded triple. -/
theorem folded_from_index (orig opt : List Instruction) (h : folded_from orig opt) :
    ∀ (i : Nat) (inst : Instruction), orig[i]? = some inst →
      opt[i]? = some inst ∨ folded_triple_at orig opt i ∨
      (∃ j, i = j + 1 ∧ folded_triple_at orig opt j) ∨
      (∃ j, i = j + 2 ∧ folded_triple_at orig opt j) := by
  induction h with
  | nil => intro i inst hi; simp at hi
  | keep x orig opt _ ih =>
    intro i inst hi
    cases i with
    | zero => left; simpa using hi
    | succ n =>
      simp only [List.getElem?_cons_succ] at hi
      rcases ih n inst hi with h | h | ⟨j, hj, h⟩ | ⟨j, hj, h⟩
      · left; simpa using h
      · right; left; exact folded_triple_at_shift _ _ x x n h
      · right; right; left
        exact ⟨j + 1, by omega, folded_triple_at_shift _ _ x x j h⟩
      · right; right; right
        exact ⟨j + 1, by omega, folded_triple_at_shift _ _ x x j h⟩
  | fold a b c r orig opt ha hb hf _ ih =>
    intro i inst hi
    have h0 : folded_triple_at (a :: b :: c :: orig)
        ({ a with opcode := OpCode.OP_PUSH, operand := Operand.number r } ::
          { b with opcode := OpCode.OP_NOP } :: { c with opcode := OpCode.OP_NOP } :: opt) 0 :=
      ⟨a, b, c, r, rfl, rfl, by simp, ha, hb, hf, rfl, rfl, by simp⟩
    match i, hi with
    | 0, _ => right; left; exact h0
    | 1, _ => right; right; left; exact ⟨0, rfl, h0⟩
    | 2, _ => right; right; right; exact ⟨0, rfl, h0⟩
    | n + 3, hi =>
      simp only [List.getElem?_cons_succ] at hi
      have shift3 : ∀ j, folded_triple_at orig opt j →
          folded_triple_at (a :: b :: c :: orig)
            ({ a with opcode := OpCode.OP_PUSH, operand := Operand.number r } ::
              { b with opcode := OpCode.OP_NOP } :: { c with opcode := OpCode.OP_NOP } :: opt)
            (j + 3) := fun j h =>
        folded_triple_at_shift _ _ _ _ _
          (folded_triple_at_shift _ _ _ _ _ (folded_triple_at_shift _ _ c _ j h))
      rcases ih n inst hi with h | h | ⟨j, hj, h⟩ | ⟨j, hj, h⟩
      · left; simpa using h
      · right; left; exact shift3 n h
      · right; right; left; exact ⟨j + 3, by omega, shift3 j h⟩
      · right; right; right; exact ⟨j + 3, by omega, shift3 j h⟩

/-- The optimizer on the sample array: the sum is folded, the division by
zero, the jump, the call and `HALT` stay. -/
theorem optimize_bytecode_sample :
    optimize_bytecode code_with_foldable_sum =
      { code :=
          [{ opcode := OpCode.OP_PUSH, line := 1, operand := Operand.number 1 },
           { opcode := OpCode.OP_JMP_IF_FALSE, line := 1, operand := Operand.address 9 },
           { opcode := OpCode.OP_PUSH, line := 1, operand := Operand.number 4 },
           { opcode := OpCode.OP_PUSH, line := 1, operand := Operand.number 0 },
           { opcode := OpCode.OP_DIV, line := 1, operand := Operand.unset },
           { opcode := OpCode.OP_PUSH, line := 1, operand := Operand.number 5 },
           { opcode := OpCode.OP_NOP, line := 1, operand := Operand.number 3 },
           { opcode := OpCode.OP_NOP, line := 1, operand := Operand.unset },
           { opcode := OpCode.OP_CALL, line := 1, operand := Operand.func_call Token.SUM 2 },
           { opcode := OpCode.OP_HALT, line := 1, operand := Operand.unset }] } := by
  decide!

/-- C38: optimize_bytecode rewrites the array in place.  The result is the
array with some triples `PUSH a`, `PUSH b`, `ADD|SUB|MUL|DIV` folded
(`folded_from`); the count is unchanged; every index holds the instruction it
held before unless it is the first, second or third index of a folded triple,
where the first keeps opcode `PUSH` and line and gets the folded constant as
operand and the other two keep line and operand and get opcode `NOP`; every
`JMP`, `JMP_IF_FALSE`, `CALL` and `HALT` is unchanged, operand included; and a
triple `PUSH a`, `PUSH b`, `DIV` whose second constant is 0 is unchanged. -/
theorem optimize_bytecode_in_place (code : CodeArray) :
    folded_from code.code (optimize_bytecode code).code ∧
    (optimize_bytecode code).count = code.count ∧
    (∀ (i : Nat) (inst : Instruction), code.code[i]? = some inst →
      (optimize_bytecode code).code[i]? = some inst ∨
      folded_triple_at code.code (optimize_bytecode code).code i ∨
      (∃ j, i = j + 1 ∧ folded_triple_at code.code (optimize_bytecode code).code j) ∨
      (∃ j, i = j + 2 ∧ folded_triple_at code.code (optimize_bytecode code).code j)) ∧
    (∀ (i : Nat) (inst : Instruction), code.code[i]? = some inst →
      inst.opcode = OpCode.OP_JMP ∨ inst.opcode = OpCode.OP_JMP_IF_FALSE ∨
        inst.opcode = OpCode.OP_CALL ∨ inst.opcode = OpCode.OP_HALT →
      (optimize_bytecode code).code[i]? = some inst) ∧
    (∀ (i : Nat) (a b c : Instruction), code.code[i]? = some a → code.code[i + 1]? = some b →
      code.code[i + 2]? = some c → a.opcode = OpCode.OP_PUSH → b.opcode = OpCode.OP_PUSH →
      c.opcode = OpCode.OP_DIV → b.operand.as_number = 0 →
      (optimize_bytecode code).code[i]? = some a ∧
      (optimize_bytecode code).code[i + 1]? = some b ∧
      (optimize_bytecode code).code[i + 2]? = some c) := by
  have hf := optimize_bytecode_folded code
  have hidx := folded_from_index _ _ hf
  refine ⟨hf, ?_, hidx, ?_, ?_⟩
  · unfold CodeArray.count
    exact folded_from_length _ _ hf
  · intro i inst hi hop
    rcases hidx i inst hi with h | ⟨a, b, c, r, h0, h1, h2, ha, hb, hfr, _⟩ |
      ⟨j, hj, a, b, c, r, h0, h1, h2, ha, hb, hfr, _⟩ |
      ⟨j, hj, a, b, c, r, h0, h1, h2, ha, hb, hfr, _⟩
    · exact h
    · rw [hi] at h0
      cases h0
      rcases hop with h | h | h | h <;> rw [h] at ha <;> cases ha
    · subst hj
      rw [hi] at h1
      cases h1
      rcases hop with h | h | h | h <;> rw [h] at hb <;> cases hb
    · subst hj
      rw [hi] at h2
      cases h2
      rcases hop with h | h | h | h <;> rw [h] at hfr <;> simp [fold_result] at hfr
  · intro i a b c hia hib hic hpa hpb hdc hzero
    have hnofold : ∀ x : Rat, fold_result c.opcode x b.operand.as_number = none := by
      intro x; simp [fold_result, hdc, hzero]
    have hpush_none : ∀ (inst : Instruction) (x y : Rat), inst.opcode = OpCode.OP_PUSH →
        fold_result inst.opcode x y = none := by
      intro inst x y h; simp [fold_result, h]
    refine ⟨?_, ?_, ?_⟩
    · rcases hidx i a hia with h | ⟨a1, b1, c1, r, h0, h1, h2, ha, hb, hfr, _⟩ |
        ⟨j, hj, a1, b1, c1, r, h0, h1, h2, ha, hb, hfr, _⟩ |
        ⟨j, hj, a1, b1, c1, r, h0, h1, h2, ha, hb, hfr, _⟩
      · exact h
      · rw [hib] at h1; cases h1
        rw [hic] at h2; cases h2
        rw [hnofold] at hfr; cases hfr
      · subst hj
        rw [hib] at h2; cases h2
        rw [hpush_none _ _ _ hpb] at hfr; cases hfr
      · subst hj
        rw [hia] at h2; cases h2
        rw [hpush_none _ _ _ hpa] at hfr; cases hfr
    · rcases hidx (i + 1) b hib with h | ⟨a1, b1, c1, r, h0, h1, h2, ha, hb, hfr, _⟩ |
        ⟨j, hj, a1, b1, c1, r, h0, h1, h2, ha, hb, hfr, _⟩ |
        ⟨j, hj, a1, b1, c1, r, h0, h1, h2, ha, hb, hfr, _⟩
      · exact h
      · rw [hic] at h1; cases h1
        rw [hdc] at hb; cases hb
      · have : j = i := by omega
        subst this
        rw [hib] at h1; cases h1
        rw [hic] at h2; cases h2
        rw [hnofold] at hfr; cases hfr
      · have : i = j + 1 := by omega
        subst this
        rw [hib] at h2; cases h2
        rw [hpush_none _ _ _ hpb] at hfr; cases hfr
    · rcases hidx (i + 2) c hic with h | ⟨a1, b1, c1, r, h0, h1, h2, ha, hb, hfr, _⟩ |
        ⟨j, hj, a1, b1, c1, r, h0, h1, h2, ha, hb, hfr, _⟩ |
        ⟨j, hj, a1, b1, c1, r, h0, h1, h2, ha, hb, hfr, _⟩
      · exact h
      · rw [hic] at h0; cases h0
        rw [hdc] at ha; cases ha
      · have : j = i + 1 := by omega
        subst this
        rw [hic] at h1; cases h1
        rw [hdc] at hb; cases hb
      · have : j = i := by omega
        subst this
        rw [hib] at h1; cases h1
        rw [hic] at h2; cases h2
        rw [hnofold] at hfr; cases hfr

/-- The code generate_code returns for an AST whose `IF` calls have their
three arguments, and the fact that all its jumps go forward. -/
theorem generate_code_forward (ast : ASTNode) (hroot : ast ≠ ASTNode.null)
    (hcomplete : if_calls_complete ast = true) :
    ∃ seg, layout ast 0 = some seg ∧
      generate_code ast = some { code := seg ++ [op_instruction OpCode.OP_HALT ast.line_of] } ∧
      jumps_patched 0 (seg ++ [op_instruction OpCode.OP_HALT ast.line_of]) (seg.length + 1) := by
  obtain ⟨seg, hseg⟩ := Option.isSome_iff_exists.mp (layout_complete_some ast hcomplete 0)
  have hgen : generate_expr ast create_code_array = some { code := seg } := by
    rw [generate_expr_layout ast create_code_array]
    simp [create_code_array, CodeArray.count, hseg]
  refine ⟨seg, hseg, ?_, ?_⟩
  · simp [generate_code, hroot, hgen, emit_op, write_instruction, op_instruction]
  · have hall := jumps_patched_append 0 (0 + seg.length) seg
      [op_instruction OpCode.OP_HALT ast.line_of] (layout_jumps ast 0 seg hseg)
      (jumps_patched_single _ _ _ rfl)
    intro i inst hi hjump
    obtain ⟨target, h1, h2, h3⟩ := hall i inst hi hjump
    exact ⟨target, h1, h2, by omega⟩

theorem push_and_continue_vm_at (table : SymbolTable) (pre rest : List Instruction) (v : Value)
    (stack : List Value) :
    push_and_continue (vm_at table pre rest stack) v =
      if stack.length ≥ VM_STACK_SIZE then VMStep.finished VMResult.fatal
      else VMStep.running (vm_at table pre rest (v :: stack)) := by
  unfold push_and_continue vm_push
  by_cases h : stack.length ≥ VM_STACK_SIZE
  · have h1 : (vm_at table pre rest stack).stack.length ≥ VM_STACK_SIZE := h
    simp only [h1, h, if_true]
  · have h1 : ¬ (vm_at table pre rest stack).stack.length ≥ VM_STACK_SIZE := h
    simp only [h1, h, if_false]
    rfl

/-- A turn of the loop fetches the first instruction of `rest` and dispatches
it on the machine that stands behind it. -/
theorem vm_at_step (pw : Rat → Rat → Rat) (table : SymbolTable) (pre post : List Instruction)
    (inst : Instruction) (stack : List Value) :
    vm_step pw (vm_at table pre (inst :: post) stack) =
      vm_dispatch pw (vm_at table (pre ++ [inst]) post stack) inst := by
  have h := vm_step_fetch pw table (pre ++ inst :: post) pre post inst stack rfl
  unfold vm_at
  rw [h]
  congr 1
  simp

theorem runs_to_trans (pw : Rat → Rat → Rat) (bound : Nat) (a b c : VM)
    (h1 : runs_to pw bound a b) (h2 : runs_to pw bound b c) : runs_to pw bound a c := by
  induction h1 with
  | refl _ => exact h2
  | step vm vm1 vm2 hok hs _ ih => exact runs_to.step vm vm1 c hok hs (ih h2)

theorem runs_to_out (pw : Rat → Rat → Rat) (bound : Nat) (a b : VM)
    (h1 : runs_to pw bound a b) (h2 : runs_out pw bound b) : runs_out pw bound a := by
  induction h1 with
  | refl _ => exact h2
  | step vm vm1 vm2 hok hs _ ih => exact runs_out.step vm vm1 hok hs (ih h2)

/-- A run that is left passes only machines that satisfy `step_ok`. -/
theorem runs_out_steps (pw : Rat → Rat → Rat) (bound : Nat) (a : VM)
    (h : runs_out pw bound a) :
    ∀ b, Relation.ReflTransGen (fun x y => vm_step pw x = VMStep.running y) a b →
      step_ok bound b := by
  induction h with
  | finish vm r hok hs =>
    intro b hb
    rcases Relation.ReflTransGen.cases_head hb with h | ⟨c, hc, _⟩
    · rw [← h]; exact hok
    · rw [hs] at hc; cases hc
  | step vm vm1 hok hs _ ih =>
    intro b hb
    rcases Relation.ReflTransGen.cases_head hb with h | ⟨c, hc, hcb⟩
    · rw [← h]; exact hok
    · rw [hs] at hc
      simp only [VMStep.running.injEq] at hc
      subst hc
      exact ih b hcb

/-- A run that leads to a machine on which the loop is left passes, before
that machine, only machines that satisfy `step_ok`. -/
theorem runs_to_steps (pw : Rat → Rat → Rat) (bound : Nat) (a c : VM) (r : VMResult)
    (h : runs_to pw bound a c) (hend : vm_step pw c = VMStep.finished r) :
    ∀ b, Relation.ReflTransGen (fun x y => vm_step pw x = VMStep.running y) a b →
      step_ok bound b ∨ b = c := by
  induction h with
  | refl vm =>
    intro b hb
    rcases Relation.ReflTransGen.cases_head hb with h | ⟨d, hd, _⟩
    · exact Or.inr h.symm
    · rw [hend] at hd; cases hd
  | step vm vm1 vm2 hok hs _ ih =>
    intro b hb
    rcases Relation.ReflTransGen.cases_head hb with h | ⟨d, hd, hdb⟩
    · left; rw [← h]; exact hok
    · rw [hs] at hd
      simp only [VMStep.running.injEq] at hd
      subst hd
      exact ih hend b hdb

/-- An instruction that pops an empty stack ends the run with the fatal
exit. -/
theorem pops_empty_fatal (pw : Rat → Rat → Rat) (vm : VM) (inst : Instruction)
    (h : pops_empty vm inst = true) :
    vm_dispatch pw vm inst = VMStep.finished VMResult.fatal := by
  obtain ⟨op, line, operand⟩ := inst
  obtain ⟨code, symtab, pc, stack⟩ := vm
  have hcollect : ∀ (n : Nat) (s acc : List Value), s.length < n →
      collect_args symtab n s acc = none := by
    intro n
    induction n with
    | zero => intro s acc hlt; omega
    | succ n ih =>
      intro s acc hlt
      cases s with
      | nil => rfl
      | cons v rest =>
        simp only [collect_args]
        exact ih rest _ (by simp only [List.length_cons] at hlt; omega)
  cases op <;> simp only [pops_empty, decide_eq_true_eq, reduceCtorEq] at h
  case OP_CALL =>
    cases operand <;> simp only [decide_eq_true_eq, reduceCtorEq] at h
    simp only [vm_dispatch, hcollect _ _ _ h]
  all_goals
    match stack, h with
    | [], _ => rfl
    | [b], h =>
      first
      | rfl
      | (simp only [List.length_singleton] at h; omega)

theorem step_ok_vm_at (bound : Nat) (table : SymbolTable) (pre post : List Instruction)
    (inst : Instruction) (stack : List Value) (hlt : pre.length < bound)
    (hpop : pops_empty (vm_at table pre (inst :: post) stack) inst = false) :
    step_ok bound (vm_at table pre (inst :: post) stack) := by
  refine ⟨by simp [vm_at], by simpa [vm_at] using hlt, inst, ?_, hpop⟩
  show (pre ++ inst :: post)[((pre.length : Int)).toNat]? = some inst
  rw [Int.toNat_ofNat, List.getElem?_append_right (Nat.le_refl _)]
  simp

/-- The run over two segments, one after the other. -/
theorem runs_over_append (pw : Rat → Rat → Rat) (table : SymbolTable) (bound : Nat)
    (pre seg1 seg2 post : List Instruction) (stack : List Value)
    (good1 good2 : List Value → Prop)
    (h1 : runs_over pw table bound pre seg1 (seg2 ++ post) stack good1)
    (h2 : ∀ mid, good1 mid → runs_over pw table bound (pre ++ seg1) seg2 post mid good2) :
    runs_over pw table bound pre (seg1 ++ seg2) post stack good2 := by
  unfold runs_over at h1 h2 ⊢
  have e1 : seg1 ++ seg2 ++ post = seg1 ++ (seg2 ++ post) := by simp
  have e2 : pre ++ (seg1 ++ seg2) = pre ++ seg1 ++ seg2 := by simp
  rw [e1, e2]
  rcases h1 with h | ⟨mid, hg, h⟩
  · exact Or.inl h
  · rcases h2 mid hg with h3 | ⟨mid2, hg2, h3⟩
    · exact Or.inl (runs_to_out pw bound _ _ h h3)
    · exact Or.inr ⟨mid2, hg2, runs_to_trans pw bound _ _ _ h h3⟩

/-- The run over one instruction that ends by leaving the loop or by pushing a
value. -/
theorem runs_over_single (pw : Rat → Rat → Rat) (table : SymbolTable) (bound : Nat)
    (pre post : List Instruction) (inst : Instruction) (s : List Value)
    (good : List Value → Prop) (hlt : pre.length < bound)
    (hpop : pops_empty (vm_at table pre (inst :: post) s) inst = false)
    (hdisp : (∃ r, vm_dispatch pw (vm_at table (pre ++ [inst]) post s) inst =
        VMStep.finished r) ∨
      ∃ val s1, good (val :: s1) ∧ vm_dispatch pw (vm_at table (pre ++ [inst]) post s) inst =
        push_and_continue (vm_at table (pre ++ [inst]) post s1) val) :
    runs_over pw table bound pre [inst] post s good := by
  unfold runs_over
  have hok := step_ok_vm_at bound table pre post inst s hlt hpop
  have hstep := vm_at_step pw table pre post inst s
  show runs_out pw bound (vm_at table pre (inst :: post) s) ∨ _
  rcases hdisp with ⟨r, hd⟩ | ⟨val, s1, hg, hd⟩
  · rw [hd] at hstep
    exact Or.inl (runs_out.finish _ _ hok hstep)
  · rw [hd, push_and_continue_vm_at] at hstep
    by_cases hfull : s1.length ≥ VM_STACK_SIZE
    · simp only [hfull, if_true] at hstep
      exact Or.inl (runs_out.finish _ _ hok hstep)
    · simp only [hfull, if_false] at hstep
      exact Or.inr ⟨val :: s1, hg, runs_to.step _ _ _ hok hstep (runs_to.refl _)⟩

theorem runs_clean_leaf (pw : Rat → Rat → Rat) (table : SymbolTable) (bound : Nat)
    (node : ASTNode) (inst : Instruction) (val : Value)
    (hlay : ∀ start, layout node start = some [inst])
    (hpop : ∀ vm : VM, pops_empty vm inst = false)
    (hdisp : ∀ vm : VM, vm.symtab = table → vm_dispatch pw vm inst = push_and_continue vm val) :
    runs_clean pw table bound node := by
  intro pre post seg stack hl hb
  rw [hlay] at hl
  simp only [Option.some.injEq] at hl
  subst hl
  simp only [List.length_singleton] at hb
  exact runs_over_single pw table bound pre post inst stack _ (by omega) (hpop _)
    (Or.inr ⟨val, stack, ⟨val, rfl⟩, hdisp _ rfl⟩)

theorem runs_clean_unary (pw : Rat → Rat → Rat) (table : SymbolTable) (bound : Nat)
    (op : Token) (left : ASTNode) (line : Int) (hop : op = Token.MINUS ∨ op = Token.NOT)
    (ih : runs_clean pw table bound left) :
    runs_clean pw table bound (ASTNode.unary_op op left line) := by
  intro pre post seg stack hl hb
  simp only [layout] at hl
  cases hleft : layout left pre.length with
  | none => simp [hleft] at hl
  | some lc =>
    simp only [hleft, Option.some.injEq] at hl
    have hinst : ∃ inst, (inst = op_instruction OpCode.OP_NEG line ∨
        inst = op_instruction OpCode.OP_NOT line) ∧ seg = lc ++ [inst] := by
      rcases hop with rfl | rfl
      · exact ⟨_, Or.inl rfl, by rw [← hl]; simp⟩
      · exact ⟨_, Or.inr rfl, by rw [← hl]; simp⟩
    obtain ⟨inst, hi, rfl⟩ := hinst
    simp only [List.length_append, List.length_singleton] at hb
    apply runs_over_append pw table bound pre lc [inst] post stack _ _
      (ih pre ([inst] ++ post) lc stack hleft (by omega))
    rintro mid ⟨v, rfl⟩
    apply runs_over_single pw table bound (pre ++ lc) post inst (v :: stack) _
      (by rw [List.length_append]; omega)
    · rcases hi with rfl | rfl <;> rfl
    · right
      rcases hi with rfl | rfl
      · exact ⟨_, stack, ⟨_, rfl⟩, rfl⟩
      · exact ⟨_, stack, ⟨_, rfl⟩, rfl⟩

theorem runs_clean_binary (pw : Rat → Rat → Rat) (table : SymbolTable) (bound : Nat)
    (op : Token) (left right : ASTNode) (line : Int) (hop : (binary_opcode op).isSome = true)
    (ihl : runs_clean pw table bound left) (ihr : runs_clean pw table bound right) :
    runs_clean pw table bound (ASTNode.binary_op op left right line) := by
  intro pre post seg stack hl hb
  obtain ⟨opcode, hopc⟩ := Option.isSome_iff_exists.mp hop
  simp only [layout] at hl
  cases hleft : layout left pre.length with
  | none => simp [hleft] at hl
  | some lc =>
    simp only [hleft] at hl
    cases hright : layout right (pre.length + lc.length) with
    | none => simp [hright] at hl
    | some rc =>
      simp only [hright, hopc, Option.some.injEq] at hl
      subst hl
      simp only [List.length_append, List.length_singleton] at hb
      have e : lc ++ rc ++ [op_instruction opcode line] =
          lc ++ (rc ++ [op_instruction opcode line]) := by simp
      rw [e]
      apply runs_over_append pw table bound pre lc _ post stack _ _
        (ihl pre (rc ++ [op_instruction opcode line] ++ post) lc stack hleft (by omega))
      rintro mid ⟨vl, rfl⟩
      apply runs_over_append pw table bound (pre ++ lc) rc _ post (vl :: stack) _ _
        (ihr (pre ++ lc) ([op_instruction opcode line] ++ post) rc (vl :: stack)
          (by rw [List.length_append]; exact hright)
          (by rw [List.length_append]; omega))
      rintro mid ⟨vr, rfl⟩
      apply runs_over_single pw table bound (pre ++ lc ++ rc) post _ (vr :: vl :: stack) _
        (by simp only [List.length_append]; omega)
      · cases op <;> simp only [binary_opcode, Option.some.injEq, reduceCtorEq] at hopc <;>
          subst hopc <;> rfl
      · have hd : vm_dispatch pw
            (vm_at table (pre ++ lc ++ rc ++ [op_instruction opcode line]) post
              (vr :: vl :: stack)) (op_instruction opcode line) =
            if (binary_op_result pw opcode vl vr).is_error then
              VMStep.finished (VMResult.value (binary_op_result pw opcode vl vr))
            else push_and_continue
              (vm_at table (pre ++ lc ++ rc ++ [op_instruction opcode line]) post stack)
              (binary_op_result pw opcode vl vr) := by
          cases op <;> simp only [binary_opcode, Option.some.injEq, reduceCtorEq] at hopc <;>
            subst hopc <;> rfl
        rw [hd]
        by_cases herr : (binary_op_result pw opcode vl vr).is_error = true
        · simp only [herr, if_true]
          exact Or.inl ⟨_, rfl⟩
        · simp only [herr]
          exact Or.inr ⟨_, stack, ⟨_, rfl⟩, rfl⟩

theorem vm_at_jump (table : SymbolTable) (p q p1 q1 : List Instruction) (s : List Value)
    (target : Nat) (hcode : p ++ q = p1 ++ q1) (ht : target = p1.length) :
    ({ vm_at table p q s with pc := (target : Int) } : VM) = vm_at table p1 q1 s := by
  unfold vm_at
  simp [hcode, ht]

/-- The run over the two jumps and the two branches of an `IF`, started after
the condition with its value on the stack. -/
theorem runs_over_if_tail (pw : Rat → Rat → Rat) (table : SymbolTable) (bound : Nat)
    (pre tc fc post : List Instruction) (line : Int) (vc : Value) (stack : List Value)
    (hb : pre.length + 1 + tc.length + 1 + fc.length ≤ bound)
    (ht : runs_over pw table bound
      (pre ++ [jump_instruction OpCode.OP_JMP_IF_FALSE line (pre.length + 1 + tc.length + 1)])
      tc
      ([jump_instruction OpCode.OP_JMP line (pre.length + 1 + tc.length + 1 + fc.length)] ++
        fc ++ post)
      stack (fun mid => ∃ v, mid = v :: stack))
    (he : runs_over pw table bound
      (pre ++ [jump_instruction OpCode.OP_JMP_IF_FALSE line (pre.length + 1 + tc.length + 1)] ++
        tc ++ [jump_instruction OpCode.OP_JMP line (pre.length + 1 + tc.length + 1 + fc.length)])
      fc post stack (fun mid => ∃ v, mid = v :: stack)) :
    runs_over pw table bound pre
      ([jump_instruction OpCode.OP_JMP_IF_FALSE line (pre.length + 1 + tc.length + 1)] ++ tc ++
        [jump_instruction OpCode.OP_JMP line (pre.length + 1 + tc.length + 1 + fc.length)] ++ fc)
      post (vc :: stack) (fun mid => ∃ v, mid = v :: stack) := by
  generalize hjif : jump_instruction OpCode.OP_JMP_IF_FALSE line
    (pre.length + 1 + tc.length + 1) = jif at ht he ⊢
  generalize hjmp : jump_instruction OpCode.OP_JMP line
    (pre.length + 1 + tc.length + 1 + fc.length) = jmp at ht he ⊢
  unfold runs_over at ht he ⊢
  have e0 : [jif] ++ tc ++ [jmp] ++ fc ++ post = jif :: (tc ++ jmp :: (fc ++ post)) := by simp
  have e1 : [jmp] ++ fc ++ post = jmp :: (fc ++ post) := by simp
  have e2 : tc ++ ([jmp] ++ fc ++ post) = tc ++ jmp :: (fc ++ post) := by simp
  have e3 : pre ++ ([jif] ++ tc ++ [jmp] ++ fc) = pre ++ [jif] ++ tc ++ [jmp] ++ fc := by simp
  rw [e0, e3]
  rw [e2, e1] at ht
  -- the conditional jump
  have hok1 : step_ok bound (vm_at table pre (jif :: (tc ++ jmp :: (fc ++ post))) (vc :: stack)) :=
    step_ok_vm_at bound table pre _ jif (vc :: stack) (by omega) (by rw [← hjif]; rfl)
  have hstep1 := vm_at_step pw table pre (tc ++ jmp :: (fc ++ post)) jif (vc :: stack)
  have hd1 : vm_dispatch pw (vm_at table (pre ++ [jif]) (tc ++ jmp :: (fc ++ post))
      (vc :: stack)) jif =
      if is_truthy vc = 0 then
        VMStep.running
          { vm_at table (pre ++ [jif]) (tc ++ jmp :: (fc ++ post)) stack with
            pc := ((pre.length + 1 + tc.length + 1 : Nat) : Int) }
      else VMStep.running (vm_at table (pre ++ [jif]) (tc ++ jmp :: (fc ++ post)) stack) := by
    rw [← hjif]; rfl
  rw [hd1] at hstep1
  by_cases hc : is_truthy vc = 0
  · -- the else branch
    simp only [hc, if_true] at hstep1
    rw [vm_at_jump table (pre ++ [jif]) (tc ++ jmp :: (fc ++ post)) (pre ++ [jif] ++ tc ++ [jmp])
      (fc ++ post) stack _ (by simp) (by simp; omega)] at hstep1
    rcases he with h | ⟨mid, hg, h⟩
    · exact Or.inl (runs_out.step _ _ hok1 hstep1 h)
    · exact Or.inr ⟨mid, hg, runs_to.step _ _ _ hok1 hstep1 h⟩
  · -- the then branch and the jump over the else branch
    simp only [hc, if_false] at hstep1
    rcases ht with h | ⟨mid, ⟨vt, rfl⟩, h⟩
    · exact Or.inl (runs_out.step _ _ hok1 hstep1 h)
    · have hok2 : step_ok bound
          (vm_at table (pre ++ [jif] ++ tc) (jmp :: (fc ++ post)) (vt :: stack)) :=
        step_ok_vm_at bound table _ _ jmp (vt :: stack)
          (by simp only [List.length_append, List.length_singleton]; omega)
          (by rw [← hjmp]; rfl)
      have hstep2 := vm_at_step pw table (pre ++ [jif] ++ tc) (fc ++ post) jmp (vt :: stack)
      have hd2 : vm_dispatch pw (vm_at table (pre ++ [jif] ++ tc ++ [jmp]) (fc ++ post)
          (vt :: stack)) jmp =
          VMStep.running
            { vm_at table (pre ++ [jif] ++ tc ++ [jmp]) (fc ++ post) (vt :: stack) with
              pc := ((pre.length + 1 + tc.length + 1 + fc.length : Nat) : Int) } := by
        rw [← hjmp]; rfl
      rw [hd2, vm_at_jump table (pre ++ [jif] ++ tc ++ [jmp]) (fc ++ post)
        (pre ++ [jif] ++ tc ++ [jmp] ++ fc) post (vt :: stack) _ (by simp)
        (by simp; omega)] at hstep2
      exact Or.inr ⟨vt :: stack, ⟨vt, rfl⟩,
        runs_to.step _ _ _ hok1 hstep1
          (runs_to_trans pw bound _ _ _ h
            (runs_to.step _ _ _ hok2 hstep2 (runs_to.refl _)))⟩

theorem runs_clean_if (pw : Rat → Rat → Rat) (table : SymbolTable) (bound : Nat)
    (c t e : ASTNode) (l1 l2 l3 line : Int)
    (ihc : runs_clean pw table bound c) (iht : runs_clean pw table bound t)
    (ihe : runs_clean pw table bound e) :
    runs_clean pw table bound
      (ASTNode.function_call Token.IF
        (ASTNode.arg_list c (ASTNode.arg_list t (ASTNode.arg_list e ASTNode.null l3) l2) l1)
        line) := by
  intro pre post seg stack hl hb
  simp only [layout, if_true] at hl
  cases hcl : layout c pre.length with
  | none => simp [hcl] at hl
  | some cc =>
    simp only [hcl, layout_if] at hl
    cases htl : layout t (pre.length + cc.length + 1) with
    | none => simp [htl] at hl
    | some tc =>
      simp only [htl] at hl
      cases hel : layout e (pre.length + cc.length + 1 + tc.length + 1) with
      | none => simp [hel] at hl
      | some fc =>
        simp only [hel, Option.some.injEq] at hl
        subst hl
        simp only [List.length_append, List.length_singleton] at hb
        have hlen : (pre ++ cc).length = pre.length + cc.length := List.length_append _ _
        have e0 : cc ++
            [jump_instruction OpCode.OP_JMP_IF_FALSE line
              (pre.length + cc.length + 1 + tc.length + 1)] ++ tc ++
            [jump_instruction OpCode.OP_JMP line
              (pre.length + cc.length + 1 + tc.length + 1 + fc.length)] ++ fc =
            cc ++ ([jump_instruction OpCode.OP_JMP_IF_FALSE line
              ((pre ++ cc).length + 1 + tc.length + 1)] ++ tc ++
            [jump_instruction OpCode.OP_JMP line
              ((pre ++ cc).length + 1 + tc.length + 1 + fc.length)] ++ fc) := by
          rw [hlen]; simp
        rw [e0]
        apply runs_over_append pw table bound pre cc _ post stack _ _
          (ihc pre _ cc stack hcl (by omega))
        rintro mid ⟨vc, rfl⟩
        apply runs_over_if_tail pw table bound (pre ++ cc) tc fc post line vc stack
          (by rw [hlen]; omega)
        · apply iht
          · simp only [List.length_append, List.length_singleton]
            exact htl
          · simp only [List.length_append, List.length_singleton]
            omega
        · apply ihe
          · simp only [List.length_append, List.length_singleton]
            exact hel
          · simp only [List.length_append, List.length_singleton]
            omega

theorem well_formed_call (tok : Token) (arguments : ASTNode) (line : Int)
    (hif : tok ≠ Token.IF) :
    well_formed (ASTNode.function_call tok arguments line) = args_well_formed arguments := by
  cases arguments with
  | arg_list c second l1 =>
    cases second with
    | arg_list t third l2 =>
      cases third with
      | arg_list e fourth l3 => cases fourth <;> simp only [well_formed, hif, if_false]
      | _ => simp only [well_formed, hif, if_false]
    | _ => simp only [well_formed, hif, if_false]
  | _ => simp only [well_formed, hif, if_false]

/-- A well-formed `IF` call has exactly three well-formed arguments. -/
theorem well_formed_if (arguments : ASTNode) (line : Int)
    (h : well_formed (ASTNode.function_call Token.IF arguments line) = true) :
    ∃ c t e l1 l2 l3,
      arguments =
        ASTNode.arg_list c (ASTNode.arg_list t (ASTNode.arg_list e ASTNode.null l3) l2) l1 ∧
      well_formed c = true ∧ well_formed t = true ∧ well_formed e = true := by
  cases arguments with
  | arg_list c second l1 =>
    cases second with
    | arg_list t third l2 =>
      cases third with
      | arg_list e fourth l3 =>
        cases fourth with
        | null =>
          simp only [well_formed, if_true, Bool.and_eq_true] at h
          exact ⟨c, t, e, l1, l2, l3, rfl, h.1.1, h.1.2, h.2⟩
        | _ => simp [well_formed] at h
      | _ => simp [well_formed] at h
    | _ => simp [well_formed] at h
  | _ => simp [well_formed] at h

theorem well_formed_complete : ∀ node,
    (well_formed node = true → if_calls_complete node = true) ∧
    (args_well_formed node = true → args_complete node = true) := by
  intro node
  induction node with
  | null => exact ⟨by simp [well_formed], by simp [args_complete]⟩
  | number _ _ => exact ⟨by simp [if_calls_complete], by simp [args_well_formed]⟩
  | string _ _ => exact ⟨by simp [if_calls_complete], by simp [args_well_formed]⟩
  | cell_ref _ _ => exact ⟨by simp [if_calls_complete], by simp [args_well_formed]⟩
  | range _ _ => exact ⟨by simp [if_calls_complete], by simp [args_well_formed]⟩
  | unary_op op left line ih =>
    refine ⟨?_, by simp [args_well_formed]⟩
    intro h
    simp only [well_formed, Bool.and_eq_true] at h
    simp only [if_calls_complete]
    exact ih.1 h.2
  | binary_op op left right line ihl ihr =>
    refine ⟨?_, by simp [args_well_formed]⟩
    intro h
    simp only [well_formed, Bool.and_eq_true] at h
    simp only [if_calls_complete, Bool.and_eq_true]
    exact ⟨ihl.1 h.1.2, ihr.1 h.2⟩
  | function_call tok arguments line ih =>
    refine ⟨?_, by simp [args_well_formed]⟩
    intro h
    by_cases hif : tok = Token.IF
    · subst hif
      obtain ⟨c, t, e, l1, l2, l3, rfl, hc, ht, he⟩ := well_formed_if arguments line h
      have hargs := ih.2 (by simp [args_well_formed, hc, ht, he])
      simp only [args_complete, Bool.and_eq_true] at hargs
      simp only [if_calls_complete, if_true, Bool.and_eq_true]
      exact ⟨⟨hargs.1, hargs.2.1⟩, hargs.2.2.1⟩
    · rw [well_formed_call tok arguments line hif] at h
      rw [if_calls_complete_call tok arguments line hif]
      exact ih.2 h
  | arg_list e next line ihe ihn =>
    refine ⟨by simp [well_formed], ?_⟩
    intro h
    simp only [args_well_formed, Bool.and_eq_true] at h
    simp only [args_complete, Bool.and_eq_true]
    exact ⟨ihe.1 h.1, ihn.2 h.2⟩

theorem runs_over_mono (pw : Rat → Rat → Rat) (table : SymbolTable) (bound : Nat)
    (pre seg post : List Instruction) (stack : List Value) (good1 good2 : List Value → Prop)
    (h : runs_over pw table bound pre seg post stack good1)
    (hg : ∀ mid, good1 mid → good2 mid) :
    runs_over pw table bound pre seg post stack good2 := by
  unfold runs_over at h ⊢
  rcases h with h | ⟨mid, hm, h⟩
  · exact Or.inl h
  · exact Or.inr ⟨mid, hg mid hm, h⟩

/-- The run over the code of an argument chain: every argument leaves one
value, the last argument on top. -/
theorem runs_over_args (pw : Rat → Rat → Rat) (table : SymbolTable) (bound : Nat) :
    ∀ arguments, args_well_formed arguments = true →
    (∀ e ∈ chain_exprs arguments, well_formed e = true → runs_clean pw table bound e) →
    ∀ (pre post args_code : List Instruction) (n : Int) (stack : List Value),
      layout_args arguments pre.length = some (args_code, n) →
      pre.length + args_code.length ≤ bound →
      runs_over pw table bound pre args_code post stack
        (fun mid => ∃ vs : List Value, (vs.length : Int) = n ∧ mid = vs ++ stack) := by
  intro arguments
  induction arguments with
  | null =>
    intro _ _ pre post args_code n stack hl _
    simp only [layout_args, Option.some.injEq, Prod.mk.injEq] at hl
    obtain ⟨rfl, rfl⟩ := hl
    unfold runs_over
    refine Or.inr ⟨stack, ⟨[], rfl, rfl⟩, ?_⟩
    rw [List.append_nil, List.nil_append]
    exact runs_to.refl _
  | arg_list e next line _ ihn =>
    intro hwf hall pre post args_code n stack hl hb
    simp only [args_well_formed, Bool.and_eq_true] at hwf
    simp only [layout_args] at hl
    cases hle : layout e pre.length with
    | none => simp [hle] at hl
    | some code =>
      simp only [hle] at hl
      cases hln : layout_args next (pre.length + code.length) with
      | none => simp [hln] at hl
      | some res =>
        obtain ⟨rest, m⟩ := res
        simp only [hln, Option.some.injEq, Prod.mk.injEq] at hl
        obtain ⟨rfl, rfl⟩ := hl
        simp only [List.length_append] at hb
        have he := hall e (by simp [chain_exprs]) hwf.1
        apply runs_over_append pw table bound pre code rest post stack _ _
          (he pre (rest ++ post) code stack hle (by omega))
        rintro mid ⟨v, rfl⟩
        apply runs_over_mono pw table bound _ _ _ _ _ _
          (ihn hwf.2 (fun e1 h1 => hall e1 (by simp [chain_exprs, h1])) (pre ++ code) post rest m
            (v :: stack) (by rw [List.length_append]; exact hln)
            (by rw [List.length_append]; omega))
        rintro mid ⟨vs, hvs, rfl⟩
        exact ⟨vs ++ [v], by simp only [List.length_append, List.length_singleton]; omega,
          by simp⟩
  | _ => intro hwf; simp [args_well_formed] at hwf

theorem runs_clean_call (pw : Rat → Rat → Rat) (table : SymbolTable) (bound : Nat)
    (tok : Token) (arguments : ASTNode) (line : Int) (hif : tok ≠ Token.IF)
    (hwf : args_well_formed arguments = true)
    (hall : ∀ e ∈ chain_exprs arguments, well_formed e = true → runs_clean pw table bound e) :
    runs_clean pw table bound (ASTNode.function_call tok arguments line) := by
  intro pre post seg stack hl hb
  rw [layout_call tok arguments line pre.length hif] at hl
  cases hla : layout_args arguments pre.length with
  | none => simp [hla] at hl
  | some res =>
    obtain ⟨args_code, n⟩ := res
    simp only [hla, Option.some.injEq] at hl
    subst hl
    simp only [List.length_append, List.length_singleton] at hb
    apply runs_over_append pw table bound pre args_code _ post stack _ _
      (runs_over_args pw table bound arguments hwf hall pre _ args_code n stack hla (by omega))
    rintro mid ⟨vs, hvs, rfl⟩
    have hn : n.toNat = vs.length := by omega
    apply runs_over_single pw table bound (pre ++ args_code) post _ (vs ++ stack) _
      (by rw [List.length_append]; omega)
    · show decide ((vs ++ stack).length < n.toNat) = false
      rw [hn, List.length_append]
      simp
    · right
      refine ⟨vm_call_runtime tok (vs.foldl (fun acc v => prepend_arg table v acc) []), stack,
        ⟨_, rfl⟩, ?_⟩
      have hc := collect_args_pops table vs stack []
      rw [← hn] at hc
      show (match collect_args table n.toNat (vs ++ stack) [] with
        | none => VMStep.finished VMResult.fatal
        | some (arg_head, stack1) =>
          push_and_continue
            { vm_at table (pre ++ args_code ++
                [({ opcode := OpCode.OP_CALL, line := line,
                    operand := Operand.func_call tok n } : Instruction)]) post (vs ++ stack) with
              stack := stack1 }
            (vm_call_runtime tok arg_head)) = _
      rw [hc]
      rfl

/-- The run over the code of every well-formed AST is clean. -/
theorem runs_clean_all (pw : Rat → Rat → Rat) (table : SymbolTable) (bound : Nat) :
    ∀ node, well_formed node = true → runs_clean pw table bound node := by
  apply ast_induction
  · intro h; simp [well_formed] at h
  · intro n line _
    exact runs_clean_leaf pw table bound _ _ (create_number_value n) (fun _ => rfl)
      (fun _ => rfl) (fun _ _ => rfl)
  · intro s line _
    exact runs_clean_leaf pw table bound _ _ (create_number_value 0) (fun _ => rfl)
      (fun _ => rfl) (fun _ _ => rfl)
  · intro s line _
    exact runs_clean_leaf pw table bound _ _ (create_number_value (read_cell table s))
      (fun _ => rfl) (fun _ => rfl) (fun vm hvm => by rw [← hvm]; rfl)
  · intro s line _
    exact runs_clean_leaf pw table bound _ _ (create_string_value s) (fun _ => rfl)
      (fun _ => rfl) (fun _ _ => rfl)
  · intro op left line ih h
    simp only [well_formed, Bool.and_eq_true, Bool.or_eq_true, decide_eq_true_eq] at h
    exact runs_clean_unary pw table bound op left line h.1 (ih h.2)
  · intro op left right line ihl ihr h
    simp only [well_formed, Bool.and_eq_true] at h
    exact runs_clean_binary pw table bound op left right line h.1.1 (ihl h.1.2) (ihr h.2)
  · intro tok arguments line ih h
    by_cases hif : tok = Token.IF
    · subst hif
      obtain ⟨c, t, e, l1, l2, l3, rfl, hc, ht, he⟩ := well_formed_if arguments line h
      exact runs_clean_if pw table bound c t e l1 l2 l3 line
        (ih c (by simp [chain_exprs]) hc) (ih t (by simp [chain_exprs]) ht)
        (ih e (by simp [chain_exprs]) he)
    · rw [well_formed_call tok arguments line hif] at h
      exact runs_clean_call pw table bound tok arguments line hif h ih
  · intro e next line _ _ h
    simp [well_formed] at h

/-- C40: for every well-formed AST (`well_formed`: supported operator tokens,
`IF` with exactly three arguments, null-terminated argument chains, no `NULL`
operand) and every symbol table, generate_code returns a code array, and every
machine the loop of vm_run passes when it is started on that array with an
empty stack stands on an instruction that finds on the stack every value it
pops (no vm_pop on an empty stack); and a machine that stands on the final
`HALT` holds exactly one value on its stack, the value vm_run then returns. -/
theorem generated_code_stack_discipline (pw : Rat → Rat → Rat) (table : SymbolTable)
    (ast : ASTNode) (hwf : well_formed ast = true) :
    ∃ code, generate_code ast = some code ∧
      ∀ vm, Relation.ReflTransGen (fun x y => vm_step pw x = VMStep.running y)
          (vm_create code table) vm →
        (0 ≤ vm.pc ∧ ∃ inst, vm.code.code[vm.pc.toNat]? = some inst ∧
          pops_empty vm inst = false) ∧
        (vm.pc = (code.count : Int) - 1 →
          ∃ v, vm.stack = [v] ∧ vm_step pw vm = VMStep.finished (VMResult.value v)) := by
  have hroot : ast ≠ ASTNode.null := by
    intro h
    rw [h] at hwf
    simp [well_formed] at hwf
  obtain ⟨seg, hseg, hgen, _⟩ :=
    generate_code_forward ast hroot ((well_formed_complete ast).1 hwf)
  refine ⟨_, hgen, ?_⟩
  have hcount : (({ code := seg ++ [op_instruction OpCode.OP_HALT ast.line_of] } :
      CodeArray).count : Int) - 1 = (seg.length : Int) := by
    simp [CodeArray.count]
  rw [hcount]
  have hstart : vm_create { code := seg ++ [op_instruction OpCode.OP_HALT ast.line_of] } table =
      vm_at table [] (seg ++ [op_instruction OpCode.OP_HALT ast.line_of]) [] := rfl
  rw [hstart]
  have hrun := runs_clean_all pw table seg.length ast hwf []
    [op_instruction OpCode.OP_HALT ast.line_of] seg [] hseg (by simp)
  unfold runs_over at hrun
  intro vm hvm
  have hok : step_ok seg.length vm →
      (0 ≤ vm.pc ∧ ∃ inst, vm.code.code[vm.pc.toNat]? = some inst ∧
        pops_empty vm inst = false) ∧
      (vm.pc = (seg.length : Int) →
        ∃ v, vm.stack = [v] ∧ vm_step pw vm = VMStep.finished (VMResult.value v)) := by
    rintro ⟨h0, hlt, hinst⟩
    refine ⟨⟨h0, hinst⟩, ?_⟩
    intro hpc
    omega
  rcases hrun with h | ⟨mid, ⟨v, rfl⟩, h⟩
  · exact hok (runs_out_steps pw seg.length _ h vm hvm)
  · have hend : vm_step pw (vm_at table ([] ++ seg) [op_instruction OpCode.OP_HALT ast.line_of]
        [v]) = VMStep.finished (VMResult.value v) := by
      rw [vm_at_step]
      rfl
    rcases runs_to_steps pw seg.length _ _ _ h hend vm hvm with h1 | h1
    · exact hok h1
    · subst h1
      obtain ⟨h0, _, hinst⟩ := step_ok_vm_at (seg.length + 1) table ([] ++ seg) []
        (op_instruction OpCode.OP_HALT ast.line_of) [v] (by simp) rfl
      exact ⟨⟨h0, hinst⟩, fun _ => ⟨v, rfl, hend⟩⟩

theorem generated_code_stack_discipline_witness :
    well_formed formula_if_with_string = true ∧
    ∃ code, generate_code formula_if_with_string = some code ∧
      ∀ vm, Relation.ReflTransGen (fun x y => vm_step pow_unused x = VMStep.running y)
          (vm_create code table_two_by_two) vm →
        (0 ≤ vm.pc ∧ ∃ inst, vm.code.code[vm.pc.toNat]? = some inst ∧
          pops_empty vm inst = false) ∧
        (vm.pc = (code.count : Int) - 1 →
          ∃ v, vm.stack = [v] ∧
            vm_step pow_unused vm = VMStep.finished (VMResult.value v)) :=
  ⟨by decide,
    generated_code_stack_discipline pow_unused table_two_by_two formula_if_with_string
      (by decide)⟩

end SpreadSheet
